import Mathlib

/-!
# Quantum Tiles engine: a shallow embedding of `quantum-engine.js`

The engine's three classes (`QuantumState`, `QuantumTile`, `QuantumGrid`) are
embedded as functions over an explicit object store.

* JavaScript objects are mutable and shared by reference. Tiles therefore live
  in a store (`World.tiles`), and a reference to a tile is its index in the
  store. A grid holds a table of references, an entanglement link holds the
  reference of the linked tile.
* Numbers are exact rationals: the weights, the draw of `Math.random()` and the
  constants `0.01` and `0.1` are rationals, so rounding is not modelled. The
  sampling of `collapse`, whose result depends on how the running sum rounds, is
  also given over number operations that are left open
  (`QuantumStateOver.collapse` over an `Arith`), of which the exact rationals and
  the doubles are instances.
* `Math.random()` is a fixed sequence `rand : Nat → ℚ`; the store counts the
  draws taken so far (`World.draws`), and the next draw is `rand w.draws`.
* The recursion of `cascadeEntanglement` is bounded by a fuel argument; `none`
  means the fuel ran out. `QuantumTile.measure` supplies one unit of fuel per
  tile of the store plus one, which is proved to be enough.
* `World.cascades` is a trace: the tiles on which `cascadeEntanglement` was
  entered, in order. The program does not read it.
-/

namespace QuantumTiles

/-! ## Data model -/

/-- Relation of an entanglement link. The source documents the field as
`Array of {tile, type} where type is 'same' or 'opposite'`. -/
inductive LinkType where
  | same
  | opposite
  deriving DecidableEq, Repr

/-- Class `QuantumState`. `collapsedState` is `none` for JavaScript `null`. -/
structure QuantumState where
  numStates : Nat
  probabilities : List ℚ
  isCollapsed : Bool
  collapsedState : Option Int
  deriving DecidableEq, Repr

/-- Reference to a tile object: its index in the store. -/
abbrev Ref := Nat

/-- Class `QuantumTile`. -/
structure QuantumTile where
  row : Int
  col : Int
  state : QuantumState
  entangledWith : List (Ref × LinkType)
  deriving DecidableEq, Repr

/-- Object store, with the number of random draws taken and the trace of the
tiles on which `cascadeEntanglement` was entered. -/
structure World where
  tiles : List QuantumTile
  draws : Nat
  cascades : List Ref
  deriving DecidableEq, Repr

/-- Class `QuantumGrid`: `tiles` is the table of tile references. -/
structure QuantumGrid where
  rows : Nat
  cols : Nat
  numStates : Nat
  tiles : List (List Ref)
  deriving DecidableEq, Repr

/-! ## QuantumState -/

/-- Constructor `new QuantumState(numStates)`. -/
def QuantumState.new (numStates : Nat) : QuantumState :=
  { numStates := numStates
    probabilities := List.replicate numStates (1 / (numStates : ℚ))
    isCollapsed := false
    collapsedState := none }

/-- Method `normalize()`. -/
def QuantumState.normalize (s : QuantumState) : QuantumState :=
  let sum := s.probabilities.foldl (fun a b => a + b) 0
  if sum > 0 then { s with probabilities := s.probabilities.map (fun p => p / sum) } else s

/-- Static `fromProbabilities(probs)`. -/
def QuantumState.fromProbabilities (probs : List ℚ) : QuantumState :=
  ({ QuantumState.new probs.length with probabilities := probs }).normalize

/-- The sampling loop of `collapse`: `steps` iterations are left, `i` is the
loop index and `cumulative` the running sum, `none` standing for `NaN` (the sum
after reading an index the array does not have). Returns the index chosen by the
`break`, or `none` when the loop ends with `state` still undefined. -/
def sampleFrom (probabilities : List ℚ) (rand : ℚ) : Nat → Nat → Option ℚ → Option Nat
  | 0, _, _ => none
  | steps + 1, i, cumulative =>
    match cumulative, probabilities[i]? with
    | some c, some p =>
      if rand < c + p then some i else sampleFrom probabilities rand steps (i + 1) (some (c + p))
    | _, _ => sampleFrom probabilities rand steps (i + 1) none

/-- The array built by `new Array(numStates).fill(0)` followed by
`probabilities[state] = 1.0`. A negative index sets a property and no element.
An index past the end lengthens the array; JavaScript leaves holes between the
old end and the new element, written `0` here (such an array only occurs in a
collapsed state, whose weights no method reads arithmetically). -/
def oneHot (numStates : Nat) (state : Int) : List ℚ :=
  let zeros := List.replicate numStates (0 : ℚ)
  if state < 0 then zeros
  else if state.toNat < numStates then zeros.set state.toNat 1
  else zeros ++ List.replicate (state.toNat - numStates) 0 ++ [1]

/-- Method `collapse(forcedState = null)`. Takes the random sequence and the
number of draws taken; returns the returned value, the state after the call and
the number of draws taken after the call. -/
def QuantumState.collapse (rand : Nat → ℚ) (draws : Nat) (s : QuantumState)
    (forcedState : Option Int) : Option Int × QuantumState × Nat :=
  if s.isCollapsed then (s.collapsedState, s, draws)
  else
    let chosen : Int × Nat :=
      match forcedState with
      | some f => (f, draws)
      | none =>
        match sampleFrom s.probabilities (rand draws) s.numStates 0 (some 0) with
        | some i => ((i : Int), draws + 1)
        | none => ((s.numStates : Int) - 1, draws + 1)
    (some chosen.1,
     { s with isCollapsed := true
              collapsedState := some chosen.1
              probabilities := oneHot s.numStates chosen.1 },
     chosen.2)

/-- The first index of the maximal weight:
`probabilities.indexOf(Math.max(...probabilities))`; `-1` for an empty array. -/
def indexOfMax (probabilities : List ℚ) : Int :=
  match probabilities with
  | [] => -1
  | p :: ps =>
    let m := ps.foldl max p
    ((p :: ps).indexOf m : Int)

/-- Method `getDominantState()`. -/
def QuantumState.getDominantState (s : QuantumState) : Option Int :=
  if s.isCollapsed then s.collapsedState else some (indexOfMax s.probabilities)

/-- Method `isInSuperposition()`. -/
def QuantumState.isInSuperposition (s : QuantumState) : Bool :=
  if s.isCollapsed then false
  else
    let significant := (s.probabilities.filter (fun p => p > 1 / 100)).length
    significant > 1

/-- Method `clone()` of `QuantumState`. -/
def QuantumState.clone (s : QuantumState) : QuantumState :=
  { QuantumState.new s.numStates with
    probabilities := s.probabilities
    isCollapsed := s.isCollapsed
    collapsedState := s.collapsedState }

/-! ## QuantumTile -/

/-- Constructor `new QuantumTile(row, col, state)`. -/
def QuantumTile.new (row col : Int) (state : QuantumState) : QuantumTile :=
  { row := row, col := col, state := state, entangledWith := [] }

/-- The call `tile.state.collapse(forcedState)` on the tile at `ref`: returns the
value of the call and the store after it. -/
def World.collapseTile (rand : Nat → ℚ) (w : World) (ref : Ref) (forcedState : Option Int) :
    Option Int × World :=
  match w.tiles[ref]? with
  | none => (none, w)
  | some t =>
    let r := t.state.collapse rand w.draws forcedState
    (r.1, { w with tiles := w.tiles.set ref { t with state := r.2.1 }, draws := r.2.2 })

/-- The value of `this.state.collapsedState` for the tile at `ref`. -/
def World.collapsedStateOf (w : World) (ref : Ref) : Option Int :=
  match w.tiles[ref]? with
  | none => none
  | some t => t.state.collapsedState

/-- The argument `1 - result` of a forced collapse; `1 - null` is `1`. -/
def oneMinus : Option Int → Option Int
  | some k => some (1 - k)
  | none => some 1

/-- The loop `forEach` over a list, threading the store; stops when the body
runs out of fuel. -/
def forEachM {α : Type} (body : World → α → Option World) : List α → World → Option World
  | [], w => some w
  | x :: xs, w =>
    match body w x with
    | none => none
    | some w1 => forEachM body xs w1

/-- The body shared by the `forEach` of `measure` and of `cascadeEntanglement`:
`value` is the outcome handed on (`result` in `measure`,
`this.state.collapsedState` in `cascadeEntanglement`) and `recur` the call
`tile.cascadeEntanglement()`. A reference outside the store denotes no tile and
is passed over; the program creates none. -/
def cascadeBody (rand : Nat → ℚ) (recur : World → Ref → Option World)
    (value : World → Option Int) (w : World) (link : Ref × LinkType) : Option World :=
  match w.tiles[link.1]? with
  | none => some w
  | some tile =>
    if !tile.state.isCollapsed then
      let w1 :=
        match link.2 with
        | LinkType.same => (w.collapseTile rand link.1 (value w)).2
        | LinkType.opposite => (w.collapseTile rand link.1 (oneMinus (value w))).2
      recur w1 link.1
    else some w

/-- Records in the trace that `cascadeEntanglement` is entered on `ref`. -/
def World.enter (w : World) (ref : Ref) : World :=
  { w with cascades := w.cascades ++ [ref] }

/-- Method `cascadeEntanglement()` of the tile at `self`, with fuel. -/
def cascadeEntanglement (rand : Nat → ℚ) : Nat → World → Ref → Option World
  | 0, _, _ => none
  | fuel + 1, w, self =>
    let w0 := w.enter self
    match w0.tiles[self]? with
    | none => some w0
    | some t =>
      forEachM
        (cascadeBody rand (fun w1 r => cascadeEntanglement rand fuel w1 r)
          (fun w1 => w1.collapsedStateOf self))
        t.entangledWith w0

/-- Method `measure()` of the tile at `self`, with the fuel given to each call
of `cascadeEntanglement`. Returns `result` and the store after the call. -/
def QuantumTile.measureFuel (rand : Nat → ℚ) (fuel : Nat) (w : World) (self : Ref) :
    Option (Option Int × World) :=
  match w.tiles[self]? with
  | none => some (none, w)
  | some t =>
    let r := w.collapseTile rand self none
    match forEachM
        (cascadeBody rand (fun w1 r1 => cascadeEntanglement rand fuel w1 r1) (fun _ => r.1))
        t.entangledWith r.2 with
    | none => none
    | some w1 => some (r.1, w1)

/-- Method `measure()`: the fuel is the number of tiles of the store plus one. -/
def QuantumTile.measure (rand : Nat → ℚ) (w : World) (self : Ref) : Option (Option Int × World) :=
  QuantumTile.measureFuel rand (w.tiles.length + 1) w self

/-- One half of `entangleWith`: the tile at `self` pushes the link
`{tile: other, type}` unless it already holds a link to `other`. -/
def QuantumTile.pushLink (w : World) (self other : Ref) (type : LinkType) : World :=
  match w.tiles[self]? with
  | none => w
  | some t =>
    if (t.entangledWith.find? (fun e => e.1 == other)).isNone then
      let t1 : QuantumTile := { t with entangledWith := t.entangledWith ++ [(other, type)] }
      { w with tiles := w.tiles.set self t1 }
    else w

/-- Method `entangleWith(otherTile, type)` of the tile at `self`: `self` pushes
its link to `other`, then `other` pushes its link to `self`. -/
def QuantumTile.entangleWith (w : World) (self other : Ref) (type : LinkType) : World :=
  QuantumTile.pushLink (QuantumTile.pushLink w self other type) other self type

/-! ## QuantumGrid -/

/-- The inner loop of the constructor: for each column `c` a new tile is
allocated at the end of the store and its reference pushed on `row`. -/
def allocRow (numStates : Nat) (r : Nat) : List Nat → List Ref × World → List Ref × World
  | [], acc => acc
  | c :: cs, acc =>
    allocRow numStates r cs
      (acc.1 ++ [acc.2.tiles.length],
       { acc.2 with tiles := acc.2.tiles ++
           [QuantumTile.new (r : Int) (c : Int) (QuantumState.new numStates)] })

/-- The outer loop of the constructor: for each row `r` the row of new tiles is
pushed on `tiles`. -/
def allocRows (numStates cols : Nat) :
    List Nat → List (List Ref) × World → List (List Ref) × World
  | [], acc => acc
  | r :: rs, acc =>
    let row := allocRow numStates r (List.range cols) ([], acc.2)
    allocRows numStates cols rs (acc.1 ++ [row.1], row.2)

/-- Constructor `new QuantumGrid(rows, cols, numStates)`, allocating in `w`. -/
def QuantumGrid.create (w : World) (rows cols numStates : Nat) : QuantumGrid × World :=
  let a := allocRows numStates cols (List.range rows) ([], w)
  ({ rows := rows, cols := cols, numStates := numStates, tiles := a.1 }, a.2)

/-- Method `getTile(row, col)`: the reference of the tile, `none` for `null`. -/
def QuantumGrid.getTile (g : QuantumGrid) (row col : Int) : Option Ref :=
  if row ≥ 0 ∧ row < (g.rows : Int) ∧ col ≥ 0 ∧ col < (g.cols : Int) then
    match g.tiles[row.toNat]? with
    | none => none
    | some r => r[col.toNat]?
  else none

/-- Method `measureTile(row, col)`. -/
def QuantumGrid.measureTile (rand : Nat → ℚ) (g : QuantumGrid) (w : World) (row col : Int) :
    Option (Option Int × World) :=
  match g.getTile row col with
  | none => some (none, w)
  | some ref =>
    match w.tiles[ref]? with
    | none => some (none, w)
    | some t =>
      if !t.state.isCollapsed then QuantumTile.measure rand w ref
      else some (t.state.collapsedState, w)

/-- Method `getNeighbors(row, col, includeDiagonal)`. -/
def QuantumGrid.getNeighbors (g : QuantumGrid) (row col : Int) (includeDiagonal : Bool) :
    List Ref :=
  let directions : List (Int × Int) :=
    if includeDiagonal then
      [(-1, -1), (-1, 0), (-1, 1), (0, -1), (0, 1), (1, -1), (1, 0), (1, 1)]
    else [(-1, 0), (0, -1), (0, 1), (1, 0)]
  directions.filterMap (fun d => g.getTile (row + d.1) (col + d.2))

/-- The loop `for (let i = 0; i < numStates; i++) newProbs[i] += neighbor[i] * 0.1`.
It is exact when both arrays have `numStates` entries; where an entry is
missing JavaScript stores `NaN`, which the rationals do not have, and the entry
is left as it is. -/
def addInterference (numStates : Nat) (newProbs neighbor : List ℚ) : List ℚ :=
  (List.range numStates).foldl
    (fun acc i =>
      match acc[i]?, neighbor[i]? with
      | some a, some b => acc.set i (a + b * (1 / 10))
      | _, _ => acc)
    newProbs

/-- Method `applyInterference(row, col)`. -/
def QuantumGrid.applyInterference (g : QuantumGrid) (w : World) (row col : Int) : World :=
  match g.getTile row col with
  | none => w
  | some ref =>
    match w.tiles[ref]? with
    | none => w
    | some tile =>
      if tile.state.isCollapsed then w
      else
        let neighbors := (g.getNeighbors row col false).filterMap (fun n => w.tiles[n]?)
        let superposedNeighbors := neighbors.filter (fun n => n.state.isInSuperposition)
        if superposedNeighbors.length = 0 then w
        else
          let newProbs := superposedNeighbors.foldl
            (fun acc n => addInterference g.numStates acc n.state.probabilities)
            tile.state.probabilities
          let state1 : QuantumState := ({ tile.state with probabilities := newProbs }).normalize
          { w with tiles := w.tiles.set ref { tile with state := state1 } }

/-- Method `createEntanglement(row1, col1, row2, col2, type)`. -/
def QuantumGrid.createEntanglement (g : QuantumGrid) (w : World) (row1 col1 row2 col2 : Int)
    (type : LinkType) : World :=
  match g.getTile row1 col1, g.getTile row2 col2 with
  | some tile1, some tile2 => QuantumTile.entangleWith w tile1 tile2 type
  | _, _ => w

/-- A call of one of the three mutating methods of a grid. -/
inductive GridOp where
  | createEntanglement (row1 col1 row2 col2 : Int) (type : LinkType)
  | measureTile (row col : Int)
  | applyInterference (row col : Int)
  deriving DecidableEq, Repr

/-- The store after one call on the grid `g`. -/
def GridOp.run (rand : Nat → ℚ) (g : QuantumGrid) (w : World) : GridOp → Option World
  | GridOp.createEntanglement r1 c1 r2 c2 type => some (g.createEntanglement w r1 c1 r2 c2 type)
  | GridOp.measureTile row col => (g.measureTile rand w row col).map (fun r => r.2)
  | GridOp.applyInterference row col => some (g.applyInterference w row col)

/-- The store after a sequence of calls on the grid `g`, first call first. -/
def runOps (rand : Nat → ℚ) (g : QuantumGrid) : List GridOp → World → Option World
  | [], w => some w
  | op :: ops, w =>
    match op.run rand g w with
    | none => none
    | some w1 => runOps rand g ops w1

/-- A loop with an early `return false`: `body` gives `some true` to go on,
`some false` to return `false`, and `none` when it throws a `TypeError`. The
loop gives `some true` when it runs to its end. -/
def forAllM {α : Type} (body : α → Option Bool) : List α → Option Bool
  | [] => some true
  | x :: xs =>
    match body x with
    | none => none
    | some false => some false
    | some true => forAllM body xs

/-- The body of the inner loop of `matchesPattern` at the cell `(r, c)`. An entry
of the pattern is `none` for `null`; `pattern[r][c]` off the end of its row is
`undefined`, the outer `none` of `target`. Reading `this.tiles[r][c]` off the
table, `pattern[r][c]` off the rows of the pattern, or `tile.state` of a missing
tile throws. -/
def matchCell (g : QuantumGrid) (w : World) (pattern : List (List (Option Int)))
    (r c : Nat) : Option Bool :=
  match g.tiles[r]? with
  | none => none
  | some tileRow =>
    match pattern[r]? with
    | none => none
    | some patternRow =>
      let target : Option (Option Int) := patternRow[c]?
      if target = some (some (-1)) then some true
      else
        match tileRow[c]? with
        | none => none
        | some ref =>
          match w.tiles[ref]? with
          | none => none
          | some tile =>
            if !tile.state.isCollapsed || some tile.state.collapsedState != target then
              some false
            else some true

/-- Method `matchesPattern(pattern)`: `none` when the call throws a `TypeError`
(reading `pattern[0].length` of an empty pattern, or inside the loops). -/
def QuantumGrid.matchesPattern (g : QuantumGrid) (w : World)
    (pattern : List (List (Option Int))) : Option Bool :=
  if pattern.length ≠ g.rows then some false
  else
    match pattern[0]? with
    | none => none
    | some row0 =>
      if row0.length ≠ g.cols then some false
      else
        forAllM
          (fun r => forAllM (fun c => matchCell g w pattern r c) (List.range g.cols))
          (List.range g.rows)

/-! ## Predicates on the store -/

/-- The tile at `ref` exists and is collapsed. -/
def World.Collapsed (w : World) (ref : Ref) : Prop :=
  ∃ t, w.tiles[ref]? = some t ∧ t.state.isCollapsed = true

/-- The tile at `ref` exists and is not collapsed. -/
def World.Uncollapsed (w : World) (ref : Ref) : Prop :=
  ∃ t, w.tiles[ref]? = some t ∧ t.state.isCollapsed = false

/-- The tile at `p` holds a link to `q` with relation `type`. -/
def World.Linked (w : World) (p q : Ref) (type : LinkType) : Prop :=
  ∃ t, w.tiles[p]? = some t ∧ (q, type) ∈ t.entangledWith

/-- Number of tiles of the store that are not collapsed. -/
def World.uncollapsedCount (w : World) : Nat :=
  w.tiles.countP (fun t => !t.state.isCollapsed)

/-- The outcome forced on a linked tile from the outcome `v` of the collapsing
tile: `v` for a `same` link, `1 - v` for an `opposite` link. -/
def forcedValue : LinkType → Option Int → Option Int
  | LinkType.same, v => v
  | LinkType.opposite, v => oneMinus v

/-- One propagation of the cascade: a collapsed tile `p` force-collapses a linked
uncollapsed tile `b`, and `cascadeEntanglement` is entered on `b`. The tiles
involved are taken in `R`. -/
def Step (rand : Nat → ℚ) (R : Ref → Prop) (w w' : World) : Prop :=
  ∃ p b type, R p ∧ R b ∧ w.Collapsed p ∧ w.Linked p b type ∧ w.Uncollapsed b ∧
    w' = ((w.collapseTile rand b (forcedValue type (w.collapsedStateOf p))).2).enter b

/-- A sequence of propagations. -/
def Steps (rand : Nat → ℚ) (R : Ref → Prop) : World → World → Prop :=
  Relation.ReflTransGen (Step rand R)

/-- The predicate `R` is closed under the links of the store. -/
def LinkClosed (R : Ref → Prop) (w : World) : Prop :=
  ∀ p q type, R p → w.Linked p q type → R q

/-- Reachability from `a` through entanglement links. -/
def Reach (w : World) (a : Ref) : Ref → Prop :=
  Relation.ReflTransGen (fun p q => ∃ type, w.Linked p q type) a

/-- What the cascade never changes: the size of the store, the coordinates, the
links and the number of outcomes of every tile, and the whole of every tile
that is already collapsed. -/
structure Frame (w w' : World) : Prop where
  length : w'.tiles.length = w.tiles.length
  tile : ∀ (x : Ref) (t : QuantumTile), w.tiles[x]? = some t →
    ∃ t' : QuantumTile, w'.tiles[x]? = some t' ∧
      t'.row = t.row ∧ t'.col = t.col ∧ t'.entangledWith = t.entangledWith ∧
      t'.state.numStates = t.state.numStates ∧ (t.state.isCollapsed = true → t' = t)

/-- Every tile linked from `x` is collapsed (or is no tile of the store). -/
def Closed (w : World) (x : Ref) : Prop :=
  ∀ q type, w.Linked x q type → ¬ w.Uncollapsed q

/-! ## Example stores -/

/-- The empty store. -/
def emptyWorld : World := { tiles := [], draws := 0, cascades := [] }

/-- A 1×3 grid of two-outcome tiles linked in a cycle A–B–C–A, all `same`:
the grid and the store after `new QuantumGrid(1, 3, 2)` and the calls
`createEntanglement(0,0,0,1)`, `createEntanglement(0,1,0,2)`,
`createEntanglement(0,2,0,0)`. -/
def cycleGrid : QuantumGrid × World :=
  let gw := QuantumGrid.create emptyWorld 1 3 2
  let w1 := gw.1.createEntanglement gw.2 0 0 0 1 LinkType.same
  let w2 := gw.1.createEntanglement w1 0 1 0 2 LinkType.same
  (gw.1, gw.1.createEntanglement w2 0 2 0 0 LinkType.same)

/-- A 1×2 grid whose first tile is measured (to outcome 1) before the two tiles
are linked: the store after `new QuantumGrid(1, 2, 2)`, `measureTile(0, 0)` and
`createEntanglement(0, 0, 0, 1, 'same')`. The first tile is collapsed, the
second is linked to it and still uncollapsed. -/
def lateLink : QuantumGrid × World :=
  let gw := QuantumGrid.create emptyWorld 1 2 2
  let w1 := ((gw.1.measureTile (fun _ => 3 / 4) gw.2 0 0).getD (none, gw.2)).2
  (gw.1, gw.1.createEntanglement w1 0 0 0 1 LinkType.same)

/-- A collapsed state with two outcomes, collapsed to outcome 1. -/
def collapsedOne : QuantumState :=
  { numStates := 2, probabilities := [0, 1], isCollapsed := true, collapsedState := some 1 }

/-- A state with three outcomes of weights 1/2, 1/3, 1/6. -/
def biased3 : QuantumState :=
  { numStates := 3, probabilities := [1 / 2, 1 / 3, 1 / 6], isCollapsed := false,
    collapsedState := none }

/-- A 1×2 grid of tiles with `n` outcomes linked `opposite`: the grid and the
store after `new QuantumGrid(1, 2, n)` and
`createEntanglement(0, 0, 0, 1, 'opposite')`. -/
def oppositePair (n : Nat) : QuantumGrid × World :=
  let gw := QuantumGrid.create emptyWorld 1 2 n
  (gw.1, gw.1.createEntanglement gw.2 0 0 0 1 LinkType.opposite)

/-- The store `oppositePair n` once its first tile has been forced to outcome
`k`, by `tile.state.collapse(k)`, with the second tile still uncollapsed. -/
def oppositePairForced (n : Nat) (k : Int) : World :=
  ((oppositePair n).2.collapseTile (fun _ => 0) 0 (some k)).2

/-- The call creates an `opposite` link. -/
def GridOp.isOpposite : GridOp → Bool
  | GridOp.createEntanglement _ _ _ _ LinkType.opposite => true
  | _ => false

/-- The tile at `ref` is a tile of the grid. -/
def QuantumGrid.Has (g : QuantumGrid) (ref : Ref) : Prop :=
  ∃ row ∈ g.tiles, ref ∈ row

/-- A state with `N` outcomes which, once collapsed, holds an outcome `k` of
`[0, N)` and the weights that are 1 at `k` and 0 elsewhere. -/
def StateGood (N : Nat) (s : QuantumState) : Prop :=
  s.numStates = N ∧
    (s.isCollapsed = true →
      ∃ k : Nat, k < N ∧ s.collapsedState = some (k : Int) ∧ s.probabilities = oneHot N k)

/-- Invariant of a grid with `N` outcomes: each of its tiles is in the store with
a good state, and is linked only to tiles of the grid, by `same` links unless
`N = 2`. -/
def GridInv (g : QuantumGrid) (N : Nat) (w : World) : Prop :=
  ∀ ref, g.Has ref → ∃ t, w.tiles[ref]? = some t ∧ StateGood N t.state ∧
    ∀ l ∈ t.entangledWith, g.Has l.1 ∧ (N = 2 ∨ l.2 = LinkType.same)

/-- The tile at `ref` is as the grid constructor makes it. -/
def Fresh (N : Nat) (w : World) (ref : Ref) : Prop :=
  ∃ t, w.tiles[ref]? = some t ∧ t.state = QuantumState.new N ∧ t.entangledWith = []

/-- A 1×2 grid of `n`-outcome tiles from the empty store. -/
def pairGrid (n : Nat) : QuantumGrid × World :=
  QuantumGrid.create emptyWorld 1 2 n

/-- A 2×2 grid of two-outcome tiles with a `same` link along each row: the grid
and the store after `new QuantumGrid(2, 2, 2)`, `createEntanglement(0,0,0,1)`
and `createEntanglement(1,0,1,1)`. -/
def rowPairs : QuantumGrid × World :=
  let gw := QuantumGrid.create emptyWorld 2 2 2
  let w1 := gw.1.createEntanglement gw.2 0 0 0 1 LinkType.same
  (gw.1, gw.1.createEntanglement w1 1 0 1 1 LinkType.same)

/-- The state with no outcome and no weight. -/
def emptyState : QuantumState :=
  { numStates := 0, probabilities := [], isCollapsed := false, collapsedState := none }

/-- An uncollapsed state with three outcomes whose maximal weight 2/5 occurs at
the indices 1 and 2. -/
def tied3 : QuantumState :=
  { numStates := 3, probabilities := [1 / 5, 2 / 5, 2 / 5], isCollapsed := false,
    collapsedState := none }

/-- The reference held by the table of the grid at row `r` and column `c`. -/
def QuantumGrid.cell (g : QuantumGrid) (r c : Nat) : Option Ref :=
  match g.tiles[r]? with
  | none => none
  | some tileRow => tileRow[c]?

/-- The table of a grid as its constructor builds it: `rows` rows of `cols`
references, no tile named twice. -/
structure QuantumGrid.WellFormed (g : QuantumGrid) : Prop where
  height : g.tiles.length = g.rows
  width : ∀ tileRow ∈ g.tiles, tileRow.length = g.cols
  distinct : ∀ (r1 c1 r2 c2 : Nat) (ref : Ref),
    g.cell r1 c1 = some ref → g.cell r2 c2 = some ref → r1 = r2 ∧ c1 = c2

/-- The 3×3 grid of two-outcome tiles built by the constructor in the empty
store. -/
def grid3 : QuantumGrid × World :=
  QuantumGrid.create emptyWorld 3 3 2

/-- The tile at `ref` is the one the constructor makes for row `r`, column `c`. -/
def FreshAt (N : Nat) (w : World) (r c : Nat) (ref : Ref) : Prop :=
  w.tiles[ref]? = some (QuantumTile.new (r : Int) (c : Int) (QuantumState.new N))

/-- Every cell of the grid holds a tile of the store. -/
def GridLive (g : QuantumGrid) (w : World) : Prop :=
  ∀ r c : Nat, r < g.rows → c < g.cols →
    ∃ (ref : Ref) (t : QuantumTile), g.cell r c = some ref ∧ w.tiles[ref]? = some t

/-- A 2×1 grid whose two tiles are linked `same` and collapsed to 0: the store
after `new QuantumGrid(2, 1, 2)`, `createEntanglement(0, 0, 1, 0)` and
`measureTile(0, 0)` with the draw 0. -/
def colPair : QuantumGrid × World :=
  let gw := QuantumGrid.create emptyWorld 2 1 2
  let w1 := gw.1.createEntanglement gw.2 0 0 1 0 LinkType.same
  (gw.1, ((gw.1.measureTile (fun _ => 0) w1 0 0).getD (none, w1)).2)

/-- A 2×2 grid without links where (0, 0) is collapsed to 0 and (1, 1) to 1: the
store after `new QuantumGrid(2, 2, 2)`, `measureTile(0, 0)` with the draw 0 and
`measureTile(1, 1)` with the draw 3/4. -/
def diagGrid : QuantumGrid × World :=
  let gw := QuantumGrid.create emptyWorld 2 2 2
  (gw.1, ((runOps (fun n => if n = 0 then 0 else 3 / 4) gw.1
    [GridOp.measureTile 0 0, GridOp.measureTile 1 1] gw.2).getD gw.2))

/-- The neighbours of `(row, col)` that `applyInterference` uses: the orthogonal
neighbours that are in superposition, in the order of `getNeighbors`. -/
def superposedNeighbors (g : QuantumGrid) (w : World) (row col : Int) : List QuantumTile :=
  ((g.getNeighbors row col false).filterMap (fun n => w.tiles[n]?)).filter
    (fun n => n.state.isInSuperposition)

/-- The sum, over the tiles of `ns`, of the weight at index `i`. -/
def neighborSum (ns : List QuantumTile) (i : Nat) : ℚ :=
  (ns.map (fun n => n.state.probabilities.getD i 0)).sum

/-- The weight at index `i` before renormalization:
`u[i] = w[i] + 0.1 * (sum of the neighbours' weights at i)`. -/
def interfered (weights : List ℚ) (ns : List QuantumTile) (i : Nat) : ℚ :=
  weights.getD i 0 + 1 / 10 * neighborSum ns i

/-- A 1×2 grid whose weights have been set directly, as the `initialState` of a
level does (`grid.tiles[r][c].state.probabilities = [...]`): the tile (0, 0) has
weights 9/10, 1/10 and the tile (0, 1) has weights 3/5, 2/5. -/
def skewedPair : QuantumGrid × World :=
  ({ rows := 1, cols := 2, numStates := 2, tiles := [[0, 1]] },
   { tiles :=
       [{ row := 0, col := 0, entangledWith := [],
          state := { numStates := 2, probabilities := [9 / 10, 1 / 10], isCollapsed := false,
                     collapsedState := none } },
        { row := 0, col := 1, entangledWith := [],
          state := { numStates := 2, probabilities := [3 / 5, 2 / 5], isCollapsed := false,
                     collapsedState := none } }],
     draws := 0, cascades := [] })

/-- The weights of `s` are a distribution over `N` outcomes: `N` non-negative
weights that sum to 1. -/
def Normalized (N : Nat) (s : QuantumState) : Prop :=
  s.probabilities.length = N ∧ (∀ x ∈ s.probabilities, (0 : ℚ) ≤ x) ∧ s.probabilities.sum = 1

/-- Every tile of the grid is in the store and, while it is not collapsed, its
weights are a distribution over the outcomes of the grid. -/
def NormInv (g : QuantumGrid) (w : World) : Prop :=
  ∀ ref, g.Has ref → ∃ t, w.tiles[ref]? = some t ∧
    (t.state.isCollapsed = false → Normalized g.numStates t.state)

/-- The link list of the tile at `x`; empty when `x` is no tile of the store. -/
def World.linksOf (w : World) (x : Ref) : List (Ref × LinkType) :=
  match w.tiles[x]? with
  | none => []
  | some t => t.entangledWith

/-- No tile of the store holds two links to the same tile. -/
def NoDupLinks (w : World) : Prop :=
  ∀ (x : Ref) (t : QuantumTile), w.tiles[x]? = some t → (t.entangledWith.map Prod.fst).Nodup

/-- Every tile of the grid is in the store and holds no link to itself. -/
def NoSelfLink (g : QuantumGrid) (w : World) : Prop :=
  ∀ ref, g.Has ref → ∃ t, w.tiles[ref]? = some t ∧ ∀ l ∈ t.entangledWith, l.1 ≠ ref

/-- No collapsed tile of the store holds a link to an uncollapsed tile. -/
def AllClosed (w : World) : Prop :=
  ∀ x, w.Collapsed x → Closed w x

/-- The grid `rowPairs` once (0, 0) has been measured with the draw 3/4: the
tiles of the first row are collapsed to 1, those of the second row are linked to
each other and uncollapsed. -/
def halfMeasured : QuantumGrid × World :=
  (rowPairs.1, ((rowPairs.1.measureTile (fun _ => 3 / 4) rowPairs.2 0 0).getD (none, rowPairs.2)).2)

/-- The method `map` of an array with a callback that may throw a `TypeError`:
`none` when the callback throws on some element. -/
def mapOption {α β : Type} (f : α → Option β) : List α → Option (List β)
  | [] => some []
  | x :: xs =>
    match f x with
    | none => none
    | some y =>
      match mapOption f xs with
      | none => none
      | some ys => some (y :: ys)

/-- Method `isFullyCollapsed()`: `every` over the rows and over the tiles of each
row. A reference of the table that is no tile of the store has no `state`, and
the call throws (`none`); the program creates no such reference. -/
def QuantumGrid.isFullyCollapsed (g : QuantumGrid) (w : World) : Option Bool :=
  forAllM (fun tileRow : List Ref =>
    forAllM (fun ref : Ref =>
      match w.tiles[ref]? with
      | none => none
      | some tile => some tile.state.isCollapsed) tileRow) g.tiles

/-- Method `getCurrentPattern()`: the outcome of each collapsed tile, `none`
(`null`) for an uncollapsed tile. -/
def QuantumGrid.getCurrentPattern (g : QuantumGrid) (w : World) :
    Option (List (List (Option Int))) :=
  mapOption (fun tileRow : List Ref =>
    mapOption (fun ref : Ref =>
      match w.tiles[ref]? with
      | none => none
      | some tile =>
        some (if tile.state.isCollapsed then tile.state.collapsedState else none)) tileRow)
    g.tiles

/-! ## Level progression (`level-progression.js`)

The object `this.progress` of a `LevelProgression` is embedded as a value. The
object `topicProgress`, keyed by topic id, and the objects `bestMoves` and
`bestTime`, keyed by level number, are maps from integers; `none` is a missing
key. `saveProgress()` writes the progress to `localStorage` and changes nothing
of the progress itself, so it is left out. -/

/-- An entry of `progress.topicProgress`. -/
structure TopicProgress where
  completed : List Int
  bestMoves : Int → Option ℚ
  bestTime : Int → Option ℚ

/-- The identifier of an achievement: `'first_steps'`,
`topic_${topicId}_complete`, `perfect_${topicId}_${levelNumber}`. -/
inductive Achievement where
  | firstSteps
  | topicComplete (topicId : Int)
  | perfect (topicId levelNumber : Int)
  deriving DecidableEq, Repr

/-- The object `this.progress`. -/
structure Progress where
  completedLevels : List Int
  currentTopic : Int
  currentLevel : Int
  topicProgress : Int → Option TopicProgress
  totalMoves : ℚ
  totalTime : ℚ
  achievements : List Achievement

/-- The progress `loadProgress()` returns when nothing is stored. -/
def LevelProgression.emptyProgress : Progress :=
  { completedLevels := [], currentTopic := 0, currentLevel := 0,
    topicProgress := fun _ => none, totalMoves := 0, totalTime := 0, achievements := [] }

/-- Method `isTopicUnlocked(topicId)`. -/
def LevelProgression.isTopicUnlocked (p : Progress) (topicId : Int) : Bool :=
  if topicId = 0 then true
  else
    let prevTopicId := topicId - 1
    match p.topicProgress prevTopicId with
    | none => false
    | some prevProgress => decide (prevProgress.completed.length ≥ 5)

/-- The update `if (!best[levelKey] || value < best[levelKey]) best[levelKey] = value`;
a stored 0 is falsy. -/
def updateBest (best : Int → Option ℚ) (levelNumber : Int) (value : ℚ) : Int → Option ℚ :=
  let replace : Bool :=
    match best levelNumber with
    | none => true
    | some old => decide (old = 0) || decide (value < old)
  if replace then fun k => if k = levelNumber then some value else best k else best

/-- Method `checkAchievements(topicId, levelNumber, moves)`: the new
achievements and the progress after the call. -/
def LevelProgression.checkAchievements (p : Progress) (topicId levelNumber : Int) (moves : ℚ) :
    List Achievement × Progress :=
  let first : List Achievement :=
    if topicId = 0 ∧ levelNumber = 0 ∧ Achievement.firstSteps ∉ p.achievements then
      [Achievement.firstSteps]
    else []
  let topic : List Achievement :=
    match p.topicProgress topicId with
    | none => []
    | some tp =>
      if tp.completed.length = 5 ∧ Achievement.topicComplete topicId ∉ p.achievements then
        [Achievement.topicComplete topicId]
      else []
  let perfect : List Achievement :=
    if moves ≤ 3 ∧ Achievement.perfect topicId levelNumber ∉ p.achievements then
      [Achievement.perfect topicId levelNumber]
    else []
  let achievements := first ++ topic ++ perfect
  (achievements,
   { p with achievements :=
       achievements.foldl (fun acc a => if a ∈ acc then acc else acc ++ [a]) p.achievements })

/-- Method `completeLevel(topicId, levelNumber, moves, time)`. The comparator
`(a, b) => a - b` sorts the numbers in increasing order. -/
def LevelProgression.completeLevel (p : Progress) (topicId levelNumber : Int)
    (moves time : ℚ) : Progress :=
  let topicProgress : TopicProgress :=
    match p.topicProgress topicId with
    | none => { completed := [], bestMoves := fun _ => none, bestTime := fun _ => none }
    | some tp => tp
  let completed :=
    if levelNumber ∉ topicProgress.completed then
      (topicProgress.completed ++ [levelNumber]).insertionSort (fun a b => a ≤ b)
    else topicProgress.completed
  let topicProgress1 : TopicProgress :=
    { completed := completed
      bestMoves := updateBest topicProgress.bestMoves levelNumber moves
      bestTime := updateBest topicProgress.bestTime levelNumber time }
  let p1 : Progress :=
    { p with
      topicProgress := fun k => if k = topicId then some topicProgress1 else p.topicProgress k
      totalMoves := p.totalMoves + moves
      totalTime := p.totalTime + time
      currentTopic := topicId
      currentLevel := levelNumber }
  (LevelProgression.checkAchievements p1 topicId levelNumber moves).2

/-- A call `completeLevel(topicId, levelNumber, moves, time)`. -/
structure Completion where
  topicId : Int
  levelNumber : Int
  moves : ℚ
  time : ℚ

/-- The progress after a sequence of `completeLevel` calls, first call first. -/
def runCompletions (calls : List Completion) (p : Progress) : Progress :=
  calls.foldl (fun q call =>
    LevelProgression.completeLevel q call.topicId call.levelNumber call.moves call.time) p

/-- The completed list of every topic, after the calls `calls`: it is in
increasing order without duplicates and holds exactly the levels completed for
the topic; a topic has an entry exactly when a call named it. -/
def ProgressInv (calls : List Completion) (p : Progress) : Prop :=
  ∀ topic : Int,
    match p.topicProgress topic with
    | none => ∀ call ∈ calls, call.topicId ≠ topic
    | some tp =>
      tp.completed.Sorted (fun a b => a ≤ b) ∧ tp.completed.Nodup ∧
        ∀ l : Int, l ∈ tp.completed ↔
          ∃ call ∈ calls, call.topicId = topic ∧ call.levelNumber = l

/-- The calls that complete the levels 2, 0, 4, 1, 3 of topic 0, the level 2 a
second time, and the level 0 of topic 1. -/
def sampleCalls : List Completion :=
  [⟨0, 2, 5, 30⟩, ⟨0, 0, 3, 12⟩, ⟨0, 4, 9, 50⟩, ⟨0, 1, 4, 20⟩, ⟨0, 3, 7, 41⟩, ⟨0, 2, 4, 25⟩,
   ⟨1, 0, 2, 10⟩]

/-- Method `clone()` of `QuantumTile`: a new tile with the same coordinates, a
copy of the state and no link. -/
def QuantumTile.clone (t : QuantumTile) : QuantumTile :=
  QuantumTile.new t.row t.col t.state.clone

/-- A loop over a list with a body that may throw a `TypeError` (`none`). -/
def loopM {σ α : Type} (body : σ → α → Option σ) : List α → σ → Option σ
  | [], s => some s
  | x :: xs, s =>
    match body s x with
    | none => none
    | some s1 => loopM body xs s1

/-- The statement `grid.tiles[r][c] = this.tiles[r][c].clone()` of
`QuantumGrid.clone`, `grid` being the first component of `acc`: the copy is
allocated at the end of the store and its reference written at `(r, c)` of the
table of `grid`. It throws when `this.tiles[r]` or `this.tiles[r][c]` is
undefined. The table of `grid` was built with `this.rows` and `this.cols`, so the
entry written exists. -/
def cloneCell (g : QuantumGrid) (r c : Nat) (acc : QuantumGrid × World) :
    Option (QuantumGrid × World) :=
  match g.cell r c with
  | none => none
  | some ref =>
    match acc.2.tiles[ref]? with
    | none => none
    | some tile =>
      match acc.1.tiles[r]? with
      | none => none
      | some gridRow =>
        some ({ acc.1 with tiles := acc.1.tiles.set r (gridRow.set c acc.2.tiles.length) },
              { acc.2 with tiles := acc.2.tiles ++ [tile.clone] })

/-- The body of `originalTile.entangledWith.forEach(...)` in `QuantumGrid.clone`:
the linked tile is looked up by its coordinates in the table of `grid`, and
`clonedTile` pushes a link to it unless it already holds one. It throws when
`grid.tiles[entangledTile.row]` is undefined. When `grid.tiles[row][col]` is
undefined JavaScript pushes a link to `undefined`, which a reference cannot
denote: this is `none` too. -/
def relink (grid : QuantumGrid) (clonedTile : Ref) (w : World) (link : Ref × LinkType) :
    Option World :=
  match w.tiles[link.1]? with
  | none => none
  | some entangledTile =>
    if entangledTile.row < 0 ∨ entangledTile.col < 0 then none
    else
      match grid.cell entangledTile.row.toNat entangledTile.col.toNat with
      | none => none
      | some clonedEntangled => some (QuantumTile.pushLink w clonedTile clonedEntangled link.2)

/-- The body of the second pair of loops of `QuantumGrid.clone` at `(r, c)`. -/
def relinkCell (g grid : QuantumGrid) (r c : Nat) (w : World) : Option World :=
  match g.cell r c, grid.cell r c with
  | some originalTile, some clonedTile =>
    match w.tiles[originalTile]? with
    | none => none
    | some tile => loopM (relink grid clonedTile) tile.entangledWith w
  | _, _ => none

/-- Method `clone()` of `QuantumGrid`: the new grid and the store after the
call; `none` when the call throws. The tiles made by the constructor of the new
grid stay in the store, where nothing refers to them any more. -/
def QuantumGrid.clone (g : QuantumGrid) (w : World) : Option (QuantumGrid × World) :=
  let gw := QuantumGrid.create w g.rows g.cols g.numStates
  match loopM (fun acc r => loopM (fun acc1 c => cloneCell g r c acc1) (List.range g.cols) acc)
      (List.range g.rows) gw with
  | none => none
  | some (grid, w1) =>
    match loopM (fun w2 r => loopM (fun w3 c => relinkCell g grid r c w3) (List.range g.cols) w2)
        (List.range g.rows) w1 with
    | none => none
    | some w2 => some (grid, w2)

/-- The cells visited by two nested loops, in the order of the visit. -/
def cellsOf (rowsL colsL : List Nat) : List (Nat × Nat) :=
  rowsL.flatMap (fun r => colsL.map (fun c => (r, c)))

/-- A grid as the constructor builds it and the calls of the engine keep it: the
table is well formed, the tile of each cell is in the store with the coordinates
of the cell, the links of the tiles of the grid point to tiles of the grid, and
no tile of the grid holds two links to the same tile. -/
structure CloneReady (g : QuantumGrid) (w : World) : Prop where
  wellFormed : g.WellFormed
  coords : ∀ (r c : Nat) (ref : Ref), g.cell r c = some ref →
    ∃ t, w.tiles[ref]? = some t ∧ t.row = (r : Int) ∧ t.col = (c : Int)
  inside : ∀ (ref : Ref) (t : QuantumTile), g.Has ref → w.tiles[ref]? = some t →
    ∀ l ∈ t.entangledWith, g.Has l.1
  nodup : ∀ (ref : Ref) (t : QuantumTile), g.Has ref → w.tiles[ref]? = some t →
    (t.entangledWith.map Prod.fst).Nodup

/-- The state of the first pair of loops of `QuantumGrid.clone` once the cells
`done` have been visited: the new grid has the shape of `g`, the tiles of the
store `w` before the call are untouched, and each visited cell of the new grid
holds a new tile, the copy of the tile of `g` at that cell. -/
structure CloneStage (g : QuantumGrid) (w : World) (done : List (Nat × Nat))
    (acc : QuantumGrid × World) : Prop where
  rows : acc.1.rows = g.rows
  cols : acc.1.cols = g.cols
  numStates : acc.1.numStates = g.numStates
  height : acc.1.tiles.length = g.rows
  width : ∀ tileRow ∈ acc.1.tiles, tileRow.length = g.cols
  draws : acc.2.draws = w.draws
  cascades : acc.2.cascades = w.cascades
  length : w.tiles.length ≤ acc.2.tiles.length
  old : ∀ x, x < w.tiles.length → acc.2.tiles[x]? = w.tiles[x]?
  copied : ∀ r c, (r, c) ∈ done →
    ∃ (cref ref : Ref) (t : QuantumTile), acc.1.cell r c = some cref ∧
      w.tiles.length ≤ cref ∧ g.cell r c = some ref ∧ w.tiles[ref]? = some t ∧
      acc.2.tiles[cref]? = some t.clone

/-- The link `cl` of a copy stands for the link `l` of the original: it has the
relation of `l`, and its target is the tile of `grid` at the coordinates of the
target of `l`. -/
def LinkImage (grid : QuantumGrid) (w : World) (cl l : Ref × LinkType) : Prop :=
  cl.2 = l.2 ∧ ∃ tl, w.tiles[l.1]? = some tl ∧ 0 ≤ tl.row ∧ 0 ≤ tl.col ∧
    grid.cell tl.row.toNat tl.col.toNat = some cl.1

/-- The state of the second pair of loops of `QuantumGrid.clone` once the cells
`done` have been visited: the tiles of the store `w` before the call are
untouched, and the copy at each cell has the coordinates and the state of the
original, with the links of the original recreated if the cell has been visited
and no link otherwise. -/
structure RelinkStage (g grid : QuantumGrid) (w : World) (done : List (Nat × Nat))
    (st : World) : Prop where
  draws : st.draws = w.draws
  cascades : st.cascades = w.cascades
  old : ∀ x, x < w.tiles.length → st.tiles[x]? = w.tiles[x]?
  copied : ∀ (r c : Nat) (ref : Ref) (t : QuantumTile), g.cell r c = some ref →
    w.tiles[ref]? = some t →
    ∃ (cref : Ref) (ct : QuantumTile), grid.cell r c = some cref ∧
      st.tiles[cref]? = some ct ∧ ct.row = t.row ∧ ct.col = t.col ∧ ct.state = t.state ∧
      ((r, c) ∈ done → List.Forall₂ (LinkImage grid w) ct.entangledWith t.entangledWith) ∧
      ((r, c) ∉ done → ct.entangledWith = [])

/-- What the first loops of `QuantumGrid.clone` establish about the table of
the new grid: it has the shape of `g`, its tiles are new, and no tile is at two
cells. -/
structure CloneTable (g grid : QuantumGrid) (w : World) : Prop where
  rows : grid.rows = g.rows
  cols : grid.cols = g.cols
  numStates : grid.numStates = g.numStates
  height : grid.tiles.length = g.rows
  width : ∀ tileRow ∈ grid.tiles, tileRow.length = g.cols
  fresh : ∀ (r c : Nat) (cref : Ref), grid.cell r c = some cref → w.tiles.length ≤ cref
  distinct : ∀ (r1 c1 r2 c2 : Nat) (cref : Ref),
    grid.cell r1 c1 = some cref → grid.cell r2 c2 = some cref → r1 = r2 ∧ c1 = c2

/-- The grid `c` in the store `w'` is the clone of the grid `g` of the store
`w`: the table of `c` has the shape of `g` and holds new tiles, the store `w` is
untouched, and the copy at each cell has the coordinates and the state of the
original and its links, each to the copy of its target. -/
structure IsClone (g : QuantumGrid) (w : World) (c : QuantumGrid) (w' : World) : Prop where
  table : CloneTable g c w
  draws : w'.draws = w.draws
  cascades : w'.cascades = w.cascades
  old : ∀ x, x < w.tiles.length → w'.tiles[x]? = w.tiles[x]?
  copied : ∀ (r k : Nat) (ref : Ref) (t : QuantumTile), g.cell r k = some ref →
    w.tiles[ref]? = some t →
    ∃ (cref : Ref) (ct : QuantumTile), c.cell r k = some cref ∧
      w'.tiles[cref]? = some ct ∧ ct.row = t.row ∧ ct.col = t.col ∧ ct.state = t.state ∧
      List.Forall₂ (LinkImage c w) ct.entangledWith t.entangledWith

/-- Among the tiles of the grid, every link has its back-reference with the same
relation. -/
def SymLinks (g : QuantumGrid) (w : World) : Prop :=
  ∀ (A B : Ref) (type : LinkType), g.Has A → g.Has B → w.Linked A B type → w.Linked B A type

/-- The grids reached from `new QuantumGrid` by `createEntanglement`,
`measureTile`, `applyInterference` and `clone`, each with the store it lives in:
the grid built by the constructor, in any store; a grid after a call on it; the
clone of a grid; and a grid after the store has changed elsewhere, its own tiles
being left as they are (a call on another grid, the construction of another
grid, its own `clone()`). -/
inductive Reachable (rand : Nat → ℚ) : QuantumGrid → World → Prop where
  | create (w0 : World) (rows cols N : Nat) :
    Reachable rand (QuantumGrid.create w0 rows cols N).1 (QuantumGrid.create w0 rows cols N).2
  | call (g : QuantumGrid) (w : World) (op : GridOp) (w' : World) :
    Reachable rand g w → op.run rand g w = some w' → Reachable rand g w'
  | clone (g : QuantumGrid) (w : World) (c : QuantumGrid) (w' : World) :
    Reachable rand g w → g.clone w = some (c, w') → Reachable rand c w'
  | other (g : QuantumGrid) (w w' : World) :
    Reachable rand g w → (∀ x, g.Has x → w'.tiles[x]? = w.tiles[x]?) → Reachable rand g w'

/-! ## `collapse` over the numbers of the program

The sampling loop of `collapse` compares a draw with a running sum. The doubles
of the program round each addition, so the loop is given here over number
operations that are left open; the exact rationals and the doubles are two
instances. -/

/-- The number operations that `collapse` uses: the constants `0` and `1.0`, the
addition of `cumulative += ...` and the comparison of `rand < cumulative`.
Nothing is assumed of them. -/
structure Arith (F : Type) where
  zero : F
  one : F
  add : F → F → F
  lt : F → F → Bool

/-- The exact rationals. -/
def Arith.exact : Arith ℚ :=
  ⟨0, 1, fun a b => a + b, fun a b => decide (a < b)⟩

/-- The doubles of the program: `+` rounds to the nearest double, and `<` is
false when an operand is `NaN`. -/
def Arith.double : Arith Float :=
  ⟨0, 1, fun a b => a + b, fun a b => decide (a < b)⟩

/-- Class `QuantumState` with weights in `F`. -/
structure QuantumStateOver (F : Type) where
  numStates : Nat
  probabilities : List F
  isCollapsed : Bool
  collapsedState : Option Int

/-- The sampling loop of `collapse` over `A`: `steps` iterations are left, `i` is
the loop index and `cumulative` the running sum, `none` standing for the `NaN`
that reading an index the array does not have produces. Returns the index chosen
by the `break`, or `none` when the loop ends with `state` still undefined. -/
def Arith.sampleFrom {F : Type} (A : Arith F) (probabilities : List F) (rand : F) :
    Nat → Nat → Option F → Option Nat
  | 0, _, _ => none
  | steps + 1, i, cumulative =>
    match cumulative, probabilities[i]? with
    | some c, some p =>
      if A.lt rand (A.add c p) then some i
      else A.sampleFrom probabilities rand steps (i + 1) (some (A.add c p))
    | _, _ => A.sampleFrom probabilities rand steps (i + 1) none

/-- The array built by `new Array(numStates).fill(0)` followed by
`probabilities[state] = 1.0`, over `A`; see `oneHot`. -/
def Arith.oneHot {F : Type} (A : Arith F) (numStates : Nat) (state : Int) : List F :=
  let zeros := List.replicate numStates A.zero
  if state < 0 then zeros
  else if state.toNat < numStates then zeros.set state.toNat A.one
  else zeros ++ List.replicate (state.toNat - numStates) A.zero ++ [A.one]

/-- Method `collapse(forcedState = null)` over `A`. Takes the random sequence and
the number of draws taken; returns the returned value, the state after the call
and the number of draws taken after the call. -/
def QuantumStateOver.collapse {F : Type} (A : Arith F) (rand : Nat → F) (draws : Nat)
    (s : QuantumStateOver F) (forcedState : Option Int) :
    Option Int × QuantumStateOver F × Nat :=
  if s.isCollapsed then (s.collapsedState, s, draws)
  else
    let chosen : Int × Nat :=
      match forcedState with
      | some f => (f, draws)
      | none =>
        match A.sampleFrom s.probabilities (rand draws) s.numStates 0 (some A.zero) with
        | some i => ((i : Int), draws + 1)
        | none => ((s.numStates : Int) - 1, draws + 1)
    (some chosen.1,
     ⟨s.numStates, A.oneHot s.numStates chosen.1, true, some chosen.1⟩,
     chosen.2)

/-- A state of the rational model as a state over the exact rationals. -/
def QuantumState.over (s : QuantumState) : QuantumStateOver ℚ :=
  ⟨s.numStates, s.probabilities, s.isCollapsed, s.collapsedState⟩

/-- A state with the weights 1/2, 1/3, 1/6 over the exact rationals. -/
def biased3Over : QuantumStateOver ℚ := biased3.over

/-! ## Facts about `collapse` -/

theorem collapse_of_collapsed (rand : Nat → ℚ) (draws : Nat) (s : QuantumState)
    (f : Option Int) (h : s.isCollapsed = true) :
    s.collapse rand draws f = (s.collapsedState, s, draws) := by
  simp [QuantumState.collapse, h]

theorem collapse_isCollapsed (rand : Nat → ℚ) (draws : Nat) (s : QuantumState) (f : Option Int) :
    (s.collapse rand draws f).2.1.isCollapsed = true := by
  unfold QuantumState.collapse
  split
  · assumption
  · rfl

theorem collapse_numStates (rand : Nat → ℚ) (draws : Nat) (s : QuantumState) (f : Option Int) :
    (s.collapse rand draws f).2.1.numStates = s.numStates := by
  unfold QuantumState.collapse
  split <;> rfl

theorem collapse_result (rand : Nat → ℚ) (draws : Nat) (s : QuantumState) (f : Option Int) :
    (s.collapse rand draws f).1 = (s.collapse rand draws f).2.1.collapsedState := by
  unfold QuantumState.collapse
  split <;> rfl

theorem collapse_forced (rand : Nat → ℚ) (draws : Nat) (s : QuantumState) (k : Int)
    (h : s.isCollapsed = false) :
    s.collapse rand draws (some k) =
      (some k, { s with isCollapsed := true, collapsedState := some k,
                        probabilities := oneHot s.numStates k }, draws) := by
  simp [QuantumState.collapse, h]

theorem collapse_some (rand : Nat → ℚ) (draws : Nat) (s : QuantumState) (f : Option Int)
    (h : s.isCollapsed = false) :
    ∃ k, (s.collapse rand draws f).2.1.collapsedState = some k ∧
      (s.collapse rand draws f).2.1.probabilities = oneHot s.numStates k := by
  simp only [QuantumState.collapse, h]
  exact ⟨_, rfl, rfl⟩

/-! ## Facts about `collapseTile` -/

theorem set_of_getElem? {α : Type} (l : List α) (i : Nat) (a : α) (h : l[i]? = some a) :
    l.set i a = l := by
  apply List.ext_getElem?
  intro j
  rw [List.getElem?_set]
  split
  · next hij =>
    subst hij
    have hi : i < l.length := (List.getElem?_eq_some_iff.1 h).1
    simp [hi, h]
  · rfl

theorem collapseTile_tiles (rand : Nat → ℚ) (w : World) (b : Ref) (v : Option Int)
    (t : QuantumTile) (h : w.tiles[b]? = some t) :
    (w.collapseTile rand b v).2.tiles =
      w.tiles.set b { t with state := (t.state.collapse rand w.draws v).2.1 } := by
  simp [World.collapseTile, h]

theorem collapseTile_result (rand : Nat → ℚ) (w : World) (b : Ref) (v : Option Int)
    (t : QuantumTile) (h : w.tiles[b]? = some t) :
    (w.collapseTile rand b v).1 = (t.state.collapse rand w.draws v).1 := by
  simp [World.collapseTile, h]

theorem collapseTile_cascades (rand : Nat → ℚ) (w : World) (b : Ref) (v : Option Int) :
    (w.collapseTile rand b v).2.cascades = w.cascades := by
  unfold World.collapseTile
  split <;> rfl

theorem collapseTile_length (rand : Nat → ℚ) (w : World) (b : Ref) (v : Option Int) :
    (w.collapseTile rand b v).2.tiles.length = w.tiles.length := by
  unfold World.collapseTile
  split <;> simp

theorem collapseTile_other (rand : Nat → ℚ) (w : World) (b x : Ref) (v : Option Int)
    (hx : x ≠ b) : (w.collapseTile rand b v).2.tiles[x]? = w.tiles[x]? := by
  unfold World.collapseTile
  split
  · rfl
  · simp [List.getElem?_set_ne (Ne.symm hx)]

theorem collapseTile_self (rand : Nat → ℚ) (w : World) (b : Ref) (v : Option Int)
    (t : QuantumTile) (h : w.tiles[b]? = some t) :
    (w.collapseTile rand b v).2.tiles[b]? =
      some { t with state := (t.state.collapse rand w.draws v).2.1 } := by
  rw [collapseTile_tiles rand w b v t h]
  have hb : b < w.tiles.length := by
    rcases List.getElem?_eq_some_iff.1 h with ⟨hb, _⟩
    exact hb
  exact List.getElem?_set_self hb

theorem collapseTile_of_collapsed (rand : Nat → ℚ) (w : World) (b : Ref) (v : Option Int)
    (t : QuantumTile) (h : w.tiles[b]? = some t) (hc : t.state.isCollapsed = true) :
    w.collapseTile rand b v = (t.state.collapsedState, w) := by
  simp only [World.collapseTile, h, collapse_of_collapsed rand w.draws t.state v hc]
  have : w.tiles.set b t = w.tiles := set_of_getElem? w.tiles b t h
  rw [this]

/-! ## Facts about one propagation -/

theorem Frame.refl (w : World) : Frame w w :=
  ⟨rfl, fun _ t h => ⟨t, h, rfl, rfl, rfl, rfl, fun _ => rfl⟩⟩

theorem Frame.trans {w1 w2 w3 : World} (h12 : Frame w1 w2) (h23 : Frame w2 w3) :
    Frame w1 w3 := by
  refine ⟨h23.1.trans h12.1, ?_⟩
  intro x t hx
  obtain ⟨t2, hx2, hr2, hc2, hl2, hn2, hk2⟩ := h12.2 x t hx
  obtain ⟨t3, hx3, hr3, hc3, hl3, hn3, hk3⟩ := h23.2 x t2 hx2
  refine ⟨t3, hx3, hr3.trans hr2, hc3.trans hc2, hl3.trans hl2, hn3.trans hn2, ?_⟩
  intro hc
  have h2 : t2 = t := hk2 hc
  subst h2
  exact hk3 hc

theorem Frame.collapsed {w w' : World} (h : Frame w w') {x : Ref} (hx : w.Collapsed x) :
    w'.Collapsed x := by
  obtain ⟨t, ht, hc⟩ := hx
  obtain ⟨t', ht', _, _, _, _, hk⟩ := h.2 x t ht
  have := hk hc
  subst this
  exact ⟨t', ht', hc⟩

theorem Frame.collapsedStateOf {w w' : World} (h : Frame w w') {x : Ref} (hx : w.Collapsed x) :
    w'.collapsedStateOf x = w.collapsedStateOf x := by
  obtain ⟨t, ht, hc⟩ := hx
  obtain ⟨t', ht', _, _, _, _, hk⟩ := h.2 x t ht
  have := hk hc
  subst this
  simp [World.collapsedStateOf, ht, ht']

theorem Frame.linked {w w' : World} (h : Frame w w') {p q : Ref} {type : LinkType}
    (hl : w.Linked p q type) : w'.Linked p q type := by
  obtain ⟨t, ht, hm⟩ := hl
  obtain ⟨t', ht', _, _, hl', _, _⟩ := h.2 p t ht
  exact ⟨t', ht', hl' ▸ hm⟩

theorem Frame.linked_rev {w w' : World} (h : Frame w w') {p q : Ref} {type : LinkType}
    (hl : w'.Linked p q type) : w.Linked p q type := by
  obtain ⟨t', ht', hm⟩ := hl
  have hp : p < w.tiles.length := by
    have := (List.getElem?_eq_some_iff.1 ht').1
    rw [h.1] at this
    exact this
  obtain ⟨t, ht⟩ : ∃ t, w.tiles[p]? = some t := ⟨w.tiles[p], List.getElem?_eq_getElem hp⟩
  obtain ⟨t2, ht2, _, _, hl2, _, _⟩ := h.2 p t ht
  rw [ht'] at ht2
  cases ht2
  exact ⟨t, ht, hl2 ▸ hm⟩

theorem Frame.linkClosed {w w' : World} (h : Frame w w') {R : Ref → Prop}
    (hR : LinkClosed R w) : LinkClosed R w' :=
  fun p q type hp hl => hR p q type hp (h.linked_rev hl)

theorem Frame.uncollapsed_rev {w w' : World} (h : Frame w w') {x : Ref}
    (hx : w'.Uncollapsed x) : w.Uncollapsed x := by
  obtain ⟨t', ht', hc'⟩ := hx
  have hp : x < w.tiles.length := by
    have := (List.getElem?_eq_some_iff.1 ht').1
    rw [h.1] at this
    exact this
  obtain ⟨t, ht⟩ : ∃ t, w.tiles[x]? = some t := ⟨w.tiles[x], List.getElem?_eq_getElem hp⟩
  refine ⟨t, ht, ?_⟩
  obtain ⟨t2, ht2, _, _, _, _, hk⟩ := h.2 x t ht
  rw [ht'] at ht2
  cases ht2
  cases hc : t.state.isCollapsed
  · rfl
  · have := hk hc
    subst this
    rw [hc] at hc'
    cases hc'

theorem enter_tiles (w : World) (b : Ref) : (w.enter b).tiles = w.tiles := rfl

theorem enter_draws (w : World) (b : Ref) : (w.enter b).draws = w.draws := rfl

theorem Frame.enter (w : World) (b : Ref) : Frame w (w.enter b) :=
  ⟨rfl, fun _ t h => ⟨t, h, rfl, rfl, rfl, rfl, fun _ => rfl⟩⟩

theorem Frame.collapseTile (rand : Nat → ℚ) (w : World) (b : Ref) (v : Option Int) :
    Frame w (w.collapseTile rand b v).2 := by
  refine ⟨collapseTile_length rand w b v, ?_⟩
  intro x t hx
  by_cases hxb : x = b
  · subst hxb
    rw [collapseTile_self rand w x v t hx]
    refine ⟨_, rfl, rfl, rfl, rfl, collapse_numStates rand w.draws t.state v, ?_⟩
    intro hc
    rw [collapse_of_collapsed rand w.draws t.state v hc]
  · rw [collapseTile_other rand w b x v hxb]
    exact ⟨t, hx, rfl, rfl, rfl, rfl, fun _ => rfl⟩

/-- The store after the propagation onto `b`. -/
theorem step_tiles {rand : Nat → ℚ} {R : Ref → Prop} {w w' : World} (h : Step rand R w w') :
    ∃ p b type tp tb, R p ∧ R b ∧ w.tiles[p]? = some tp ∧ tp.state.isCollapsed = true ∧
      (b, type) ∈ tp.entangledWith ∧ w.tiles[b]? = some tb ∧ tb.state.isCollapsed = false ∧
      w'.tiles = w.tiles.set b { tb with state :=
        (tb.state.collapse rand w.draws (forcedValue type tp.state.collapsedState)).2.1 } ∧
      w'.cascades = w.cascades ++ [b] := by
  obtain ⟨p, b, type, hRp, hRb, ⟨tp, htp, hcp⟩, ⟨tp', htp', hl⟩, ⟨tb, htb, hcb⟩, rfl⟩ := h
  rw [htp] at htp'
  cases htp'
  refine ⟨p, b, type, tp, tb, hRp, hRb, htp, hcp, hl, htb, hcb, ?_, ?_⟩
  · rw [enter_tiles, collapseTile_tiles rand w b _ tb htb]
    simp [World.collapsedStateOf, htp]
  · simp [World.enter, collapseTile_cascades]

theorem Step.frame {rand : Nat → ℚ} {R : Ref → Prop} {w w' : World} (h : Step rand R w w') :
    Frame w w' := by
  obtain ⟨p, b, type, -, -, -, -, -, rfl⟩ := h
  exact (Frame.collapseTile rand w b _).trans (Frame.enter _ b)

theorem Steps.toFrame {rand : Nat → ℚ} {R : Ref → Prop} {w w' : World} (h : Steps rand R w w') :
    Frame w w' := by
  induction h with
  | refl => exact Frame.refl w
  | tail _ hs ih => exact ih.trans hs.frame

/-- A propagation only touches tiles taken in `R`. -/
theorem Step.outside {rand : Nat → ℚ} {R : Ref → Prop} {w w' : World} (h : Step rand R w w')
    (x : Ref) (hx : ¬ R x) : w'.tiles[x]? = w.tiles[x]? := by
  obtain ⟨p, b, type, tp, tb, -, hRb, -, -, -, -, -, ht, -⟩ := step_tiles h
  have hxb : b ≠ x := fun e => hx (e ▸ hRb)
  rw [ht, List.getElem?_set_ne hxb]

theorem Steps.unchangedOutside {rand : Nat → ℚ} {R : Ref → Prop} {w w' : World}
    (h : Steps rand R w w') (x : Ref) (hx : ¬ R x) : w'.tiles[x]? = w.tiles[x]? := by
  induction h with
  | refl => rfl
  | tail _ hs ih => rw [hs.outside x hx, ih]

/-- A propagation collapses exactly one more tile. -/
theorem Step.count {rand : Nat → ℚ} {R : Ref → Prop} {w w' : World} (h : Step rand R w w') :
    w'.uncollapsedCount + 1 = w.uncollapsedCount := by
  obtain ⟨p, b, type, tp, tb, -, -, -, -, -, htb, hcb, ht, -⟩ := step_tiles h
  have hb : b < w.tiles.length := (List.getElem?_eq_some_iff.1 htb).1
  have hg : w.tiles[b] = tb := (List.getElem?_eq_some_iff.1 htb).2
  unfold World.uncollapsedCount
  rw [ht, List.countP_set _ _ _ _ hb, hg]
  have hpos : 0 < List.countP (fun t => !t.state.isCollapsed) w.tiles := by
    rw [List.countP_pos_iff]
    exact ⟨tb, hg ▸ List.getElem_mem hb, by simp [hcb]⟩
  simp only [hcb, collapse_isCollapsed]
  simp
  omega

theorem Steps.mono {rand : Nat → ℚ} {R R' : Ref → Prop} {w w' : World}
    (hRR : ∀ x, R x → R' x) (h : Steps rand R w w') : Steps rand R' w w' := by
  induction h with
  | refl => exact Relation.ReflTransGen.refl
  | tail _ hs ih =>
    obtain ⟨p, b, type, hp, hb, rest⟩ := hs
    exact Relation.ReflTransGen.tail ih ⟨p, b, type, hRR p hp, hRR b hb, rest⟩

/-- The trace of a sequence of propagations: the tiles entered are pairwise
distinct, each was uncollapsed before and is collapsed after, and there are as
many of them as tiles that became collapsed. -/
theorem Steps.trace {rand : Nat → ℚ} {R : Ref → Prop} {w w' : World}
    (h : Steps rand R w w') :
    ∃ entered : List Ref, w'.cascades = w.cascades ++ entered ∧ entered.Nodup ∧
      (∀ x ∈ entered, R x ∧ w.Uncollapsed x ∧ w'.Collapsed x) ∧
      w'.uncollapsedCount + entered.length = w.uncollapsedCount := by
  induction h with
  | refl => exact ⟨[], by simp, List.nodup_nil, by simp, rfl⟩
  | @tail w1 w2 h1 hs ih =>
    obtain ⟨entered, hc, hnd, hall, hcount⟩ := ih
    obtain ⟨p, b, type, tp, tb, -, hRb, -, -, -, htb, hcb, ht, htr⟩ := step_tiles hs
    have hub : w1.Uncollapsed b := ⟨tb, htb, hcb⟩
    have hb : b < w1.tiles.length := (List.getElem?_eq_some_iff.1 htb).1
    refine ⟨entered ++ [b], ?_, ?_, ?_, ?_⟩
    · rw [htr, hc, List.append_assoc]
    · rw [List.nodup_append]
      refine ⟨hnd, List.nodup_singleton b, ?_⟩
      intro x hx hxb
      rw [List.mem_singleton] at hxb
      subst hxb
      obtain ⟨t, hxt, hxc⟩ := (hall x hx).2.2
      rw [htb] at hxt
      cases hxt
      rw [hcb] at hxc
      cases hxc
    · intro x hx
      rw [List.mem_append, List.mem_singleton] at hx
      rcases hx with hx | rfl
      · exact ⟨(hall x hx).1, (hall x hx).2.1, hs.frame.collapsed (hall x hx).2.2⟩
      · refine ⟨hRb, (Steps.toFrame h1).uncollapsed_rev hub, ?_⟩
        refine ⟨{ tb with state := (tb.state.collapse rand w1.draws
          (forcedValue type tp.state.collapsedState)).2.1 }, ?_,
          collapse_isCollapsed rand w1.draws tb.state _⟩
        rw [ht]
        exact List.getElem?_set_self hb
    · have := hs.count
      rw [List.length_append, List.length_singleton]
      omega

/-! ## The cascade as a sequence of propagations -/

theorem not_uncollapsed_of_collapsed {w : World} {x : Ref} (h : w.Collapsed x) :
    ¬ w.Uncollapsed x := by
  rintro ⟨t, ht, hc⟩
  obtain ⟨t', ht', hc'⟩ := h
  rw [ht] at ht'
  cases ht'
  rw [hc] at hc'
  cases hc'

theorem collapsed_or_uncollapsed {w : World} {x : Ref} {t : QuantumTile}
    (h : w.tiles[x]? = some t) : w.Collapsed x ∨ w.Uncollapsed x := by
  cases hc : t.state.isCollapsed
  · exact Or.inr ⟨t, h, hc⟩
  · exact Or.inl ⟨t, h, hc⟩

theorem collapseTile_collapsed (rand : Nat → ℚ) (w : World) (b : Ref) (v : Option Int)
    (h : w.Uncollapsed b) : (w.collapseTile rand b v).2.Collapsed b := by
  obtain ⟨t, ht, -⟩ := h
  exact ⟨_, collapseTile_self rand w b v t ht, collapse_isCollapsed rand w.draws t.state v⟩

theorem collapseTile_count (rand : Nat → ℚ) (w : World) (b : Ref) (v : Option Int)
    (h : w.Uncollapsed b) :
    (w.collapseTile rand b v).2.uncollapsedCount + 1 = w.uncollapsedCount := by
  obtain ⟨tb, htb, hcb⟩ := h
  have hb : b < w.tiles.length := (List.getElem?_eq_some_iff.1 htb).1
  have hg : w.tiles[b] = tb := (List.getElem?_eq_some_iff.1 htb).2
  unfold World.uncollapsedCount
  rw [collapseTile_tiles rand w b v tb htb, List.countP_set _ _ _ _ hb, hg]
  have hpos : 0 < List.countP (fun t => !t.state.isCollapsed) w.tiles := by
    rw [List.countP_pos_iff]
    exact ⟨tb, hg ▸ List.getElem_mem hb, by simp [hcb]⟩
  simp only [hcb, collapse_isCollapsed]
  simp
  omega

theorem cascadeBody_uncollapsed (rand : Nat → ℚ) (recur : World → Ref → Option World)
    (value : World → Option Int) (w : World) (link : Ref × LinkType)
    (h : w.Uncollapsed link.1) :
    cascadeBody rand recur value w link =
      recur (w.collapseTile rand link.1 (forcedValue link.2 (value w))).2 link.1 := by
  obtain ⟨t, ht, hc⟩ := h
  obtain ⟨b, type⟩ := link
  cases type <;> simp [cascadeBody, ht, hc, forcedValue]

theorem cascadeBody_skip (rand : Nat → ℚ) (recur : World → Ref → Option World)
    (value : World → Option Int) (w : World) (link : Ref × LinkType)
    (h : ¬ w.Uncollapsed link.1) : cascadeBody rand recur value w link = some w := by
  unfold cascadeBody
  split
  · rfl
  · next tile ht =>
    cases hc : tile.state.isCollapsed
    · exact absurd ⟨tile, ht, hc⟩ h
    · simp

theorem forEachM_cons {α : Type} (body : World → α → Option World) (x : α) (xs : List α)
    (w w' : World) (h : forEachM body (x :: xs) w = some w') :
    ∃ w1, body w x = some w1 ∧ forEachM body xs w1 = some w' := by
  unfold forEachM at h
  split at h
  · cases h
  · next w1 h1 => exact ⟨w1, h1, h⟩

/-- The loop over the links of a collapsed tile `self` is a sequence of
propagations, when every recursive call is one. -/
theorem forEach_steps (rand : Nat → ℚ) (R : Ref → Prop) (recur : World → Ref → Option World)
    (value : World → Option Int) (self : Ref)
    (hrec : ∀ w b w', LinkClosed R w → R b → w.Collapsed b → recur w b = some w' →
      Steps rand R (w.enter b) w') :
    ∀ (links : List (Ref × LinkType)) (w w' : World), LinkClosed R w → R self →
      w.Collapsed self → (∀ l ∈ links, w.Linked self l.1 l.2) →
      (∀ w1, Frame w w1 → value w1 = w1.collapsedStateOf self) →
      forEachM (cascadeBody rand recur value) links w = some w' → Steps rand R w w' := by
  intro links
  induction links with
  | nil =>
    intro w w' _ _ _ _ _ h
    simp only [forEachM, Option.some.injEq] at h
    subst h
    exact Relation.ReflTransGen.refl
  | cons l ls ih =>
    intro w w' hR hself hc hl hv h
    obtain ⟨w1, hb, hrest⟩ := forEachM_cons _ l ls w w' h
    have h1 : Steps rand R w w1 := by
      by_cases hu : w.Uncollapsed l.1
      · rw [cascadeBody_uncollapsed rand recur value w l hu] at hb
        have hlink : w.Linked self l.1 l.2 := hl l (List.mem_cons_self l ls)
        have hRb : R l.1 := hR self l.1 l.2 hself hlink
        have hval : value w = w.collapsedStateOf self := hv w (Frame.refl w)
        rw [hval] at hb
        have hstep : Step rand R w
            ((w.collapseTile rand l.1 (forcedValue l.2 (w.collapsedStateOf self))).2.enter l.1) :=
          ⟨self, l.1, l.2, hself, hRb, hc, hlink, hu, rfl⟩
        have hfr := Frame.collapseTile rand w l.1 (forcedValue l.2 (w.collapsedStateOf self))
        have := hrec _ l.1 w1 (hfr.linkClosed hR) hRb
          (collapseTile_collapsed rand w l.1 _ hu) hb
        exact Relation.ReflTransGen.head hstep this
      · rw [cascadeBody_skip rand recur value w l hu] at hb
        cases hb
        exact Relation.ReflTransGen.refl
    have hf1 : Frame w w1 := Steps.toFrame h1
    have h2 : Steps rand R w1 w' :=
      ih w1 w' (hf1.linkClosed hR) hself (hf1.collapsed hc)
        (fun l' hl' => hf1.linked (hl l' (List.mem_cons_of_mem l hl')))
        (fun w2 hf2 => hv w2 (hf1.trans hf2)) hrest
    exact Relation.ReflTransGen.trans h1 h2

/-- A call of `cascadeEntanglement` on a collapsed tile that returns is a
sequence of propagations. -/
theorem cascade_steps (rand : Nat → ℚ) (R : Ref → Prop) :
    ∀ (fuel : Nat) (w : World) (a : Ref) (w' : World), LinkClosed R w → R a → w.Collapsed a →
      cascadeEntanglement rand fuel w a = some w' → Steps rand R (w.enter a) w' := by
  intro fuel
  induction fuel with
  | zero =>
    intro w a w' _ _ _ h
    simp [cascadeEntanglement] at h
  | succ fuel ih =>
    intro w a w' hR ha hc h
    obtain ⟨t, ht, hct⟩ := hc
    have hte : (w.enter a).tiles[a]? = some t := ht
    simp only [cascadeEntanglement, hte] at h
    refine forEach_steps rand R _ _ a ih t.entangledWith (w.enter a) w'
      ((Frame.enter w a).linkClosed hR) ha ⟨t, hte, hct⟩ (fun l hl => ⟨t, hte, hl⟩)
      (fun _ _ => rfl) h

/-! ## Termination of the cascade -/

theorem forEachM_mono {α : Type} (body1 body2 : World → α → Option World)
    (h : ∀ w x w', body1 w x = some w' → body2 w x = some w') :
    ∀ (xs : List α) (w w' : World), forEachM body1 xs w = some w' →
      forEachM body2 xs w = some w' := by
  intro xs
  induction xs with
  | nil => intro w w' h1; exact h1
  | cons x xs ih =>
    intro w w' h1
    obtain ⟨w1, hb, hrest⟩ := forEachM_cons body1 x xs w w' h1
    simp only [forEachM, h w x w1 hb]
    exact ih w1 w' hrest

theorem cascadeBody_mono (rand : Nat → ℚ) (recur1 recur2 : World → Ref → Option World)
    (value : World → Option Int)
    (h : ∀ w b w', recur1 w b = some w' → recur2 w b = some w') (w : World)
    (link : Ref × LinkType) (w' : World)
    (hb : cascadeBody rand recur1 value w link = some w') :
    cascadeBody rand recur2 value w link = some w' := by
  by_cases hu : w.Uncollapsed link.1
  · rw [cascadeBody_uncollapsed rand _ value w link hu] at hb ⊢
    exact h _ _ _ hb
  · rw [cascadeBody_skip rand _ value w link hu] at hb ⊢
    exact hb

/-- More fuel does not change the result of `cascadeEntanglement`. -/
theorem cascade_fuel_succ (rand : Nat → ℚ) :
    ∀ (fuel : Nat) (w : World) (a : Ref) (w' : World),
      cascadeEntanglement rand fuel w a = some w' →
      cascadeEntanglement rand (fuel + 1) w a = some w' := by
  intro fuel
  induction fuel with
  | zero => intro w a w' h; simp [cascadeEntanglement] at h
  | succ fuel ih =>
    intro w a w' h
    rw [cascadeEntanglement] at h ⊢
    cases ht : (w.enter a).tiles[a]? with
    | none => simpa [ht] using h
    | some t =>
      simp only [ht] at h ⊢
      exact forEachM_mono _ _ (cascadeBody_mono rand _ _ _ ih) _ _ _ h

theorem cascade_fuel_le (rand : Nat → ℚ) (fuel fuel' : Nat) (hle : fuel ≤ fuel') (w : World)
    (a : Ref) (w' : World) (h : cascadeEntanglement rand fuel w a = some w') :
    cascadeEntanglement rand fuel' w a = some w' := by
  induction hle with
  | refl => exact h
  | step _ ih => exact cascade_fuel_succ rand _ w a w' ih

theorem enter_count (w : World) (b : Ref) : (w.enter b).uncollapsedCount = w.uncollapsedCount :=
  rfl

/-- The loop returns when every recursive call on a store with fewer than `fuel`
uncollapsed tiles does. -/
theorem forEach_total (rand : Nat → ℚ) (recur : World → Ref → Option World)
    (value : World → Option Int) (fuel : Nat)
    (hrec : ∀ w b, w.uncollapsedCount < fuel →
      ∃ w', recur w b = some w' ∧ w'.uncollapsedCount ≤ w.uncollapsedCount) :
    ∀ (links : List (Ref × LinkType)) (w : World), w.uncollapsedCount ≤ fuel →
      ∃ w', forEachM (cascadeBody rand recur value) links w = some w' ∧
        w'.uncollapsedCount ≤ w.uncollapsedCount := by
  intro links
  induction links with
  | nil => intro w _; exact ⟨w, rfl, le_refl _⟩
  | cons l ls ih =>
    intro w hw
    have hbody : ∃ w1, cascadeBody rand recur value w l = some w1 ∧
        w1.uncollapsedCount ≤ w.uncollapsedCount := by
      by_cases hu : w.Uncollapsed l.1
      · rw [cascadeBody_uncollapsed rand recur value w l hu]
        have hcnt := collapseTile_count rand w l.1 (forcedValue l.2 (value w)) hu
        obtain ⟨w1, h1, hle⟩ := hrec (w.collapseTile rand l.1 (forcedValue l.2 (value w))).2 l.1
          (by omega)
        exact ⟨w1, h1, by omega⟩
      · rw [cascadeBody_skip rand recur value w l hu]
        exact ⟨w, rfl, le_refl _⟩
    obtain ⟨w1, h1, hle1⟩ := hbody
    obtain ⟨w', h2, hle2⟩ := ih w1 (by omega)
    refine ⟨w', ?_, by omega⟩
    simp only [forEachM, h1]
    exact h2

/-- A call of `cascadeEntanglement` returns when the fuel exceeds the number of
uncollapsed tiles. -/
theorem cascade_total (rand : Nat → ℚ) :
    ∀ (fuel : Nat) (w : World) (a : Ref), w.uncollapsedCount < fuel →
      ∃ w', cascadeEntanglement rand fuel w a = some w' ∧
        w'.uncollapsedCount ≤ w.uncollapsedCount := by
  intro fuel
  induction fuel with
  | zero => intro w a h; omega
  | succ fuel ih =>
    intro w a h
    rw [cascadeEntanglement]
    cases ht : (w.enter a).tiles[a]? with
    | none => exact ⟨w.enter a, by simp, le_refl _⟩
    | some t =>
      simp only []
      exact forEach_total rand _ _ fuel ih t.entangledWith (w.enter a) (by rw [enter_count]; omega)

theorem uncollapsedCount_le_length (w : World) : w.uncollapsedCount ≤ w.tiles.length :=
  List.countP_le_length _

/-! ## What the cascade leaves behind -/

theorem Closed.stable {w w' : World} {x : Ref} (h : Closed w x) (hf : Frame w w') :
    Closed w' x :=
  fun q type hl hu => h q type (hf.linked_rev hl) (hf.uncollapsed_rev hu)

theorem linkClosed_true (w : World) : LinkClosed (fun _ => True) w :=
  fun _ _ _ _ _ => trivial

theorem collapseTile_uncollapsed_other (rand : Nat → ℚ) (w : World) (b x : Ref)
    (v : Option Int) (hx : x ≠ b) (h : w.Uncollapsed x) :
    (w.collapseTile rand b v).2.Uncollapsed x := by
  obtain ⟨t, ht, hc⟩ := h
  exact ⟨t, by rw [collapseTile_other rand w b x v hx]; exact ht, hc⟩

/-- After the loop over the links of the collapsed tile `self`, every tile of
`links` is collapsed, and every tile collapsed by the loop has all its linked
tiles collapsed. -/
theorem forEach_closed (rand : Nat → ℚ) (recur : World → Ref → Option World)
    (value : World → Option Int) (self : Ref)
    (hsteps : ∀ w b w', w.Collapsed b → recur w b = some w' →
      Steps rand (fun _ => True) (w.enter b) w')
    (hrec : ∀ w b w', w.Collapsed b → recur w b = some w' →
      Closed w' b ∧ ∀ x, w.Uncollapsed x → w'.Collapsed x → Closed w' x) :
    ∀ (links : List (Ref × LinkType)) (w w' : World), w.Collapsed self →
      (∀ l ∈ links, w.Linked self l.1 l.2) →
      (∀ w1, Frame w w1 → value w1 = w1.collapsedStateOf self) →
      forEachM (cascadeBody rand recur value) links w = some w' →
      (∀ l ∈ links, ¬ w'.Uncollapsed l.1) ∧
        ∀ x, w.Uncollapsed x → w'.Collapsed x → Closed w' x := by
  intro links
  induction links with
  | nil =>
    intro w w' _ _ _ h
    simp only [forEachM, Option.some.injEq] at h
    subst h
    refine ⟨by simp, ?_⟩
    intro x hu hc
    exact absurd hu (not_uncollapsed_of_collapsed hc)
  | cons l ls ih =>
    intro w w' hc hl hv h
    obtain ⟨w1, hb, hrest⟩ := forEachM_cons _ l ls w w' h
    have hall : Steps rand (fun _ => True) w w' :=
      forEach_steps rand (fun _ => True) recur value self
        (fun w b w' _ _ hcb hr => hsteps w b w' hcb hr) (l :: ls) w w'
        (linkClosed_true w) trivial hc hl hv h
    have h1 : Steps rand (fun _ => True) w w1 := by
      have h1' : forEachM (cascadeBody rand recur value) [l] w = some w1 := by
        simp [forEachM, hb]
      exact forEach_steps rand (fun _ => True) recur value self
        (fun w b w' _ _ hcb hr => hsteps w b w' hcb hr) [l] w w1
        (linkClosed_true w) trivial hc
        (fun l' hl' => hl l' (by rw [List.mem_singleton] at hl'; subst hl'; exact List.mem_cons_self _ _))
        hv h1'
    have hf1 : Frame w w1 := Steps.toFrame h1
    obtain ⟨ihl, ihx⟩ := ih w1 w' (hf1.collapsed hc)
      (fun l' hl' => hf1.linked (hl l' (List.mem_cons_of_mem l hl')))
      (fun w2 hf2 => hv w2 (hf1.trans hf2)) hrest
    have h2 : Steps rand (fun _ => True) w1 w' :=
      forEach_steps rand (fun _ => True) recur value self
        (fun w b w' _ _ hcb hr => hsteps w b w' hcb hr) ls w1 w'
        (linkClosed_true w1) trivial (hf1.collapsed hc)
        (fun l' hl' => hf1.linked (hl l' (List.mem_cons_of_mem l hl')))
        (fun w2 hf2 => hv w2 (hf1.trans hf2)) hrest
    have hf2 : Frame w1 w' := Steps.toFrame h2
    by_cases hu : w.Uncollapsed l.1
    · rw [cascadeBody_uncollapsed rand recur value w l hu] at hb
      have hcb := collapseTile_collapsed rand w l.1 (forcedValue l.2 (value w)) hu
      obtain ⟨hclb, hclx⟩ := hrec _ l.1 w1 hcb hb
      have hfc : Frame (w.collapseTile rand l.1 (forcedValue l.2 (value w))).2 w1 :=
        (Frame.enter _ l.1).trans (Steps.toFrame (hsteps _ l.1 w1 hcb hb))
      constructor
      · intro l' hl'
        rcases List.mem_cons.1 hl' with rfl | hl'
        · exact not_uncollapsed_of_collapsed (hf2.collapsed (hfc.collapsed hcb))
        · exact ihl l' hl'
      · intro x hux hcx
        obtain ⟨t1, ht1, -⟩ := hf1.tile x _ hux.choose_spec.1
        rcases collapsed_or_uncollapsed ht1 with hc1 | hu1
        · by_cases hxb : x = l.1
          · subst hxb
            exact hclb.stable hf2
          · exact (hclx x (collapseTile_uncollapsed_other rand w l.1 x _ hxb hux) hc1).stable hf2
        · exact ihx x hu1 hcx
    · rw [cascadeBody_skip rand recur value w l hu] at hb
      cases hb
      constructor
      · intro l' hl'
        rcases List.mem_cons.1 hl' with rfl | hl'
        · exact fun hu' => hu (hf2.uncollapsed_rev hu')
        · exact ihl l' hl'
      · exact ihx

/-- After `cascadeEntanglement` on a collapsed tile `a`, every tile linked from
`a` is collapsed, and so is every tile linked from a tile the call collapsed. -/
theorem cascade_closed (rand : Nat → ℚ) :
    ∀ (fuel : Nat) (w : World) (a : Ref) (w' : World), w.Collapsed a →
      cascadeEntanglement rand fuel w a = some w' →
      Closed w' a ∧ ∀ x, w.Uncollapsed x → w'.Collapsed x → Closed w' x := by
  intro fuel
  induction fuel with
  | zero =>
    intro w a w' _ h
    simp [cascadeEntanglement] at h
  | succ fuel ih =>
    intro w a w' hc h
    have hst : Steps rand (fun _ => True) (w.enter a) w' :=
      cascade_steps rand (fun _ => True) (fuel + 1) w a w' (linkClosed_true w) trivial hc h
    obtain ⟨t, ht, hct⟩ := hc
    have hte : (w.enter a).tiles[a]? = some t := ht
    simp only [cascadeEntanglement, hte] at h
    obtain ⟨hl, hx⟩ := forEach_closed rand _ _ a
      (fun w b w' hcb hr => cascade_steps rand (fun _ => True) fuel w b w'
        (linkClosed_true w) trivial hcb hr)
      ih t.entangledWith (w.enter a) w' ⟨t, hte, hct⟩ (fun l hl => ⟨t, hte, hl⟩)
      (fun _ _ => rfl) h
    refine ⟨?_, fun x hu hcx => hx x hu hcx⟩
    intro q type hlq
    have hlq0 : (w.enter a).Linked a q type := (Steps.toFrame hst).linked_rev hlq
    obtain ⟨t0, ht0, hm⟩ := hlq0
    rw [hte] at ht0
    cases ht0
    exact hl (q, type) hm

/-! ## `measure` as a collapse followed by the cascade -/

theorem collapseTile_collapsed_self (rand : Nat → ℚ) (w : World) (b : Ref) (v : Option Int)
    (t : QuantumTile) (ht : w.tiles[b]? = some t) : (w.collapseTile rand b v).2.Collapsed b :=
  ⟨_, collapseTile_self rand w b v t ht, collapse_isCollapsed rand w.draws t.state v⟩

theorem collapseTile_value (rand : Nat → ℚ) (w : World) (b : Ref) (v : Option Int)
    (t : QuantumTile) (ht : w.tiles[b]? = some t) :
    (w.collapseTile rand b v).1 = (w.collapseTile rand b v).2.collapsedStateOf b := by
  rw [collapseTile_result rand w b v t ht, collapse_result]
  simp [World.collapsedStateOf, collapseTile_self rand w b v t ht]

theorem collapseTile_count_le (rand : Nat → ℚ) (w : World) (b : Ref) (v : Option Int) :
    (w.collapseTile rand b v).2.uncollapsedCount ≤ w.uncollapsedCount := by
  cases ht : w.tiles[b]? with
  | none => simp [World.collapseTile, ht]
  | some t =>
    rcases collapsed_or_uncollapsed ht with hc | hu
    · obtain ⟨t', ht', hc'⟩ := hc
      rw [collapseTile_of_collapsed rand w b v t' ht' hc']
    · have := collapseTile_count rand w b v hu
      omega

theorem measureFuel_eq (rand : Nat → ℚ) (fuel : Nat) (w : World) (self : Ref)
    (t : QuantumTile) (ht : w.tiles[self]? = some t) (w' : World)
    (h : forEachM (cascadeBody rand (fun w1 r1 => cascadeEntanglement rand fuel w1 r1)
      (fun _ => (w.collapseTile rand self none).1)) t.entangledWith
      (w.collapseTile rand self none).2 = some w') :
    QuantumTile.measureFuel rand fuel w self = some ((w.collapseTile rand self none).1, w') := by
  simp only [QuantumTile.measureFuel, ht, h]

/-- `measure()` on a tile of the store returns the value of its `collapse()`;
the store after it is the store after that collapse followed by a sequence of
propagations among the tiles of `R`, after which every tile linked from the
measured tile, or from a tile the cascade collapsed, is collapsed. -/
theorem measureFuel_spec (rand : Nat → ℚ) (R : Ref → Prop) (fuel : Nat) (w : World)
    (self : Ref) (t : QuantumTile) (ht : w.tiles[self]? = some t) (hR : LinkClosed R w)
    (hself : R self) (hfuel : w.uncollapsedCount ≤ fuel) :
    ∃ w', QuantumTile.measureFuel rand fuel w self =
        some ((w.collapseTile rand self none).1, w') ∧
      Steps rand R (w.collapseTile rand self none).2 w' ∧ Closed w' self ∧
      ∀ x, (w.collapseTile rand self none).2.Uncollapsed x → w'.Collapsed x → Closed w' x := by
  have hf0 : Frame w (w.collapseTile rand self none).2 := Frame.collapseTile rand w self none
  have hc0 : (w.collapseTile rand self none).2.Collapsed self :=
    collapseTile_collapsed_self rand w self none t ht
  have hv : ∀ w1, Frame (w.collapseTile rand self none).2 w1 →
      (fun _ : World => (w.collapseTile rand self none).1) w1 = w1.collapsedStateOf self := by
    intro w1 hf1
    rw [hf1.collapsedStateOf hc0]
    exact collapseTile_value rand w self none t ht
  have hl0 : ∀ l ∈ t.entangledWith, (w.collapseTile rand self none).2.Linked self l.1 l.2 :=
    fun l hl => hf0.linked ⟨t, ht, hl⟩
  obtain ⟨w', hw', -⟩ := forEach_total rand
    (fun w1 r1 => cascadeEntanglement rand fuel w1 r1)
    (fun _ => (w.collapseTile rand self none).1) fuel
    (fun w1 b h1 => cascade_total rand fuel w1 b h1) t.entangledWith
    (w.collapseTile rand self none).2
    (le_trans (collapseTile_count_le rand w self none) hfuel)
  refine ⟨w', measureFuel_eq rand fuel w self t ht w' hw', ?_, ?_⟩
  · exact forEach_steps rand R _ _ self
      (fun w1 b w2 hR1 hb hcb hr => cascade_steps rand R fuel w1 b w2 hR1 hb hcb hr)
      t.entangledWith _ w' (hf0.linkClosed hR) hself hc0 hl0 hv hw'
  · have hst : Steps rand (fun _ => True) (w.collapseTile rand self none).2 w' :=
      forEach_steps rand (fun _ => True) _ _ self
        (fun w1 b w2 hR1 hb hcb hr => cascade_steps rand _ fuel w1 b w2 hR1 hb hcb hr)
        t.entangledWith _ w' (linkClosed_true _) trivial hc0 hl0 hv hw'
    obtain ⟨hl, hx⟩ := forEach_closed rand _ _ self
      (fun w1 b w2 hcb hr => cascade_steps rand (fun _ => True) fuel w1 b w2
        (linkClosed_true w1) trivial hcb hr)
      (fun w1 b w2 hcb hr => cascade_closed rand fuel w1 b w2 hcb hr)
      t.entangledWith _ w' hc0 hl0 hv hw'
    refine ⟨?_, hx⟩
    intro q type hlq
    obtain ⟨t0, ht0, hm⟩ := (hf0.trans (Steps.toFrame hst)).linked_rev hlq
    rw [ht] at ht0
    cases ht0
    exact hl (q, type) hm

theorem measure_spec (rand : Nat → ℚ) (R : Ref → Prop) (w : World)
    (self : Ref) (t : QuantumTile) (ht : w.tiles[self]? = some t) (hR : LinkClosed R w)
    (hself : R self) :
    ∃ w', QuantumTile.measure rand w self = some ((w.collapseTile rand self none).1, w') ∧
      Steps rand R (w.collapseTile rand self none).2 w' ∧ Closed w' self ∧
      ∀ x, (w.collapseTile rand self none).2.Uncollapsed x → w'.Collapsed x → Closed w' x :=
  measureFuel_spec rand R (w.tiles.length + 1) w self t ht hR hself
    (le_trans (uncollapsedCount_le_length w) (Nat.le_succ _))

theorem measureFuel_none (rand : Nat → ℚ) (fuel : Nat) (w : World) (self : Ref)
    (h : w.tiles[self]? = none) : QuantumTile.measureFuel rand fuel w self = some (none, w) := by
  simp [QuantumTile.measureFuel, h]

/-- The result of `measure()` does not depend on the fuel, once there is enough. -/
theorem measureFuel_fuel (rand : Nat → ℚ) (fuel fuel' : Nat) (w : World) (self : Ref)
    (h : w.uncollapsedCount ≤ fuel) (h' : w.uncollapsedCount ≤ fuel') :
    QuantumTile.measureFuel rand fuel w self = QuantumTile.measureFuel rand fuel' w self := by
  cases ht : w.tiles[self]? with
  | none => rw [measureFuel_none rand fuel w self ht, measureFuel_none rand fuel' w self ht]
  | some t =>
    have key : ∀ f1 f2 : Nat, f1 ≤ f2 → w.uncollapsedCount ≤ f1 →
        QuantumTile.measureFuel rand f1 w self = QuantumTile.measureFuel rand f2 w self := by
      intro f1 f2 hle h1
      obtain ⟨w1, hm1, -⟩ := measureFuel_spec rand (fun _ => True) f1 w self t ht
        (linkClosed_true w) trivial h1
      rw [hm1]
      simp only [QuantumTile.measureFuel, ht] at hm1 ⊢
      split at hm1
      · cases hm1
      · next w2 hw2 =>
        have := forEachM_mono _
          (cascadeBody rand (fun w1 r1 => cascadeEntanglement rand f2 w1 r1)
            (fun _ => (w.collapseTile rand self none).1))
          (cascadeBody_mono rand _ _ _
            (fun w3 b w4 h34 => cascade_fuel_le rand f1 f2 hle w3 b w4 h34)) _ _ _ hw2
        rw [this]
        simp only [Option.some.injEq, Prod.mk.injEq, true_and] at hm1
        rw [hm1]
    rcases Nat.le_total fuel fuel' with hle | hle
    · exact key fuel fuel' hle h
    · exact (key fuel' fuel hle h').symm

/-! ## Claims -/

theorem Steps.invariant {rand : Nat → ℚ} {R : Ref → Prop} (P : World → Prop)
    (hstep : ∀ w1 w2, P w1 → Step rand R w1 w2 → P w2) {w w' : World}
    (h : Steps rand R w w') (hP : P w) : P w' := by
  induction h with
  | refl => exact hP
  | tail _ hs ih => exact hstep _ _ ih hs

theorem linkClosed_reach (w : World) (a : Ref) : LinkClosed (Reach w a) w :=
  fun _ _ type hp hl => Relation.ReflTransGen.tail hp ⟨type, hl⟩

theorem measureTile_uncollapsed (rand : Nat → ℚ) (g : QuantumGrid) (w : World) (row col : Int)
    (T : Ref) (hT : g.getTile row col = some T) (hu : w.Uncollapsed T) :
    g.measureTile rand w row col = QuantumTile.measure rand w T := by
  obtain ⟨t, ht, hc⟩ := hu
  simp [QuantumGrid.measureTile, hT, ht, hc]

/-- The outcome a propagation gives the tile it collapses. -/
theorem step_value {rand : Nat → ℚ} {R : Ref → Prop} {w w' : World} (h : Step rand R w w') :
    ∃ p b type, R p ∧ R b ∧ w.Collapsed p ∧ w.Linked p b type ∧ w.Uncollapsed b ∧
      w'.Collapsed b ∧ (∀ x, x ≠ b → w'.tiles[x]? = w.tiles[x]?) ∧
      ∀ k, forcedValue type (w.collapsedStateOf p) = some k → w'.collapsedStateOf b = some k := by
  obtain ⟨p, b, type, hRp, hRb, hcp, hl, hub, rfl⟩ := h
  refine ⟨p, b, type, hRp, hRb, hcp, hl, hub, ?_, ?_, ?_⟩
  · exact (Frame.enter _ b).collapsed (collapseTile_collapsed rand w b _ hub)
  · intro x hx
    rw [enter_tiles, collapseTile_other rand w b x _ hx]
  · intro k hk
    obtain ⟨tb, htb, hcb⟩ := hub
    rw [hk]
    have hself := collapseTile_self rand w b (some k) tb htb
    rw [collapse_forced rand w.draws tb.state k hcb] at hself
    simp only [World.collapsedStateOf, enter_tiles, hself]

/-- C1: when every tile reachable from the measured tile `T` through
entanglement links is uncollapsed and every link among them is `same`,
`measureTile` on `T` returns an outcome `k` and leaves every tile reachable from
`T`, around cycles too, collapsed with `collapsedState = k`. -/
theorem C1_same_cascade_collapses_reachable (rand : Nat → ℚ) (g : QuantumGrid) (w : World)
    (row col : Int) (T : Ref) (hT : g.getTile row col = some T)
    (hunc : ∀ x, Reach w T x → w.Uncollapsed x)
    (hsame : ∀ x y type, Reach w T x → w.Linked x y type → type = LinkType.same) :
    ∃ k w', g.measureTile rand w row col = some (some k, w') ∧
      ∀ x, Reach w T x → ∃ t, w'.tiles[x]? = some t ∧ t.state.isCollapsed = true ∧
        t.state.collapsedState = some k := by
  have huT : w.Uncollapsed T := hunc T Relation.ReflTransGen.refl
  obtain ⟨t, ht, hc⟩ := huT
  obtain ⟨w', hm, hst, hclT, hclx⟩ :=
    measure_spec rand (Reach w T) w T t ht (linkClosed_reach w T) Relation.ReflTransGen.refl
  obtain ⟨k, hk, -⟩ := collapse_some rand w.draws t.state none hc
  have hres : (w.collapseTile rand T none).1 = some k := by
    rw [collapseTile_result rand w T none t ht, collapse_result, hk]
  have hf0 : Frame w (w.collapseTile rand T none).2 := Frame.collapseTile rand w T none
  have hf1 : Frame (w.collapseTile rand T none).2 w' := Steps.toFrame hst
  have hc0 : (w.collapseTile rand T none).2.Collapsed T :=
    collapseTile_collapsed_self rand w T none t ht
  refine ⟨k, w', ?_, ?_⟩
  · rw [measureTile_uncollapsed rand g w row col T hT ⟨t, ht, hc⟩, hm, hres]
  -- every reachable tile is collapsed afterwards
  have hcol : ∀ x, Reach w T x → w'.Collapsed x := by
    intro x hx
    induction hx with
    | refl => exact hf1.collapsed hc0
    | @tail y z hy hyz ih =>
      obtain ⟨type, hl⟩ := hyz
      have hcl : Closed w' y := by
        by_cases hyT : y = T
        · subst hyT; exact hclT
        · exact hclx y (collapseTile_uncollapsed_other rand w T y none hyT (hunc y hy)) ih
      have hz : w.Uncollapsed z := hunc z (Relation.ReflTransGen.tail hy ⟨type, hl⟩)
      obtain ⟨tz, htz, -⟩ := hz
      obtain ⟨tz', htz', -⟩ := (hf0.trans hf1).tile z tz htz
      rcases collapsed_or_uncollapsed htz' with h1 | h1
      · exact h1
      · exact absurd h1 (hcl z type ((hf0.trans hf1).linked hl))
  -- every reachable collapsed tile holds the outcome `k`
  have hval : ∀ x, Reach w T x → w'.Collapsed x → w'.collapsedStateOf x = some k := by
    have hinv := Steps.invariant
      (fun w1 => Frame w w1 ∧ ∀ x, Reach w T x → w1.Collapsed x → w1.collapsedStateOf x = some k)
      ?_ hst ⟨hf0, ?_⟩
    · exact hinv.2
    · rintro w1 w2 ⟨hfw1, hI⟩ hs
      refine ⟨hfw1.trans hs.frame, ?_⟩
      obtain ⟨p, b, type, hRp, hRb, hcp, hl, hub, hcb, hoth, hv⟩ := step_value hs
      intro x hx hcx
      by_cases hxb : x = b
      · subst hxb
        apply hv
        have : type = LinkType.same := hsame p x type hRp (hfw1.linked_rev hl)
        subst this
        exact hI p hRp hcp
      · have hcx1 : w1.Collapsed x := by
          obtain ⟨tx, htx, hctx⟩ := hcx
          exact ⟨tx, by rw [← hoth x hxb]; exact htx, hctx⟩
        have := hI x hx hcx1
        simp only [World.collapsedStateOf, hoth x hxb] at this ⊢
        exact this
    · intro x hx hcx
      by_cases hxT : x = T
      · subst hxT
        rw [← collapseTile_value rand w x none t ht, hres]
      · exact absurd (collapseTile_uncollapsed_other rand w T x none hxT (hunc x hx))
          (not_uncollapsed_of_collapsed hcx)
  intro x hx
  obtain ⟨tx, htx, hctx⟩ := hcol x hx
  refine ⟨tx, htx, hctx, ?_⟩
  have := hval x hx ⟨tx, htx, hctx⟩
  simpa [World.collapsedStateOf, htx] using this

theorem reach_in_store (w : World) (a : Ref)
    (hlinks : ∀ t ∈ w.tiles, ∀ l ∈ t.entangledWith, l.1 < w.tiles.length)
    (ha : a < w.tiles.length) : ∀ x, Reach w a x → x < w.tiles.length := by
  intro x hx
  induction hx with
  | refl => exact ha
  | tail _ hyz _ =>
    obtain ⟨type, t, ht, hm⟩ := hyz
    exact hlinks t (List.getElem?_mem ht) _ hm

theorem uncollapsed_of_all (w : World) (x : Ref)
    (hall : ∀ t ∈ w.tiles, t.state.isCollapsed = false) (hx : x < w.tiles.length) :
    w.Uncollapsed x :=
  ⟨w.tiles[x], List.getElem?_eq_getElem hx, hall _ (List.getElem_mem hx)⟩

theorem same_of_all (w : World)
    (hall : ∀ t ∈ w.tiles, ∀ l ∈ t.entangledWith, l.2 = LinkType.same) (x y : Ref)
    (type : LinkType) (h : w.Linked x y type) : type = LinkType.same := by
  obtain ⟨t, ht, hm⟩ := h
  exact hall t (List.getElem?_mem ht) _ hm

/-- C1 on the cycle A–B–C–A of `cycleGrid`, measured at A. -/
theorem C1_same_cascade_collapses_reachable_witness :
    ∃ k w', cycleGrid.1.measureTile (fun _ => 3 / 4) cycleGrid.2 0 0 = some (some k, w') ∧
      ∀ x, Reach cycleGrid.2 0 x → ∃ t, w'.tiles[x]? = some t ∧ t.state.isCollapsed = true ∧
        t.state.collapsedState = some k :=
  C1_same_cascade_collapses_reachable (fun _ => 3 / 4) cycleGrid.1 cycleGrid.2 0 0 0
    (by decide)
    (fun x hx => uncollapsed_of_all cycleGrid.2 x (by decide)
      (reach_in_store cycleGrid.2 0 (by decide) (by decide) x hx))
    (fun x y type _ hl => same_of_all cycleGrid.2 (by decide) x y type hl)

/-! ## The sampling loop -/

/-- The index chosen by the loop is one the loop visits. -/
theorem sampleFrom_bounds (probs : List ℚ) (r : ℚ) :
    ∀ (steps i : Nat) (c : Option ℚ) (j : Nat), sampleFrom probs r steps i c = some j →
      i ≤ j ∧ j < i + steps := by
  intro steps
  induction steps with
  | zero => intro i c j h; simp [sampleFrom] at h
  | succ steps ih =>
    intro i c j h
    unfold sampleFrom at h
    split at h
    · split at h
      · cases h; omega
      · have := ih _ _ _ h; omega
    · have := ih _ _ _ h; omega

theorem sum_take_succ (probs : List ℚ) (i : Nat) (p : ℚ) (h : probs[i]? = some p) :
    (probs.take (i + 1)).sum = (probs.take i).sum + p := by
  rw [List.take_succ, h]
  simp

/-- With the running sum equal to the sum of the first `i` weights, the loop
returns the least index from `i` on whose cumulative weight exceeds the draw,
and ends without a choice when there is none. -/
theorem sampleFrom_spec (probs : List ℚ) (r : ℚ) :
    ∀ (steps i : Nat), i + steps ≤ probs.length →
      (∀ j, sampleFrom probs r steps i (some (probs.take i).sum) = some j →
        r < (probs.take (j + 1)).sum ∧
          ∀ m, i ≤ m → m < j → ¬ r < (probs.take (m + 1)).sum) ∧
      (sampleFrom probs r steps i (some (probs.take i).sum) = none →
        ∀ m, i ≤ m → m < i + steps → ¬ r < (probs.take (m + 1)).sum) := by
  intro steps
  induction steps with
  | zero =>
    intro i _
    refine ⟨fun j h => by simp [sampleFrom] at h, fun _ m h1 h2 => by omega⟩
  | succ steps ih =>
    intro i hi
    have hlt : i < probs.length := by omega
    have hp : probs[i]? = some probs[i] := List.getElem?_eq_getElem hlt
    have hsum := sum_take_succ probs i probs[i] hp
    obtain ⟨ih1, ih2⟩ := ih (i + 1) (by omega)
    by_cases hr : r < (probs.take i).sum + probs[i]
    · have hs : sampleFrom probs r (steps + 1) i (some (probs.take i).sum) = some i := by
        simp [sampleFrom, hp, hr]
      rw [hs]
      refine ⟨?_, fun h => by cases h⟩
      intro j hj
      cases hj
      exact ⟨by rw [hsum]; exact hr, fun m h1 h2 => by omega⟩
    · have hs : sampleFrom probs r (steps + 1) i (some (probs.take i).sum) =
          sampleFrom probs r steps (i + 1) (some (probs.take (i + 1)).sum) := by
        rw [hsum]
        simp [sampleFrom, hp, hr]
      rw [hs]
      constructor
      · intro j hj
        obtain ⟨h1, h2⟩ := ih1 j hj
        refine ⟨h1, ?_⟩
        intro m hm1 hm2
        rcases Nat.eq_or_lt_of_le hm1 with rfl | hlt'
        · rw [hsum]; exact hr
        · exact h2 m hlt' hm2
      · intro hnone m hm1 hm2
        rcases Nat.eq_or_lt_of_le hm1 with rfl | hlt'
        · rw [hsum]; exact hr
        · exact ih2 hnone m hlt' (by omega)

/-- The entries of `oneHot n i` for an index `i` of the array. -/
theorem oneHot_spec (n i : Nat) (hi : i < n) :
    (oneHot n (i : Int)).length = n ∧
      ∀ j, j < n → (oneHot n (i : Int))[j]? = some (if j = i then 1 else 0) := by
  have h0 : ¬ ((i : Int) < 0) := by omega
  simp only [oneHot, h0, Int.toNat_ofNat, hi, if_true, if_false]
  refine ⟨by simp, ?_⟩
  intro j hj
  rw [List.getElem?_set]
  by_cases hij : i = j
  · subst hij; simp [hi]
  · have : ¬ j = i := fun e => hij e.symm
    simp [hij, this, hj]

/-- C4: `measure()` returns on every store, whatever the links (cycles,
self-links, mixed relations), with the same result for every fuel that is at
least the number of uncollapsed tiles; and `cascadeEntanglement` is entered at
most once per tile during the call: the tiles entered are pairwise distinct,
were all uncollapsed before the call, and number at most the tiles that were
uncollapsed before the call. -/
theorem C4_measure_terminates_cascade_once_per_tile (rand : Nat → ℚ) (w : World) (self : Ref) :
    ∃ res, QuantumTile.measure rand w self = some res ∧
      (∀ fuel, w.uncollapsedCount ≤ fuel → QuantumTile.measureFuel rand fuel w self = some res) ∧
      ∃ entered : List Ref, res.2.cascades = w.cascades ++ entered ∧ entered.Nodup ∧
        entered.length ≤ w.uncollapsedCount ∧ ∀ x ∈ entered, w.Uncollapsed x := by
  have hfuel : ∀ fuel res, QuantumTile.measure rand w self = some res →
      w.uncollapsedCount ≤ fuel → QuantumTile.measureFuel rand fuel w self = some res := by
    intro fuel res hres hle
    rw [← hres, QuantumTile.measure]
    exact measureFuel_fuel rand fuel _ w self hle
      (le_trans (uncollapsedCount_le_length w) (Nat.le_succ _))
  cases ht : w.tiles[self]? with
  | none =>
    have hm : QuantumTile.measure rand w self = some (none, w) :=
      measureFuel_none rand _ w self ht
    exact ⟨(none, w), hm, fun fuel hle => hfuel fuel _ hm hle,
      [], by simp, List.nodup_nil, Nat.zero_le _, by simp⟩
  | some t =>
    obtain ⟨w', hm, hst, -, -⟩ := measure_spec rand (fun _ => True) w self t ht
      (linkClosed_true w) trivial
    obtain ⟨entered, hc, hnd, hall, hcount⟩ := Steps.trace hst
    have hf0 : Frame w (w.collapseTile rand self none).2 := Frame.collapseTile rand w self none
    have hle0 := collapseTile_count_le rand w self none
    refine ⟨_, hm, fun fuel hle => hfuel fuel _ hm hle, entered, ?_, hnd, by omega, ?_⟩
    · rw [hc, collapseTile_cascades]
    · exact fun x hx => hf0.uncollapsed_rev (hall x hx).2.1

/-- C5: `measureTile(row, col)` returns, and every tile that is not reachable
from the measured tile through entanglement links is left as it was (weights,
collapsed flag, outcome); no tile's link list changes, and the store keeps its
size. -/
theorem C5_measureTile_frame (rand : Nat → ℚ) (g : QuantumGrid) (w : World) (row col : Int) :
    ∃ res w', g.measureTile rand w row col = some (res, w') ∧
      (∀ x : Ref, (∀ T, g.getTile row col = some T → ¬ Reach w T x) →
        w'.tiles[x]? = w.tiles[x]?) ∧
      (∀ x : Ref, (w'.tiles[x]?).map (fun t : QuantumTile => t.entangledWith) =
        (w.tiles[x]?).map (fun t : QuantumTile => t.entangledWith)) ∧
      w'.tiles.length = w.tiles.length := by
  cases hT : g.getTile row col with
  | none => exact ⟨none, w, by simp [QuantumGrid.measureTile, hT], fun _ _ => rfl, fun _ => rfl, rfl⟩
  | some T =>
    cases ht : w.tiles[T]? with
    | none =>
      exact ⟨none, w, by simp [QuantumGrid.measureTile, hT, ht], fun _ _ => rfl, fun _ => rfl, rfl⟩
    | some t =>
      cases hc : t.state.isCollapsed with
      | true =>
        exact ⟨t.state.collapsedState, w, by simp [QuantumGrid.measureTile, hT, ht, hc],
          fun _ _ => rfl, fun _ => rfl, rfl⟩
      | false =>
        obtain ⟨w', hm, hst, -, -⟩ := measure_spec rand (Reach w T) w T t ht
          (linkClosed_reach w T) Relation.ReflTransGen.refl
        have hf : Frame w w' := (Frame.collapseTile rand w T none).trans (Steps.toFrame hst)
        refine ⟨(w.collapseTile rand T none).1, w', ?_, ?_, ?_, hf.length⟩
        · rw [measureTile_uncollapsed rand g w row col T hT ⟨t, ht, hc⟩, hm]
        · intro x hx
          have hxR : ¬ Reach w T x := hx T rfl
          have hxT : x ≠ T := fun e => hxR (e ▸ Relation.ReflTransGen.refl)
          rw [Steps.unchangedOutside hst x hxR, collapseTile_other rand w T x none hxT]
        · intro x
          cases hx : w.tiles[x]? with
          | none =>
            have : w'.tiles[x]? = none := by
              rw [List.getElem?_eq_none_iff] at hx ⊢
              rw [hf.length]
              exact hx
            rw [this]
          | some tx =>
            obtain ⟨tx', htx', -, -, hl, -, -⟩ := hf.tile x tx hx
            rw [htx']
            simp [hl]

/-- The loop does nothing when no linked tile is uncollapsed. -/
theorem forEachM_skip (rand : Nat → ℚ) (recur : World → Ref → Option World)
    (value : World → Option Int) (w : World) :
    ∀ links : List (Ref × LinkType), (∀ l ∈ links, ¬ w.Uncollapsed l.1) →
      forEachM (cascadeBody rand recur value) links w = some w := by
  intro links
  induction links with
  | nil => intro _; rfl
  | cons l ls ih =>
    intro h
    simp only [forEachM, cascadeBody_skip rand recur value w l (h l (List.mem_cons_self l ls))]
    exact ih (fun l' hl' => h l' (List.mem_cons_of_mem l hl'))

/-- C6, counterexample: on the store `lateLink` the first tile is collapsed and
the second, linked to it afterwards, is not; `measure()` on the first tile
returns its outcome 1 and collapses the second tile to 1, so it is not a no-op. -/
theorem C6_measure_collapsed_counterexample :
    lateLink.2.tiles[0]?.map (fun t : QuantumTile => t.state.isCollapsed) = some true ∧
    lateLink.2.tiles[1]?.map (fun t : QuantumTile => t.state.isCollapsed) = some false ∧
    (QuantumTile.measure (fun _ => 3 / 4) lateLink.2 0).map
        (fun r => (r.1, r.2.tiles[1]?.map (fun t : QuantumTile => (t.state.isCollapsed, t.state.collapsedState))))
      = some (some 1, some (true, some 1)) ∧
    QuantumTile.measure (fun _ => 3 / 4) lateLink.2 0 ≠ some (some 1, lateLink.2) := by
  decide!

/-- C7: `measureTile(row, col)` returns `null` and leaves the store unchanged
when `(row, col)` is out of bounds; when the target tile is already collapsed it
returns the tile's existing outcome and leaves the store unchanged: no tile
changes, no random draw is taken and `cascadeEntanglement` is not entered, even
if a linked tile is uncollapsed. -/
theorem C7_measureTile_guard (rand : Nat → ℚ) (g : QuantumGrid) (w : World) (row col : Int) :
    (¬ (0 ≤ row ∧ row < (g.rows : Int) ∧ 0 ≤ col ∧ col < (g.cols : Int)) →
      g.measureTile rand w row col = some (none, w)) ∧
    (∀ (ref : Ref) (t : QuantumTile), g.getTile row col = some ref → w.tiles[ref]? = some t →
      t.state.isCollapsed = true →
      g.measureTile rand w row col = some (t.state.collapsedState, w)) := by
  constructor
  · intro h
    have : g.getTile row col = none := by
      unfold QuantumGrid.getTile
      rw [if_neg]
      simpa using h
    simp [QuantumGrid.measureTile, this]
  · intro ref t hT ht hc
    simp [QuantumGrid.measureTile, hT, ht, hc]

/-- C7 on `lateLink`: out of bounds at (0, 2), and at (0, 0) whose tile is
collapsed and linked to the uncollapsed tile (0, 1). -/
theorem C7_measureTile_guard_witness :
    lateLink.1.measureTile (fun _ => 3 / 4) lateLink.2 0 2 = some (none, lateLink.2) ∧
    lateLink.1.measureTile (fun _ => 3 / 4) lateLink.2 0 0 =
      some (collapsedOne.collapsedState, lateLink.2) :=
  ⟨(C7_measureTile_guard (fun _ => 3 / 4) lateLink.1 lateLink.2 0 2).1 (by decide),
   (C7_measureTile_guard (fun _ => 3 / 4) lateLink.1 lateLink.2 0 0).2 0
     ⟨0, 0, collapsedOne, [(1, LinkType.same)]⟩ (by decide) (by decide!) (by decide)⟩

/-- C8: on a collapsed state, `collapse(f)` returns `collapsedState` whatever the
argument `f` (absent, equal to the outcome or not, in range or not), takes no
random draw and leaves the state unchanged. -/
theorem C8_collapse_collapsed_noop (rand : Nat → ℚ) (draws : Nat) (s : QuantumState)
    (f : Option Int) (h : s.isCollapsed = true) :
    s.collapse rand draws f = (s.collapsedState, s, draws) :=
  collapse_of_collapsed rand draws s f h

/-- C8 on a state collapsed to 1, with the out-of-range argument 7. -/
theorem C8_collapse_collapsed_noop_witness :
    collapsedOne.collapse (fun _ => 0) 0 (some 7) = (some 1, collapsedOne, 0) :=
  C8_collapse_collapsed_noop (fun _ => 0) 0 collapsedOne (some 7) rfl

/-! ## A pair of linked tiles -/

theorem collapseTile_forced_value (rand : Nat → ℚ) (w : World) (b : Ref) (k : Int)
    (h : w.Uncollapsed b) : (w.collapseTile rand b (some k)).2.collapsedStateOf b = some k := by
  obtain ⟨tb, htb, hcb⟩ := h
  have hself := collapseTile_self rand w b (some k) tb htb
  rw [collapse_forced rand w.draws tb.state k hcb] at hself
  simp only [World.collapsedStateOf, hself]

/-- The loop over the single link `(b, type)` of a tile whose outcome is `k`,
with `b` uncollapsed: `b` ends collapsed, with the outcome forced by the link. -/
theorem forEach_single (rand : Nat → ℚ) (recur : World → Ref → Option World)
    (value : World → Option Int) (b : Ref) (type : LinkType) (k : Int) (w w' : World)
    (hsteps : ∀ w1 b1 w2, w1.Collapsed b1 → recur w1 b1 = some w2 →
      Steps rand (fun _ => True) (w1.enter b1) w2)
    (hb : w.Uncollapsed b) (hv : value w = some k)
    (h : forEachM (cascadeBody rand recur value) [(b, type)] w = some w') :
    w'.Collapsed b ∧ w'.collapsedStateOf b = forcedValue type (some k) := by
  obtain ⟨w1, h1, h2⟩ := forEachM_cons _ _ _ w w' h
  simp only [forEachM, Option.some.injEq] at h2
  subst h2
  rw [cascadeBody_uncollapsed rand recur value w (b, type) hb, hv] at h1
  have hcb := collapseTile_collapsed rand w b (forcedValue type (some k)) hb
  have hf : Frame (w.collapseTile rand b (forcedValue type (some k))).2 w1 :=
    (Frame.enter _ b).trans (Steps.toFrame (hsteps _ b w1 hcb h1))
  refine ⟨hf.collapsed hcb, ?_⟩
  rw [hf.collapsedStateOf hcb]
  cases type
  · exact collapseTile_forced_value rand w b k hb
  · exact collapseTile_forced_value rand w b (1 - k) hb

theorem measureFuel_inv (rand : Nat → ℚ) (fuel : Nat) (w : World) (self : Ref)
    (t : QuantumTile) (ht : w.tiles[self]? = some t) (res : Option Int) (w' : World)
    (h : QuantumTile.measureFuel rand fuel w self = some (res, w')) :
    res = (w.collapseTile rand self none).1 ∧
      forEachM (cascadeBody rand (fun w1 r1 => cascadeEntanglement rand fuel w1 r1)
        (fun _ => (w.collapseTile rand self none).1)) t.entangledWith
        (w.collapseTile rand self none).2 = some w' := by
  simp only [QuantumTile.measureFuel, ht] at h
  split at h
  · cases h
  · next w1 hw1 =>
    simp only [Option.some.injEq, Prod.mk.injEq] at h
    exact ⟨h.1.symm, h.2 ▸ hw1⟩

/-- Measuring an uncollapsed tile `A` whose only link goes to an uncollapsed tile
`B`: `measure()` returns an outcome `k` and `B` ends collapsed with the outcome
forced by the link. -/
theorem measure_pair (rand : Nat → ℚ) (w : World) (A B : Ref) (tA : QuantumTile)
    (type : LinkType) (hAB : A ≠ B) (htA : w.tiles[A]? = some tA)
    (hcA : tA.state.isCollapsed = false) (hlA : tA.entangledWith = [(B, type)])
    (huB : w.Uncollapsed B) :
    ∃ k w', QuantumTile.measure rand w A = some (some k, w') ∧
      (tA.state.collapse rand w.draws none).1 = some k ∧
      w'.collapsedStateOf A = some k ∧
      w'.Collapsed B ∧ w'.collapsedStateOf B = forcedValue type (some k) := by
  obtain ⟨w', hm, hst, -, -⟩ := measure_spec rand (fun _ => True) w A tA htA
    (linkClosed_true w) trivial
  obtain ⟨k, hk, -⟩ := collapse_some rand w.draws tA.state none hcA
  have hres : (w.collapseTile rand A none).1 = some k := by
    rw [collapseTile_result rand w A none tA htA, collapse_result, hk]
  obtain ⟨-, hloop⟩ := measureFuel_inv rand _ w A tA htA _ w' hm
  rw [hlA] at hloop
  obtain ⟨hcB, hvB⟩ := forEach_single rand _ _ B type k _ w'
    (fun w1 b1 w2 hc1 hr => cascade_steps rand (fun _ => True) _ w1 b1 w2
      (linkClosed_true w1) trivial hc1 hr)
    (collapseTile_uncollapsed_other rand w A B none (Ne.symm hAB) huB) hres hloop
  refine ⟨k, w', by rw [hm, hres], ?_, ?_, hcB, hvB⟩
  · rw [← hres, collapseTile_result rand w A none tA htA]
  · rw [(Steps.toFrame hst).collapsedStateOf (collapseTile_collapsed_self rand w A none tA htA),
      ← collapseTile_value rand w A none tA htA, hres]

/-- `cascadeEntanglement()` on a tile `A` of outcome `k` whose only link
goes to an uncollapsed tile `B`: the call returns and `B` ends collapsed with the
outcome forced by the link. -/
theorem cascade_pair (rand : Nat → ℚ) (w : World) (A B : Ref) (tA : QuantumTile)
    (type : LinkType) (k : Int) (htA : w.tiles[A]? = some tA)
    (hkA : tA.state.collapsedState = some k)
    (hlA : tA.entangledWith = [(B, type)]) (huB : w.Uncollapsed B) :
    ∃ w', cascadeEntanglement rand (w.tiles.length + 1) w A = some w' ∧
      w'.Collapsed B ∧ w'.collapsedStateOf B = forcedValue type (some k) := by
  obtain ⟨w', hw', -⟩ := cascade_total rand (w.tiles.length + 1) w A
    (Nat.lt_succ_of_le (uncollapsedCount_le_length w))
  refine ⟨w', hw', ?_⟩
  have hte : (w.enter A).tiles[A]? = some tA := htA
  simp only [cascadeEntanglement, hte, hlA] at hw'
  exact forEach_single rand _ _ B type k (w.enter A) w'
    (fun w1 b1 w2 hc1 hr => cascade_steps rand (fun _ => True) _ w1 b1 w2
      (linkClosed_true w1) trivial hc1 hr)
    huB (by simp [World.collapsedStateOf, hte, hkA]) hw'

/-! ## Claims on a pair of tiles linked `opposite` -/

/-- C2: with two outcomes, for two uncollapsed tiles `A` and `B` where the only
link of `A` is the `opposite` link to `B` (whatever the links of `B`),
`measureTile` on `A` returns an outcome `k` that is 0 or 1 and leaves `B`
collapsed with outcome `1 - k`: measuring `A` to 0 leaves `B` at 1, measuring
`A` to 1 leaves `B` at 0. -/
theorem C2_opposite_binary (rand : Nat → ℚ) (g : QuantumGrid) (w : World) (row col : Int)
    (A B : Ref) (tA tB : QuantumTile) (hg : g.getTile row col = some A) (hAB : A ≠ B)
    (htA : w.tiles[A]? = some tA) (htB : w.tiles[B]? = some tB)
    (hnA : tA.state.numStates = 2)
    (hcA : tA.state.isCollapsed = false) (hcB : tB.state.isCollapsed = false)
    (hlA : tA.entangledWith = [(B, LinkType.opposite)]) :
    ∃ k w', g.measureTile rand w row col = some (some k, w') ∧ (k = 0 ∨ k = 1) ∧
      ∃ tB', w'.tiles[B]? = some tB' ∧ tB'.state.isCollapsed = true ∧
        tB'.state.collapsedState = some (1 - k) ∧
        (k = 0 → tB'.state.collapsedState = some 1) ∧
        (k = 1 → tB'.state.collapsedState = some 0) := by
  obtain ⟨k, w', hm, hk, -, ⟨tB', htB', hcB'⟩, hvB⟩ :=
    measure_pair rand w A B tA LinkType.opposite hAB htA hcA hlA ⟨tB, htB, hcB⟩
  have hk01 : k = 0 ∨ k = 1 := by
    simp only [QuantumState.collapse, hcA, hnA] at hk
    cases hs : sampleFrom tA.state.probabilities (rand w.draws) 2 0 (some 0) with
    | some i =>
      have hb := sampleFrom_bounds _ _ 2 0 (some 0) i hs
      simp only [hs, Bool.false_eq_true, if_false, Option.some.injEq] at hk
      omega
    | none =>
      simp only [hs, Bool.false_eq_true, if_false, Option.some.injEq] at hk
      right
      omega
  have hval : tB'.state.collapsedState = some (1 - k) := by
    simpa [World.collapsedStateOf, htB', forcedValue, oneMinus] using hvB
  refine ⟨k, w', ?_, hk01, tB', htB', hcB', hval, ?_, ?_⟩
  · rw [measureTile_uncollapsed rand g w row col A hg ⟨tA, htA, hcA⟩, hm]
  · intro h0; rw [hval, h0]; rfl
  · intro h1; rw [hval, h1]; rfl

/-- C2 on `oppositePair 2` measured at its first tile with the draw 0. -/
theorem C2_opposite_binary_witness :
    ∃ k w', (oppositePair 2).1.measureTile (fun _ => 0) (oppositePair 2).2 0 0 =
        some (some k, w') ∧ (k = 0 ∨ k = 1) ∧
      ∃ tB', w'.tiles[1]? = some tB' ∧ tB'.state.isCollapsed = true ∧
        tB'.state.collapsedState = some (1 - k) ∧
        (k = 0 → tB'.state.collapsedState = some 1) ∧
        (k = 1 → tB'.state.collapsedState = some 0) :=
  C2_opposite_binary (fun _ => 0) (oppositePair 2).1 (oppositePair 2).2 0 0 0 1
    ⟨0, 0, QuantumState.new 2, [(1, LinkType.opposite)]⟩
    ⟨0, 1, QuantumState.new 2, [(0, LinkType.opposite)]⟩
    (by decide) (by decide) (by decide!) (by decide!) rfl rfl rfl rfl

/-- C3, counterexample: with three outcomes, measuring the first tile of
`oppositePair 3` with the draw 0 resolves it to `k = 0` and force-collapses the
second tile to 1, not to `(3 - 1) - 0 = 2`; and `cascadeEntanglement` from the
first tile forced to `k = 2` force-collapses the second tile to -1, not to
`(3 - 1) - 2 = 0`. -/
theorem C3_opposite_reversal_counterexample :
    ((oppositePair 3).1.measureTile (fun _ => 0) (oppositePair 3).2 0 0).map
        (fun r => (r.1, r.2.collapsedStateOf 1)) = some (some 0, some 1) ∧
      (some (1 : Int)) ≠ some ((3 - 1) - 0) ∧
    (cascadeEntanglement (fun _ => 0) 3 (oppositePairForced 3 2) 0).map
        (fun w' => w'.collapsedStateOf 1) = some (some (-1)) ∧
      (some (-1 : Int)) ≠ some ((3 - 1) - 2) := by
  decide!

/-- C3, amended: for every number of outcomes and every pair of distinct tiles
`A`, `B` where the only link of `A` is an `opposite` link to the uncollapsed tile
`B`: when `A` is uncollapsed, `measure()` on `A` returns an outcome `k` and
leaves `B` collapsed with outcome `1 - k`; when `A` is collapsed with outcome
`k`, `cascadeEntanglement()` on `A` leaves `B` collapsed with outcome `1 - k`. -/
theorem C3_opposite_forces_one_minus (rand : Nat → ℚ) (w : World) (A B : Ref)
    (tA : QuantumTile) (hAB : A ≠ B) (htA : w.tiles[A]? = some tA)
    (hlA : tA.entangledWith = [(B, LinkType.opposite)]) (huB : w.Uncollapsed B) :
    (tA.state.isCollapsed = false →
      ∃ k w', QuantumTile.measure rand w A = some (some k, w') ∧
        w'.Collapsed B ∧ w'.collapsedStateOf B = some (1 - k)) ∧
    (∀ k, tA.state.isCollapsed = true → tA.state.collapsedState = some k →
      ∃ w', cascadeEntanglement rand (w.tiles.length + 1) w A = some w' ∧
        w'.Collapsed B ∧ w'.collapsedStateOf B = some (1 - k)) := by
  constructor
  · intro hcA
    obtain ⟨k, w', hm, -, -, hcB, hvB⟩ :=
      measure_pair rand w A B tA LinkType.opposite hAB htA hcA hlA huB
    exact ⟨k, w', hm, hcB, hvB⟩
  · intro k _ hkA
    exact cascade_pair rand w A B tA LinkType.opposite k htA hkA hlA huB

/-- C3 amended with three outcomes: on `oppositePair 3` measured at its first
tile, and on `oppositePairForced 3 2` cascading from its first tile. -/
theorem C3_opposite_forces_one_minus_witness :
    (∃ k w', QuantumTile.measure (fun _ => 0) (oppositePair 3).2 0 = some (some k, w') ∧
        w'.Collapsed 1 ∧ w'.collapsedStateOf 1 = some (1 - k)) ∧
    (∃ w', cascadeEntanglement (fun _ => 0) ((oppositePairForced 3 2).tiles.length + 1)
        (oppositePairForced 3 2) 0 = some w' ∧
        w'.Collapsed 1 ∧ w'.collapsedStateOf 1 = some (1 - 2)) :=
  ⟨(C3_opposite_forces_one_minus (fun _ => 0) (oppositePair 3).2 0 1
      ⟨0, 0, QuantumState.new 3, [(1, LinkType.opposite)]⟩ (by decide) (by decide!) rfl
      ⟨⟨0, 1, QuantumState.new 3, [(0, LinkType.opposite)]⟩, by decide!, rfl⟩).1 rfl,
   (C3_opposite_forces_one_minus (fun _ => 0) (oppositePairForced 3 2) 0 1
      ⟨0, 0, ⟨3, [0, 0, 1], true, some 2⟩, [(1, LinkType.opposite)]⟩ (by decide) (by decide!) rfl
      ⟨⟨0, 1, QuantumState.new 3, [(0, LinkType.opposite)]⟩, by decide!, rfl⟩).2 2 rfl rfl⟩

/-! ## The grid invariant -/

theorem getTile_has (g : QuantumGrid) (row col : Int) (ref : Ref)
    (h : g.getTile row col = some ref) : g.Has ref := by
  unfold QuantumGrid.getTile at h
  split at h
  · split at h
    · cases h
    · next r hr => exact ⟨r, List.getElem?_mem hr, List.getElem?_mem h⟩
  · cases h

theorem fresh_push (N : Nat) (w : World) (x : QuantumTile) (ref : Ref) (h : Fresh N w ref) :
    Fresh N { w with tiles := w.tiles ++ [x] } ref := by
  obtain ⟨t, ht, hs, hl⟩ := h
  have hlt : ref < w.tiles.length := (List.getElem?_eq_some_iff.1 ht).1
  refine ⟨t, ?_, hs, hl⟩
  show (w.tiles ++ [x])[ref]? = some t
  rw [List.getElem?_append_left hlt, ht]

theorem fresh_new (N : Nat) (w : World) (r c : Int) :
    Fresh N { w with tiles := w.tiles ++ [QuantumTile.new r c (QuantumState.new N)] }
      w.tiles.length := by
  refine ⟨QuantumTile.new r c (QuantumState.new N), ?_, rfl, rfl⟩
  show (w.tiles ++ [QuantumTile.new r c (QuantumState.new N)])[w.tiles.length]? = _
  rw [List.getElem?_append_right (le_refl _)]
  simp

theorem allocRow_keeps (N r : Nat) (ref : Ref) :
    ∀ (cs : List Nat) (acc : List Ref × World), Fresh N acc.2 ref →
      Fresh N (allocRow N r cs acc).2 ref := by
  intro cs
  induction cs with
  | nil => intro acc h; exact h
  | cons c cs ih =>
    intro acc h
    rw [allocRow]
    exact ih _ (fresh_push N acc.2 _ ref h)

theorem allocRow_fresh (N r : Nat) :
    ∀ (cs : List Nat) (acc : List Ref × World), (∀ ref ∈ acc.1, Fresh N acc.2 ref) →
      ∀ ref ∈ (allocRow N r cs acc).1, Fresh N (allocRow N r cs acc).2 ref := by
  intro cs
  induction cs with
  | nil => intro acc h; exact h
  | cons c cs ih =>
    intro acc h
    rw [allocRow]
    apply ih
    intro ref href
    rcases List.mem_append.1 href with h1 | h1
    · exact fresh_push N acc.2 _ ref (h ref h1)
    · rw [List.mem_singleton] at h1
      subst h1
      exact fresh_new N acc.2 r c

theorem allocRows_fresh (N cols : Nat) :
    ∀ (rs : List Nat) (acc : List (List Ref) × World),
      (∀ row ∈ acc.1, ∀ ref ∈ row, Fresh N acc.2 ref) →
      ∀ row ∈ (allocRows N cols rs acc).1, ∀ ref ∈ row,
        Fresh N (allocRows N cols rs acc).2 ref := by
  intro rs
  induction rs with
  | nil => intro acc h; exact h
  | cons r rs ih =>
    intro acc h
    rw [allocRows]
    apply ih
    intro row hrow ref href
    rcases List.mem_append.1 hrow with h1 | h1
    · exact allocRow_keeps N r ref _ _ (h row h1 ref href)
    · rw [List.mem_singleton] at h1
      subst h1
      exact allocRow_fresh N r _ _ (by simp) ref href

theorem stateGood_new (N : Nat) : StateGood N (QuantumState.new N) :=
  ⟨rfl, fun h => by simp [QuantumState.new] at h⟩

/-- The grid built by the constructor satisfies the invariant. -/
theorem create_inv (w0 : World) (rows cols N : Nat) :
    GridInv (QuantumGrid.create w0 rows cols N).1 N (QuantumGrid.create w0 rows cols N).2 := by
  intro ref ⟨row, hrow, href⟩
  obtain ⟨t, ht, hs, hl⟩ := allocRows_fresh N cols (List.range rows) ([], w0) (by simp)
    row hrow ref href
  refine ⟨t, ht, hs ▸ stateGood_new N, ?_⟩
  rw [hl]
  simp

theorem pushLink_tile (w : World) (a b : Ref) (type : LinkType) (x : Ref) (t : QuantumTile)
    (ht : w.tiles[x]? = some t) :
    ∃ t', (QuantumTile.pushLink w a b type).tiles[x]? = some t' ∧ t'.state = t.state ∧
      ∀ l ∈ t'.entangledWith, l ∈ t.entangledWith ∨ l = (b, type) := by
  unfold QuantumTile.pushLink
  split
  · exact ⟨t, ht, rfl, fun l hl => Or.inl hl⟩
  · next ta hta =>
    split
    · by_cases hxa : a = x
      · subst hxa
        rw [hta] at ht
        cases ht
        have hlt : a < w.tiles.length := (List.getElem?_eq_some_iff.1 hta).1
        refine ⟨_, List.getElem?_set_self hlt, rfl, ?_⟩
        intro l hl
        rcases List.mem_append.1 hl with h1 | h1
        · exact Or.inl h1
        · exact Or.inr (List.mem_singleton.1 h1)
      · refine ⟨t, ?_, rfl, fun l hl => Or.inl hl⟩
        show (w.tiles.set a _)[x]? = some t
        rw [List.getElem?_set_ne hxa, ht]
    · exact ⟨t, ht, rfl, fun l hl => Or.inl hl⟩

theorem pushLink_inv (g : QuantumGrid) (N : Nat) (w : World) (a b : Ref) (type : LinkType)
    (h : GridInv g N w) (hb : g.Has b) (hty : N = 2 ∨ type = LinkType.same) :
    GridInv g N (QuantumTile.pushLink w a b type) := by
  intro ref href
  obtain ⟨t, ht, hs, hl⟩ := h ref href
  obtain ⟨t', ht', hs', hl'⟩ := pushLink_tile w a b type ref t ht
  refine ⟨t', ht', hs' ▸ hs, ?_⟩
  intro l hlm
  rcases hl' l hlm with h1 | h1
  · exact hl l h1
  · subst h1
    exact ⟨hb, hty⟩

theorem createEntanglement_inv (g : QuantumGrid) (N : Nat) (w : World)
    (r1 c1 r2 c2 : Int) (type : LinkType) (h : GridInv g N w)
    (hty : N = 2 ∨ type = LinkType.same) :
    GridInv g N (g.createEntanglement w r1 c1 r2 c2 type) := by
  unfold QuantumGrid.createEntanglement
  split
  · next a b ha hb =>
    exact pushLink_inv g N _ b a type
      (pushLink_inv g N w a b type h (getTile_has g r2 c2 b hb) hty)
      (getTile_has g r1 c1 a ha) hty
  · exact h

theorem normalize_numStates (s : QuantumState) : s.normalize.numStates = s.numStates := by
  unfold QuantumState.normalize
  simp only []
  split <;> rfl

theorem normalize_isCollapsed (s : QuantumState) : s.normalize.isCollapsed = s.isCollapsed := by
  unfold QuantumState.normalize
  simp only []
  split <;> rfl

/-- Replacing the state of a tile by a good state keeps the invariant. -/
theorem set_state_inv (g : QuantumGrid) (N : Nat) (w : World) (ref : Ref) (t : QuantumTile)
    (s : QuantumState) (h : GridInv g N w) (ht : w.tiles[ref]? = some t)
    (hs : StateGood N t.state → StateGood N s) :
    GridInv g N { w with tiles := w.tiles.set ref { t with state := s } } := by
  intro x hx
  obtain ⟨tx, htx, hsx, hlx⟩ := h x hx
  by_cases hxr : ref = x
  · subst hxr
    rw [ht] at htx
    cases htx
    have hlt : ref < w.tiles.length := (List.getElem?_eq_some_iff.1 ht).1
    exact ⟨_, List.getElem?_set_self hlt, hs hsx, hlx⟩
  · refine ⟨tx, ?_, hsx, hlx⟩
    show (w.tiles.set ref _)[x]? = some tx
    rw [List.getElem?_set_ne hxr, htx]

theorem applyInterference_inv (g : QuantumGrid) (N : Nat) (w : World) (row col : Int)
    (h : GridInv g N w) : GridInv g N (g.applyInterference w row col) := by
  unfold QuantumGrid.applyInterference
  split
  · exact h
  · next ref href =>
    split
    · exact h
    · next tile htile =>
      split
      · exact h
      · next hc =>
        simp only []
        split
        · exact h
        · apply set_state_inv g N w ref tile _ h htile
          intro hg
          refine ⟨?_, ?_⟩
          · rw [normalize_numStates]; exact hg.1
          · intro hcol
            rw [normalize_isCollapsed] at hcol
            exact absurd hcol hc

/-! ## The grid invariant under `measureTile` -/

theorem collapse_good_forced (rand : Nat → ℚ) (draws : Nat) (N : Nat) (s : QuantumState)
    (k : Nat) (hs : StateGood N s) (hk : k < N) :
    StateGood N (s.collapse rand draws (some (k : Int))).2.1 := by
  cases hc : s.isCollapsed
  · rw [collapse_forced rand draws s k hc]
    exact ⟨hs.1, fun _ => ⟨k, hk, rfl, by rw [hs.1]⟩⟩
  · rw [collapse_of_collapsed rand draws s _ hc]
    exact hs

theorem collapse_good_unforced (rand : Nat → ℚ) (draws : Nat) (N : Nat) (s : QuantumState)
    (hs : StateGood N s) (hN : 1 ≤ N) : StateGood N (s.collapse rand draws none).2.1 := by
  cases hc : s.isCollapsed
  · cases hsam : sampleFrom s.probabilities (rand draws) s.numStates 0 (some 0) with
    | some i =>
      have hb := sampleFrom_bounds _ _ _ 0 (some 0) i hsam
      simp only [QuantumState.collapse, hc, hsam, Bool.false_eq_true, if_false]
      exact ⟨hs.1, fun _ => ⟨i, by rw [← hs.1]; omega, rfl, by rw [hs.1]⟩⟩
    | none =>
      have hcast : (s.numStates : Int) - 1 = ((N - 1 : Nat) : Int) := by rw [hs.1]; omega
      simp only [QuantumState.collapse, hc, hsam, Bool.false_eq_true, if_false, hcast]
      exact ⟨hs.1, fun _ => ⟨N - 1, by omega, rfl, by rw [hs.1]⟩⟩
  · rw [collapse_of_collapsed rand draws s _ hc]
    exact hs

theorem linkClosed_of_inv (g : QuantumGrid) (N : Nat) (w : World) (h : GridInv g N w) :
    LinkClosed g.Has w := by
  intro p q type hp hl
  obtain ⟨t, ht, -, hlinks⟩ := h p hp
  obtain ⟨t', ht', hm⟩ := hl
  rw [ht] at ht'
  cases ht'
  exact (hlinks (q, type) hm).1

/-- The outcome forced through a link of a grid that satisfies the invariant is
an outcome of `[0, N)`. -/
theorem forcedValue_range (N : Nat) (type : LinkType) (k : Nat) (hk : k < N)
    (hty : N = 2 ∨ type = LinkType.same) :
    ∃ k' : Nat, k' < N ∧ forcedValue type (some (k : Int)) = some (k' : Int) := by
  cases type with
  | same => exact ⟨k, hk, rfl⟩
  | opposite =>
    rcases hty with h2 | h2
    · subst h2
      refine ⟨1 - k, by omega, ?_⟩
      simp only [forcedValue, oneMinus, Option.some.injEq]
      omega
    · cases h2

/-- A propagation among the tiles of the grid keeps the invariant. -/
theorem step_inv (rand : Nat → ℚ) (g : QuantumGrid) (N : Nat) (w w' : World)
    (h : GridInv g N w) (hs : Step rand g.Has w w') : GridInv g N w' := by
  obtain ⟨p, b, type, tp, tb, hp, -, htp, hcp, hl, htb, -, ht, -⟩ := step_tiles hs
  obtain ⟨tp', htp', hsp, hlp⟩ := h p hp
  rw [htp] at htp'
  cases htp'
  obtain ⟨k, hk, hkp, -⟩ := hsp.2 hcp
  obtain ⟨k', hk', hf⟩ := forcedValue_range N type k hk (hlp (b, type) hl).2
  rw [hkp, hf] at ht
  have := set_state_inv g N w b tb (tb.state.collapse rand w.draws (some (k' : Int))).2.1 h htb
    (fun hg => collapse_good_forced rand w.draws N tb.state k' hg hk')
  intro x hx
  obtain ⟨t, hxt, rest⟩ := this x hx
  exact ⟨t, by rw [ht]; exact hxt, rest⟩

theorem collapseTile_inv (rand : Nat → ℚ) (g : QuantumGrid) (N : Nat) (w : World) (T : Ref)
    (h : GridInv g N w) (hN : 1 ≤ N) : GridInv g N (w.collapseTile rand T none).2 := by
  cases ht : w.tiles[T]? with
  | none =>
    simp only [World.collapseTile, ht]
    exact h
  | some t =>
    have := set_state_inv g N w T t (t.state.collapse rand w.draws none).2.1 h ht
      (fun hg => collapse_good_unforced rand w.draws N t.state hg hN)
    intro x hx
    obtain ⟨tx, hxt, rest⟩ := this x hx
    exact ⟨tx, by rw [collapseTile_tiles rand w T none t ht]; exact hxt, rest⟩

/-- `measureTile` returns and keeps the invariant. -/
theorem measureTile_inv (rand : Nat → ℚ) (g : QuantumGrid) (N : Nat) (w : World)
    (row col : Int) (h : GridInv g N w) (hN : 1 ≤ N) :
    ∃ res w', g.measureTile rand w row col = some (res, w') ∧ GridInv g N w' := by
  cases hT : g.getTile row col with
  | none => exact ⟨none, w, by simp [QuantumGrid.measureTile, hT], h⟩
  | some T =>
    cases ht : w.tiles[T]? with
    | none => exact ⟨none, w, by simp [QuantumGrid.measureTile, hT, ht], h⟩
    | some t =>
      cases hc : t.state.isCollapsed with
      | true =>
        exact ⟨t.state.collapsedState, w, by simp [QuantumGrid.measureTile, hT, ht, hc], h⟩
      | false =>
        obtain ⟨w', hm, hst, -, -⟩ := measure_spec rand g.Has w T t ht
          (linkClosed_of_inv g N w h) (getTile_has g row col T hT)
        refine ⟨(w.collapseTile rand T none).1, w', ?_, ?_⟩
        · rw [measureTile_uncollapsed rand g w row col T hT ⟨t, ht, hc⟩, hm]
        · exact Steps.invariant (GridInv g N) (fun w1 w2 h1 hs => step_inv rand g N w1 w2 h1 hs)
            hst (collapseTile_inv rand g N w T h hN)

/-- Every sequence of calls on a grid that satisfies the invariant returns and
keeps the invariant, when `N = 2` or no call creates an `opposite` link. -/
theorem runOps_inv (rand : Nat → ℚ) (g : QuantumGrid) (N : Nat) (hN : 1 ≤ N) :
    ∀ (ops : List GridOp) (w : World), GridInv g N w →
      (N = 2 ∨ ∀ op ∈ ops, op.isOpposite = false) →
      ∃ w', runOps rand g ops w = some w' ∧ GridInv g N w' := by
  intro ops
  induction ops with
  | nil => intro w h _; exact ⟨w, rfl, h⟩
  | cons op ops ih =>
    intro w h hops
    have hrest : N = 2 ∨ ∀ op' ∈ ops, op'.isOpposite = false :=
      hops.imp id (fun hall op' hop' => hall op' (List.mem_cons_of_mem op hop'))
    have hstep : ∃ w1, op.run rand g w = some w1 ∧ GridInv g N w1 := by
      cases op with
      | createEntanglement r1 c1 r2 c2 type =>
        refine ⟨_, rfl, createEntanglement_inv g N w r1 c1 r2 c2 type h ?_⟩
        rcases hops with h2 | hall
        · exact Or.inl h2
        · have := hall _ (List.mem_cons_self _ _)
          cases type
          · exact Or.inr rfl
          · simp [GridOp.isOpposite] at this
      | measureTile row col =>
        obtain ⟨res, w1, hm, h1⟩ := measureTile_inv rand g N w row col h hN
        exact ⟨w1, by simp [GridOp.run, hm], h1⟩
      | applyInterference row col =>
        exact ⟨_, rfl, applyInterference_inv g N w row col h⟩
    obtain ⟨w1, hrun1, h1⟩ := hstep
    obtain ⟨w', hrun, h'⟩ := ih w1 h1 hrest
    exact ⟨w', by simp only [runOps, hrun1]; exact hrun, h'⟩

/-! ## Claim C10 -/

/-- C10, counterexample: on a 1×2 grid with three outcomes, after
`createEntanglement(0, 0, 0, 1, 'opposite')` and `measureTile(0, 0)` with the
draw 9/10, the tile (0, 0) is collapsed to 2 and the tile (0, 1) is collapsed
with `collapsedState = -1`, outside `[0, 3)`, and weights `[0, 0, 0]`, none of
which is 1. With one outcome, the same calls leave the tile (0, 1) collapsed with
`collapsedState = 1`, outside `[0, 1)`. -/
theorem C10_collapsed_one_hot_counterexample :
    (runOps (fun _ => 9 / 10) (pairGrid 3).1
        [GridOp.createEntanglement 0 0 0 1 LinkType.opposite, GridOp.measureTile 0 0]
        (pairGrid 3).2).map
      (fun w => w.tiles.map
        (fun t => (t.state.isCollapsed, t.state.collapsedState, t.state.probabilities))) =
      some [(true, some 2, [0, 0, 1]), (true, some (-1), [0, 0, 0])] ∧
    (runOps (fun _ => 9 / 10) (pairGrid 1).1
        [GridOp.createEntanglement 0 0 0 1 LinkType.opposite, GridOp.measureTile 0 0]
        (pairGrid 1).2).map
      (fun w => w.tiles.map
        (fun t => (t.state.isCollapsed, t.state.collapsedState, t.state.probabilities))) =
      some [(true, some 0, [1]), (true, some 1, [0, 1])] := by
  decide!

/-- C10, amended: in every grid reached from `new QuantumGrid(rows, cols, N)`
with `N ≥ 1` by a sequence of `createEntanglement`, `measureTile` and
`applyInterference` calls, where `N = 2` or no call creates an `opposite` link,
the sequence returns and every collapsed tile of the grid has `collapsedState`
in `[0, N)` and `N` weights, 1 at index `collapsedState` and 0 elsewhere. -/
theorem C10_collapsed_one_hot_amended (rand : Nat → ℚ) (w0 : World) (rows cols N : Nat)
    (ops : List GridOp) (hN : 1 ≤ N) (hops : N = 2 ∨ ∀ op ∈ ops, op.isOpposite = false) :
    ∃ w, runOps rand (QuantumGrid.create w0 rows cols N).1 ops
        (QuantumGrid.create w0 rows cols N).2 = some w ∧
      ∀ ref, (QuantumGrid.create w0 rows cols N).1.Has ref →
        ∃ t, w.tiles[ref]? = some t ∧
          (t.state.isCollapsed = true →
            ∃ k : Nat, k < N ∧ t.state.collapsedState = some (k : Int) ∧
              t.state.probabilities.length = N ∧
              ∀ j, j < N → t.state.probabilities[j]? = some (if j = k then 1 else 0)) := by
  obtain ⟨w, hrun, hinv⟩ := runOps_inv rand _ N hN ops _ (create_inv w0 rows cols N) hops
  refine ⟨w, hrun, ?_⟩
  intro ref href
  obtain ⟨t, ht, hs, -⟩ := hinv ref href
  refine ⟨t, ht, ?_⟩
  intro hc
  obtain ⟨k, hk, hst, hp⟩ := hs.2 hc
  refine ⟨k, hk, hst, ?_⟩
  rw [hp]
  exact oneHot_spec N k hk

/-- C10 amended on a 2×2 grid with two outcomes, linked `opposite` along the
first row and `same` along the first column, after interference and two
measurements. -/
theorem C10_collapsed_one_hot_amended_witness :
    ∃ w, runOps (fun _ => 3 / 4) (QuantumGrid.create emptyWorld 2 2 2).1
        [GridOp.createEntanglement 0 0 0 1 LinkType.opposite,
         GridOp.createEntanglement 0 0 1 0 LinkType.same,
         GridOp.applyInterference 1 1, GridOp.measureTile 0 0, GridOp.measureTile 1 1]
        (QuantumGrid.create emptyWorld 2 2 2).2 = some w ∧
      ∀ ref, (QuantumGrid.create emptyWorld 2 2 2).1.Has ref →
        ∃ t, w.tiles[ref]? = some t ∧
          (t.state.isCollapsed = true →
            ∃ k : Nat, k < 2 ∧ t.state.collapsedState = some (k : Int) ∧
              t.state.probabilities.length = 2 ∧
              ∀ j, j < 2 → t.state.probabilities[j]? = some (if j = k then 1 else 0)) :=
  C10_collapsed_one_hot_amended (fun _ => 3 / 4) emptyWorld 2 2 2 _ (by decide) (Or.inl rfl)

/-! ## The 2×2 scenario -/

theorem reach_within (w : World) (a : Ref) (S : Ref → Prop) (ha : S a) (hS : LinkClosed S w) :
    ∀ x, Reach w a x → S x := by
  intro x hx
  induction hx with
  | refl => exact ha
  | tail _ hyz ih =>
    obtain ⟨type, hl⟩ := hyz
    exact hS _ _ type ih hl

theorem linkClosed_prefix (w : World) (n : Nat)
    (h : ∀ t ∈ w.tiles.take n, ∀ l ∈ t.entangledWith, l.1 < n) :
    LinkClosed (fun x => x < n) w := by
  intro p q type hp hl
  obtain ⟨t, ht, hm⟩ := hl
  have : (w.tiles.take n)[p]? = some t := by
    rw [List.getElem?_take_of_lt hp, ht]
  exact h t (List.getElem?_mem this) (q, type) hm

/-- C5 on the 2×2 scenario: measuring (0, 0) with a draw that gives outcome 1
leaves the tiles (1, 0) and (1, 1) as they were, uncollapsed. -/
theorem C5_measureTile_frame_witness :
    ∃ res w', rowPairs.1.measureTile (fun _ => 3 / 4) rowPairs.2 0 0 = some (res, w') ∧
      res = some 1 ∧
      w'.tiles[2]? = rowPairs.2.tiles[2]? ∧ w'.tiles[3]? = rowPairs.2.tiles[3]? ∧
      w'.Uncollapsed 2 ∧ w'.Uncollapsed 3 := by
  obtain ⟨res, w', hm, hout, -, -⟩ :=
    C5_measureTile_frame (fun _ => 3 / 4) rowPairs.1 rowPairs.2 0 0
  have hres : (rowPairs.1.measureTile (fun _ => 3 / 4) rowPairs.2 0 0).map (fun r => r.1) =
      some (some 1) := by decide!
  have hT : rowPairs.1.getTile 0 0 = some 0 := by decide
  have hclosed : LinkClosed (fun x => x < 2) rowPairs.2 :=
    linkClosed_prefix rowPairs.2 2 (by decide)
  have hno : ∀ x, ¬ x < 2 → ∀ T, rowPairs.1.getTile 0 0 = some T → ¬ Reach rowPairs.2 T x := by
    intro x hx T hTT hreach
    rw [hT] at hTT
    cases hTT
    exact hx (reach_within rowPairs.2 0 (fun x => x < 2) (by decide) hclosed x hreach)
  have h2 := hout 2 (hno 2 (by decide))
  have h3 := hout 3 (hno 3 (by decide))
  refine ⟨res, w', hm, ?_, h2, h3, ?_, ?_⟩
  · rw [hm] at hres
    simpa using hres
  · exact ⟨rowPairs.2.tiles[2], by rw [h2]; rfl, by decide⟩
  · exact ⟨rowPairs.2.tiles[3], by rw [h3]; rfl, by decide⟩

/-! ## Claims on collapsed tiles and on interference that changes nothing -/

theorem entangleWith_tile (w : World) (a b : Ref) (type : LinkType) (x : Ref) (t : QuantumTile)
    (ht : w.tiles[x]? = some t) :
    ∃ t', (QuantumTile.entangleWith w a b type).tiles[x]? = some t' ∧ t'.state = t.state := by
  obtain ⟨t1, ht1, hs1, -⟩ := pushLink_tile w a b type x t ht
  obtain ⟨t2, ht2, hs2, -⟩ := pushLink_tile _ b a type x t1 ht1
  exact ⟨t2, ht2, hs2.trans hs1⟩

theorem createEntanglement_tile (g : QuantumGrid) (w : World) (r1 c1 r2 c2 : Int)
    (type : LinkType) (x : Ref) (t : QuantumTile) (ht : w.tiles[x]? = some t) :
    ∃ t', (g.createEntanglement w r1 c1 r2 c2 type).tiles[x]? = some t' ∧
      t'.state = t.state := by
  unfold QuantumGrid.createEntanglement
  split
  · exact entangleWith_tile w _ _ type x t ht
  · exact ⟨t, ht, rfl⟩

/-- `applyInterference` changes at most the state of one uncollapsed tile. -/
theorem applyInterference_tile (g : QuantumGrid) (w : World) (row col : Int) (x : Ref)
    (t : QuantumTile) (ht : w.tiles[x]? = some t) :
    ∃ t', (g.applyInterference w row col).tiles[x]? = some t' ∧
      t'.row = t.row ∧ t'.col = t.col ∧ t'.entangledWith = t.entangledWith ∧
      (t.state.isCollapsed = true → t' = t) := by
  unfold QuantumGrid.applyInterference
  split
  · exact ⟨t, ht, rfl, rfl, rfl, fun _ => rfl⟩
  · next ref _ =>
    split
    · exact ⟨t, ht, rfl, rfl, rfl, fun _ => rfl⟩
    · next tile htile =>
      split
      · exact ⟨t, ht, rfl, rfl, rfl, fun _ => rfl⟩
      · next hc =>
        simp only []
        split
        · exact ⟨t, ht, rfl, rfl, rfl, fun _ => rfl⟩
        · by_cases hx : ref = x
          · subst hx
            rw [htile] at ht
            cases ht
            have hlt : ref < w.tiles.length := (List.getElem?_eq_some_iff.1 htile).1
            refine ⟨_, List.getElem?_set_self hlt, rfl, rfl, rfl, ?_⟩
            intro hcol
            exact absurd hcol hc
          · refine ⟨t, ?_, rfl, rfl, rfl, fun _ => rfl⟩
            show (w.tiles.set ref _)[x]? = some t
            rw [List.getElem?_set_ne hx, ht]

theorem measureTile_frame (rand : Nat → ℚ) (g : QuantumGrid) (w : World) (row col : Int) :
    ∃ res w', g.measureTile rand w row col = some (res, w') ∧ Frame w w' := by
  cases hT : g.getTile row col with
  | none => exact ⟨none, w, by simp [QuantumGrid.measureTile, hT], Frame.refl w⟩
  | some T =>
    cases ht : w.tiles[T]? with
    | none => exact ⟨none, w, by simp [QuantumGrid.measureTile, hT, ht], Frame.refl w⟩
    | some t =>
      cases hc : t.state.isCollapsed with
      | true =>
        exact ⟨t.state.collapsedState, w, by simp [QuantumGrid.measureTile, hT, ht, hc],
          Frame.refl w⟩
      | false =>
        obtain ⟨w', hm, hst, -, -⟩ := measure_spec rand (fun _ => True) w T t ht
          (linkClosed_true w) trivial
        refine ⟨(w.collapseTile rand T none).1, w', ?_, ?_⟩
        · rw [measureTile_uncollapsed rand g w row col T hT ⟨t, ht, hc⟩, hm]
        · exact (Frame.collapseTile rand w T none).trans (Steps.toFrame hst)

/-- C12: each of `measureTile`, `applyInterference` and `createEntanglement`, at
any coordinates, returns, and every tile of the store that is collapsed before
the call is still collapsed after it, with the same `collapsedState` and the same
weights (its whole state is unchanged). -/
theorem C12_collapsed_is_terminal (rand : Nat → ℚ) (g : QuantumGrid) (w : World) (op : GridOp) :
    ∃ w', op.run rand g w = some w' ∧
      ∀ (x : Ref) (t : QuantumTile), w.tiles[x]? = some t → t.state.isCollapsed = true →
        ∃ t', w'.tiles[x]? = some t' ∧ t'.state = t.state ∧ t'.state.isCollapsed = true := by
  cases op with
  | createEntanglement r1 c1 r2 c2 type =>
    refine ⟨_, rfl, ?_⟩
    intro x t ht hc
    obtain ⟨t', ht', hs⟩ := createEntanglement_tile g w r1 c1 r2 c2 type x t ht
    exact ⟨t', ht', hs, hs ▸ hc⟩
  | measureTile row col =>
    obtain ⟨res, w', hm, hf⟩ := measureTile_frame rand g w row col
    refine ⟨w', by simp [GridOp.run, hm], ?_⟩
    intro x t ht hc
    obtain ⟨t', ht', -, -, -, -, hk⟩ := hf.tile x t ht
    have := hk hc
    subst this
    exact ⟨t', ht', rfl, hc⟩
  | applyInterference row col =>
    refine ⟨_, rfl, ?_⟩
    intro x t ht hc
    obtain ⟨t', ht', -, -, -, hk⟩ := applyInterference_tile g w row col x t ht
    have := hk hc
    subst this
    exact ⟨t', ht', rfl, hc⟩

/-- C12 on `lateLink`, whose first tile is collapsed and linked to the second:
after `measureTile(0, 1)` the first tile is as it was. -/
theorem C12_collapsed_is_terminal_witness :
    ∃ w', (GridOp.measureTile 0 1).run (fun _ => 0) lateLink.1 lateLink.2 = some w' ∧
      ∀ (x : Ref) (t : QuantumTile), lateLink.2.tiles[x]? = some t →
        t.state.isCollapsed = true →
        ∃ t', w'.tiles[x]? = some t' ∧ t'.state = t.state ∧ t'.state.isCollapsed = true :=
  C12_collapsed_is_terminal (fun _ => 0) lateLink.1 lateLink.2 (GridOp.measureTile 0 1)

/-- C13, counterexample: `fromProbabilities([])` returns a state, the one with no
outcome and no weight; it does not fail. -/
theorem C13_fromProbabilities_empty_counterexample :
    QuantumState.fromProbabilities [] =
      { numStates := 0, probabilities := [], isCollapsed := false, collapsedState := none } := by
  decide!

/-- C13, amended: given a sequence of length 0, `fromProbabilities` returns the
uncollapsed state with `numStates = 0` and no weight. -/
theorem C13_fromProbabilities_empty_amended (probs : List ℚ) (h : probs.length = 0) :
    QuantumState.fromProbabilities probs = emptyState ∧
      (QuantumState.fromProbabilities probs).isCollapsed = false ∧
      (QuantumState.fromProbabilities probs).numStates = 0 ∧
      (QuantumState.fromProbabilities probs).probabilities = [] := by
  have hnil : probs = [] := List.length_eq_zero.1 h
  subst hnil
  have : QuantumState.fromProbabilities [] = emptyState := by
    simp [QuantumState.fromProbabilities, QuantumState.normalize, QuantumState.new, emptyState]
  rw [this]
  exact ⟨rfl, rfl, rfl, rfl⟩

/-- C13 amended on the empty sequence. -/
theorem C13_fromProbabilities_empty_amended_witness :
    QuantumState.fromProbabilities [] = emptyState ∧
      (QuantumState.fromProbabilities []).isCollapsed = false ∧
      (QuantumState.fromProbabilities []).numStates = 0 ∧
      (QuantumState.fromProbabilities []).probabilities = [] :=
  C13_fromProbabilities_empty_amended [] rfl

/-- A collapsed state is not in superposition. -/
theorem not_superposed_of_collapsed (s : QuantumState) (h : s.isCollapsed = true) :
    s.isInSuperposition = false := by
  simp [QuantumState.isInSuperposition, h]

theorem applyInterference_no_superposed (g : QuantumGrid) (w : World) (row col : Int)
    (h : ∀ n ∈ g.getNeighbors row col false, ∀ t : QuantumTile, w.tiles[n]? = some t →
      t.state.isInSuperposition = false) :
    g.applyInterference w row col = w := by
  unfold QuantumGrid.applyInterference
  split
  · rfl
  · split
    · rfl
    · split
      · rfl
      · simp only []
        have hnil : List.filter (fun n : QuantumTile => n.state.isInSuperposition)
            (List.filterMap (fun n => w.tiles[n]?) (g.getNeighbors row col false)) = [] := by
          rw [List.filter_eq_nil_iff]
          intro t ht
          obtain ⟨n, hn, hnt⟩ := List.mem_filterMap.1 ht
          simp [h n hn t hnt]
        rw [hnil]
        simp

/-- C16: `applyInterference(row, col)` leaves the whole store unchanged (every
tile's weights, collapsed flag, outcome and links) when the target is out of
bounds, when the target is collapsed, when none of the target's orthogonal
neighbours is in superposition, and in particular when all of them are
collapsed. -/
theorem C16_applyInterference_noop (g : QuantumGrid) (w : World) (row col : Int) :
    (¬ (0 ≤ row ∧ row < (g.rows : Int) ∧ 0 ≤ col ∧ col < (g.cols : Int)) →
      g.applyInterference w row col = w) ∧
    (∀ (ref : Ref) (t : QuantumTile), g.getTile row col = some ref → w.tiles[ref]? = some t →
      t.state.isCollapsed = true → g.applyInterference w row col = w) ∧
    ((∀ n ∈ g.getNeighbors row col false, ∀ t : QuantumTile, w.tiles[n]? = some t →
        t.state.isInSuperposition = false) → g.applyInterference w row col = w) ∧
    ((∀ n ∈ g.getNeighbors row col false, ∀ t : QuantumTile, w.tiles[n]? = some t →
        t.state.isCollapsed = true) → g.applyInterference w row col = w) := by
  refine ⟨?_, ?_, ?_, ?_⟩
  · intro h
    have : g.getTile row col = none := by
      unfold QuantumGrid.getTile
      rw [if_neg]
      simpa using h
    simp [QuantumGrid.applyInterference, this]
  · intro ref t hT ht hc
    simp [QuantumGrid.applyInterference, hT, ht, hc]
  · exact applyInterference_no_superposed g w row col
  · intro h
    exact applyInterference_no_superposed g w row col
      (fun n hn t ht => not_superposed_of_collapsed t.state (h n hn t ht))

/-- C16 on `lateLink`: out of bounds at (0, 2); at (0, 0), whose tile is
collapsed; and at (0, 1), whose only neighbour (0, 0) is collapsed. -/
theorem C16_applyInterference_noop_witness :
    lateLink.1.applyInterference lateLink.2 0 2 = lateLink.2 ∧
    lateLink.1.applyInterference lateLink.2 0 0 = lateLink.2 ∧
    lateLink.1.applyInterference lateLink.2 0 1 = lateLink.2 ∧
    lateLink.1.applyInterference lateLink.2 0 1 = lateLink.2 :=
  ⟨(C16_applyInterference_noop lateLink.1 lateLink.2 0 2).1 (by decide),
   (C16_applyInterference_noop lateLink.1 lateLink.2 0 0).2.1 0
     ⟨0, 0, collapsedOne, [(1, LinkType.same)]⟩ (by decide) (by decide!) (by decide),
   (C16_applyInterference_noop lateLink.1 lateLink.2 0 1).2.2.1 (by
     intro n hn t ht
     have hn0 : n = 0 := by
       have : lateLink.1.getNeighbors 0 1 false = [0] := by decide
       rw [this] at hn
       simpa using hn
     subst hn0
     have h0 : lateLink.2.tiles[0]? = some ⟨0, 0, collapsedOne, [(1, LinkType.same)]⟩ := by
       decide!
     rw [h0] at ht
     cases ht
     rfl),
   (C16_applyInterference_noop lateLink.1 lateLink.2 0 1).2.2.2 (by
     intro n hn t ht
     have hn0 : n = 0 := by
       have : lateLink.1.getNeighbors 0 1 false = [0] := by decide
       rw [this] at hn
       simpa using hn
     subst hn0
     have h0 : lateLink.2.tiles[0]? = some ⟨0, 0, collapsedOne, [(1, LinkType.same)]⟩ := by
       decide!
     rw [h0] at ht
     cases ht
     rfl)⟩

/-! ## The dominant outcome -/

theorem foldl_max_ge (l : List ℚ) :
    ∀ a : ℚ, a ≤ l.foldl max a ∧ ∀ x ∈ l, x ≤ l.foldl max a := by
  induction l with
  | nil => intro a; exact ⟨le_refl a, by simp⟩
  | cons y ys ih =>
    intro a
    obtain ⟨h1, h2⟩ := ih (max a y)
    refine ⟨le_trans (le_max_left a y) h1, ?_⟩
    intro x hx
    rcases List.mem_cons.1 hx with rfl | hx
    · exact le_trans (le_max_right a x) h1
    · exact h2 x hx

theorem foldl_max_mem (l : List ℚ) : ∀ a : ℚ, l.foldl max a = a ∨ l.foldl max a ∈ l := by
  induction l with
  | nil => intro a; exact Or.inl rfl
  | cons y ys ih =>
    intro a
    rcases ih (max a y) with h | h
    · rcases max_choice a y with hm | hm
      · left; rw [List.foldl_cons, h, hm]
      · right; rw [List.foldl_cons, h, hm]; exact List.mem_cons_self y ys
    · right; exact List.mem_cons_of_mem y h

/-- `indexOf` gives the first index that holds the value. -/
theorem indexOf_first (l : List ℚ) (m : ℚ) (h : m ∈ l) :
    l[l.indexOf m]? = some m ∧
      ∀ (j : Nat) (x : ℚ), j < l.indexOf m → l[j]? = some x → x ≠ m := by
  constructor
  · have := List.indexOf_get? h
    simpa using this
  · intro j x hj hx hxm
    have hlt : j < l.length := (List.getElem?_eq_some_iff.1 hx).1
    have hget : l[j] = x := (List.getElem?_eq_some_iff.1 hx).2
    have := @List.not_of_lt_findIdx _ (fun y => y == m) l j hj
    rw [hget, hxm] at this
    simp at this

/-- The index returned by `indexOfMax` on a non-empty array: an index of the
array, whose weight is at least every weight and strictly above every weight
before it. -/
theorem indexOfMax_spec (l : List ℚ) (hne : l ≠ []) :
    ∃ (i : Nat) (m : ℚ), indexOfMax l = (i : Int) ∧ l[i]? = some m ∧
      (∀ (j : Nat) (x : ℚ), l[j]? = some x → x ≤ m) ∧
      (∀ (j : Nat) (x : ℚ), j < i → l[j]? = some x → x < m) := by
  cases l with
  | nil => exact absurd rfl hne
  | cons p ps =>
    obtain ⟨hge1, hge2⟩ := foldl_max_ge ps p
    have hmem : ps.foldl max p ∈ p :: ps := by
      rcases foldl_max_mem ps p with h | h
      · rw [h]; exact List.mem_cons_self p ps
      · exact List.mem_cons_of_mem p h
    have hall : ∀ x ∈ p :: ps, x ≤ ps.foldl max p := by
      intro x hx
      rcases List.mem_cons.1 hx with rfl | hx
      · exact hge1
      · exact hge2 x hx
    obtain ⟨hat, hfirst⟩ := indexOf_first (p :: ps) (ps.foldl max p) hmem
    refine ⟨(p :: ps).indexOf (ps.foldl max p), ps.foldl max p, rfl, hat, ?_, ?_⟩
    · intro j x hx
      exact hall x (List.getElem?_mem hx)
    · intro j x hj hx
      exact lt_of_le_of_ne (hall x (List.getElem?_mem hx)) (hfirst j x hj hx)

/-- C14: for a state with `n ≥ 1` outcomes and `n` weights, `getDominantState()`
returns `collapsedState` when the state is collapsed; otherwise it returns an
index `i` of the weights such that `weights[i]` is at least every weight and
strictly greater than every weight before it: the lowest index of the maximum. -/
theorem C14_getDominantState_first_maximum (s : QuantumState) (hn : 1 ≤ s.numStates)
    (hlen : s.probabilities.length = s.numStates) :
    (s.isCollapsed = true → s.getDominantState = s.collapsedState) ∧
    (s.isCollapsed = false →
      ∃ (i : Nat) (m : ℚ), s.getDominantState = some (i : Int) ∧ i < s.numStates ∧
        s.probabilities[i]? = some m ∧
        (∀ (j : Nat) (x : ℚ), s.probabilities[j]? = some x → x ≤ m) ∧
        (∀ (j : Nat) (x : ℚ), j < i → s.probabilities[j]? = some x → x < m)) := by
  constructor
  · intro hc
    simp [QuantumState.getDominantState, hc]
  · intro hc
    have hne : s.probabilities ≠ [] := by
      intro h
      rw [h] at hlen
      simp at hlen
      omega
    obtain ⟨i, m, hi, hat, hmax, hfirst⟩ := indexOfMax_spec s.probabilities hne
    refine ⟨i, m, ?_, ?_, hat, hmax, hfirst⟩
    · simp [QuantumState.getDominantState, hc, hi]
    · rw [← hlen]
      exact (List.getElem?_eq_some_iff.1 hat).1

/-- C14 on the collapsed state `collapsedOne` and on `tied3`, whose maximum 2/5
is at the indices 1 and 2. -/
theorem C14_getDominantState_first_maximum_witness :
    collapsedOne.getDominantState = collapsedOne.collapsedState ∧
    ∃ (i : Nat) (m : ℚ), tied3.getDominantState = some (i : Int) ∧ i < tied3.numStates ∧
      tied3.probabilities[i]? = some m ∧
      (∀ (j : Nat) (x : ℚ), tied3.probabilities[j]? = some x → x ≤ m) ∧
      (∀ (j : Nat) (x : ℚ), j < i → tied3.probabilities[j]? = some x → x < m) :=
  ⟨(C14_getDominantState_first_maximum collapsedOne (by decide) (by decide)).1 rfl,
   (C14_getDominantState_first_maximum tied3 (by decide) (by decide)).2 rfl⟩

/-! ## The table built by the constructor -/

theorem forall₂_getElem? {α β : Type} {R : α → β → Prop} {l1 : List α} {l2 : List β}
    (h : List.Forall₂ R l1 l2) :
    ∀ (i : Nat) (a : α), l1[i]? = some a → ∃ b, l2[i]? = some b ∧ R a b := by
  induction h with
  | nil => intro i a ha; simp at ha
  | cons hab _ ih =>
    intro i a ha
    cases i with
    | zero =>
      simp only [List.getElem?_cons_zero, Option.some.injEq] at ha
      subst ha
      exact ⟨_, by simp, hab⟩
    | succ i =>
      simp only [List.getElem?_cons_succ] at ha ⊢
      exact ih i a ha

theorem allocRow_lookup (N r : Nat) (ref : Ref) (t : QuantumTile) :
    ∀ (cs : List Nat) (acc : List Ref × World), acc.2.tiles[ref]? = some t →
      (allocRow N r cs acc).2.tiles[ref]? = some t := by
  intro cs
  induction cs with
  | nil => intro acc h; exact h
  | cons c cs ih =>
    intro acc h
    rw [allocRow]
    apply ih
    have hlt : ref < acc.2.tiles.length := (List.getElem?_eq_some_iff.1 h).1
    show (acc.2.tiles ++ [_])[ref]? = some t
    rw [List.getElem?_append_left hlt, h]

theorem allocRows_lookup (N cols : Nat) (ref : Ref) (t : QuantumTile) :
    ∀ (rs : List Nat) (acc : List (List Ref) × World), acc.2.tiles[ref]? = some t →
      (allocRows N cols rs acc).2.tiles[ref]? = some t := by
  intro rs
  induction rs with
  | nil => intro acc h; exact h
  | cons r rs ih =>
    intro acc h
    rw [allocRows]
    exact ih _ (allocRow_lookup N r ref t _ _ h)

/-- The inner loop pushes one fresh tile per column, in order. -/
theorem allocRow_spec (N r : Nat) :
    ∀ (cs : List Nat) (acc : List Ref × World),
      ∃ refs, (allocRow N r cs acc).1 = acc.1 ++ refs ∧
        List.Forall₂ (fun ref c => FreshAt N (allocRow N r cs acc).2 r c ref) refs cs := by
  intro cs
  induction cs with
  | nil => intro acc; exact ⟨[], by simp [allocRow], List.Forall₂.nil⟩
  | cons c cs ih =>
    intro acc
    rw [allocRow]
    obtain ⟨refs, h1, h2⟩ := ih (acc.1 ++ [acc.2.tiles.length],
      { acc.2 with tiles := acc.2.tiles ++
          [QuantumTile.new (r : Int) (c : Int) (QuantumState.new N)] })
    refine ⟨acc.2.tiles.length :: refs, by rw [h1]; simp, List.Forall₂.cons ?_ h2⟩
    apply allocRow_lookup
    show (acc.2.tiles ++ [_])[acc.2.tiles.length]? = _
    rw [List.getElem?_append_right (le_refl _)]
    simp

/-- The outer loop pushes one row of fresh tiles per row index, in order. -/
theorem allocRows_spec (N cols : Nat) :
    ∀ (rs : List Nat) (acc : List (List Ref) × World),
      ∃ table, (allocRows N cols rs acc).1 = acc.1 ++ table ∧
        List.Forall₂ (fun tileRow r => List.Forall₂
          (fun ref c => FreshAt N (allocRows N cols rs acc).2 r c ref) tileRow
          (List.range cols)) table rs := by
  intro rs
  induction rs with
  | nil => intro acc; exact ⟨[], by simp [allocRows], List.Forall₂.nil⟩
  | cons r rs ih =>
    intro acc
    rw [allocRows]
    obtain ⟨refs, hr1, hr2⟩ := allocRow_spec N r (List.range cols) ([], acc.2)
    obtain ⟨table, h1, h2⟩ := ih (acc.1 ++ [(allocRow N r (List.range cols) ([], acc.2)).1],
      (allocRow N r (List.range cols) ([], acc.2)).2)
    refine ⟨(allocRow N r (List.range cols) ([], acc.2)).1 :: table, by rw [h1]; simp,
      List.Forall₂.cons ?_ h2⟩
    rw [hr1, List.nil_append]
    exact hr2.imp (fun _ _ hf => allocRows_lookup N cols _ _ rs _ hf)

/-- In the grid built by the constructor, the cell `(r, c)` of the table holds
the tile made for row `r` and column `c`. -/
theorem create_cell (w0 : World) (rows cols N : Nat) (r c : Nat) (ref : Ref)
    (h : (QuantumGrid.create w0 rows cols N).1.cell r c = some ref) :
    r < rows ∧ c < cols ∧ FreshAt N (QuantumGrid.create w0 rows cols N).2 r c ref := by
  obtain ⟨table, h1, h2⟩ := allocRows_spec N cols (List.range rows) ([], w0)
  simp only [List.nil_append] at h1
  unfold QuantumGrid.cell at h
  simp only [QuantumGrid.create, h1] at h
  split at h
  · cases h
  · next tileRow htr =>
    obtain ⟨r', hr', hrow⟩ := forall₂_getElem? h2 r tileRow htr
    obtain ⟨c', hc', hf⟩ := forall₂_getElem? hrow c ref h
    have hr_lt : r < rows := by
      have := (List.getElem?_eq_some_iff.1 hr').1
      simpa using this
    have hc_lt : c < cols := by
      have := (List.getElem?_eq_some_iff.1 hc').1
      simpa using this
    rw [List.getElem?_range hr_lt] at hr'
    rw [List.getElem?_range hc_lt] at hc'
    cases hr'
    cases hc'
    exact ⟨hr_lt, hc_lt, hf⟩

/-- The grid built by the constructor is well formed. -/
theorem create_wellFormed (w0 : World) (rows cols N : Nat) :
    (QuantumGrid.create w0 rows cols N).1.WellFormed := by
  obtain ⟨table, h1, h2⟩ := allocRows_spec N cols (List.range rows) ([], w0)
  simp only [List.nil_append] at h1
  refine ⟨?_, ?_, ?_⟩
  · show (allocRows N cols (List.range rows) ([], w0)).1.length = rows
    rw [h1, h2.length_eq, List.length_range]
  · intro tileRow htr
    have htr' : tileRow ∈ table := by rw [← h1]; exact htr
    obtain ⟨i, hi⟩ := List.mem_iff_getElem?.1 htr'
    obtain ⟨r', -, hrow⟩ := forall₂_getElem? h2 i tileRow hi
    show tileRow.length = cols
    rw [hrow.length_eq, List.length_range]
  · intro r1 c1 r2 c2 ref ha hb
    obtain ⟨-, -, hf1⟩ := create_cell w0 rows cols N r1 c1 ref ha
    obtain ⟨-, -, hf2⟩ := create_cell w0 rows cols N r2 c2 ref hb
    unfold FreshAt at hf1 hf2
    rw [hf1] at hf2
    simp only [QuantumTile.new, Option.some.injEq, QuantumTile.mk.injEq, Nat.cast_inj,
      and_true] at hf2
    exact hf2

/-! ## `getTile` and `getNeighbors` -/

theorem getTile_eq_cell (g : QuantumGrid) (row col : Int) (ref : Ref)
    (h : g.getTile row col = some ref) :
    0 ≤ row ∧ row < (g.rows : Int) ∧ 0 ≤ col ∧ col < (g.cols : Int) ∧
      g.cell row.toNat col.toNat = some ref := by
  unfold QuantumGrid.getTile at h
  split at h
  · next hb => exact ⟨hb.1, hb.2.1, hb.2.2.1, hb.2.2.2, h⟩
  · cases h

/-- In a well-formed grid `getTile` returns a tile at every in-bounds cell. -/
theorem getTile_inBounds (g : QuantumGrid) (hg : g.WellFormed) (row col : Int)
    (h1 : 0 ≤ row) (h2 : row < (g.rows : Int)) (h3 : 0 ≤ col) (h4 : col < (g.cols : Int)) :
    ∃ ref, g.getTile row col = some ref := by
  have hr : row.toNat < g.tiles.length := by rw [hg.height]; omega
  have hrow : g.tiles[row.toNat]? = some g.tiles[row.toNat] := List.getElem?_eq_getElem hr
  have hw : g.tiles[row.toNat].length = g.cols := hg.width _ (List.getElem_mem hr)
  have hc : col.toNat < g.tiles[row.toNat].length := by rw [hw]; omega
  refine ⟨g.tiles[row.toNat][col.toNat], ?_⟩
  unfold QuantumGrid.getTile
  rw [if_pos ⟨h1, h2, h3, h4⟩, hrow]
  exact List.getElem?_eq_getElem hc

/-- In a well-formed grid `getTile` returns different tiles at different cells. -/
theorem getTile_injective (g : QuantumGrid) (hg : g.WellFormed) (r1 c1 r2 c2 : Int) (ref : Ref)
    (ha : g.getTile r1 c1 = some ref) (hb : g.getTile r2 c2 = some ref) :
    r1 = r2 ∧ c1 = c2 := by
  obtain ⟨a1, -, a3, -, a5⟩ := getTile_eq_cell g r1 c1 ref ha
  obtain ⟨b1, -, b3, -, b5⟩ := getTile_eq_cell g r2 c2 ref hb
  obtain ⟨hr, hc⟩ := hg.distinct _ _ _ _ ref a5 b5
  constructor <;> omega

/-- C18: `getNeighbors(row, col, false)` returns the tiles `getTile` finds at
`(row-1, col)`, `(row, col-1)`, `(row, col+1)`, `(row+1, col)`, in that order, so
at most 4; with `includeDiagonal = true` it returns those found at the 8 adjacent
cells in row-major order of offsets, so at most 8. In a well-formed grid
`getTile` finds a tile exactly at the in-bounds cells, so an interior cell has
exactly its 4 orthogonal neighbours, and the tile of the cell itself is never
returned. -/
theorem C18_getNeighbors_order (g : QuantumGrid) (row col : Int) :
    g.getNeighbors row col false =
      [(row - 1, col), (row, col - 1), (row, col + 1), (row + 1, col)].filterMap
        (fun p => g.getTile p.1 p.2) ∧
    (g.getNeighbors row col false).length ≤ 4 ∧
    g.getNeighbors row col true =
      [(row - 1, col - 1), (row - 1, col), (row - 1, col + 1), (row, col - 1),
        (row, col + 1), (row + 1, col - 1), (row + 1, col), (row + 1, col + 1)].filterMap
        (fun p => g.getTile p.1 p.2) ∧
    (g.getNeighbors row col true).length ≤ 8 ∧
    (g.WellFormed →
      (∀ r c : Int, (∃ ref, g.getTile r c = some ref) ↔
        (0 ≤ r ∧ r < (g.rows : Int) ∧ 0 ≤ c ∧ c < (g.cols : Int))) ∧
      (1 ≤ row → row + 1 < (g.rows : Int) → 1 ≤ col → col + 1 < (g.cols : Int) →
        ∃ up left right down, g.getTile (row - 1) col = some up ∧
          g.getTile row (col - 1) = some left ∧ g.getTile row (col + 1) = some right ∧
          g.getTile (row + 1) col = some down ∧
          g.getNeighbors row col false = [up, left, right, down]) ∧
      (∀ (includeDiagonal : Bool) (self : Ref), g.getTile row col = some self →
        self ∉ g.getNeighbors row col includeDiagonal)) := by
  have hfalse : g.getNeighbors row col false =
      [(row - 1, col), (row, col - 1), (row, col + 1), (row + 1, col)].filterMap
        (fun p => g.getTile p.1 p.2) := by
    rw [show [(row - 1, col), (row, col - 1), (row, col + 1), (row + 1, col)] =
      List.map (fun d : Int × Int => (row + d.1, col + d.2)) [(-1, 0), (0, -1), (0, 1), (1, 0)]
      from by simp [Int.sub_eq_add_neg], List.filterMap_map]
    rfl
  have htrue : g.getNeighbors row col true =
      [(row - 1, col - 1), (row - 1, col), (row - 1, col + 1), (row, col - 1),
        (row, col + 1), (row + 1, col - 1), (row + 1, col), (row + 1, col + 1)].filterMap
        (fun p => g.getTile p.1 p.2) := by
    rw [show [(row - 1, col - 1), (row - 1, col), (row - 1, col + 1), (row, col - 1),
        (row, col + 1), (row + 1, col - 1), (row + 1, col), (row + 1, col + 1)] =
      List.map (fun d : Int × Int => (row + d.1, col + d.2))
        [(-1, -1), (-1, 0), (-1, 1), (0, -1), (0, 1), (1, -1), (1, 0), (1, 1)]
      from by simp [Int.sub_eq_add_neg], List.filterMap_map]
    rfl
  refine ⟨hfalse, ?_, htrue, ?_, ?_⟩
  · rw [hfalse]
    exact le_trans (List.length_filterMap_le _ _) (le_refl _)
  · rw [htrue]
    exact le_trans (List.length_filterMap_le _ _) (le_refl _)
  · intro hg
    refine ⟨?_, ?_, ?_⟩
    · intro r c
      constructor
      · rintro ⟨ref, h⟩
        obtain ⟨h1, h2, h3, h4, -⟩ := getTile_eq_cell g r c ref h
        exact ⟨h1, h2, h3, h4⟩
      · rintro ⟨h1, h2, h3, h4⟩
        exact getTile_inBounds g hg r c h1 h2 h3 h4
    · intro h1 h2 h3 h4
      obtain ⟨up, hu⟩ := getTile_inBounds g hg (row - 1) col (by omega) (by omega)
        (by omega) (by omega)
      obtain ⟨left, hl⟩ := getTile_inBounds g hg row (col - 1) (by omega) (by omega)
        (by omega) (by omega)
      obtain ⟨right, hr⟩ := getTile_inBounds g hg row (col + 1) (by omega) (by omega)
        (by omega) (by omega)
      obtain ⟨down, hd⟩ := getTile_inBounds g hg (row + 1) col (by omega) (by omega)
        (by omega) (by omega)
      refine ⟨up, left, right, down, hu, hl, hr, hd, ?_⟩
      rw [hfalse]
      simp [List.filterMap_cons, hu, hl, hr, hd]
    · intro includeDiagonal self hself hmem
      have key : ∀ p ∈ ([(row - 1, col - 1), (row - 1, col), (row - 1, col + 1),
          (row, col - 1), (row, col + 1), (row + 1, col - 1), (row + 1, col),
          (row + 1, col + 1)] : List (Int × Int)), g.getTile p.1 p.2 ≠ some self := by
        intro p hp hget
        obtain ⟨e1, e2⟩ := getTile_injective g hg p.1 p.2 row col self hget hself
        simp only [List.mem_cons, List.mem_singleton, List.not_mem_nil, or_false] at hp
        rcases hp with rfl | rfl | rfl | rfl | rfl | rfl | rfl | rfl <;>
          simp only at e1 e2 <;> omega
      cases includeDiagonal with
      | true =>
        rw [htrue] at hmem
        obtain ⟨p, hp, hget⟩ := List.mem_filterMap.1 hmem
        exact key p hp hget
      | false =>
        rw [hfalse] at hmem
        obtain ⟨p, hp, hget⟩ := List.mem_filterMap.1 hmem
        refine key p ?_ hget
        simp only [List.mem_cons, List.mem_singleton, List.not_mem_nil, or_false] at hp ⊢
        rcases hp with rfl | rfl | rfl | rfl <;> simp

/-- C18 on the 3×3 grid: the interior cell (1, 1) has its four orthogonal
neighbours, in the order up, left, right, down, and is not among its own
neighbours with or without diagonals; the corner (0, 0) has two. -/
theorem C18_getNeighbors_order_witness :
    (∃ up left right down, grid3.1.getTile (1 - 1) 1 = some up ∧
      grid3.1.getTile 1 (1 - 1) = some left ∧ grid3.1.getTile 1 (1 + 1) = some right ∧
      grid3.1.getTile (1 + 1) 1 = some down ∧
      grid3.1.getNeighbors 1 1 false = [up, left, right, down]) ∧
    (∀ (includeDiagonal : Bool) (self : Ref), grid3.1.getTile 1 1 = some self →
      self ∉ grid3.1.getNeighbors 1 1 includeDiagonal) ∧
    grid3.1.getNeighbors 1 1 false = [1, 3, 5, 7] ∧
    grid3.1.getNeighbors 1 1 true = [0, 1, 2, 3, 5, 6, 7, 8] ∧
    grid3.1.getNeighbors 0 0 false = [1, 3] :=
  ⟨((C18_getNeighbors_order grid3.1 1 1).2.2.2.2 (create_wellFormed emptyWorld 3 3 2)).2.1
      (by decide) (by decide) (by decide) (by decide),
   ((C18_getNeighbors_order grid3.1 1 1).2.2.2.2 (create_wellFormed emptyWorld 3 3 2)).2.2,
   by decide, by decide, by decide⟩

/-! ## `matchesPattern` -/

/-- A loop whose body never throws returns, and returns `true` exactly when the
body says `true` at every element. -/
theorem forAllM_spec {α : Type} (body : α → Option Bool) :
    ∀ l : List α, (∀ x ∈ l, ∃ b, body x = some b) →
      ∃ b, forAllM body l = some b ∧ (b = true ↔ ∀ x ∈ l, body x = some true) := by
  intro l
  induction l with
  | nil => intro _; exact ⟨true, rfl, by simp⟩
  | cons x xs ih =>
    intro h
    obtain ⟨bx, hbx⟩ := h x (List.mem_cons_self x xs)
    obtain ⟨b, hb, hiff⟩ := ih (fun y hy => h y (List.mem_cons_of_mem x hy))
    cases bx with
    | false =>
      refine ⟨false, by simp [forAllM, hbx], ?_⟩
      constructor
      · intro hf; cases hf
      · intro hall
        have := hall x (List.mem_cons_self x xs)
        rw [hbx] at this
        cases this
    | true =>
      refine ⟨b, by simp [forAllM, hbx, hb], ?_⟩
      rw [hiff]
      constructor
      · intro hall y hy
        rcases List.mem_cons.1 hy with rfl | hy
        · exact hbx
        · exact hall y hy
      · intro hall y hy
        exact hall y (List.mem_cons_of_mem x hy)

/-- The body of the inner loop at a cell that holds a tile, for a row of the
pattern: it never throws, and says `true` exactly when the entry is the wildcard
or the tile is collapsed with the entry as outcome. -/
theorem matchCell_spec (g : QuantumGrid) (w : World) (pattern : List (List (Option Int)))
    (r c : Nat) (patternRow : List (Option Int)) (ref : Ref) (tile : QuantumTile)
    (hp : pattern[r]? = some patternRow) (hcell : g.cell r c = some ref)
    (ht : w.tiles[ref]? = some tile) :
    ∃ b, matchCell g w pattern r c = some b ∧
      (b = true ↔ (patternRow[c]? ≠ some (some (-1)) →
        tile.state.isCollapsed = true ∧ some tile.state.collapsedState = patternRow[c]?)) := by
  unfold QuantumGrid.cell at hcell
  split at hcell
  · cases hcell
  · next tileRow htr =>
    by_cases hwild : patternRow[c]? = some (some (-1))
    · refine ⟨true, by simp [matchCell, htr, hp, hwild], ?_⟩
      simp [hwild]
    · cases hc : tile.state.isCollapsed with
      | false =>
        refine ⟨false, by simp [matchCell, htr, hp, hwild, hcell, ht, hc], ?_⟩
        simp [hwild]
      | true =>
        by_cases heq : some tile.state.collapsedState = patternRow[c]?
        · refine ⟨true, by simp [matchCell, htr, hp, hwild, hcell, ht, hc, heq], ?_⟩
          simp [heq]
        · refine ⟨false, by simp [matchCell, htr, hp, hwild, hcell, ht, hc, heq], ?_⟩
          simp [hwild, heq]

/-- On a pattern with `rows` rows, over a grid whose cells hold tiles, the two
loops of `matchesPattern` never throw: they return, and return `true` exactly
when the body says `true` at every cell. -/
theorem matchLoops_spec (g : QuantumGrid) (w : World) (pattern : List (List (Option Int)))
    (hlen : pattern.length = g.rows) (hlive : GridLive g w) :
    ∃ b, forAllM (fun r => forAllM (fun c => matchCell g w pattern r c) (List.range g.cols))
        (List.range g.rows) = some b ∧
      (b = true ↔ ∀ r c : Nat, r < g.rows → c < g.cols →
        matchCell g w pattern r c = some true) := by
  have hcell : ∀ r c : Nat, r < g.rows → c < g.cols →
      ∃ b, matchCell g w pattern r c = some b := by
    intro r c hr hc
    obtain ⟨ref, t, h1, h2⟩ := hlive r c hr hc
    obtain ⟨b, hb, -⟩ := matchCell_spec g w pattern r c pattern[r] ref t
      (List.getElem?_eq_getElem (by omega)) h1 h2
    exact ⟨b, hb⟩
  have hinner : ∀ r : Nat, r < g.rows →
      ∃ b, forAllM (fun c => matchCell g w pattern r c) (List.range g.cols) = some b ∧
        (b = true ↔ ∀ c : Nat, c < g.cols → matchCell g w pattern r c = some true) := by
    intro r hr
    obtain ⟨b, hb, hiff⟩ := forAllM_spec (fun c => matchCell g w pattern r c)
      (List.range g.cols) (fun c hc => hcell r c hr (List.mem_range.1 hc))
    refine ⟨b, hb, ?_⟩
    rw [hiff]
    exact ⟨fun h c hc => h c (List.mem_range.2 hc), fun h c hc => h c (List.mem_range.1 hc)⟩
  obtain ⟨b, hb, hiff⟩ := forAllM_spec
    (fun r => forAllM (fun c => matchCell g w pattern r c) (List.range g.cols))
    (List.range g.rows)
    (fun r hr => by
      obtain ⟨b, hb, -⟩ := hinner r (List.mem_range.1 hr)
      exact ⟨b, hb⟩)
  refine ⟨b, hb, ?_⟩
  rw [hiff]
  constructor
  · intro h r c hr hc
    obtain ⟨b', hb', hiff'⟩ := hinner r hr
    have : forAllM (fun c => matchCell g w pattern r c) (List.range g.cols) = some true :=
      h r (List.mem_range.2 hr)
    rw [hb'] at this
    cases this
    exact hiff'.1 rfl c hc
  · intro h r hr
    obtain ⟨b', hb', hiff'⟩ := hinner r (List.mem_range.1 hr)
    show forAllM (fun c => matchCell g w pattern r c) (List.range g.cols) = some true
    rw [hb']
    exact congrArg some (hiff'.2 (fun c hc => h r c (List.mem_range.1 hr) hc))

/-- C19: for a grid with `rows ≥ 1` whose cells hold tiles, and a pattern with
exactly `rows` rows of exactly `cols` entries, `matchesPattern(pattern)` returns,
and returns `true` if and only if, at every cell whose pattern value is not the
wildcard -1, the tile is collapsed and its `collapsedState` equals the pattern
value. -/
theorem C19_matchesPattern_iff (g : QuantumGrid) (w : World)
    (pattern : List (List (Option Int))) (hrows : 1 ≤ g.rows)
    (hlen : pattern.length = g.rows) (hwidth : ∀ patternRow ∈ pattern, patternRow.length = g.cols)
    (hlive : GridLive g w) :
    ∃ b, g.matchesPattern w pattern = some b ∧
      (b = true ↔ ∀ (r c : Nat) (patternRow : List (Option Int)) (target : Option Int)
        (ref : Ref) (tile : QuantumTile), pattern[r]? = some patternRow →
        patternRow[c]? = some target → g.cell r c = some ref → w.tiles[ref]? = some tile →
        target ≠ some (-1) →
        tile.state.isCollapsed = true ∧ tile.state.collapsedState = target) := by
  obtain ⟨b, hb, hiff⟩ := matchLoops_spec g w pattern hlen hlive
  have h0 : pattern[0]? = some pattern[0] := List.getElem?_eq_getElem (by omega)
  have hw0 : pattern[0].length = g.cols := hwidth _ (List.getElem_mem _)
  refine ⟨b, ?_, ?_⟩
  · simp only [QuantumGrid.matchesPattern, hlen, h0, hw0, ne_eq, not_true_eq_false, if_false]
    exact hb
  · rw [hiff]
    constructor
    · intro h r c patternRow target ref tile hp htar hcell ht hne
      have hr : r < g.rows := by
        rw [← hlen]; exact (List.getElem?_eq_some_iff.1 hp).1
      have hc : c < g.cols := by
        rw [← hwidth patternRow (List.getElem?_mem hp)]
        exact (List.getElem?_eq_some_iff.1 htar).1
      obtain ⟨b', hb', hiff'⟩ := matchCell_spec g w pattern r c patternRow ref tile hp hcell ht
      rw [h r c hr hc] at hb'
      cases hb'
      have := hiff'.1 rfl (by rw [htar]; simpa using hne)
      rw [htar] at this
      exact ⟨this.1, by simpa using this.2⟩
    · intro h r c hr hc
      obtain ⟨ref, tile, hcell, ht⟩ := hlive r c hr hc
      obtain ⟨patternRow, hp⟩ : ∃ pr, pattern[r]? = some pr :=
        ⟨pattern[r], List.getElem?_eq_getElem (by omega)⟩
      have hwr : patternRow.length = g.cols := hwidth _ (List.getElem?_mem hp)
      obtain ⟨target, htar⟩ : ∃ x, patternRow[c]? = some x :=
        ⟨patternRow[c], List.getElem?_eq_getElem (by omega)⟩
      obtain ⟨b', hb', hiff'⟩ := matchCell_spec g w pattern r c patternRow ref tile hp hcell ht
      rw [hb']
      refine congrArg some (hiff'.2 ?_)
      intro hne
      rw [htar] at hne ⊢
      have hne' : target ≠ some (-1) := fun e => hne (by rw [e])
      have := h r c patternRow target ref tile hp htar hcell ht hne'
      exact ⟨this.1, by rw [this.2]⟩

theorem gridLive_of_all (g : QuantumGrid) (w : World)
    (h : ∀ r ∈ List.range g.rows, ∀ c ∈ List.range g.cols,
      ((g.cell r c).bind (fun ref => w.tiles[ref]?)).isSome = true) : GridLive g w := by
  intro r c hr hc
  have := h r (List.mem_range.2 hr) c (List.mem_range.2 hc)
  cases hcell : g.cell r c with
  | none => simp [hcell] at this
  | some ref =>
    cases ht : w.tiles[ref]? with
    | none => simp [hcell, ht] at this
    | some t => exact ⟨ref, t, rfl, ht⟩

/-- C19 on `diagGrid` with the pattern `[[0, -1], [-1, 1]]`: (0, 0) is collapsed
to 0 and (1, 1) to 1, and the pattern matches. -/
theorem C19_matchesPattern_iff_witness :
    (∃ b, diagGrid.1.matchesPattern diagGrid.2 [[some 0, some (-1)], [some (-1), some 1]] =
        some b ∧
      (b = true ↔ ∀ (r c : Nat) (patternRow : List (Option Int)) (target : Option Int)
        (ref : Ref) (tile : QuantumTile),
        [[some 0, some (-1)], [some (-1), some 1]][r]? = some patternRow →
        patternRow[c]? = some target → diagGrid.1.cell r c = some ref →
        diagGrid.2.tiles[ref]? = some tile → target ≠ some (-1) →
        tile.state.isCollapsed = true ∧ tile.state.collapsedState = target)) ∧
    diagGrid.1.matchesPattern diagGrid.2 [[some 0, some (-1)], [some (-1), some 1]] =
      some true ∧
    diagGrid.1.matchesPattern diagGrid.2 [[some 1, some (-1)], [some (-1), some 1]] =
      some false ∧
    diagGrid.1.matchesPattern diagGrid.2 [[some (-1), some 0], [some (-1), some 1]] =
      some false :=
  ⟨C19_matchesPattern_iff diagGrid.1 diagGrid.2 [[some 0, some (-1)], [some (-1), some 1]]
      (by decide) (by decide) (by decide) (gridLive_of_all diagGrid.1 diagGrid.2 (by decide!)),
   by decide!, by decide!, by decide!⟩

/-- C20, counterexample: on the 2×1 grid `colPair`, whose two tiles are collapsed
to 0, the pattern `[[0], [0, 5]]` has a second row of length 2, not `cols = 1`,
and `matchesPattern` returns `true`. -/
theorem C20_shape_mismatch_counterexample :
    colPair.1.rows = 2 ∧ colPair.1.cols = 1 ∧
    colPair.1.matchesPattern colPair.2 [[some 0], [some 0, some 5]] = some true := by
  decide!

/-- C20, amended: `matchesPattern(pattern)` returns `false`, whatever the tiles'
states are, when the pattern has a number of rows different from `rows`, and
when its first row has a length different from `cols`; and, over a grid whose
cells hold tiles, when the pattern has `rows` rows one of which is shorter than
`cols`. -/
theorem C20_shape_mismatch_amended (g : QuantumGrid) (w : World)
    (pattern : List (List (Option Int))) :
    (pattern.length ≠ g.rows → g.matchesPattern w pattern = some false) ∧
    (∀ row0 : List (Option Int), pattern[0]? = some row0 → row0.length ≠ g.cols →
      g.matchesPattern w pattern = some false) ∧
    (pattern.length = g.rows → GridLive g w →
      (∃ (r : Nat) (patternRow : List (Option Int)),
        pattern[r]? = some patternRow ∧ patternRow.length < g.cols) →
      g.matchesPattern w pattern = some false) := by
  refine ⟨?_, ?_, ?_⟩
  · intro h
    simp [QuantumGrid.matchesPattern, h]
  · intro row0 h0 hw
    by_cases hlen : pattern.length = g.rows
    · simp [QuantumGrid.matchesPattern, hlen, h0, hw]
    · simp [QuantumGrid.matchesPattern, hlen]
  · rintro hlen hlive ⟨r, patternRow, hp, hshort⟩
    have hr : r < g.rows := by
      rw [← hlen]; exact (List.getElem?_eq_some_iff.1 hp).1
    obtain ⟨row0, h0⟩ : ∃ x, pattern[0]? = some x :=
      ⟨pattern[0], List.getElem?_eq_getElem (by omega)⟩
    by_cases hw : row0.length = g.cols
    · obtain ⟨b, hb, hiff⟩ := matchLoops_spec g w pattern hlen hlive
      have hbf : b = false := by
        cases b with
        | false => rfl
        | true =>
          exfalso
          have hall := hiff.1 rfl r patternRow.length hr hshort
          obtain ⟨ref, tile, hcell, ht⟩ := hlive r patternRow.length hr hshort
          obtain ⟨b', hb', hiff'⟩ :=
            matchCell_spec g w pattern r patternRow.length patternRow ref tile hp hcell ht
          rw [hall] at hb'
          cases hb'
          have hnone : patternRow[patternRow.length]? = none :=
            List.getElem?_eq_none (le_refl _)
          have := hiff'.1 rfl (by rw [hnone]; simp)
          rw [hnone] at this
          cases this.2
      subst hbf
      simp only [QuantumGrid.matchesPattern, hlen, h0, hw, ne_eq, not_true_eq_false, if_false]
      exact hb
    · simp [QuantumGrid.matchesPattern, hlen, h0, hw]

/-- C20 amended on `colPair`: a pattern with three rows, a pattern whose first
row has two entries, and a pattern whose second row is empty. -/
theorem C20_shape_mismatch_amended_witness :
    colPair.1.matchesPattern colPair.2 [[some 0], [some 0], [some 0]] = some false ∧
    colPair.1.matchesPattern colPair.2 [[some 0, some 0], [some 0]] = some false ∧
    colPair.1.matchesPattern colPair.2 [[some 0], []] = some false :=
  ⟨(C20_shape_mismatch_amended colPair.1 colPair.2 [[some 0], [some 0], [some 0]]).1
      (by decide),
   (C20_shape_mismatch_amended colPair.1 colPair.2 [[some 0, some 0], [some 0]]).2.1
      [some 0, some 0] rfl (by decide),
   (C20_shape_mismatch_amended colPair.1 colPair.2 [[some 0], []]).2.2 (by decide)
      (gridLive_of_all colPair.1 colPair.2 (by decide!)) ⟨1, [], rfl, by decide⟩⟩

/-! ## The arithmetic of interference -/

theorem foldl_add_eq_sum (l : List ℚ) : l.foldl (fun a b => a + b) 0 = l.sum := by
  rw [List.sum_eq_foldl]

theorem sum_map_div (l : List ℚ) (s : ℚ) : (l.map (fun p => p / s)).sum = l.sum / s := by
  induction l with
  | nil => simp
  | cons x xs ih => simp [ih, add_div]

/-- The state after `normalize()` when the weights have a positive sum. -/
theorem normalize_of_pos (s : QuantumState) (h : 0 < s.probabilities.sum) :
    s.normalize = { s with probabilities := s.probabilities.map (fun p => p / s.probabilities.sum) }
      ∧ s.normalize.probabilities.sum = 1 := by
  have hn : s.normalize =
      { s with probabilities := s.probabilities.map (fun p => p / s.probabilities.sum) } := by
    simp [QuantumState.normalize, foldl_add_eq_sum, h]
  refine ⟨hn, ?_⟩
  rw [hn]
  show (s.probabilities.map (fun p => p / s.probabilities.sum)).sum = 1
  rw [sum_map_div, div_self (ne_of_gt h)]

/-- One iteration of the inner loop, at index `k`. -/
theorem addInterference_step (acc nb : List ℚ) (k j : Nat) :
    (match acc[k]?, nb[k]? with
      | some a, some b => acc.set k (a + b * (1 / 10))
      | _, _ => acc)[j]? =
      if j = k then
        (match acc[k]?, nb[k]? with
          | some a, some b => some (a + b * (1 / 10))
          | _, _ => acc[k]?)
      else acc[j]? := by
  cases ha : acc[k]? with
  | none =>
    by_cases hjk : j = k
    · rw [if_pos hjk, hjk, ha]
    · rw [if_neg hjk]
  | some a =>
    cases hb : nb[k]? with
    | none =>
      by_cases hjk : j = k
      · rw [if_pos hjk, hjk, ha]
      · rw [if_neg hjk]
    | some b =>
      by_cases hjk : j = k
      · rw [if_pos hjk, hjk]
        exact List.getElem?_set_self (List.getElem?_eq_some_iff.1 ha).1
      · rw [if_neg hjk]
        exact List.getElem?_set_ne (fun e => hjk e.symm)

/-- One pass of the inner loop over the indices below `k`. -/
theorem addInterference_loop (acc nb : List ℚ) :
    ∀ (k j : Nat), ((List.range k).foldl
        (fun acc i =>
          match acc[i]?, nb[i]? with
          | some a, some b => acc.set i (a + b * (1 / 10))
          | _, _ => acc) acc)[j]? =
      if j < k then
        (match acc[j]?, nb[j]? with
          | some a, some b => some (a + b * (1 / 10))
          | _, _ => acc[j]?)
      else acc[j]? := by
  intro k
  induction k with
  | zero => intro j; rfl
  | succ k ih =>
    intro j
    rw [List.range_succ, List.foldl_append, List.foldl_cons, List.foldl_nil,
      addInterference_step]
    have hk := ih k
    rw [if_neg (lt_irrefl k)] at hk
    by_cases hjk : j = k
    · rw [if_pos hjk, hk, hjk, if_pos (Nat.lt_succ_self k)]
    · rw [if_neg hjk, ih j]
      by_cases hlt : j < k
      · rw [if_pos hlt, if_pos (Nat.lt_succ_of_lt hlt)]
      · rw [if_neg hlt, if_neg (by omega)]

/-- The entries after `addInterference`: below `numStates`, where both arrays
have an entry, the neighbour's entry times 0.1 is added. -/
theorem addInterference_getElem? (numStates : Nat) (acc nb : List ℚ) (j : Nat) :
    (addInterference numStates acc nb)[j]? =
      if j < numStates then
        (match acc[j]?, nb[j]? with
          | some a, some b => some (a + b * (1 / 10))
          | _, _ => acc[j]?)
      else acc[j]? :=
  addInterference_loop acc nb numStates j

theorem getD_of_getElem? (l : List ℚ) (j : Nat) (x : ℚ) (h : l[j]? = some x) :
    l.getD j 0 = x := by
  simp [List.getD_eq_getElem?_getD, h]

/-- The entries of the accumulated array, when the target and every neighbour
used have `numStates` weights. -/
theorem interference_getElem? (numStates : Nat) :
    ∀ (ns : List QuantumTile) (weights : List ℚ), weights.length = numStates →
      (∀ n ∈ ns, n.state.probabilities.length = numStates) →
      ∀ j, j < numStates →
        (ns.foldl (fun acc n => addInterference numStates acc n.state.probabilities) weights)[j]?
          = some (interfered weights ns j) := by
  intro ns
  induction ns with
  | nil =>
    intro weights hlen _ j hj
    have hj' : j < weights.length := by omega
    simp [interfered, neighborSum, List.getD_eq_getElem?_getD, List.getElem?_eq_getElem hj']
  | cons n ns ih =>
    intro weights hlen hns j hj
    have hnlen : n.state.probabilities.length = numStates := hns n (List.mem_cons_self n ns)
    have hstep : ∀ i, i < numStates →
        (addInterference numStates weights n.state.probabilities)[i]? =
          some (weights.getD i 0 + n.state.probabilities.getD i 0 * (1 / 10)) := by
      intro i hi
      have h1 : weights[i]? = some weights[i] := List.getElem?_eq_getElem (by omega)
      have h2 : n.state.probabilities[i]? = some n.state.probabilities[i] :=
        List.getElem?_eq_getElem (by omega)
      rw [addInterference_getElem?, if_pos hi, h1, h2,
        getD_of_getElem? _ _ _ h1, getD_of_getElem? _ _ _ h2]
    have hlen' : (addInterference numStates weights n.state.probabilities).length = numStates := by
      by_contra hne
      rcases Nat.lt_or_gt_of_ne hne with hlt | hgt
      · have h0 := hstep _ hlt
        rw [List.getElem?_eq_none (le_refl _)] at h0
        cases h0
      · have h0 : (addInterference numStates weights n.state.probabilities)[numStates]? =
            weights[numStates]? := by
          rw [addInterference_getElem?, if_neg (lt_irrefl _)]
        rw [List.getElem?_eq_getElem hgt, List.getElem?_eq_none (by omega)] at h0
        cases h0
    rw [List.foldl_cons, ih _ hlen' (fun m hm => hns m (List.mem_cons_of_mem n hm)) j hj]
    have := hstep j hj
    simp only [interfered, neighborSum, List.map_cons, List.sum_cons,
      getD_of_getElem? _ _ _ this]
    congr 1
    ring

/-- The accumulated array is the list of the `u[i]`. -/
theorem interference_eq (numStates : Nat) (ns : List QuantumTile) (weights : List ℚ)
    (hlen : weights.length = numStates)
    (hns : ∀ n ∈ ns, n.state.probabilities.length = numStates) :
    ns.foldl (fun acc n => addInterference numStates acc n.state.probabilities) weights =
      (List.range numStates).map (interfered weights ns) := by
  have hlength : ∀ (ms : List QuantumTile) (l : List ℚ),
      (ms.foldl (fun acc n => addInterference numStates acc n.state.probabilities) l).length =
        l.length := by
    intro ms
    induction ms with
    | nil => intro l; rfl
    | cons m ms ih =>
      intro l
      rw [List.foldl_cons, ih]
      by_contra hne
      rcases Nat.lt_or_gt_of_ne hne with hlt | hgt
      · have h0 := addInterference_getElem? numStates l m.state.probabilities
          (addInterference numStates l m.state.probabilities).length
        rw [List.getElem?_eq_none (le_refl _), List.getElem?_eq_getElem hlt] at h0
        split at h0
        · split at h0 <;> cases h0
        · cases h0
      · have h0 := addInterference_getElem? numStates l m.state.probabilities l.length
        rw [List.getElem?_eq_getElem hgt, List.getElem?_eq_none (le_refl l.length)] at h0
        split at h0 <;> cases h0
  apply List.ext_getElem?
  intro j
  by_cases hj : j < numStates
  · rw [interference_getElem? numStates ns weights hlen hns j hj]
    simp [List.getElem?_map, List.getElem?_range hj]
  · rw [List.getElem?_eq_none (by rw [hlength, hlen]; omega),
      List.getElem?_eq_none (by simp; omega)]

/-! ## `applyInterference` on a target with a neighbour in superposition -/

theorem neighborSum_nonneg (ns : List QuantumTile)
    (h : ∀ n ∈ ns, ∀ x ∈ n.state.probabilities, (0 : ℚ) ≤ x) (i : Nat) :
    0 ≤ neighborSum ns i := by
  apply List.sum_nonneg
  intro y hy
  obtain ⟨n, hn, rfl⟩ := List.mem_map.1 hy
  rw [List.getD_eq_getElem?_getD]
  cases hx : n.state.probabilities[i]? with
  | none => simp
  | some x => simpa using h n hn x (List.getElem?_mem hx)

theorem neighborSum_ge (ns : List QuantumTile)
    (h : ∀ n ∈ ns, ∀ x ∈ n.state.probabilities, (0 : ℚ) ≤ x) (n : QuantumTile) (hn : n ∈ ns)
    (i : Nat) : n.state.probabilities.getD i 0 ≤ neighborSum ns i := by
  apply List.single_le_sum
  · intro y hy
    obtain ⟨m, hm, rfl⟩ := List.mem_map.1 hy
    rw [List.getD_eq_getElem?_getD]
    cases hx : m.state.probabilities[i]? with
    | none => simp
    | some x => simpa using h m hm x (List.getElem?_mem hx)
  · exact List.mem_map.2 ⟨n, hn, rfl⟩

theorem getD_nonneg (l : List ℚ) (h : ∀ x ∈ l, (0 : ℚ) ≤ x) (i : Nat) : 0 ≤ l.getD i 0 := by
  rw [List.getD_eq_getElem?_getD]
  cases hx : l[i]? with
  | none => simp
  | some x => simpa using h x (List.getElem?_mem hx)

theorem interfered_nonneg (weights : List ℚ) (ns : List QuantumTile)
    (hw : ∀ x ∈ weights, (0 : ℚ) ≤ x)
    (h : ∀ n ∈ ns, ∀ x ∈ n.state.probabilities, (0 : ℚ) ≤ x) (i : Nat) :
    0 ≤ interfered weights ns i := by
  unfold interfered
  have h1 := getD_nonneg weights hw i
  have h2 := neighborSum_nonneg ns h i
  positivity

/-- A state in superposition has a weight above 0.01. -/
theorem superposed_weight (s : QuantumState) (h : s.isInSuperposition = true) :
    ∃ (j : Nat) (x : ℚ), s.probabilities[j]? = some x ∧ 1 / 100 < x := by
  unfold QuantumState.isInSuperposition at h
  split at h
  · cases h
  · simp only [decide_eq_true_eq] at h
    have hpos : 0 < (s.probabilities.filter (fun p => decide (p > 1 / 100))).length := by omega
    obtain ⟨x, hx⟩ := List.exists_mem_of_length_pos hpos
    rw [List.mem_filter] at hx
    obtain ⟨j, hj⟩ := List.mem_iff_getElem?.1 hx.1
    exact ⟨j, x, hj, by simpa using hx.2⟩

theorem superposed_uncollapsed (s : QuantumState) (h : s.isInSuperposition = true) :
    s.isCollapsed = false := by
  cases hc : s.isCollapsed
  · rfl
  · rw [not_superposed_of_collapsed s hc] at h
    cases h

theorem range_map_getD (l : List ℚ) : (List.range l.length).map (fun i => l.getD i 0) = l := by
  apply List.ext_getElem?
  intro j
  by_cases hj : j < l.length
  · simp [List.getElem?_map, List.getElem?_range hj, List.getD_eq_getElem?_getD,
      List.getElem?_eq_getElem hj]
  · rw [List.getElem?_eq_none (by simp; omega), List.getElem?_eq_none (by omega)]

/-- The sum of the `u[i]`: the sum of the target's weights plus 0.1 times the sum
of the neighbours' sums. -/
theorem sum_interfered (numStates : Nat) (weights : List ℚ) (ns : List QuantumTile)
    (hlen : weights.length = numStates) :
    ((List.range numStates).map (interfered weights ns)).sum =
      weights.sum + 1 / 10 * ((List.range numStates).map (neighborSum ns)).sum := by
  have h1 : ((List.range numStates).map (interfered weights ns)) =
      (List.range numStates).map
        (fun i => weights.getD i 0 + 1 / 10 * neighborSum ns i) := rfl
  rw [h1, List.sum_map_add, List.sum_map_mul_left, ← hlen, range_map_getD]

/-- The sum of the `u[i]` is positive when the weights are non-negative and a
neighbour in superposition is used. -/
theorem sum_interfered_pos (numStates : Nat) (weights : List ℚ) (ns : List QuantumTile)
    (hw : ∀ x ∈ weights, (0 : ℚ) ≤ x)
    (hnn : ∀ n ∈ ns, ∀ x ∈ n.state.probabilities, (0 : ℚ) ≤ x)
    (hlen : ∀ n ∈ ns, n.state.probabilities.length = numStates)
    (hsup : ∀ n ∈ ns, n.state.isInSuperposition = true) (hne : ns ≠ []) :
    0 < ((List.range numStates).map (interfered weights ns)).sum := by
  obtain ⟨n, hn⟩ := List.exists_mem_of_ne_nil ns hne
  obtain ⟨j, x, hjx, hx⟩ := superposed_weight n.state (hsup n hn)
  have hj : j < numStates := by
    rw [← hlen n hn]; exact (List.getElem?_eq_some_iff.1 hjx).1
  have hge : n.state.probabilities.getD j 0 ≤ neighborSum ns j := neighborSum_ge ns hnn n hn j
  rw [getD_of_getElem? _ _ _ hjx] at hge
  have hu : 0 < interfered weights ns j := by
    unfold interfered
    have := getD_nonneg weights hw j
    linarith
  have hmem : interfered weights ns j ∈ (List.range numStates).map (interfered weights ns) :=
    List.mem_map.2 ⟨j, List.mem_range.2 hj, rfl⟩
  have hall : ∀ y ∈ (List.range numStates).map (interfered weights ns), (0 : ℚ) ≤ y := by
    intro y hy
    obtain ⟨i, -, rfl⟩ := List.mem_map.1 hy
    exact interfered_nonneg weights ns hw hnn i
  exact lt_of_lt_of_le hu (List.single_le_sum hall _ hmem)

theorem superposedNeighbors_superposed (g : QuantumGrid) (w : World) (row col : Int) :
    ∀ n ∈ superposedNeighbors g w row col, n.state.isInSuperposition = true := by
  intro n hn
  unfold superposedNeighbors at hn
  exact (List.mem_filter.1 hn).2

/-- The store after `applyInterference` on an uncollapsed target with
non-negative weights whose neighbours in superposition are not none: the
target's weights become the `u[i]` divided by their sum, which is positive, and
nothing else changes. -/
theorem applyInterference_spec (g : QuantumGrid) (w : World) (row col : Int) (ref : Ref)
    (tile : QuantumTile) (hT : g.getTile row col = some ref) (ht : w.tiles[ref]? = some tile)
    (hc : tile.state.isCollapsed = false)
    (hlen : tile.state.probabilities.length = g.numStates)
    (hw : ∀ x ∈ tile.state.probabilities, (0 : ℚ) ≤ x)
    (hne : superposedNeighbors g w row col ≠ [])
    (hnlen : ∀ n ∈ superposedNeighbors g w row col,
      n.state.probabilities.length = g.numStates)
    (hnn : ∀ n ∈ superposedNeighbors g w row col, ∀ x ∈ n.state.probabilities, (0 : ℚ) ≤ x) :
    0 < ((List.range g.numStates).map
        (interfered tile.state.probabilities (superposedNeighbors g w row col))).sum ∧
    g.applyInterference w row col =
      { w with tiles := w.tiles.set ref { tile with state := { tile.state with
          probabilities := (List.range g.numStates).map (fun i =>
            interfered tile.state.probabilities (superposedNeighbors g w row col) i /
              ((List.range g.numStates).map
                (interfered tile.state.probabilities (superposedNeighbors g w row col))).sum) } } } := by
  have hpos := sum_interfered_pos g.numStates tile.state.probabilities
    (superposedNeighbors g w row col) hw hnn hnlen
    (superposedNeighbors_superposed g w row col) hne
  refine ⟨hpos, ?_⟩
  have hlen0 : ¬ (superposedNeighbors g w row col).length = 0 := by
    intro h0
    exact hne (List.length_eq_zero.1 h0)
  have hfold := interference_eq g.numStates (superposedNeighbors g w row col)
    tile.state.probabilities hlen hnlen
  have hnorm := (normalize_of_pos
    ⟨tile.state.numStates, (List.range g.numStates).map
      (interfered tile.state.probabilities (superposedNeighbors g w row col)),
      false, tile.state.collapsedState⟩ hpos).1
  unfold superposedNeighbors at hlen0 hfold hnorm ⊢
  simp only [QuantumGrid.applyInterference, hT, ht, hc, Bool.false_eq_true, if_false, hlen0,
    hfold, hnorm, List.map_map]
  rfl

/-! ## Claims C15 and C17 -/

theorem mem_superposedNeighbors (g : QuantumGrid) (w : World) (row col : Int) (n : QuantumTile) :
    n ∈ superposedNeighbors g w row col ↔
      n.state.isInSuperposition = true ∧
        ∃ r ∈ g.getNeighbors row col false, w.tiles[r]? = some n := by
  unfold superposedNeighbors
  rw [List.mem_filter, List.mem_filterMap]
  exact ⟨fun h => ⟨h.2, h.1⟩, fun h => ⟨h.2, h.1⟩⟩

/-- The weights of the target after `applyInterference`, entry by entry. -/
theorem applyInterference_weights (g : QuantumGrid) (w : World) (row col : Int) (ref : Ref)
    (tile : QuantumTile) (hT : g.getTile row col = some ref) (ht : w.tiles[ref]? = some tile)
    (hc : tile.state.isCollapsed = false)
    (hlen : tile.state.probabilities.length = g.numStates)
    (hw : ∀ x ∈ tile.state.probabilities, (0 : ℚ) ≤ x)
    (hne : superposedNeighbors g w row col ≠ [])
    (hnlen : ∀ n ∈ superposedNeighbors g w row col,
      n.state.probabilities.length = g.numStates)
    (hnn : ∀ n ∈ superposedNeighbors g w row col, ∀ x ∈ n.state.probabilities, (0 : ℚ) ≤ x) :
    ∃ tile' : QuantumTile, (g.applyInterference w row col).tiles[ref]? = some tile' ∧
      tile'.state.probabilities.length = g.numStates ∧
      (∀ i, i < g.numStates → tile'.state.probabilities[i]? =
        some (interfered tile.state.probabilities (superposedNeighbors g w row col) i /
          ((List.range g.numStates).map
            (interfered tile.state.probabilities (superposedNeighbors g w row col))).sum)) ∧
      tile'.row = tile.row ∧ tile'.col = tile.col ∧
      tile'.entangledWith = tile.entangledWith ∧
      tile'.state.numStates = tile.state.numStates ∧
      tile'.state.isCollapsed = false ∧
      tile'.state.collapsedState = tile.state.collapsedState := by
  obtain ⟨-, heq⟩ := applyInterference_spec g w row col ref tile hT ht hc hlen hw hne hnlen hnn
  have hlt : ref < w.tiles.length := (List.getElem?_eq_some_iff.1 ht).1
  rw [heq]
  refine ⟨_, List.getElem?_set_self hlt, ?_, ?_, rfl, rfl, rfl, rfl, hc, rfl⟩
  · simp
  · intro i hi
    show ((List.range g.numStates).map _)[i]? = _
    rw [List.getElem?_map, List.getElem?_range hi]
    rfl

/-- C15: for an in-bounds uncollapsed target with `N` non-negative weights `w`,
whose list of orthogonal neighbours in superposition is not empty (each with `N`
non-negative weights): the sum `u[0] + ... + u[N-1]` is positive, where
`u[i] = w[i] + 0.1 * (sum over the neighbours in superposition of the
neighbour's weight at i)`; after `applyInterference` the target has `N` weights,
the one at each index `i` being `u[i]` divided by that sum, and its
coordinates, links, flag and outcome are unchanged; the neighbours that count are
exactly the orthogonal neighbours in superposition; every other tile of the
store, the number of draws and the cascade trace are unchanged. -/
theorem C15_applyInterference_weights (g : QuantumGrid) (w : World) (row col : Int)
    (ref : Ref) (tile : QuantumTile) (hT : g.getTile row col = some ref)
    (ht : w.tiles[ref]? = some tile) (hc : tile.state.isCollapsed = false)
    (hlen : tile.state.probabilities.length = g.numStates)
    (hw : ∀ x ∈ tile.state.probabilities, (0 : ℚ) ≤ x)
    (hne : superposedNeighbors g w row col ≠ [])
    (hnlen : ∀ n ∈ superposedNeighbors g w row col,
      n.state.probabilities.length = g.numStates)
    (hnn : ∀ n ∈ superposedNeighbors g w row col, ∀ x ∈ n.state.probabilities, (0 : ℚ) ≤ x) :
    0 < ((List.range g.numStates).map
        (interfered tile.state.probabilities (superposedNeighbors g w row col))).sum ∧
    (∃ tile' : QuantumTile, (g.applyInterference w row col).tiles[ref]? = some tile' ∧
      tile'.state.probabilities.length = g.numStates ∧
      (∀ i, i < g.numStates → tile'.state.probabilities[i]? =
        some (interfered tile.state.probabilities (superposedNeighbors g w row col) i /
          ((List.range g.numStates).map
            (interfered tile.state.probabilities (superposedNeighbors g w row col))).sum)) ∧
      tile'.row = tile.row ∧ tile'.col = tile.col ∧
      tile'.entangledWith = tile.entangledWith ∧
      tile'.state.numStates = tile.state.numStates ∧
      tile'.state.isCollapsed = false ∧
      tile'.state.collapsedState = tile.state.collapsedState) ∧
    (∀ i, interfered tile.state.probabilities (superposedNeighbors g w row col) i =
      tile.state.probabilities.getD i 0 + 1 / 10 *
        ((superposedNeighbors g w row col).map
          (fun n => n.state.probabilities.getD i 0)).sum) ∧
    (∀ n : QuantumTile, n ∈ superposedNeighbors g w row col ↔
      n.state.isInSuperposition = true ∧
        ∃ r ∈ g.getNeighbors row col false, w.tiles[r]? = some n) ∧
    (∀ x, x ≠ ref → (g.applyInterference w row col).tiles[x]? = w.tiles[x]?) ∧
    (g.applyInterference w row col).tiles.length = w.tiles.length ∧
    (g.applyInterference w row col).draws = w.draws ∧
    (g.applyInterference w row col).cascades = w.cascades := by
  obtain ⟨hpos, heq⟩ := applyInterference_spec g w row col ref tile hT ht hc hlen hw hne hnlen hnn
  refine ⟨hpos, applyInterference_weights g w row col ref tile hT ht hc hlen hw hne hnlen hnn,
    fun _ => rfl, mem_superposedNeighbors g w row col, ?_, ?_, ?_, ?_⟩
  · intro x hx
    rw [heq]
    exact List.getElem?_set_ne (fun e => hx e.symm)
  · rw [heq]
    simp
  · rw [heq]
  · rw [heq]

theorem skewedPair_neighbors_left :
    superposedNeighbors skewedPair.1 skewedPair.2 0 0 =
      [⟨0, 1, ⟨2, [3 / 5, 2 / 5], false, none⟩, []⟩] := by
  decide!

theorem skewedPair_neighbors_right :
    superposedNeighbors skewedPair.1 skewedPair.2 0 1 =
      [⟨0, 0, ⟨2, [9 / 10, 1 / 10], false, none⟩, []⟩] := by
  decide!

/-- C15 on `skewedPair` at (0, 0): the target has the weights 9/10, 1/10 and its
only neighbour, in superposition, the weights 3/5, 2/5. -/
theorem C15_applyInterference_weights_witness :
    0 < ((List.range skewedPair.1.numStates).map
        (interfered [9 / 10, 1 / 10] (superposedNeighbors skewedPair.1 skewedPair.2 0 0))).sum ∧
    ∃ tile' : QuantumTile,
      (skewedPair.1.applyInterference skewedPair.2 0 0).tiles[0]? = some tile' ∧
      tile'.state.probabilities.length = skewedPair.1.numStates ∧
      (∀ i, i < skewedPair.1.numStates → tile'.state.probabilities[i]? =
        some (interfered [9 / 10, 1 / 10] (superposedNeighbors skewedPair.1 skewedPair.2 0 0) i /
          ((List.range skewedPair.1.numStates).map
            (interfered [9 / 10, 1 / 10]
              (superposedNeighbors skewedPair.1 skewedPair.2 0 0))).sum)) :=
  have h := C15_applyInterference_weights skewedPair.1 skewedPair.2 0 0 0
    ⟨0, 0, ⟨2, [9 / 10, 1 / 10], false, none⟩, []⟩ (by decide) (by decide!) rfl rfl
    (by
      intro x hx
      simp only [List.mem_cons, List.mem_singleton, List.not_mem_nil, or_false] at hx
      rcases hx with rfl | rfl <;> norm_num)
    (by rw [skewedPair_neighbors_left]; simp)
    (by
      intro n hn
      rw [skewedPair_neighbors_left] at hn
      simp only [List.mem_singleton] at hn
      subst hn
      rfl)
    (by
      intro n hn
      rw [skewedPair_neighbors_left] at hn
      simp only [List.mem_singleton] at hn
      subst hn
      intro x hx
      simp only [List.mem_cons, List.mem_singleton, List.not_mem_nil, or_false] at hx
      rcases hx with rfl | rfl <;> norm_num)
  ⟨h.1, by
    obtain ⟨t, h1, h2, h3, -⟩ := h.2.1
    exact ⟨t, h1, h2, h3⟩⟩

/-- C17, the code at two inputs where the increase the claim and the comments of
`applyInterference` state does not happen: on the 1×2 grid of two-outcome tiles
as the constructor makes it, both tiles are uncollapsed and in superposition
with the weights 1/2, 1/2; the tile (0, 1) is the only neighbour of (0, 0), and its weight at index 0 is
maximal; after `applyInterference(0, 0)` the weights of (0, 0) are still 1/2,
1/2: the weight at index 0 is not greater than before. On `skewedPair`, where the
neighbour of (0, 0) has the weights 3/5, 2/5 and so favours index 0, the weight
of (0, 0) at index 0 falls from 9/10 to 48/55. -/
theorem C17_interference_increase_counterexample :
    ((pairGrid 2).1.getTile 0 0 = some 0 ∧
      (pairGrid 2).2.tiles.map
        (fun t => (t.state.isCollapsed, t.state.isInSuperposition, t.state.probabilities)) =
        [(false, true, [1 / 2, 1 / 2]), (false, true, [1 / 2, 1 / 2])] ∧
      (superposedNeighbors (pairGrid 2).1 (pairGrid 2).2 0 0).map
        (fun t => (t.row, t.col, t.state.probabilities)) = [(0, 1, [1 / 2, 1 / 2])] ∧
      ((pairGrid 2).1.applyInterference (pairGrid 2).2 0 0).tiles.map
        (fun t => t.state.probabilities) = [[1 / 2, 1 / 2], [1 / 2, 1 / 2]]) ∧
    (skewedPair.1.getTile 0 0 = some 0 ∧
      skewedPair.2.tiles.map
        (fun t => (t.state.isCollapsed, t.state.isInSuperposition, t.state.probabilities)) =
        [(false, true, [9 / 10, 1 / 10]), (false, true, [3 / 5, 2 / 5])] ∧
      (superposedNeighbors skewedPair.1 skewedPair.2 0 0).map
        (fun t => (t.row, t.col, t.state.probabilities)) = [(0, 1, [3 / 5, 2 / 5])] ∧
      (skewedPair.1.applyInterference skewedPair.2 0 0).tiles.map
        (fun t => t.state.probabilities) = [[48 / 55, 7 / 55], [3 / 5, 2 / 5]] ∧
      (48 / 55 : ℚ) < 9 / 10) := by
  decide!

/-! ## The normalization invariant -/

theorem new_normalized (N : Nat) (hN : 1 ≤ N) : Normalized N (QuantumState.new N) := by
  have hpos : (0 : ℚ) < (N : ℚ) := by exact_mod_cast hN
  refine ⟨by simp [QuantumState.new], ?_, ?_⟩
  · intro x hx
    have : x = 1 / (N : ℚ) := List.eq_of_mem_replicate hx
    rw [this]
    positivity
  · show (List.replicate N (1 / (N : ℚ))).sum = 1
    rw [List.sum_replicate, nsmul_eq_mul, mul_one_div, div_self (ne_of_gt hpos)]

theorem fromProbabilities_sum (probs : List ℚ) (h : 0 < probs.sum) :
    (QuantumState.fromProbabilities probs).isCollapsed = false ∧
      (QuantumState.fromProbabilities probs).probabilities.sum = 1 := by
  unfold QuantumState.fromProbabilities
  refine ⟨?_, ?_⟩
  · rw [normalize_isCollapsed]
    rfl
  · exact (normalize_of_pos ⟨(QuantumState.new probs.length).numStates, probs,
      (QuantumState.new probs.length).isCollapsed,
      (QuantumState.new probs.length).collapsedState⟩ h).2

theorem create_normInv (w0 : World) (rows cols N : Nat) (hN : 1 ≤ N) :
    NormInv (QuantumGrid.create w0 rows cols N).1 (QuantumGrid.create w0 rows cols N).2 := by
  intro ref ⟨row, hrow, href⟩
  obtain ⟨t, ht, hs, -⟩ := allocRows_fresh N cols (List.range rows) ([], w0) (by simp)
    row hrow ref href
  refine ⟨t, ht, ?_⟩
  intro _
  rw [hs]
  exact new_normalized N hN

/-- Replacing the state of one tile by a state that is collapsed or normalized
keeps the invariant. -/
theorem normInv_set (g : QuantumGrid) (w w' : World) (ref : Ref) (t : QuantumTile)
    (s : QuantumState) (h : NormInv g w) (ht : w.tiles[ref]? = some t)
    (htiles : w'.tiles = w.tiles.set ref { t with state := s })
    (hs : s.isCollapsed = false → Normalized g.numStates s) : NormInv g w' := by
  intro x hx
  obtain ⟨tx, htx, hnx⟩ := h x hx
  rw [htiles]
  by_cases hxr : ref = x
  · subst hxr
    have hlt : ref < w.tiles.length := (List.getElem?_eq_some_iff.1 ht).1
    exact ⟨_, List.getElem?_set_self hlt, hs⟩
  · refine ⟨tx, ?_, hnx⟩
    rw [List.getElem?_set_ne hxr, htx]

theorem collapseTile_normInv (rand : Nat → ℚ) (g : QuantumGrid) (w : World) (T : Ref)
    (v : Option Int) (h : NormInv g w) : NormInv g (w.collapseTile rand T v).2 := by
  cases ht : w.tiles[T]? with
  | none =>
    simp only [World.collapseTile, ht]
    exact h
  | some t =>
    apply normInv_set g w _ T t (t.state.collapse rand w.draws v).2.1 h ht
      (collapseTile_tiles rand w T v t ht)
    intro hc
    rw [collapse_isCollapsed] at hc
    cases hc

theorem step_normInv (rand : Nat → ℚ) (R : Ref → Prop) (g : QuantumGrid) (w w' : World)
    (h : NormInv g w) (hs : Step rand R w w') : NormInv g w' := by
  obtain ⟨p, b, type, tp, tb, -, -, -, -, -, htb, -, ht, -⟩ := step_tiles hs
  apply normInv_set g w w' b tb _ h htb ht
  intro hc
  rw [collapse_isCollapsed] at hc
  cases hc

/-- `measureTile` returns and keeps the normalization invariant. -/
theorem measureTile_normInv (rand : Nat → ℚ) (g : QuantumGrid) (w : World) (row col : Int)
    (h : NormInv g w) :
    ∃ res w', g.measureTile rand w row col = some (res, w') ∧ NormInv g w' := by
  cases hT : g.getTile row col with
  | none => exact ⟨none, w, by simp [QuantumGrid.measureTile, hT], h⟩
  | some T =>
    cases ht : w.tiles[T]? with
    | none => exact ⟨none, w, by simp [QuantumGrid.measureTile, hT, ht], h⟩
    | some t =>
      cases hc : t.state.isCollapsed with
      | true =>
        exact ⟨t.state.collapsedState, w, by simp [QuantumGrid.measureTile, hT, ht, hc], h⟩
      | false =>
        obtain ⟨w', hm, hst, -, -⟩ := measure_spec rand (fun _ => True) w T t ht
          (linkClosed_true w) trivial
        refine ⟨(w.collapseTile rand T none).1, w', ?_, ?_⟩
        · rw [measureTile_uncollapsed rand g w row col T hT ⟨t, ht, hc⟩, hm]
        · exact Steps.invariant (NormInv g)
            (fun w1 w2 h1 hs => step_normInv rand _ g w1 w2 h1 hs) hst
            (collapseTile_normInv rand g w T none h)

theorem createEntanglement_normInv (g : QuantumGrid) (w : World) (r1 c1 r2 c2 : Int)
    (type : LinkType) (h : NormInv g w) :
    NormInv g (g.createEntanglement w r1 c1 r2 c2 type) := by
  intro x hx
  obtain ⟨t, ht, hn⟩ := h x hx
  obtain ⟨t', ht', hs⟩ := createEntanglement_tile g w r1 c1 r2 c2 type x t ht
  refine ⟨t', ht', ?_⟩
  rw [hs]
  exact hn

theorem getNeighbors_has (g : QuantumGrid) (row col : Int) (diag : Bool) (r : Ref)
    (h : r ∈ g.getNeighbors row col diag) : g.Has r := by
  unfold QuantumGrid.getNeighbors at h
  obtain ⟨d, -, hd⟩ := List.mem_filterMap.1 h
  exact getTile_has g _ _ r hd

theorem applyInterference_normInv (g : QuantumGrid) (w : World) (row col : Int)
    (h : NormInv g w) : NormInv g (g.applyInterference w row col) := by
  cases hT : g.getTile row col with
  | none =>
    have : g.applyInterference w row col = w := by simp [QuantumGrid.applyInterference, hT]
    rw [this]
    exact h
  | some ref =>
    cases ht : w.tiles[ref]? with
    | none =>
      have : g.applyInterference w row col = w := by
        simp [QuantumGrid.applyInterference, hT, ht]
      rw [this]
      exact h
    | some tile =>
      cases hc : tile.state.isCollapsed with
      | true =>
        have : g.applyInterference w row col = w := by
          simp [QuantumGrid.applyInterference, hT, ht, hc]
        rw [this]
        exact h
      | false =>
        by_cases hne : superposedNeighbors g w row col = []
        · have : g.applyInterference w row col = w := by
            unfold superposedNeighbors at hne
            simp [QuantumGrid.applyInterference, hT, ht, hc, hne]
          rw [this]
          exact h
        · obtain ⟨t0, ht0, hn0⟩ := h ref (getTile_has g row col ref hT)
          rw [ht] at ht0
          cases ht0
          obtain ⟨hlen, hw, -⟩ := hn0 hc
          have hnb : ∀ n ∈ superposedNeighbors g w row col,
              Normalized g.numStates n.state := by
            intro n hn
            obtain ⟨hsup, r, hr, hrn⟩ := (mem_superposedNeighbors g w row col n).1 hn
            obtain ⟨t1, ht1, hn1⟩ := h r (getNeighbors_has g row col false r hr)
            rw [hrn] at ht1
            cases ht1
            exact hn1 (superposed_uncollapsed n.state hsup)
          have hnlen := fun n hn => (hnb n hn).1
          have hnn := fun n hn => (hnb n hn).2.1
          obtain ⟨hpos, heq⟩ :=
            applyInterference_spec g w row col ref tile hT ht hc hlen hw hne hnlen hnn
          apply normInv_set g w _ ref tile _ h ht (by rw [heq])
          intro _
          refine ⟨by simp, ?_, ?_⟩
          · intro x hx
            obtain ⟨i, -, rfl⟩ := List.mem_map.1 hx
            exact div_nonneg (interfered_nonneg _ _ hw hnn i) (le_of_lt hpos)
          · show ((List.range g.numStates).map _).sum = 1
            have := sum_map_div ((List.range g.numStates).map
              (interfered tile.state.probabilities (superposedNeighbors g w row col)))
              ((List.range g.numStates).map
                (interfered tile.state.probabilities (superposedNeighbors g w row col))).sum
            rw [List.map_map, div_self (ne_of_gt hpos)] at this
            exact this

/-- Every sequence of calls on a grid that satisfies the normalization invariant
returns and keeps it. -/
theorem runOps_normInv (rand : Nat → ℚ) (g : QuantumGrid) :
    ∀ (ops : List GridOp) (w : World), NormInv g w →
      ∃ w', runOps rand g ops w = some w' ∧ NormInv g w' := by
  intro ops
  induction ops with
  | nil => intro w h; exact ⟨w, rfl, h⟩
  | cons op ops ih =>
    intro w h
    have hstep : ∃ w1, op.run rand g w = some w1 ∧ NormInv g w1 := by
      cases op with
      | createEntanglement r1 c1 r2 c2 type =>
        exact ⟨_, rfl, createEntanglement_normInv g w r1 c1 r2 c2 type h⟩
      | measureTile row col =>
        obtain ⟨res, w1, hm, h1⟩ := measureTile_normInv rand g w row col h
        exact ⟨w1, by simp [GridOp.run, hm], h1⟩
      | applyInterference row col =>
        exact ⟨_, rfl, applyInterference_normInv g w row col h⟩
    obtain ⟨w1, hrun1, h1⟩ := hstep
    obtain ⟨w', hrun, h'⟩ := ih w1 h1
    exact ⟨w', by simp only [runOps, hrun1]; exact hrun, h'⟩

/-! ## Claim C11 -/

/-- C11: over the rationals, with `n ≥ 1`, `N ≥ 1` and a sequence `probs` of
positive sum: `new QuantumState(n)` is uncollapsed and its weights sum to 1;
`fromProbabilities(probs)` is uncollapsed and its weights sum to 1; and every
sequence of `createEntanglement`, `measureTile` and `applyInterference` calls on
`new QuantumGrid(rows, cols, N)` returns, after which every tile of the grid
that is not collapsed has `N` non-negative weights that sum to 1. The sequence
of calls is arbitrary, so this holds after each call of a sequence. -/
theorem C11_normalization_invariant (rand : Nat → ℚ) (w0 : World) (rows cols N : Nat)
    (ops : List GridOp) (n : Nat) (probs : List ℚ) (hn : 1 ≤ n) (hprobs : 0 < probs.sum)
    (hN : 1 ≤ N) :
    ((QuantumState.new n).isCollapsed = false ∧ (QuantumState.new n).probabilities.sum = 1) ∧
    ((QuantumState.fromProbabilities probs).isCollapsed = false ∧
      (QuantumState.fromProbabilities probs).probabilities.sum = 1) ∧
    ∃ w, runOps rand (QuantumGrid.create w0 rows cols N).1 ops
        (QuantumGrid.create w0 rows cols N).2 = some w ∧
      ∀ ref, (QuantumGrid.create w0 rows cols N).1.Has ref →
        ∃ t, w.tiles[ref]? = some t ∧
          (t.state.isCollapsed = false →
            t.state.probabilities.length = N ∧ (∀ x ∈ t.state.probabilities, (0 : ℚ) ≤ x) ∧
              t.state.probabilities.sum = 1) := by
  refine ⟨⟨rfl, (new_normalized n hn).2.2⟩, fromProbabilities_sum probs hprobs, ?_⟩
  obtain ⟨w, hrun, hinv⟩ := runOps_normInv rand (QuantumGrid.create w0 rows cols N).1 ops
    (QuantumGrid.create w0 rows cols N).2 (create_normInv w0 rows cols N hN)
  exact ⟨w, hrun, hinv⟩

/-- C11 on `new QuantumState(3)`, on `fromProbabilities([1, 3])` and on a 2×2
grid with two outcomes after two links, two interferences and a measurement in
between. -/
theorem C11_normalization_invariant_witness :
    ((QuantumState.new 3).isCollapsed = false ∧ (QuantumState.new 3).probabilities.sum = 1) ∧
    ((QuantumState.fromProbabilities [1, 3]).isCollapsed = false ∧
      (QuantumState.fromProbabilities [1, 3]).probabilities.sum = 1) ∧
    ∃ w, runOps (fun _ => 3 / 4) (QuantumGrid.create emptyWorld 2 2 2).1
        [GridOp.createEntanglement 0 0 0 1 LinkType.opposite,
         GridOp.createEntanglement 0 0 1 0 LinkType.same,
         GridOp.applyInterference 1 1, GridOp.measureTile 0 0, GridOp.applyInterference 1 1]
        (QuantumGrid.create emptyWorld 2 2 2).2 = some w ∧
      ∀ ref, (QuantumGrid.create emptyWorld 2 2 2).1.Has ref →
        ∃ t, w.tiles[ref]? = some t ∧
          (t.state.isCollapsed = false →
            t.state.probabilities.length = 2 ∧ (∀ x ∈ t.state.probabilities, (0 : ℚ) ≤ x) ∧
              t.state.probabilities.sum = 1) :=
  C11_normalization_invariant (fun _ => 3 / 4) emptyWorld 2 2 2 _ 3 [1, 3] (by decide)
    (by decide!) (by decide)

/-! ## `entangleWith` -/

theorem find_isNone_iff (links : List (Ref × LinkType)) (b : Ref) :
    (links.find? (fun e => e.1 == b)).isNone = true ↔ ∀ l ∈ links, l.1 ≠ b := by
  rw [Option.isNone_iff_eq_none, List.find?_eq_none]
  constructor
  · intro h l hl e
    exact h l hl (by simp [e])
  · intro h l hl
    simpa using h l hl

/-- `pushLink` when the tile holds no link to `other`: the link is pushed. -/
theorem pushLink_of_absent (w : World) (a b : Ref) (type : LinkType) (ta : QuantumTile)
    (ha : w.tiles[a]? = some ta) (hno : ∀ l ∈ ta.entangledWith, l.1 ≠ b) :
    QuantumTile.pushLink w a b type =
      { w with tiles := w.tiles.set a { ta with entangledWith := ta.entangledWith ++ [(b, type)] } } := by
  unfold QuantumTile.pushLink
  rw [ha]
  simp only []
  rw [if_pos ((find_isNone_iff ta.entangledWith b).2 hno)]

/-- `pushLink` when the tile already holds a link to `other`: nothing changes. -/
theorem pushLink_of_present (w : World) (a b : Ref) (type : LinkType) (ta : QuantumTile)
    (ha : w.tiles[a]? = some ta) (hyes : ∃ l ∈ ta.entangledWith, l.1 = b) :
    QuantumTile.pushLink w a b type = w := by
  unfold QuantumTile.pushLink
  rw [ha]
  simp only []
  rw [if_neg]
  intro h
  obtain ⟨l, hl, hb⟩ := hyes
  exact (find_isNone_iff ta.entangledWith b).1 h l hl hb

/-- What `pushLink` does to each tile: only the link list of the tile at `self` can
change, and only by the new link at its end. -/
theorem pushLink_mem (w : World) (a b : Ref) (type : LinkType) (x : Ref) (t : QuantumTile)
    (ht : w.tiles[x]? = some t) :
    ∃ t', (QuantumTile.pushLink w a b type).tiles[x]? = some t' ∧ t'.state = t.state ∧
      t'.row = t.row ∧ t'.col = t.col ∧
      (t'.entangledWith = t.entangledWith ∨
        (x = a ∧ (∀ l ∈ t.entangledWith, l.1 ≠ b) ∧
          t'.entangledWith = t.entangledWith ++ [(b, type)])) := by
  by_cases hno : ∀ l ∈ t.entangledWith, l.1 ≠ b
  · by_cases hxa : a = x
    · subst hxa
      rw [pushLink_of_absent w a b type t ht hno]
      have hlt : a < w.tiles.length := (List.getElem?_eq_some_iff.1 ht).1
      exact ⟨_, List.getElem?_set_self hlt, rfl, rfl, rfl, Or.inr ⟨rfl, hno, rfl⟩⟩
    · refine ⟨t, ?_, rfl, rfl, rfl, Or.inl rfl⟩
      unfold QuantumTile.pushLink
      split
      · exact ht
      · split
        · show (w.tiles.set a _)[x]? = some t
          rw [List.getElem?_set_ne hxa, ht]
        · exact ht
  · by_cases hxa : a = x
    · subst hxa
      rw [pushLink_of_present w a b type t ht (by simpa using hno)]
      exact ⟨t, ht, rfl, rfl, rfl, Or.inl rfl⟩
    · refine ⟨t, ?_, rfl, rfl, rfl, Or.inl rfl⟩
      unfold QuantumTile.pushLink
      split
      · exact ht
      · split
        · show (w.tiles.set a _)[x]? = some t
          rw [List.getElem?_set_ne hxa, ht]
        · exact ht

theorem pushLink_length (w : World) (a b : Ref) (type : LinkType) :
    (QuantumTile.pushLink w a b type).tiles.length = w.tiles.length := by
  unfold QuantumTile.pushLink
  split
  · rfl
  · split
    · simp
    · rfl

theorem pushLink_noDup (w : World) (a b : Ref) (type : LinkType) (h : NoDupLinks w) :
    NoDupLinks (QuantumTile.pushLink w a b type) := by
  intro x t' ht'
  have hx : x < w.tiles.length := by
    have := (List.getElem?_eq_some_iff.1 ht').1
    rwa [pushLink_length] at this
  obtain ⟨t1, ht1, -, -, -, hl⟩ := pushLink_mem w a b type x w.tiles[x]
    (List.getElem?_eq_getElem hx)
  rw [ht'] at ht1
  cases ht1
  have hold := h x w.tiles[x] (List.getElem?_eq_getElem hx)
  rcases hl with hl | ⟨-, hno, hl⟩
  · rw [hl]; exact hold
  · rw [hl, List.map_append, List.nodup_append]
    refine ⟨hold, by simp, ?_⟩
    intro y hy1 hy2
    simp only [List.map_cons, List.map_nil, List.mem_singleton] at hy2
    obtain ⟨l, hlm, hly⟩ := List.mem_map.1 hy1
    exact hno l hlm (hly.trans hy2)

theorem entangleWith_noDup (w : World) (a b : Ref) (type : LinkType) (h : NoDupLinks w) :
    NoDupLinks (QuantumTile.entangleWith w a b type) :=
  pushLink_noDup _ b a type (pushLink_noDup w a b type h)

theorem linksOf_some (w : World) (x : Ref) (t : QuantumTile) (h : w.tiles[x]? = some t) :
    w.linksOf x = t.entangledWith := by
  simp [World.linksOf, h]

/-- `entangleWith` between two tiles that hold a link to each other changes
nothing. -/
theorem entangleWith_noop (w : World) (a b : Ref) (type : LinkType)
    (hab : ∃ l ∈ w.linksOf a, l.1 = b) (hba : ∃ l ∈ w.linksOf b, l.1 = a) :
    QuantumTile.entangleWith w a b type = w := by
  unfold QuantumTile.entangleWith
  have h1 : QuantumTile.pushLink w a b type = w := by
    cases ha : w.tiles[a]? with
    | none => simp [QuantumTile.pushLink, ha]
    | some ta =>
      rw [linksOf_some w a ta ha] at hab
      exact pushLink_of_present w a b type ta ha hab
  rw [h1]
  cases hb : w.tiles[b]? with
  | none => simp [QuantumTile.pushLink, hb]
  | some tb =>
    rw [linksOf_some w b tb hb] at hba
    exact pushLink_of_present w b a type tb hb hba

/-- The store after `entangleWith` between two different tiles that hold no link
to each other. -/
theorem entangleWith_fresh (w : World) (A B : Ref) (tA tB : QuantumTile) (t : LinkType)
    (hAB : A ≠ B) (hA : w.tiles[A]? = some tA) (hB : w.tiles[B]? = some tB)
    (hnoAB : ∀ l ∈ tA.entangledWith, l.1 ≠ B) (hnoBA : ∀ l ∈ tB.entangledWith, l.1 ≠ A) :
    QuantumTile.entangleWith w A B t =
      ⟨(w.tiles.set A ⟨tA.row, tA.col, tA.state, tA.entangledWith ++ [(B, t)]⟩).set B
          ⟨tB.row, tB.col, tB.state, tB.entangledWith ++ [(A, t)]⟩, w.draws, w.cascades⟩ := by
  unfold QuantumTile.entangleWith
  rw [pushLink_of_absent w A B t tA hA hnoAB]
  rw [pushLink_of_absent _ B A t tB _ hnoBA]
  show (w.tiles.set A _)[B]? = some tB
  rw [List.getElem?_set_ne hAB, hB]

theorem filter_target (links : List (Ref × LinkType)) (b : Ref) (t : LinkType)
    (hno : ∀ l ∈ links, l.1 ≠ b) :
    (links ++ [(b, t)]).filter (fun l => l.1 == b) = [(b, t)] := by
  rw [List.filter_append]
  have : links.filter (fun l => l.1 == b) = [] := by
    rw [List.filter_eq_nil_iff]
    intro l hl
    simpa using hno l hl
  rw [this]
  simp

/-! ## Claim C23 -/

/-- C23: for two different tiles `A` and `B` of the store that hold no link to
each other, after `A.entangleWith(B, t)`: the link list of `A` is the former one
followed by the link to `B` with relation `t`, which is its only link to `B`, and
likewise for `B`; no other tile changes; a further `entangleWith` between the two,
in either direction and with any relation, changes nothing, and this holds in
every later store in which the two tiles still hold a link to each other; and
`entangleWith` never makes a tile hold two links to the same tile. -/
theorem C23_entangleWith_idempotent (w : World) (A B : Ref) (tA tB : QuantumTile)
    (t : LinkType) (hAB : A ≠ B) (hA : w.tiles[A]? = some tA) (hB : w.tiles[B]? = some tB)
    (hnoAB : ∀ l ∈ tA.entangledWith, l.1 ≠ B) (hnoBA : ∀ l ∈ tB.entangledWith, l.1 ≠ A) :
    (QuantumTile.entangleWith w A B t).tiles[A]? =
      some { tA with entangledWith := tA.entangledWith ++ [(B, t)] } ∧
    (QuantumTile.entangleWith w A B t).tiles[B]? =
      some { tB with entangledWith := tB.entangledWith ++ [(A, t)] } ∧
    ((QuantumTile.entangleWith w A B t).linksOf A).filter (fun l => l.1 == B) = [(B, t)] ∧
    ((QuantumTile.entangleWith w A B t).linksOf B).filter (fun l => l.1 == A) = [(A, t)] ∧
    (∀ x, x ≠ A → x ≠ B → (QuantumTile.entangleWith w A B t).tiles[x]? = w.tiles[x]?) ∧
    (∀ t2 : LinkType,
      QuantumTile.entangleWith (QuantumTile.entangleWith w A B t) A B t2 =
          QuantumTile.entangleWith w A B t ∧
        QuantumTile.entangleWith (QuantumTile.entangleWith w A B t) B A t2 =
          QuantumTile.entangleWith w A B t) ∧
    (∀ (w2 : World) (t2 : LinkType), (∃ l ∈ w2.linksOf A, l.1 = B) →
      (∃ l ∈ w2.linksOf B, l.1 = A) →
      QuantumTile.entangleWith w2 A B t2 = w2 ∧ QuantumTile.entangleWith w2 B A t2 = w2) ∧
    (∀ (w2 : World) (a b : Ref) (t2 : LinkType), NoDupLinks w2 →
      NoDupLinks (QuantumTile.entangleWith w2 a b t2)) := by
  have heq := entangleWith_fresh w A B tA tB t hAB hA hB hnoAB hnoBA
  have hlA : A < w.tiles.length := (List.getElem?_eq_some_iff.1 hA).1
  have hlB : B < w.tiles.length := (List.getElem?_eq_some_iff.1 hB).1
  have h1 : (QuantumTile.entangleWith w A B t).tiles[A]? =
      some { tA with entangledWith := tA.entangledWith ++ [(B, t)] } := by
    rw [heq]
    show ((w.tiles.set A _).set B _)[A]? = _
    rw [List.getElem?_set_ne (fun e => hAB e.symm), List.getElem?_set_self hlA]
  have h2 : (QuantumTile.entangleWith w A B t).tiles[B]? =
      some { tB with entangledWith := tB.entangledWith ++ [(A, t)] } := by
    rw [heq]
    show ((w.tiles.set A _).set B _)[B]? = _
    rw [List.getElem?_set_self (by simpa using hlB)]
  have h3 : ∃ l ∈ (QuantumTile.entangleWith w A B t).linksOf A, l.1 = B := by
    rw [linksOf_some _ A _ h1]
    exact ⟨(B, t), by simp, rfl⟩
  have h4 : ∃ l ∈ (QuantumTile.entangleWith w A B t).linksOf B, l.1 = A := by
    rw [linksOf_some _ B _ h2]
    exact ⟨(A, t), by simp, rfl⟩
  refine ⟨h1, h2, ?_, ?_, ?_, ?_, ?_, ?_⟩
  · rw [linksOf_some _ A _ h1]
    exact filter_target tA.entangledWith B t hnoAB
  · rw [linksOf_some _ B _ h2]
    exact filter_target tB.entangledWith A t hnoBA
  · intro x hxA hxB
    rw [heq]
    show ((w.tiles.set A _).set B _)[x]? = _
    rw [List.getElem?_set_ne (fun e => hxB e.symm), List.getElem?_set_ne (fun e => hxA e.symm)]
  · intro t2
    exact ⟨entangleWith_noop _ A B t2 h3 h4, entangleWith_noop _ B A t2 h4 h3⟩
  · intro w2 t2 hab hba
    exact ⟨entangleWith_noop w2 A B t2 hab hba, entangleWith_noop w2 B A t2 hba hab⟩
  · intro w2 a b t2 h
    exact entangleWith_noDup w2 a b t2 h

/-- C23 on the 1×2 grid as its constructor makes it, with `opposite` for the first
call: each tile holds the one link, and a second call with `same`, in either
direction, changes nothing. -/
theorem C23_entangleWith_idempotent_witness :
    (QuantumTile.entangleWith (pairGrid 2).2 0 1 LinkType.opposite).linksOf 0 =
      [(1, LinkType.opposite)] ∧
    (QuantumTile.entangleWith (pairGrid 2).2 0 1 LinkType.opposite).linksOf 1 =
      [(0, LinkType.opposite)] ∧
    QuantumTile.entangleWith (QuantumTile.entangleWith (pairGrid 2).2 0 1 LinkType.opposite)
        0 1 LinkType.same = QuantumTile.entangleWith (pairGrid 2).2 0 1 LinkType.opposite ∧
    QuantumTile.entangleWith (QuantumTile.entangleWith (pairGrid 2).2 0 1 LinkType.opposite)
        1 0 LinkType.same = QuantumTile.entangleWith (pairGrid 2).2 0 1 LinkType.opposite :=
  have h := C23_entangleWith_idempotent (pairGrid 2).2 0 1
    (QuantumTile.new 0 0 (QuantumState.new 2)) (QuantumTile.new 0 1 (QuantumState.new 2))
    LinkType.opposite (by decide) (by decide!) (by decide!)
    (fun l hl => by cases hl) (fun l hl => by cases hl)
  ⟨by rw [linksOf_some _ 0 _ h.1]; rfl, by rw [linksOf_some _ 1 _ h.2.1]; rfl,
    (h.2.2.2.2.2.1 LinkType.same).1, (h.2.2.2.2.2.1 LinkType.same).2⟩

/-! ## Claim C24 -/

theorem create_noSelfLink (w0 : World) (rows cols N : Nat) :
    NoSelfLink (QuantumGrid.create w0 rows cols N).1 (QuantumGrid.create w0 rows cols N).2 := by
  intro ref ⟨row, hrow, href⟩
  obtain ⟨t, ht, -, hl⟩ := allocRows_fresh N cols (List.range rows) ([], w0) (by simp)
    row hrow ref href
  refine ⟨t, ht, ?_⟩
  rw [hl]
  intro l hl'
  cases hl'

/-- Pushing on `a` a link to another tile makes no self-link. -/
theorem pushLink_noSelfLink (g : QuantumGrid) (w : World) (a b : Ref) (type : LinkType)
    (hab : a ≠ b) (h : NoSelfLink g w) : NoSelfLink g (QuantumTile.pushLink w a b type) := by
  intro x hx
  obtain ⟨t, ht, hn⟩ := h x hx
  obtain ⟨t', ht', -, -, -, hl⟩ := pushLink_mem w a b type x t ht
  refine ⟨t', ht', ?_⟩
  rcases hl with hl | ⟨hxa, -, hl⟩
  · rw [hl]; exact hn
  · rw [hl]
    intro l hlm
    rcases List.mem_append.1 hlm with h1 | h1
    · exact hn l h1
    · rw [List.mem_singleton.1 h1, hxa]
      exact fun e => hab e.symm

theorem createEntanglement_noSelfLink (g : QuantumGrid) (hg : g.WellFormed) (w : World)
    (r1 c1 r2 c2 : Int) (type : LinkType)
    (hne : r1 = r2 ∧ c1 = c2 →
      ¬ (0 ≤ r1 ∧ r1 < (g.rows : Int) ∧ 0 ≤ c1 ∧ c1 < (g.cols : Int)))
    (h : NoSelfLink g w) : NoSelfLink g (g.createEntanglement w r1 c1 r2 c2 type) := by
  unfold QuantumGrid.createEntanglement
  split
  · next a b ha hb =>
    have hab : a ≠ b := by
      intro e
      subst e
      obtain ⟨e1, e2⟩ := getTile_injective g hg r1 c1 r2 c2 a ha hb
      obtain ⟨b1, b2, b3, b4, -⟩ := getTile_eq_cell g r1 c1 a ha
      exact hne ⟨e1, e2⟩ ⟨b1, b2, b3, b4⟩
    unfold QuantumTile.entangleWith
    exact pushLink_noSelfLink g _ b a type (fun e => hab e.symm)
      (pushLink_noSelfLink g w a b type hab h)
  · exact h

theorem measureTile_noSelfLink (rand : Nat → ℚ) (g : QuantumGrid) (w : World) (row col : Int)
    (h : NoSelfLink g w) :
    ∃ res w', g.measureTile rand w row col = some (res, w') ∧ NoSelfLink g w' := by
  obtain ⟨res, w', hm, hf⟩ := measureTile_frame rand g w row col
  refine ⟨res, w', hm, ?_⟩
  intro x hx
  obtain ⟨t, ht, hn⟩ := h x hx
  obtain ⟨t', ht', -, -, hl, -⟩ := hf.tile x t ht
  exact ⟨t', ht', by rw [hl]; exact hn⟩

theorem applyInterference_noSelfLink (g : QuantumGrid) (w : World) (row col : Int)
    (h : NoSelfLink g w) : NoSelfLink g (g.applyInterference w row col) := by
  intro x hx
  obtain ⟨t, ht, hn⟩ := h x hx
  obtain ⟨t', ht', -, -, hl, -⟩ := applyInterference_tile g w row col x t ht
  exact ⟨t', ht', by rw [hl]; exact hn⟩

theorem runOps_noSelfLink (rand : Nat → ℚ) (g : QuantumGrid) (hg : g.WellFormed) :
    ∀ (ops : List GridOp) (w : World), NoSelfLink g w →
      (∀ (r1 c1 r2 c2 : Int) (type : LinkType),
        GridOp.createEntanglement r1 c1 r2 c2 type ∈ ops → r1 = r2 ∧ c1 = c2 →
        ¬ (0 ≤ r1 ∧ r1 < (g.rows : Int) ∧ 0 ≤ c1 ∧ c1 < (g.cols : Int))) →
      ∃ w', runOps rand g ops w = some w' ∧ NoSelfLink g w' := by
  intro ops
  induction ops with
  | nil => intro w h _; exact ⟨w, rfl, h⟩
  | cons op ops ih =>
    intro w h hops
    have hstep : ∃ w1, op.run rand g w = some w1 ∧ NoSelfLink g w1 := by
      cases op with
      | createEntanglement r1 c1 r2 c2 type =>
        exact ⟨_, rfl, createEntanglement_noSelfLink g hg w r1 c1 r2 c2 type
          (hops r1 c1 r2 c2 type (List.mem_cons_self _ _)) h⟩
      | measureTile row col =>
        obtain ⟨res, w1, hm, h1⟩ := measureTile_noSelfLink rand g w row col h
        exact ⟨w1, by simp [GridOp.run, hm], h1⟩
      | applyInterference row col =>
        exact ⟨_, rfl, applyInterference_noSelfLink g w row col h⟩
    obtain ⟨w1, hrun1, h1⟩ := hstep
    obtain ⟨w', hrun, h'⟩ := ih w1 h1
      (fun r1 c1 r2 c2 type hm => hops r1 c1 r2 c2 type (List.mem_cons_of_mem op hm))
    exact ⟨w', by simp only [runOps, hrun1]; exact hrun, h'⟩

/-- C24, counterexample: on the 1×1 grid as its constructor makes it,
`createEntanglement(0, 0, 0, 0)` returns the same tile for both endpoints; the
tile holds no link to itself yet, so it pushes one: after the call the link list
of the tile (0, 0), which is the tile 0 of the store, is one link to the tile 0. -/
theorem C24_no_self_link_counterexample :
    (QuantumGrid.create emptyWorld 1 1 2).1.getTile 0 0 = some 0 ∧
    (runOps (fun _ => 0) (QuantumGrid.create emptyWorld 1 1 2).1
        [GridOp.createEntanglement 0 0 0 0 LinkType.same]
        (QuantumGrid.create emptyWorld 1 1 2).2).map (fun w => w.linksOf 0) =
      some [(0, LinkType.same)] := by
  decide!

/-! ## Coordinates and bounds -/

/-- The coordinates of every tile of `w` are the same in `w'`. -/
theorem coords_trans {w1 w2 w3 : World}
    (h12 : ∀ (x : Ref) (t : QuantumTile), w1.tiles[x]? = some t →
      ∃ t', w2.tiles[x]? = some t' ∧ t'.row = t.row ∧ t'.col = t.col)
    (h23 : ∀ (x : Ref) (t : QuantumTile), w2.tiles[x]? = some t →
      ∃ t', w3.tiles[x]? = some t' ∧ t'.row = t.row ∧ t'.col = t.col) :
    ∀ (x : Ref) (t : QuantumTile), w1.tiles[x]? = some t →
      ∃ t', w3.tiles[x]? = some t' ∧ t'.row = t.row ∧ t'.col = t.col := by
  intro x t ht
  obtain ⟨t2, ht2, hr2, hc2⟩ := h12 x t ht
  obtain ⟨t3, ht3, hr3, hc3⟩ := h23 x t2 ht2
  exact ⟨t3, ht3, hr3.trans hr2, hc3.trans hc2⟩

theorem createEntanglement_coords (g : QuantumGrid) (w : World) (r1 c1 r2 c2 : Int)
    (type : LinkType) (x : Ref) (t : QuantumTile) (ht : w.tiles[x]? = some t) :
    ∃ t', (g.createEntanglement w r1 c1 r2 c2 type).tiles[x]? = some t' ∧
      t'.row = t.row ∧ t'.col = t.col := by
  unfold QuantumGrid.createEntanglement
  split
  · next a b _ _ =>
    obtain ⟨t1, ht1, -, hr1, hc1, -⟩ := pushLink_mem w a b type x t ht
    obtain ⟨t2, ht2, -, hr2, hc2, -⟩ := pushLink_mem _ b a type x t1 ht1
    exact ⟨t2, ht2, hr2.trans hr1, hc2.trans hc1⟩
  · exact ⟨t, ht, rfl, rfl⟩

/-- Every sequence of calls returns and keeps the coordinates of every tile. -/
theorem runOps_coords (rand : Nat → ℚ) (g : QuantumGrid) :
    ∀ (ops : List GridOp) (w : World),
      ∃ w', runOps rand g ops w = some w' ∧
        ∀ (x : Ref) (t : QuantumTile), w.tiles[x]? = some t →
          ∃ t', w'.tiles[x]? = some t' ∧ t'.row = t.row ∧ t'.col = t.col := by
  intro ops
  induction ops with
  | nil => intro w; exact ⟨w, rfl, fun x t ht => ⟨t, ht, rfl, rfl⟩⟩
  | cons op ops ih =>
    intro w
    have hstep : ∃ w1, op.run rand g w = some w1 ∧
        ∀ (x : Ref) (t : QuantumTile), w.tiles[x]? = some t →
          ∃ t', w1.tiles[x]? = some t' ∧ t'.row = t.row ∧ t'.col = t.col := by
      cases op with
      | createEntanglement r1 c1 r2 c2 type =>
        exact ⟨_, rfl, createEntanglement_coords g w r1 c1 r2 c2 type⟩
      | measureTile row col =>
        obtain ⟨res, w1, hm, hf⟩ := measureTile_frame rand g w row col
        refine ⟨w1, by simp [GridOp.run, hm], ?_⟩
        intro x t ht
        obtain ⟨t', ht', hr, hc, -⟩ := hf.tile x t ht
        exact ⟨t', ht', hr, hc⟩
      | applyInterference row col =>
        refine ⟨_, rfl, ?_⟩
        intro x t ht
        obtain ⟨t', ht', hr, hc, -⟩ := applyInterference_tile g w row col x t ht
        exact ⟨t', ht', hr, hc⟩
    obtain ⟨w1, hrun1, h1⟩ := hstep
    obtain ⟨w', hrun, h'⟩ := ih w1
    exact ⟨w', by simp only [runOps, hrun1]; exact hrun, coords_trans h1 h'⟩

theorem getTile_outOfBounds (g : QuantumGrid) (row col : Int)
    (h : ¬ (0 ≤ row ∧ row < (g.rows : Int) ∧ 0 ≤ col ∧ col < (g.cols : Int))) :
    g.getTile row col = none := by
  unfold QuantumGrid.getTile
  rw [if_neg]
  simpa using h

/-! ## Claim C26 -/

/-- C26: on the grid built by `new QuantumGrid(rows, cols, N)`, after any sequence
of calls (which returns): for all integers `row`, `col`, `getTile(row, col)`
returns a tile whose stored coordinates are `(row, col)` when `0 ≤ row < rows` and
`0 ≤ col < cols`, and `null` otherwise; and `createEntanglement` with an endpoint
out of bounds leaves the whole store unchanged, so it creates no link. -/
theorem C26_getTile_bounds (rand : Nat → ℚ) (w0 : World) (rows cols N : Nat)
    (ops : List GridOp) :
    ∃ w, runOps rand (QuantumGrid.create w0 rows cols N).1 ops
        (QuantumGrid.create w0 rows cols N).2 = some w ∧
      (∀ row col : Int, 0 ≤ row ∧ row < (rows : Int) ∧ 0 ≤ col ∧ col < (cols : Int) →
        ∃ (ref : Ref) (t : QuantumTile),
          (QuantumGrid.create w0 rows cols N).1.getTile row col = some ref ∧
            w.tiles[ref]? = some t ∧ t.row = row ∧ t.col = col) ∧
      (∀ row col : Int, ¬ (0 ≤ row ∧ row < (rows : Int) ∧ 0 ≤ col ∧ col < (cols : Int)) →
        (QuantumGrid.create w0 rows cols N).1.getTile row col = none) ∧
      (∀ (r1 c1 r2 c2 : Int) (type : LinkType),
        ¬ (0 ≤ r1 ∧ r1 < (rows : Int) ∧ 0 ≤ c1 ∧ c1 < (cols : Int)) ∨
          ¬ (0 ≤ r2 ∧ r2 < (rows : Int) ∧ 0 ≤ c2 ∧ c2 < (cols : Int)) →
        (QuantumGrid.create w0 rows cols N).1.createEntanglement w r1 c1 r2 c2 type = w) := by
  obtain ⟨w, hrun, hco⟩ := runOps_coords rand (QuantumGrid.create w0 rows cols N).1 ops
    (QuantumGrid.create w0 rows cols N).2
  refine ⟨w, hrun, ?_, ?_, ?_⟩
  · intro row col ⟨h1, h2, h3, h4⟩
    obtain ⟨ref, href⟩ := getTile_inBounds _ (create_wellFormed w0 rows cols N) row col h1 h2 h3 h4
    obtain ⟨-, -, -, -, hcell⟩ := getTile_eq_cell _ row col ref href
    obtain ⟨-, -, hfresh⟩ := create_cell w0 rows cols N _ _ ref hcell
    obtain ⟨t, ht, hr, hc⟩ := hco ref _ hfresh
    refine ⟨ref, t, href, ht, ?_, ?_⟩
    · rw [hr]
      show ((row.toNat : Nat) : Int) = row
      omega
    · rw [hc]
      show ((col.toNat : Nat) : Int) = col
      omega
  · intro row col h
    exact getTile_outOfBounds _ row col h
  · intro r1 c1 r2 c2 type h
    unfold QuantumGrid.createEntanglement
    rcases h with h | h
    · rw [getTile_outOfBounds _ r1 c1 h]
    · rw [getTile_outOfBounds _ r2 c2 h]
      cases (QuantumGrid.create w0 rows cols N).1.getTile r1 c1 <;> rfl

/-- C26 on a 2×3 grid after a link and a measurement: the cell (1, 2) holds a
tile with the coordinates (1, 2); (-1, 0) and (0, 3) give `null`; linking (0, 0)
with (2, 0) changes nothing. -/
theorem C26_getTile_bounds_witness :
    ∃ w, runOps (fun _ => 0) (QuantumGrid.create emptyWorld 2 3 2).1
        [GridOp.createEntanglement 0 0 1 2 LinkType.same, GridOp.measureTile 0 0]
        (QuantumGrid.create emptyWorld 2 3 2).2 = some w ∧
      (∃ (ref : Ref) (t : QuantumTile),
        (QuantumGrid.create emptyWorld 2 3 2).1.getTile 1 2 = some ref ∧
          w.tiles[ref]? = some t ∧ t.row = 1 ∧ t.col = 2) ∧
      (QuantumGrid.create emptyWorld 2 3 2).1.getTile (-1) 0 = none ∧
      (QuantumGrid.create emptyWorld 2 3 2).1.getTile 0 3 = none ∧
      (QuantumGrid.create emptyWorld 2 3 2).1.createEntanglement w 0 0 2 0 LinkType.same = w :=
  have h := C26_getTile_bounds (fun _ => 0) emptyWorld 2 3 2
    [GridOp.createEntanglement 0 0 1 2 LinkType.same, GridOp.measureTile 0 0]
  h.elim (fun w hw => ⟨w, hw.1, hw.2.1 1 2 (by decide), hw.2.2.1 (-1) 0 (by decide),
    hw.2.2.1 0 3 (by decide), hw.2.2.2 0 0 2 0 LinkType.same (Or.inr (by decide))⟩)

/-! ## Claim C27 -/

/-- `applyInterference` keeps the size of the store and, for every tile, the
links and the collapsed flag. -/
theorem applyInterference_keeps (g : QuantumGrid) (w : World) (row col : Int) :
    (g.applyInterference w row col).tiles.length = w.tiles.length ∧
    ∀ (x : Ref) (t : QuantumTile), w.tiles[x]? = some t →
      ∃ t', (g.applyInterference w row col).tiles[x]? = some t' ∧
        t'.entangledWith = t.entangledWith ∧ t'.state.isCollapsed = t.state.isCollapsed := by
  unfold QuantumGrid.applyInterference
  split
  · exact ⟨rfl, fun x t ht => ⟨t, ht, rfl, rfl⟩⟩
  · next ref _ =>
    split
    · exact ⟨rfl, fun x t ht => ⟨t, ht, rfl, rfl⟩⟩
    · next tile htile =>
      split
      · exact ⟨rfl, fun x t ht => ⟨t, ht, rfl, rfl⟩⟩
      · simp only []
        split
        · exact ⟨rfl, fun x t ht => ⟨t, ht, rfl, rfl⟩⟩
        · refine ⟨by simp, ?_⟩
          intro x t ht
          by_cases hx : ref = x
          · subst hx
            rw [htile] at ht
            cases ht
            have hlt : ref < w.tiles.length := (List.getElem?_eq_some_iff.1 htile).1
            exact ⟨_, List.getElem?_set_self hlt, rfl, normalize_isCollapsed _⟩
          · refine ⟨t, ?_, rfl, rfl⟩
            show (w.tiles.set ref _)[x]? = some t
            rw [List.getElem?_set_ne hx, ht]

theorem applyInterference_allClosed (g : QuantumGrid) (w : World) (row col : Int)
    (h : AllClosed w) : AllClosed (g.applyInterference w row col) := by
  obtain ⟨hlen, hk⟩ := applyInterference_keeps g w row col
  have back : ∀ (x : Ref) (t' : QuantumTile),
      (g.applyInterference w row col).tiles[x]? = some t' →
      ∃ t, w.tiles[x]? = some t ∧ t'.entangledWith = t.entangledWith ∧
        t'.state.isCollapsed = t.state.isCollapsed := by
    intro x t' ht'
    have hx : x < w.tiles.length := by
      rw [← hlen]; exact (List.getElem?_eq_some_iff.1 ht').1
    obtain ⟨t1, ht1, hl, hc⟩ := hk x w.tiles[x] (List.getElem?_eq_getElem hx)
    rw [ht'] at ht1
    cases ht1
    exact ⟨_, List.getElem?_eq_getElem hx, hl, hc⟩
  intro x ⟨tx', htx', hcx'⟩ q type ⟨tp', htp', hlq⟩ ⟨tq', htq', hcq'⟩
  obtain ⟨tx, htx, -, hcx⟩ := back x tx' htx'
  obtain ⟨tp, htp, hlp, -⟩ := back x tp' htp'
  obtain ⟨tq, htq, -, hcq⟩ := back q tq' htq'
  exact h x ⟨tx, htx, hcx ▸ hcx'⟩ q type ⟨tp, htp, hlp ▸ hlq⟩ ⟨tq, htq, hcq ▸ hcq'⟩

/-- After `measureTile` no collapsed tile holds a link to an uncollapsed tile, if
it was so before; the call returns. -/
theorem measureTile_allClosed (rand : Nat → ℚ) (g : QuantumGrid) (w : World) (row col : Int)
    (h : AllClosed w) :
    ∃ res w', g.measureTile rand w row col = some (res, w') ∧ Frame w w' ∧ AllClosed w' ∧
      ∀ T, g.getTile row col = some T → w.Uncollapsed T → w'.Collapsed T := by
  cases hT : g.getTile row col with
  | none =>
    refine ⟨none, w, by simp [QuantumGrid.measureTile, hT], Frame.refl w, h, ?_⟩
    intro T hT'
    cases hT'
  | some T =>
    cases ht : w.tiles[T]? with
    | none =>
      refine ⟨none, w, by simp [QuantumGrid.measureTile, hT, ht], Frame.refl w, h, ?_⟩
      intro T' hT' hu
      obtain ⟨t, ht', -⟩ := hu
      cases hT'
      rw [ht] at ht'
      cases ht'
    | some t =>
      cases hc : t.state.isCollapsed with
      | true =>
        refine ⟨t.state.collapsedState, w, by simp [QuantumGrid.measureTile, hT, ht, hc],
          Frame.refl w, h, ?_⟩
        intro T' hT' _
        cases hT'
        exact ⟨t, ht, hc⟩
      | false =>
        obtain ⟨w', hm, hst, hclT, hclx⟩ := measure_spec rand (fun _ => True) w T t ht
          (linkClosed_true w) trivial
        have hf0 : Frame w (w.collapseTile rand T none).2 := Frame.collapseTile rand w T none
        have hf1 : Frame (w.collapseTile rand T none).2 w' := Steps.toFrame hst
        have hf : Frame w w' := hf0.trans hf1
        refine ⟨(w.collapseTile rand T none).1, w', ?_, hf, ?_, ?_⟩
        · rw [measureTile_uncollapsed rand g w row col T hT ⟨t, ht, hc⟩, hm]
        · intro x hx
          by_cases hxT : x = T
          · subst hxT; exact hclT
          · obtain ⟨tx', htx', hcx'⟩ := hx
            have hlt : x < w.tiles.length := by
              rw [← hf.length]; exact (List.getElem?_eq_some_iff.1 htx').1
            rcases collapsed_or_uncollapsed (List.getElem?_eq_getElem hlt) with h1 | h1
            · exact (h x h1).stable hf
            · exact hclx x (collapseTile_uncollapsed_other rand w T x none hxT h1)
                ⟨tx', htx', hcx'⟩
        · intro T' hT' _
          cases hT'
          exact hf1.collapsed (collapseTile_collapsed_self rand w T none t ht)

/-- When no collapsed tile holds a link to an uncollapsed tile, every tile
reachable from a collapsed tile is collapsed, if it is a tile of the store. -/
theorem allClosed_reach (w : World) (h : AllClosed w) (T : Ref) (hT : w.Collapsed T) :
    ∀ x, Reach w T x → ¬ w.Uncollapsed x := by
  intro x hx
  induction hx with
  | refl => exact not_uncollapsed_of_collapsed hT
  | @tail y z _ hyz ih =>
    obtain ⟨type, hl⟩ := hyz
    obtain ⟨ty, hty, hm⟩ := hl
    rcases collapsed_or_uncollapsed hty with h1 | h1
    · exact h y h1 z type ⟨ty, hty, hm⟩
    · exact absurd h1 ih

/-- C27: in a store where every link has a link back and no collapsed tile holds
a link to an uncollapsed tile: `measureTile` returns, and after it, as after
`applyInterference`, no collapsed tile holds a link to an uncollapsed tile and no
uncollapsed tile holds a link to a collapsed tile; and when the measured tile was
uncollapsed, every tile of the store reachable from it through links is collapsed
after the call. -/
theorem C27_closure_preserved (rand : Nat → ℚ) (g : QuantumGrid) (w : World) (row col : Int)
    (hsym : ∀ p q type, w.Linked p q type → ∃ type', w.Linked q p type')
    (hcl : AllClosed w) :
    (∃ res w', g.measureTile rand w row col = some (res, w') ∧
      (∀ p q type, w'.Collapsed p → w'.Linked p q type → ¬ w'.Uncollapsed q) ∧
      (∀ p q type, w'.Uncollapsed p → w'.Linked p q type → ¬ w'.Collapsed q) ∧
      (∀ T, g.getTile row col = some T → w.Uncollapsed T →
        ∀ x, Reach w T x → ∀ t, w'.tiles[x]? = some t → t.state.isCollapsed = true)) ∧
    (∀ p q type, (g.applyInterference w row col).Collapsed p →
      (g.applyInterference w row col).Linked p q type →
      ¬ (g.applyInterference w row col).Uncollapsed q) ∧
    (∀ p q type, (g.applyInterference w row col).Uncollapsed p →
      (g.applyInterference w row col).Linked p q type →
      ¬ (g.applyInterference w row col).Collapsed q) := by
  have hrev : ∀ w' : World, AllClosed w' →
      (∀ p q type, w'.Linked p q type → ∃ type', w'.Linked q p type') →
      ∀ p q type, w'.Uncollapsed p → w'.Linked p q type → ¬ w'.Collapsed q := by
    intro w' hcl' hsym' p q type hp hl hq
    obtain ⟨type', hl'⟩ := hsym' p q type hl
    exact hcl' q hq p type' hl' hp
  refine ⟨?_, ?_, ?_⟩
  · obtain ⟨res, w', hm, hf, hcl', hT⟩ := measureTile_allClosed rand g w row col hcl
    have hsym' : ∀ p q type, w'.Linked p q type → ∃ type', w'.Linked q p type' := by
      intro p q type hl
      obtain ⟨type', hl'⟩ := hsym p q type (hf.linked_rev hl)
      exact ⟨type', hf.linked hl'⟩
    refine ⟨res, w', hm, fun p q type hp hl => hcl' p hp q type hl, hrev w' hcl' hsym', ?_⟩
    intro T hgT huT x hx t ht
    have hreach : Reach w' T x := by
      refine Relation.ReflTransGen.mono ?_ hx
      intro a b ⟨type, hl⟩
      exact ⟨type, hf.linked hl⟩
    have hnu := allClosed_reach w' hcl' T (hT T hgT huT) x hreach
    rcases collapsed_or_uncollapsed ht with h1 | h1
    · obtain ⟨t1, ht1, hc1⟩ := h1
      rw [ht] at ht1
      cases ht1
      exact hc1
    · exact absurd h1 hnu
  · intro p q type hp hl
    exact applyInterference_allClosed g w row col hcl p hp q type hl
  · obtain ⟨hlen, hk⟩ := applyInterference_keeps g w row col
    apply hrev _ (applyInterference_allClosed g w row col hcl)
    intro p q type ⟨tp', htp', hm⟩
    have hp : p < w.tiles.length := by
      rw [← hlen]; exact (List.getElem?_eq_some_iff.1 htp').1
    obtain ⟨t1, ht1, hl1, -⟩ := hk p w.tiles[p] (List.getElem?_eq_getElem hp)
    rw [htp'] at ht1
    cases ht1
    obtain ⟨type', tq, htq, hmq⟩ := hsym p q type ⟨w.tiles[p], List.getElem?_eq_getElem hp,
      hl1 ▸ hm⟩
    obtain ⟨tq', htq', hlq, -⟩ := hk q tq htq
    exact ⟨type', tq', htq', hlq ▸ hmq⟩

theorem linked_of_all (w : World)
    (hall : ∀ p ∈ List.range w.tiles.length, ∀ l ∈ w.linksOf p,
      (w.linksOf l.1).any (fun e => e.1 == p) = true) :
    ∀ p q type, w.Linked p q type → ∃ type', w.Linked q p type' := by
  intro p q type ⟨t, ht, hm⟩
  have hp : p < w.tiles.length := (List.getElem?_eq_some_iff.1 ht).1
  have := hall p (List.mem_range.2 hp) (q, type) (by rw [linksOf_some w p t ht]; exact hm)
  obtain ⟨e, he, hep⟩ := List.any_eq_true.1 this
  cases hq : w.tiles[q]? with
  | none => simp [World.linksOf, hq] at he
  | some tq =>
    rw [linksOf_some w q tq hq] at he
    have hep' : e.1 = p := by simpa using hep
    exact ⟨e.2, tq, hq, by rw [← hep']; exact he⟩

theorem allClosed_of_all (w : World)
    (hall : ∀ t ∈ w.tiles, t.state.isCollapsed = true → ∀ l ∈ t.entangledWith,
      (w.tiles[l.1]?).all (fun tq => tq.state.isCollapsed) = true) : AllClosed w := by
  intro x ⟨t, ht, hc⟩ q type ⟨t', ht', hm⟩ ⟨tq, htq, hcq⟩
  rw [ht] at ht'
  cases ht'
  have := hall t (List.getElem?_mem ht) hc (q, type) hm
  rw [htq] at this
  simp only [Option.all_some] at this
  rw [hcq] at this
  cases this

/-- C27 on `halfMeasured`, measured at (1, 0): the call returns and leaves no
collapsed tile linked to an uncollapsed one. -/
theorem C27_closure_preserved_witness :
    ∃ res w', halfMeasured.1.measureTile (fun _ => 1 / 4) halfMeasured.2 1 0 = some (res, w') ∧
      (∀ p q type, w'.Collapsed p → w'.Linked p q type → ¬ w'.Uncollapsed q) ∧
      (∀ p q type, w'.Uncollapsed p → w'.Linked p q type → ¬ w'.Collapsed q) ∧
      (∀ T, halfMeasured.1.getTile 1 0 = some T → halfMeasured.2.Uncollapsed T →
        ∀ x, Reach halfMeasured.2 T x → ∀ t, w'.tiles[x]? = some t →
          t.state.isCollapsed = true) :=
  (C27_closure_preserved (fun _ => 1 / 4) halfMeasured.1 halfMeasured.2 1 0
    (linked_of_all halfMeasured.2 (by decide!)) (allClosed_of_all halfMeasured.2 (by decide!))).1

/-! ## The snapshot of a grid -/

theorem mapOption_total {α β : Type} (f : α → Option β) :
    ∀ l : List α, (∀ x ∈ l, ∃ y, f x = some y) → ∃ ys, mapOption f l = some ys := by
  intro l
  induction l with
  | nil => intro _; exact ⟨[], rfl⟩
  | cons x xs ih =>
    intro h
    obtain ⟨y, hy⟩ := h x (List.mem_cons_self x xs)
    obtain ⟨ys, hys⟩ := ih (fun z hz => h z (List.mem_cons_of_mem x hz))
    exact ⟨y :: ys, by simp [mapOption, hy, hys]⟩

theorem mapOption_forall₂ {α β : Type} (f : α → Option β) :
    ∀ (l : List α) (ys : List β), mapOption f l = some ys →
      List.Forall₂ (fun x y => f x = some y) l ys := by
  intro l
  induction l with
  | nil =>
    intro ys h
    simp only [mapOption, Option.some.injEq] at h
    subst h
    exact List.Forall₂.nil
  | cons x xs ih =>
    intro ys h
    rw [mapOption] at h
    split at h
    · cases h
    · next y hy =>
      split at h
      · cases h
      · next zs hzs =>
        simp only [Option.some.injEq] at h
        subst h
        exact List.Forall₂.cons hy (ih zs hzs)

theorem cell_of_getElem? (g : QuantumGrid) (r c : Nat) (tileRow : List Ref) (ref : Ref)
    (hr : g.tiles[r]? = some tileRow) (hc : tileRow[c]? = some ref) : g.cell r c = some ref := by
  simp [QuantumGrid.cell, hr, hc]

/-- In a grid whose table has `rows` rows of `cols` references and whose cells
hold tiles, every reference of the table is a cell of the grid and a tile of the
store. -/
theorem table_live (g : QuantumGrid) (w : World) (hheight : g.tiles.length = g.rows)
    (hwidth : ∀ tileRow ∈ g.tiles, tileRow.length = g.cols) (hlive : GridLive g w) :
    ∀ tileRow ∈ g.tiles, ∀ ref ∈ tileRow,
      ∃ (r c : Nat) (tile : QuantumTile), r < g.rows ∧ c < g.cols ∧ g.cell r c = some ref ∧
        w.tiles[ref]? = some tile := by
  intro tileRow htr ref href
  obtain ⟨r, hr⟩ := List.mem_iff_getElem?.1 htr
  obtain ⟨c, hc⟩ := List.mem_iff_getElem?.1 href
  have hr' : r < g.rows := by rw [← hheight]; exact (List.getElem?_eq_some_iff.1 hr).1
  have hc' : c < g.cols := by
    rw [← hwidth tileRow htr]; exact (List.getElem?_eq_some_iff.1 hc).1
  obtain ⟨ref', tile, hcell, ht⟩ := hlive r c hr' hc'
  rw [cell_of_getElem? g r c tileRow ref hr hc] at hcell
  cases hcell
  exact ⟨r, c, tile, hr', hc', cell_of_getElem? g r c tileRow ref hr hc, ht⟩

/-- `isFullyCollapsed()` returns, and returns `true` exactly when the tile of every
cell is collapsed. -/
theorem isFullyCollapsed_spec (g : QuantumGrid) (w : World) (hheight : g.tiles.length = g.rows)
    (hwidth : ∀ tileRow ∈ g.tiles, tileRow.length = g.cols) (hlive : GridLive g w) :
    ∃ b, g.isFullyCollapsed w = some b ∧
      (b = true ↔ ∀ (r c : Nat) (ref : Ref) (tile : QuantumTile), g.cell r c = some ref →
        w.tiles[ref]? = some tile → tile.state.isCollapsed = true) := by
  have hlive' := table_live g w hheight hwidth hlive
  have hinner : ∀ tileRow ∈ g.tiles,
      ∃ b, forAllM (fun ref : Ref =>
          match w.tiles[ref]? with
          | none => none
          | some tile => some tile.state.isCollapsed) tileRow = some b ∧
        (b = true ↔ ∀ ref ∈ tileRow, ∀ tile : QuantumTile, w.tiles[ref]? = some tile →
          tile.state.isCollapsed = true) := by
    intro tileRow htr
    obtain ⟨b, hb, hiff⟩ := forAllM_spec (fun ref : Ref =>
        match w.tiles[ref]? with
        | none => none
        | some tile => some tile.state.isCollapsed) tileRow
      (fun ref href => by
        obtain ⟨_, _, tile, -, -, -, ht⟩ := hlive' tileRow htr ref href
        exact ⟨tile.state.isCollapsed, by simp [ht]⟩)
    refine ⟨b, hb, ?_⟩
    rw [hiff]
    constructor
    · intro h ref href tile ht
      have := h ref href
      simp only [ht, Option.some.injEq] at this
      exact this
    · intro h ref href
      obtain ⟨_, _, tile, -, -, -, ht⟩ := hlive' tileRow htr ref href
      simp only [ht, Option.some.injEq]
      exact h ref href tile ht
  obtain ⟨b, hb, hiff⟩ := forAllM_spec (fun tileRow : List Ref =>
      forAllM (fun ref : Ref =>
        match w.tiles[ref]? with
        | none => none
        | some tile => some tile.state.isCollapsed) tileRow) g.tiles
    (fun tileRow htr => by
      obtain ⟨b, hb, -⟩ := hinner tileRow htr
      exact ⟨b, hb⟩)
  refine ⟨b, hb, ?_⟩
  rw [hiff]
  constructor
  · intro h r c ref tile hcell ht
    unfold QuantumGrid.cell at hcell
    split at hcell
    · cases hcell
    · next tileRow htr =>
      have hmem : tileRow ∈ g.tiles := List.getElem?_mem htr
      obtain ⟨b', hb', hiff'⟩ := hinner tileRow hmem
      have := h tileRow hmem
      simp only [] at this
      rw [hb'] at this
      cases this
      exact hiff'.1 rfl ref (List.getElem?_mem hcell) tile ht
  · intro h tileRow htr
    obtain ⟨b', hb', hiff'⟩ := hinner tileRow htr
    show forAllM _ tileRow = some true
    rw [hb']
    refine congrArg some (hiff'.2 ?_)
    intro ref href tile ht
    obtain ⟨r, c, _, -, -, hcell, -⟩ := hlive' tileRow htr ref href
    exact h r c ref tile hcell ht

/-- `getCurrentPattern()` returns a pattern with the shape of the table, whose
entry at a cell is the outcome of the tile when it is collapsed and `null`
otherwise. -/
theorem getCurrentPattern_spec (g : QuantumGrid) (w : World) (hheight : g.tiles.length = g.rows)
    (hwidth : ∀ tileRow ∈ g.tiles, tileRow.length = g.cols) (hlive : GridLive g w) :
    ∃ pattern, g.getCurrentPattern w = some pattern ∧ pattern.length = g.rows ∧
      (∀ patternRow ∈ pattern, patternRow.length = g.cols) ∧
      ∀ (r c : Nat) (ref : Ref) (tile : QuantumTile), g.cell r c = some ref →
        w.tiles[ref]? = some tile →
        ∃ patternRow, pattern[r]? = some patternRow ∧
          patternRow[c]? =
            some (if tile.state.isCollapsed then tile.state.collapsedState else none) := by
  have hlive' := table_live g w hheight hwidth hlive
  obtain ⟨pattern, hp⟩ := mapOption_total (fun tileRow : List Ref =>
      mapOption (fun ref : Ref =>
        match w.tiles[ref]? with
        | none => none
        | some tile =>
          some (if tile.state.isCollapsed then tile.state.collapsedState else none)) tileRow)
    g.tiles
    (fun tileRow htr => mapOption_total _ tileRow (fun ref href => by
      obtain ⟨_, _, tile, -, -, -, ht⟩ := hlive' tileRow htr ref href
      exact ⟨if tile.state.isCollapsed then tile.state.collapsedState else none, by
        simp only [ht]⟩))
  have hf := mapOption_forall₂ _ g.tiles pattern hp
  refine ⟨pattern, hp, by rw [← hf.length_eq, hheight], ?_, ?_⟩
  · intro patternRow hpr
    obtain ⟨r, hr⟩ := List.mem_iff_getElem?.1 hpr
    obtain ⟨tileRow, htr, hrow⟩ := forall₂_getElem? hf.flip r patternRow hr
    have hf2 := mapOption_forall₂ _ tileRow patternRow hrow
    rw [← hf2.length_eq]
    exact hwidth tileRow (List.getElem?_mem htr)
  · intro r c ref tile hcell ht
    unfold QuantumGrid.cell at hcell
    split at hcell
    · cases hcell
    · next tileRow htr =>
      obtain ⟨patternRow, hpr, hrow⟩ := forall₂_getElem? hf r tileRow htr
      have hf2 := mapOption_forall₂ _ tileRow patternRow hrow
      obtain ⟨entry, hentry, hval⟩ := forall₂_getElem? hf2 c ref hcell
      simp only [ht, Option.some.injEq] at hval
      exact ⟨patternRow, hpr, by rw [hentry, hval]⟩

/-! ## Claim C28 -/

/-- C28: for a grid with `rows ≥ 1` whose table has `rows` rows of `cols`
references, all of them tiles of the store, in any state of the tiles:
`getCurrentPattern()` returns a pattern, `matchesPattern` on that pattern returns
a boolean, `isFullyCollapsed()` returns the same boolean, and this boolean is
`true` exactly when every tile of the grid is collapsed. -/
theorem C28_snapshot_matches_iff_collapsed (g : QuantumGrid) (w : World) (hrows : 1 ≤ g.rows)
    (hheight : g.tiles.length = g.rows)
    (hwidth : ∀ tileRow ∈ g.tiles, tileRow.length = g.cols) (hlive : GridLive g w) :
    ∃ pattern b, g.getCurrentPattern w = some pattern ∧
      g.matchesPattern w pattern = some b ∧ g.isFullyCollapsed w = some b ∧
      (b = true ↔ ∀ (r c : Nat) (ref : Ref) (tile : QuantumTile), g.cell r c = some ref →
        w.tiles[ref]? = some tile → tile.state.isCollapsed = true) := by
  obtain ⟨pattern, hp, hlen, hpw, hval⟩ := getCurrentPattern_spec g w hheight hwidth hlive
  obtain ⟨b2, hb2, hiff2⟩ := isFullyCollapsed_spec g w hheight hwidth hlive
  obtain ⟨b, hb, hiff⟩ := matchLoops_spec g w pattern hlen hlive
  have h0 : pattern[0]? = some pattern[0] := List.getElem?_eq_getElem (by omega)
  have hw0 : pattern[0].length = g.cols := hpw _ (List.getElem_mem _)
  have hm : g.matchesPattern w pattern = some b := by
    simp only [QuantumGrid.matchesPattern, hlen, h0, hw0, ne_eq, not_true_eq_false, if_false]
    exact hb
  have hcellIff : ∀ (r c : Nat) (ref : Ref) (tile : QuantumTile), g.cell r c = some ref →
      w.tiles[ref]? = some tile →
      (matchCell g w pattern r c = some true ↔ tile.state.isCollapsed = true) := by
    intro r c ref tile hcell ht
    obtain ⟨patternRow, hpr, hentry⟩ := hval r c ref tile hcell ht
    obtain ⟨b', hb', hiff'⟩ := matchCell_spec g w pattern r c patternRow ref tile hpr hcell ht
    rw [hb', hentry]  at *
    constructor
    · intro h
      cases h
      cases hc : tile.state.isCollapsed with
      | true => rfl
      | false =>
        have := hiff'.1 rfl (by simp [hc])
        rw [hc] at this
        exact absurd this.1 (by simp)
    · intro hc
      refine congrArg some (hiff'.2 ?_)
      intro _
      exact ⟨hc, by simp [hc]⟩
  have hbb : b = true ↔ ∀ (r c : Nat) (ref : Ref) (tile : QuantumTile), g.cell r c = some ref →
      w.tiles[ref]? = some tile → tile.state.isCollapsed = true := by
    rw [hiff]
    constructor
    · intro h r c ref tile hcell ht
      have hr : r < g.rows := by
        unfold QuantumGrid.cell at hcell
        split at hcell
        · cases hcell
        · next tileRow htr => rw [← hheight]; exact (List.getElem?_eq_some_iff.1 htr).1
      have hc : c < g.cols := by
        unfold QuantumGrid.cell at hcell
        split at hcell
        · cases hcell
        · next tileRow htr =>
          rw [← hwidth tileRow (List.getElem?_mem htr)]
          exact (List.getElem?_eq_some_iff.1 hcell).1
      exact (hcellIff r c ref tile hcell ht).1 (h r c hr hc)
    · intro h r c hr hc
      obtain ⟨ref, tile, hcell, ht⟩ := hlive r c hr hc
      exact (hcellIff r c ref tile hcell ht).2 (h r c ref tile hcell ht)
  have heq : b2 = b := by
    rw [Bool.eq_iff_iff, hiff2, hbb]
  refine ⟨pattern, b, hp, hm, by rw [hb2, heq], hbb⟩

/-- C28 on `diagGrid`, where (0, 0) and (1, 1) are collapsed and the two other
tiles are not. -/
theorem C28_snapshot_matches_iff_collapsed_witness :
    ∃ pattern b, diagGrid.1.getCurrentPattern diagGrid.2 = some pattern ∧
      diagGrid.1.matchesPattern diagGrid.2 pattern = some b ∧
      diagGrid.1.isFullyCollapsed diagGrid.2 = some b ∧
      (b = true ↔ ∀ (r c : Nat) (ref : Ref) (tile : QuantumTile),
        diagGrid.1.cell r c = some ref → diagGrid.2.tiles[ref]? = some tile →
        tile.state.isCollapsed = true) :=
  C28_snapshot_matches_iff_collapsed diagGrid.1 diagGrid.2 (by decide) (by decide)
    (by decide) (gridLive_of_all diagGrid.1 diagGrid.2 (by decide!))

/-! ## Level progression -/

theorem checkAchievements_topicProgress (p : Progress) (topicId levelNumber : Int) (moves : ℚ) :
    (LevelProgression.checkAchievements p topicId levelNumber moves).2.topicProgress =
      p.topicProgress := rfl

/-- The entry of a topic after `completeLevel`. -/
theorem completeLevel_topicProgress (p : Progress) (topicId levelNumber : Int) (moves time : ℚ)
    (k : Int) :
    ((LevelProgression.completeLevel p topicId levelNumber moves time).topicProgress k).map
        (fun tp => tp.completed) =
      if k = topicId then
        some (
          if levelNumber ∉ ((p.topicProgress topicId).map (fun tp => tp.completed)).getD [] then
            (((p.topicProgress topicId).map (fun tp => tp.completed)).getD [] ++
              [levelNumber]).insertionSort (fun a b => a ≤ b)
          else ((p.topicProgress topicId).map (fun tp => tp.completed)).getD [])
      else (p.topicProgress k).map (fun tp => tp.completed) := by
  unfold LevelProgression.completeLevel
  rw [checkAchievements_topicProgress]
  by_cases hk : k = topicId
  · simp only [hk, if_true, Option.map_some']
    cases p.topicProgress topicId <;> rfl
  · simp only [hk, if_false]

theorem completeLevel_inv (calls : List Completion) (p : Progress) (call : Completion)
    (h : ProgressInv calls p) :
    ProgressInv (calls ++ [call])
      (LevelProgression.completeLevel p call.topicId call.levelNumber call.moves call.time) := by
  intro topic
  have hmap := completeLevel_topicProgress p call.topicId call.levelNumber call.moves call.time
    topic
  have hold := h topic
  by_cases hk : topic = call.topicId
  · subst hk
    rw [if_pos rfl] at hmap
    cases hnew : (LevelProgression.completeLevel p call.topicId call.levelNumber call.moves
        call.time).topicProgress call.topicId with
    | none => rw [hnew] at hmap; cases hmap
    | some tp =>
      rw [hnew] at hmap
      simp only [Option.map_some', Option.some.injEq] at hmap
      -- the list before the call
      have hprev : (((p.topicProgress call.topicId).map (fun tp => tp.completed)).getD []).Sorted
            (fun a b => a ≤ b) ∧
          (((p.topicProgress call.topicId).map (fun tp => tp.completed)).getD []).Nodup ∧
          ∀ l : Int, l ∈ ((p.topicProgress call.topicId).map (fun tp => tp.completed)).getD [] ↔
            ∃ c ∈ calls, c.topicId = call.topicId ∧ c.levelNumber = l := by
        cases hp : p.topicProgress call.topicId with
        | none =>
          rw [hp] at hold
          refine ⟨List.sorted_nil, List.nodup_nil, ?_⟩
          intro l
          simp only [Option.map_none', Option.getD_none, List.not_mem_nil, false_iff]
          rintro ⟨c, hc, hct, -⟩
          exact hold c hc hct
        | some tp0 =>
          rw [hp] at hold
          exact hold
      obtain ⟨hs, hn, hm⟩ := hprev
      show tp.completed.Sorted (fun a b => a ≤ b) ∧ tp.completed.Nodup ∧
        ∀ l : Int, l ∈ tp.completed ↔
          ∃ c ∈ calls ++ [call], c.topicId = call.topicId ∧ c.levelNumber = l
      rw [hmap]
      split
      · next hnot =>
        have hperm := List.perm_insertionSort (fun a b : Int => a ≤ b)
          (((p.topicProgress call.topicId).map (fun tp => tp.completed)).getD [] ++
            [call.levelNumber])
        refine ⟨List.sorted_insertionSort _ _, ?_, ?_⟩
        · rw [hperm.nodup_iff, List.nodup_append]
          refine ⟨hn, List.nodup_singleton _, ?_⟩
          intro a ha hb
          rw [List.mem_singleton] at hb
          subst hb
          exact hnot ha
        · intro l
          rw [hperm.mem_iff, List.mem_append, hm l, List.mem_singleton]
          constructor
          · rintro (⟨c, hc, hct, hcl⟩ | rfl)
            · exact ⟨c, List.mem_append_left _ hc, hct, hcl⟩
            · exact ⟨call, by simp, rfl, rfl⟩
          · rintro ⟨c, hc, hct, hcl⟩
            rcases List.mem_append.1 hc with hc | hc
            · exact Or.inl ⟨c, hc, hct, hcl⟩
            · rw [List.mem_singleton] at hc
              subst hc
              exact Or.inr hcl.symm
      · next hin =>
        have hin' : call.levelNumber ∈
            ((p.topicProgress call.topicId).map (fun tp => tp.completed)).getD [] := by
          by_contra hne
          exact hin hne
        refine ⟨hs, hn, ?_⟩
        intro l
        rw [hm l]
        constructor
        · rintro ⟨c, hc, hct, hcl⟩
          exact ⟨c, List.mem_append_left _ hc, hct, hcl⟩
        · rintro ⟨c, hc, hct, hcl⟩
          rcases List.mem_append.1 hc with hc | hc
          · exact ⟨c, hc, hct, hcl⟩
          · rw [List.mem_singleton] at hc
            subst hc
            rw [← hcl]
            exact (hm c.levelNumber).1 hin'
  · rw [if_neg hk] at hmap
    cases hnew : (LevelProgression.completeLevel p call.topicId call.levelNumber call.moves
        call.time).topicProgress topic with
    | none =>
      rw [hnew] at hmap
      cases hp : p.topicProgress topic with
      | some tp0 => rw [hp] at hmap; cases hmap
      | none =>
        rw [hp] at hold
        show ∀ c ∈ calls ++ [call], c.topicId ≠ topic
        intro c hc
        rcases List.mem_append.1 hc with hc | hc
        · exact hold c hc
        · rw [List.mem_singleton] at hc
          subst hc
          exact fun e => hk e.symm
    | some tp =>
      rw [hnew] at hmap
      cases hp : p.topicProgress topic with
      | none => rw [hp] at hmap; cases hmap
      | some tp0 =>
        rw [hp] at hmap hold
        simp only [Option.map_some', Option.some.injEq] at hmap
        obtain ⟨hs, hn, hm⟩ := hold
        show tp.completed.Sorted (fun a b => a ≤ b) ∧ tp.completed.Nodup ∧
          ∀ l : Int, l ∈ tp.completed ↔
            ∃ c ∈ calls ++ [call], c.topicId = topic ∧ c.levelNumber = l
        rw [hmap]
        refine ⟨hs, hn, ?_⟩
        intro l
        rw [hm l]
        constructor
        · rintro ⟨c, hc, hct, hcl⟩
          exact ⟨c, List.mem_append_left _ hc, hct, hcl⟩
        · rintro ⟨c, hc, hct, hcl⟩
          rcases List.mem_append.1 hc with hc | hc
          · exact ⟨c, hc, hct, hcl⟩
          · rw [List.mem_singleton] at hc
            subst hc
            exact absurd hct.symm hk

theorem runCompletions_inv :
    ∀ (calls done : List Completion) (p : Progress), ProgressInv done p →
      ProgressInv (done ++ calls) (runCompletions calls p) := by
  intro calls
  induction calls with
  | nil => intro done p h; simpa [runCompletions] using h
  | cons call calls ih =>
    intro done p h
    have := ih (done ++ [call]) _ (completeLevel_inv done p call h)
    simpa [runCompletions] using this

theorem emptyProgress_inv : ProgressInv [] LevelProgression.emptyProgress := by
  intro topic
  show ∀ call ∈ ([] : List Completion), call.topicId ≠ topic
  intro call hc
  cases hc

/-- A duplicate-free list of levels among 0..4 has five entries or more exactly
when it holds each of 0, 1, 2, 3, 4. -/
theorem five_levels (l : List Int) (hn : l.Nodup) (hr : ∀ x ∈ l, 0 ≤ x ∧ x ≤ 4) :
    5 ≤ l.length ↔ ∀ x : Int, 0 ≤ x → x ≤ 4 → x ∈ l := by
  have hsub : l.toFinset ⊆ Finset.Icc (0 : Int) 4 := by
    intro x hx
    rw [List.mem_toFinset] at hx
    exact Finset.mem_Icc.2 (hr x hx)
  have hcard : l.toFinset.card = l.length := List.toFinset_card_of_nodup hn
  have h5 : (Finset.Icc (0 : Int) 4).card = 5 := by
    rw [Int.card_Icc]
    rfl
  constructor
  · intro h x h0 h4
    have heq : l.toFinset = Finset.Icc (0 : Int) 4 :=
      Finset.eq_of_subset_of_card_le hsub (by rw [h5, hcard]; exact h)
    have : x ∈ l.toFinset := by rw [heq]; exact Finset.mem_Icc.2 ⟨h0, h4⟩
    exact List.mem_toFinset.1 this
  · intro h
    have hsup : Finset.Icc (0 : Int) 4 ⊆ l.toFinset := by
      intro x hx
      obtain ⟨h0, h4⟩ := Finset.mem_Icc.1 hx
      exact List.mem_toFinset.2 (h x h0 h4)
    have := Finset.card_le_card hsup
    rw [h5, hcard] at this
    exact this

/-! ## Claim C29 -/

/-- C29: after any sequence of `completeLevel` calls from the empty progress,
with level numbers in 0..4, and for every topic id `t ≥ 1`: `isTopicUnlocked(t)`
returns `true` if and only if each of the levels 0, 1, 2, 3, 4 was completed for
the topic `t - 1` by some call; `isTopicUnlocked(0)` returns `true`; and the
completed list of every topic is in increasing order, without duplicates, and
holds exactly the levels completed for the topic. -/
theorem C29_topic_unlocked_iff (calls : List Completion) (t : Int)
    (hlev : ∀ call ∈ calls, 0 ≤ call.levelNumber ∧ call.levelNumber ≤ 4) (ht : 1 ≤ t) :
    (LevelProgression.isTopicUnlocked
        (runCompletions calls LevelProgression.emptyProgress) t = true ↔
      ∀ l : Int, 0 ≤ l → l ≤ 4 →
        ∃ call ∈ calls, call.topicId = t - 1 ∧ call.levelNumber = l) ∧
    LevelProgression.isTopicUnlocked
      (runCompletions calls LevelProgression.emptyProgress) 0 = true ∧
    ∀ (topic : Int) (tp : TopicProgress),
      (runCompletions calls LevelProgression.emptyProgress).topicProgress topic = some tp →
      tp.completed.Sorted (fun a b => a ≤ b) ∧ tp.completed.Nodup ∧
        ∀ l : Int, l ∈ tp.completed ↔
          ∃ call ∈ calls, call.topicId = topic ∧ call.levelNumber = l := by
  have hinv := runCompletions_inv calls [] LevelProgression.emptyProgress emptyProgress_inv
  rw [List.nil_append] at hinv
  refine ⟨?_, rfl, ?_⟩
  · have ht0 : t ≠ 0 := by omega
    have hprev := hinv (t - 1)
    unfold LevelProgression.isTopicUnlocked
    rw [if_neg ht0]
    simp only []
    cases hp : (runCompletions calls LevelProgression.emptyProgress).topicProgress (t - 1) with
    | none =>
      rw [hp] at hprev
      constructor
      · intro h; cases h
      · intro h
        obtain ⟨call, hc, hct, -⟩ := h 0 (le_refl 0) (by decide)
        exact absurd hct (hprev call hc)
    | some prev =>
      rw [hp] at hprev
      obtain ⟨-, hn, hm⟩ := hprev
      have hr : ∀ x ∈ prev.completed, 0 ≤ x ∧ x ≤ 4 := by
        intro x hx
        obtain ⟨call, hc, -, hcl⟩ := (hm x).1 hx
        rw [← hcl]
        exact hlev call hc
      simp only [ge_iff_le, decide_eq_true_eq]
      rw [five_levels prev.completed hn hr]
      constructor
      · intro h l h0 h4
        exact (hm l).1 (h l h0 h4)
      · intro h l h0 h4
        exact (hm l).2 (h l h0 h4)
  · intro topic tp htp
    have := hinv topic
    rw [htp] at this
    exact this

/-- C29 on `sampleCalls` and the topic 1. -/
theorem C29_topic_unlocked_iff_witness :
    (LevelProgression.isTopicUnlocked
        (runCompletions sampleCalls LevelProgression.emptyProgress) 1 = true ↔
      ∀ l : Int, 0 ≤ l → l ≤ 4 →
        ∃ call ∈ sampleCalls, call.topicId = 1 - 1 ∧ call.levelNumber = l) ∧
    LevelProgression.isTopicUnlocked
      (runCompletions sampleCalls LevelProgression.emptyProgress) 0 = true :=
  have h := C29_topic_unlocked_iff sampleCalls 1 (by decide) (by decide)
  ⟨h.1, h.2.1⟩

/-! ## Loops -/

/-- A loop invariant indexed by the elements already visited. -/
theorem loopM_inv {σ α : Type} (body : σ → α → Option σ) (P : List α → σ → Prop)
    (l : List α)
    (hstep : ∀ (done : List α) (x : α) (rest : List α) (s : σ), done ++ x :: rest = l →
      P done s → ∃ s', body s x = some s' ∧ P (done ++ [x]) s') :
    ∀ s, P [] s → ∃ s', loopM body l s = some s' ∧ P l s' := by
  have key : ∀ (rest done : List α), done ++ rest = l → ∀ s, P done s →
      ∃ s', loopM body rest s = some s' ∧ P l s' := by
    intro rest
    induction rest with
    | nil =>
      intro done hd s hP
      rw [List.append_nil] at hd
      subst hd
      exact ⟨s, rfl, hP⟩
    | cons x rest ih =>
      intro done hd s hP
      obtain ⟨s1, hs1, hP1⟩ := hstep done x rest s hd hP
      obtain ⟨s', hs', hP'⟩ := ih (done ++ [x]) (by rw [← hd]; simp) s1 hP1
      exact ⟨s', by simp only [loopM, hs1]; exact hs', hP'⟩
  intro s hP
  exact key l [] rfl s hP

theorem cellsOf_append (rowsL : List Nat) (r : Nat) (colsL : List Nat) :
    cellsOf (rowsL ++ [r]) colsL = cellsOf rowsL colsL ++ colsL.map (fun c => (r, c)) := by
  simp [cellsOf, List.flatMap_append]

theorem mem_cellsOf (rowsL colsL : List Nat) (r c : Nat) :
    (r, c) ∈ cellsOf rowsL colsL ↔ r ∈ rowsL ∧ c ∈ colsL := by
  simp only [cellsOf, List.mem_flatMap, List.mem_map, Prod.mk.injEq]
  constructor
  · rintro ⟨r', hr', c', hc', rfl, rfl⟩
    exact ⟨hr', hc'⟩
  · rintro ⟨hr, hc⟩
    exact ⟨r, hr, c, hc, rfl, rfl⟩

/-- An invariant of two nested loops, indexed by the cells already visited; each
cell is visited once. -/
theorem loopM_nested {σ : Type} (body : σ → Nat → Nat → Option σ)
    (Q : List (Nat × Nat) → σ → Prop) (rowsL colsL : List Nat) (hr : rowsL.Nodup)
    (hc : colsL.Nodup)
    (hstep : ∀ (done : List (Nat × Nat)) (r c : Nat) (s : σ), r ∈ rowsL → c ∈ colsL →
      (r, c) ∉ done → Q done s → ∃ s', body s r c = some s' ∧ Q (done ++ [(r, c)]) s') :
    ∀ s, Q [] s →
      ∃ s', loopM (fun s1 r => loopM (fun s2 c => body s2 r c) colsL s1) rowsL s = some s' ∧
        Q (cellsOf rowsL colsL) s' := by
  intro s hQ
  have houter := loopM_inv (fun s1 r => loopM (fun s2 c => body s2 r c) colsL s1)
    (fun doneRows s1 => Q (cellsOf doneRows colsL) s1) rowsL ?_ s (by simpa [cellsOf] using hQ)
  · exact houter
  · intro doneRows r restRows s1 hd hQ1
    have hrmem : r ∈ rowsL := by rw [← hd]; simp
    have hrnot : r ∉ doneRows := by
      rw [← hd] at hr
      have := (List.nodup_append.1 hr).2.2
      intro hmem
      exact this hmem (List.mem_cons_self r restRows)
    have hinner := loopM_inv (fun s2 c => body s2 r c)
      (fun doneCols s2 => Q (cellsOf doneRows colsL ++ doneCols.map (fun c => (r, c))) s2)
      colsL ?_ s1 (by simpa using hQ1)
    · obtain ⟨s', hs', hQ'⟩ := hinner
      refine ⟨s', hs', ?_⟩
      show Q (cellsOf (doneRows ++ [r]) colsL) s'
      rw [cellsOf_append]
      exact hQ'
    · intro doneCols c restCols s2 hdc hQ2
      have hcmem : c ∈ colsL := by rw [← hdc]; simp
      have hcnot : c ∉ doneCols := by
        rw [← hdc] at hc
        have := (List.nodup_append.1 hc).2.2
        intro hmem
        exact this hmem (List.mem_cons_self c restCols)
      have hnot : (r, c) ∉ cellsOf doneRows colsL ++ doneCols.map (fun c => (r, c)) := by
        intro hmem
        rcases List.mem_append.1 hmem with h1 | h1
        · exact hrnot ((mem_cellsOf doneRows colsL r c).1 h1).1
        · obtain ⟨c', hc', he⟩ := List.mem_map.1 h1
          simp only [Prod.mk.injEq, true_and] at he
          exact hcnot (he ▸ hc')
      obtain ⟨s', hs', hQ'⟩ := hstep _ r c s2 hrmem hcmem hnot hQ2
      refine ⟨s', hs', ?_⟩
      simpa [List.map_append, List.append_assoc] using hQ'

/-! ## Cells of a table -/

theorem has_iff_cell (g : QuantumGrid) (ref : Ref) :
    g.Has ref ↔ ∃ r c, g.cell r c = some ref := by
  constructor
  · rintro ⟨tileRow, htr, href⟩
    obtain ⟨r, hr⟩ := List.mem_iff_getElem?.1 htr
    obtain ⟨c, hc⟩ := List.mem_iff_getElem?.1 href
    exact ⟨r, c, cell_of_getElem? g r c tileRow ref hr hc⟩
  · rintro ⟨r, c, h⟩
    unfold QuantumGrid.cell at h
    split at h
    · cases h
    · next tileRow htr => exact ⟨tileRow, List.getElem?_mem htr, List.getElem?_mem h⟩

theorem cell_inBounds (g : QuantumGrid) (hheight : g.tiles.length = g.rows)
    (hwidth : ∀ tileRow ∈ g.tiles, tileRow.length = g.cols) (r c : Nat) (ref : Ref)
    (h : g.cell r c = some ref) : r < g.rows ∧ c < g.cols := by
  unfold QuantumGrid.cell at h
  split at h
  · cases h
  · next tileRow htr =>
    refine ⟨by rw [← hheight]; exact (List.getElem?_eq_some_iff.1 htr).1, ?_⟩
    rw [← hwidth tileRow (List.getElem?_mem htr)]
    exact (List.getElem?_eq_some_iff.1 h).1

theorem cell_exists (g : QuantumGrid) (hheight : g.tiles.length = g.rows)
    (hwidth : ∀ tileRow ∈ g.tiles, tileRow.length = g.cols) (r c : Nat) (hr : r < g.rows)
    (hc : c < g.cols) : ∃ ref, g.cell r c = some ref := by
  have hr' : r < g.tiles.length := by omega
  have hrow : g.tiles[r]? = some g.tiles[r] := List.getElem?_eq_getElem hr'
  have hc' : c < g.tiles[r].length := by rw [hwidth _ (List.getElem_mem hr')]; exact hc
  exact ⟨g.tiles[r][c], cell_of_getElem? g r c _ _ hrow (List.getElem?_eq_getElem hc')⟩

/-- The cells of a table after the assignment `tiles[r][c] = v`. -/
theorem cell_set (g : QuantumGrid) (r c : Nat) (gridRow : List Ref) (v : Ref)
    (hrow : g.tiles[r]? = some gridRow) (hc : c < gridRow.length) (r' c' : Nat) :
    ({ g with tiles := g.tiles.set r (gridRow.set c v) } : QuantumGrid).cell r' c' =
      if r' = r ∧ c' = c then some v else g.cell r' c' := by
  have hr : r < g.tiles.length := (List.getElem?_eq_some_iff.1 hrow).1
  unfold QuantumGrid.cell
  simp only []
  by_cases hrr : r' = r
  · subst hrr
    rw [List.getElem?_set_self hr, hrow]
    simp only [true_and]
    by_cases hcc : c' = c
    · subst hcc
      rw [if_pos rfl, List.getElem?_set_self hc]
    · rw [if_neg hcc, List.getElem?_set_ne (fun e => hcc e.symm)]
  · rw [List.getElem?_set_ne (fun e => hrr e.symm), if_neg (fun h => hrr h.1)]

/-! ## The constructor in a store that holds tiles already -/

theorem allocRow_draws (N r : Nat) :
    ∀ (cs : List Nat) (acc : List Ref × World),
      (allocRow N r cs acc).2.draws = acc.2.draws ∧
        (allocRow N r cs acc).2.cascades = acc.2.cascades ∧
        acc.2.tiles.length ≤ (allocRow N r cs acc).2.tiles.length := by
  intro cs
  induction cs with
  | nil => intro acc; exact ⟨rfl, rfl, le_refl _⟩
  | cons c cs ih =>
    intro acc
    rw [allocRow]
    obtain ⟨h1, h2, h3⟩ := ih (acc.1 ++ [acc.2.tiles.length],
      { acc.2 with tiles := acc.2.tiles ++
          [QuantumTile.new (r : Int) (c : Int) (QuantumState.new N)] })
    refine ⟨h1, h2, le_trans ?_ h3⟩
    simp

theorem allocRows_draws (N cols : Nat) :
    ∀ (rs : List Nat) (acc : List (List Ref) × World),
      (allocRows N cols rs acc).2.draws = acc.2.draws ∧
        (allocRows N cols rs acc).2.cascades = acc.2.cascades ∧
        acc.2.tiles.length ≤ (allocRows N cols rs acc).2.tiles.length := by
  intro rs
  induction rs with
  | nil => intro acc; exact ⟨rfl, rfl, le_refl _⟩
  | cons r rs ih =>
    intro acc
    rw [allocRows]
    obtain ⟨h1, h2, h3⟩ := ih (acc.1 ++ [(allocRow N r (List.range cols) ([], acc.2)).1],
      (allocRow N r (List.range cols) ([], acc.2)).2)
    obtain ⟨k1, k2, k3⟩ := allocRow_draws N r (List.range cols) ([], acc.2)
    exact ⟨h1.trans k1, h2.trans k2, le_trans k3 h3⟩

/-- The constructor leaves the tiles of the store, the draws and the trace as
they are. -/
theorem create_old (w : World) (rows cols N : Nat) :
    (QuantumGrid.create w rows cols N).2.draws = w.draws ∧
    (QuantumGrid.create w rows cols N).2.cascades = w.cascades ∧
    w.tiles.length ≤ (QuantumGrid.create w rows cols N).2.tiles.length ∧
    ∀ x, x < w.tiles.length → (QuantumGrid.create w rows cols N).2.tiles[x]? = w.tiles[x]? := by
  obtain ⟨h1, h2, h3⟩ := allocRows_draws N cols (List.range rows) ([], w)
  refine ⟨h1, h2, h3, ?_⟩
  intro x hx
  rw [List.getElem?_eq_getElem hx]
  exact allocRows_lookup N cols x w.tiles[x] (List.range rows) ([], w)
    (List.getElem?_eq_getElem hx)

/-! ## The first loops of `QuantumGrid.clone` -/

theorem cloneStage_init (g : QuantumGrid) (w : World) :
    CloneStage g w [] (QuantumGrid.create w g.rows g.cols g.numStates) := by
  obtain ⟨h1, h2, h3, h4⟩ := create_old w g.rows g.cols g.numStates
  have hwf := create_wellFormed w g.rows g.cols g.numStates
  exact ⟨rfl, rfl, rfl, hwf.height, hwf.width, h1, h2, h3, h4,
    fun r c h => by cases h⟩

/-- One copy: the body of the first loops at a cell of `g`. -/
theorem cloneCell_stage (g : QuantumGrid) (w : World) (h : CloneReady g w)
    (done : List (Nat × Nat)) (r c : Nat) (acc : QuantumGrid × World) (hr : r < g.rows)
    (hc : c < g.cols) (hs : CloneStage g w done acc) :
    ∃ acc', cloneCell g r c acc = some acc' ∧ CloneStage g w (done ++ [(r, c)]) acc' := by
  obtain ⟨ref, href⟩ := cell_exists g h.wellFormed.height h.wellFormed.width r c hr hc
  obtain ⟨t, ht, -, -⟩ := h.coords r c ref href
  have hlt : ref < w.tiles.length := (List.getElem?_eq_some_iff.1 ht).1
  have ht' : acc.2.tiles[ref]? = some t := by rw [hs.old ref hlt, ht]
  have hr' : r < acc.1.tiles.length := by rw [hs.height]; exact hr
  have hrow : acc.1.tiles[r]? = some acc.1.tiles[r] := List.getElem?_eq_getElem hr'
  have hc' : c < acc.1.tiles[r].length := by
    rw [hs.width _ (List.getElem_mem hr')]; exact hc
  have hrun : cloneCell g r c acc = some
      (⟨acc.1.rows, acc.1.cols, acc.1.numStates,
          acc.1.tiles.set r (acc.1.tiles[r].set c acc.2.tiles.length)⟩,
        ⟨acc.2.tiles ++ [t.clone], acc.2.draws, acc.2.cascades⟩) := by
    simp only [cloneCell, href, ht', hrow]
  refine ⟨_, hrun, ?_⟩
  refine ⟨hs.rows, hs.cols, hs.numStates, ?_, ?_, hs.draws, hs.cascades, ?_, ?_, ?_⟩
  · show (acc.1.tiles.set r _).length = g.rows
    rw [List.length_set, hs.height]
  · intro tileRow htr
    rcases List.mem_or_eq_of_mem_set htr with h1 | h1
    · exact hs.width tileRow h1
    · rw [h1, List.length_set]
      exact hs.width _ (List.getElem_mem hr')
  · show w.tiles.length ≤ (acc.2.tiles ++ [t.clone]).length
    rw [List.length_append]
    exact le_trans hs.length (Nat.le_add_right _ _)
  · intro x hx
    show (acc.2.tiles ++ [t.clone])[x]? = w.tiles[x]?
    rw [List.getElem?_append_left (lt_of_lt_of_le hx hs.length), hs.old x hx]
  · intro r' c' hmem
    by_cases hcell : r' = r ∧ c' = c
    · obtain ⟨rfl, rfl⟩ := hcell
      refine ⟨acc.2.tiles.length, ref, t, ?_, hs.length, href, ht, ?_⟩
      · rw [cell_set acc.1 r' c' _ _ hrow hc', if_pos ⟨rfl, rfl⟩]
      · show (acc.2.tiles ++ [t.clone])[acc.2.tiles.length]? = some t.clone
        rw [List.getElem?_append_right (le_refl _)]
        simp
    · have hmem' : (r', c') ∈ done := by
        rcases List.mem_append.1 hmem with h1 | h1
        · exact h1
        · rw [List.mem_singleton] at h1
          simp only [Prod.mk.injEq] at h1
          exact absurd h1 hcell
      obtain ⟨cref, ref', t', h1, h2, h3, h4, h5⟩ := hs.copied r' c' hmem'
      refine ⟨cref, ref', t', ?_, h2, h3, h4, ?_⟩
      · rw [cell_set acc.1 r c _ _ hrow hc', if_neg hcell, h1]
      · have hlt' : cref < acc.2.tiles.length := (List.getElem?_eq_some_iff.1 h5).1
        show (acc.2.tiles ++ [t.clone])[cref]? = some t'.clone
        rw [List.getElem?_append_left hlt', h5]

/-- The first loops of `QuantumGrid.clone` return, with every cell copied. -/
theorem cloneLoops_stage (g : QuantumGrid) (w : World) (h : CloneReady g w) :
    ∃ acc, loopM (fun acc r => loopM (fun acc1 c => cloneCell g r c acc1) (List.range g.cols) acc)
        (List.range g.rows) (QuantumGrid.create w g.rows g.cols g.numStates) = some acc ∧
      CloneStage g w (cellsOf (List.range g.rows) (List.range g.cols)) acc :=
  loopM_nested (fun acc r c => cloneCell g r c acc) (CloneStage g w) (List.range g.rows)
    (List.range g.cols) (List.nodup_range _) (List.nodup_range _)
    (fun done r c acc hr hc _ hs =>
      cloneCell_stage g w h done r c acc (List.mem_range.1 hr) (List.mem_range.1 hc) hs)
    _ (cloneStage_init g w)

/-! ## The second loops of `QuantumGrid.clone` -/

theorem forall₂_snoc {α β : Type} {R : α → β → Prop} {l1 : List α} {l2 : List β} {a : α}
    {b : β} (h : List.Forall₂ R l1 l2) (hab : R a b) :
    List.Forall₂ R (l1 ++ [a]) (l2 ++ [b]) := by
  induction h with
  | nil => exact List.Forall₂.cons hab List.Forall₂.nil
  | cons h1 _ ih => exact List.Forall₂.cons h1 ih

theorem forall₂_mem {α β : Type} {R : α → β → Prop} {l1 : List α} {l2 : List β}
    (h : List.Forall₂ R l1 l2) : ∀ a ∈ l1, ∃ b ∈ l2, R a b := by
  induction h with
  | nil => intro a ha; cases ha
  | cons h1 _ ih =>
    intro a ha
    rcases List.mem_cons.1 ha with rfl | ha
    · exact ⟨_, List.mem_cons_self _ _, h1⟩
    · obtain ⟨b, hb, hr⟩ := ih a ha
      exact ⟨b, List.mem_cons_of_mem _ hb, hr⟩

theorem clone_state (s : QuantumState) : s.clone = s := by
  cases s
  rfl

/-- The copy of the tile of a cell, for a tile of `g`. -/
theorem cloneReady_cell (g : QuantumGrid) (w : World) (h : CloneReady g w) (x : Ref)
    (hx : g.Has x) :
    ∃ (r c : Nat) (t : QuantumTile), g.cell r c = some x ∧ r < g.rows ∧ c < g.cols ∧
      w.tiles[x]? = some t ∧ t.row = (r : Int) ∧ t.col = (c : Int) := by
  obtain ⟨r, c, hcell⟩ := (has_iff_cell g x).1 hx
  obtain ⟨hr, hc⟩ := cell_inBounds g h.wellFormed.height h.wellFormed.width r c x hcell
  obtain ⟨t, ht, htr, htc⟩ := h.coords r c x hcell
  exact ⟨r, c, t, hcell, hr, hc, ht, htr, htc⟩

/-- The table after the first loops. -/
theorem cloneStage_table (g : QuantumGrid) (w : World) (h : CloneReady g w)
    (acc : QuantumGrid × World)
    (hs : CloneStage g w (cellsOf (List.range g.rows) (List.range g.cols)) acc) :
    CloneTable g acc.1 w := by
  have hmem : ∀ (r c : Nat) (cref : Ref), acc.1.cell r c = some cref →
      (r, c) ∈ cellsOf (List.range g.rows) (List.range g.cols) := by
    intro r c cref hcell
    have hb := cell_inBounds acc.1 (hs.height.trans hs.rows.symm)
      (fun tr htr => (hs.width tr htr).trans hs.cols.symm) r c cref hcell
    rw [hs.rows, hs.cols] at hb
    exact (mem_cellsOf _ _ r c).2 ⟨List.mem_range.2 hb.1, List.mem_range.2 hb.2⟩
  refine ⟨hs.rows, hs.cols, hs.numStates, hs.height, hs.width, ?_, ?_⟩
  · intro r c cref hcell
    obtain ⟨cref', _, _, h1, h2, -⟩ := hs.copied r c (hmem r c cref hcell)
    rw [hcell] at h1
    cases h1
    exact h2
  · intro r1 c1 r2 c2 cref ha hb
    obtain ⟨x1, ref1, t1, a1, -, a3, a4, a5⟩ := hs.copied r1 c1 (hmem r1 c1 cref ha)
    obtain ⟨x2, ref2, t2, b1, -, b3, b4, b5⟩ := hs.copied r2 c2 (hmem r2 c2 cref hb)
    rw [ha] at a1
    rw [hb] at b1
    cases a1
    cases b1
    rw [a5] at b5
    obtain ⟨u1, u1t, u1r, u1c⟩ := h.coords r1 c1 ref1 a3
    obtain ⟨u2, u2t, u2r, u2c⟩ := h.coords r2 c2 ref2 b3
    rw [a4] at u1t
    rw [b4] at u2t
    cases u1t
    cases u2t
    have hrow : t1.row = t2.row := by
      have := congrArg (fun o : Option QuantumTile => o.map (fun t => t.row)) b5
      simpa [QuantumTile.clone, QuantumTile.new] using this
    have hcol : t1.col = t2.col := by
      have := congrArg (fun o : Option QuantumTile => o.map (fun t => t.col)) b5
      simpa [QuantumTile.clone, QuantumTile.new] using this
    rw [u1r, u2r] at hrow
    rw [u1c, u2c] at hcol
    exact ⟨by exact_mod_cast hrow, by exact_mod_cast hcol⟩

theorem relinkStage_init (g : QuantumGrid) (w : World) (h : CloneReady g w)
    (acc : QuantumGrid × World)
    (hs : CloneStage g w (cellsOf (List.range g.rows) (List.range g.cols)) acc) :
    RelinkStage g acc.1 w [] acc.2 := by
  refine ⟨hs.draws, hs.cascades, hs.old, ?_⟩
  intro r c ref t hcell ht
  obtain ⟨hr, hc⟩ := cell_inBounds g h.wellFormed.height h.wellFormed.width r c ref hcell
  obtain ⟨cref, ref', t', h1, -, h3, h4, h5⟩ := hs.copied r c
    ((mem_cellsOf _ _ r c).2 ⟨List.mem_range.2 hr, List.mem_range.2 hc⟩)
  rw [hcell] at h3
  cases h3
  rw [ht] at h4
  cases h4
  refine ⟨cref, t.clone, h1, h5, rfl, rfl, clone_state t.state, ?_, fun _ => rfl⟩
  intro hmem
  cases hmem

/-- The `forEach` that recreates the links of one tile: the copy at `cref`, which
holds no link yet, ends with the links of the original `t`, each to the copy of
its target; nothing else changes. -/
theorem relink_loop (g grid : QuantumGrid) (w : World) (h : CloneReady g w)
    (htab : CloneTable g grid w) (cref ref : Ref) (t ct : QuantumTile)
    (hfresh : w.tiles.length ≤ cref) (href : g.Has ref) (ht : w.tiles[ref]? = some t)
    (st : World) (hold : ∀ x, x < w.tiles.length → st.tiles[x]? = w.tiles[x]?)
    (hct : st.tiles[cref]? = some ct) (hempty : ct.entangledWith = []) :
    ∃ st', loopM (relink grid cref) t.entangledWith st = some st' ∧
      st'.draws = st.draws ∧ st'.cascades = st.cascades ∧
      (∀ x, x ≠ cref → st'.tiles[x]? = st.tiles[x]?) ∧
      ∃ ct', st'.tiles[cref]? = some ct' ∧ ct'.row = ct.row ∧ ct'.col = ct.col ∧
        ct'.state = ct.state ∧
        List.Forall₂ (LinkImage grid w) ct'.entangledWith t.entangledWith := by
  apply loopM_inv (relink grid cref)
    (fun pre st2 => st2.draws = st.draws ∧ st2.cascades = st.cascades ∧
      (∀ x, x ≠ cref → st2.tiles[x]? = st.tiles[x]?) ∧
      ∃ ct', st2.tiles[cref]? = some ct' ∧ ct'.row = ct.row ∧ ct'.col = ct.col ∧
        ct'.state = ct.state ∧ List.Forall₂ (LinkImage grid w) ct'.entangledWith pre)
    t.entangledWith
  · intro pre l rest st2 hd ⟨hdr, hca, hoth, ct2, hct2, hrow, hcol, hstate, himg⟩
    have hl : l ∈ t.entangledWith := by rw [← hd]; simp
    -- the target of the link and its copy
    obtain ⟨r', c', tl, hcell, hr', hc', htl, htlr, htlc⟩ :=
      cloneReady_cell g w h l.1 (h.inside ref t href ht l hl)
    have hlt : l.1 < w.tiles.length := (List.getElem?_eq_some_iff.1 htl).1
    have hne : l.1 ≠ cref := Nat.ne_of_lt (lt_of_lt_of_le hlt hfresh)
    have htl2 : st2.tiles[l.1]? = some tl := by rw [hoth l.1 hne, hold l.1 hlt, htl]
    obtain ⟨cl, hcl⟩ := cell_exists grid (htab.height.trans htab.rows.symm)
      (fun tr htr => (htab.width tr htr).trans htab.cols.symm) r' c'
      (by rw [htab.rows]; exact hr') (by rw [htab.cols]; exact hc')
    have hr0 : tl.row.toNat = r' := by rw [htlr]; simp
    have hc0 : tl.col.toNat = c' := by rw [htlc]; simp
    have hnn : ¬ (tl.row < 0 ∨ tl.col < 0) := by
      rw [htlr, htlc]
      omega
    have hrun : relink grid cref st2 l = some (QuantumTile.pushLink st2 cref cl l.2) := by
      simp only [relink, htl2, hnn, if_false, hr0, hc0, hcl]
    -- the copy holds no link to `cl` yet
    have habsent : ∀ e ∈ ct2.entangledWith, e.1 ≠ cl := by
      intro e he hecl
      obtain ⟨l', hl', -, tl', htl', -, -, hcell'⟩ := forall₂_mem himg e he
      have hl't : l' ∈ t.entangledWith := by rw [← hd]; exact List.mem_append_left _ hl'
      obtain ⟨r2, c2, tl2, hcell2, -, -, htl2', htr2, htc2⟩ :=
        cloneReady_cell g w h l'.1 (h.inside ref t href ht l' hl't)
      rw [htl'] at htl2'
      cases htl2'
      have e1 : tl'.row.toNat = r2 := by rw [htr2]; simp
      have e2 : tl'.col.toNat = c2 := by rw [htc2]; simp
      rw [e1, e2, hecl] at hcell'
      obtain ⟨rfl, rfl⟩ := htab.distinct r2 c2 r' c' cl hcell' hcl
      rw [hcell2] at hcell
      have hsame : l'.1 = l.1 := by
        simpa using hcell
      have hnd := h.nodup ref t href ht
      rw [← hd, List.map_append, List.map_cons] at hnd
      have hdis := (List.nodup_append.1 hnd).2.2
      exact hdis (List.mem_map.2 ⟨l', hl', rfl⟩) (by rw [hsame]; exact List.mem_cons_self _ _)
    refine ⟨_, hrun, ?_⟩
    rw [pushLink_of_absent st2 cref cl l.2 ct2 hct2 habsent]
    have hlen : cref < st2.tiles.length := (List.getElem?_eq_some_iff.1 hct2).1
    refine ⟨hdr, hca, ?_, _, List.getElem?_set_self hlen, hrow, hcol, hstate, ?_⟩
    · intro x hx
      show (st2.tiles.set cref _)[x]? = st.tiles[x]?
      rw [List.getElem?_set_ne (fun e => hx e.symm), hoth x hx]
    · exact forall₂_snoc himg ⟨rfl, tl, htl, by rw [htlr]; omega, by rw [htlc]; omega,
        by rw [hr0, hc0]; exact hcl⟩
  · exact ⟨rfl, rfl, fun _ _ => rfl, ct, hct, rfl, rfl, rfl, by rw [hempty]; exact List.Forall₂.nil⟩

/-- The body of the second loops at a cell not visited yet. -/
theorem relinkCell_stage (g grid : QuantumGrid) (w : World) (h : CloneReady g w)
    (htab : CloneTable g grid w) (done : List (Nat × Nat)) (r c : Nat) (st : World)
    (hr : r < g.rows) (hc : c < g.cols) (hnot : (r, c) ∉ done)
    (hs : RelinkStage g grid w done st) :
    ∃ st', relinkCell g grid r c st = some st' ∧ RelinkStage g grid w (done ++ [(r, c)]) st' := by
  obtain ⟨ref, href⟩ := cell_exists g h.wellFormed.height h.wellFormed.width r c hr hc
  obtain ⟨t, ht, -, -⟩ := h.coords r c ref href
  have hlt : ref < w.tiles.length := (List.getElem?_eq_some_iff.1 ht).1
  obtain ⟨cref, ct, hcref, hct, hctr, hctc, hcts, -, hempty⟩ := hs.copied r c ref t href ht
  have hfresh := htab.fresh r c cref hcref
  obtain ⟨st', hrun, hdr, hca, hoth, ct', hct', hrow', hcol', hstate', himg⟩ :=
    relink_loop g grid w h htab cref ref t ct hfresh ((has_iff_cell g ref).2 ⟨r, c, href⟩) ht st
      hs.old hct (hempty hnot)
  have ht2 : st.tiles[ref]? = some t := by rw [hs.old ref hlt, ht]
  refine ⟨st', by simp only [relinkCell, href, hcref, ht2]; exact hrun, ?_⟩
  refine ⟨hdr.trans hs.draws, hca.trans hs.cascades, ?_, ?_⟩
  · intro x hx
    rw [hoth x (Nat.ne_of_lt (lt_of_lt_of_le hx hfresh)), hs.old x hx]
  · intro r2 c2 ref2 t2 hcell2 ht2'
    by_cases hsame : r2 = r ∧ c2 = c
    · obtain ⟨rfl, rfl⟩ := hsame
      rw [href] at hcell2
      cases hcell2
      rw [ht] at ht2'
      cases ht2'
      exact ⟨cref, ct', hcref, hct', hrow'.trans hctr, hcol'.trans hctc, hstate'.trans hcts,
        fun _ => himg, fun hn => absurd (List.mem_append_right _ (List.mem_singleton.2 rfl)) hn⟩
    · obtain ⟨cref2, ct2, k1, k2, k3, k4, k5, k6, k7⟩ := hs.copied r2 c2 ref2 t2 hcell2 ht2'
      have hne : cref2 ≠ cref := by
        intro e
        rw [e] at k1
        exact hsame (htab.distinct r2 c2 r c cref k1 hcref)
      refine ⟨cref2, ct2, k1, by rw [hoth cref2 hne]; exact k2, k3, k4, k5, ?_, ?_⟩
      · intro hmem
        apply k6
        rcases List.mem_append.1 hmem with h1 | h1
        · exact h1
        · rw [List.mem_singleton] at h1
          simp only [Prod.mk.injEq] at h1
          exact absurd h1 hsame
      · intro hn
        exact k7 (fun hm => hn (List.mem_append_left _ hm))

/-- The second loops of `QuantumGrid.clone` return, with the links of every cell
recreated. -/
theorem relinkLoops_stage (g grid : QuantumGrid) (w : World) (h : CloneReady g w)
    (htab : CloneTable g grid w) (st : World) (hs : RelinkStage g grid w [] st) :
    ∃ st', loopM (fun w2 r => loopM (fun w3 c => relinkCell g grid r c w3) (List.range g.cols) w2)
        (List.range g.rows) st = some st' ∧
      RelinkStage g grid w (cellsOf (List.range g.rows) (List.range g.cols)) st' :=
  loopM_nested (fun st r c => relinkCell g grid r c st) (RelinkStage g grid w)
    (List.range g.rows) (List.range g.cols) (List.nodup_range _) (List.nodup_range _)
    (fun done r c st hr hc hnot hs =>
      relinkCell_stage g grid w h htab done r c st (List.mem_range.1 hr) (List.mem_range.1 hc)
        hnot hs)
    st hs

/-! ## `QuantumGrid.clone` -/

/-- `clone()` returns on a grid that is ready for it, and returns its clone. -/
theorem clone_spec (g : QuantumGrid) (w : World) (h : CloneReady g w) :
    ∃ c w', g.clone w = some (c, w') ∧ IsClone g w c w' := by
  obtain ⟨⟨grid, w1⟩, hrun1, hs1⟩ := cloneLoops_stage g w h
  have htab := cloneStage_table g w h (grid, w1) hs1
  obtain ⟨w2, hrun2, hs2⟩ := relinkLoops_stage g grid w h htab w1
    (relinkStage_init g w h (grid, w1) hs1)
  refine ⟨grid, w2, ?_, htab, hs2.draws, hs2.cascades, hs2.old, ?_⟩
  · simp only [QuantumGrid.clone, hrun1, hrun2]
  · intro r k ref t hcell ht
    obtain ⟨hr, hk⟩ := cell_inBounds g h.wellFormed.height h.wellFormed.width r k ref hcell
    obtain ⟨cref, ct, h1, h2, h3, h4, h5, h6, -⟩ := hs2.copied r k ref t hcell ht
    exact ⟨cref, ct, h1, h2, h3, h4, h5,
      h6 ((mem_cellsOf _ _ r k).2 ⟨List.mem_range.2 hr, List.mem_range.2 hk⟩)⟩

/-- The copy of the target of a link: the tile of the clone at the cell of the
target. -/
theorem linkImage_cell (g c : QuantumGrid) (w : World) (h : CloneReady g w)
    (cl l : Ref × LinkType) (himg : LinkImage c w cl l) (hl : g.Has l.1) :
    cl.2 = l.2 ∧ ∃ r k : Nat, g.cell r k = some l.1 ∧ c.cell r k = some cl.1 := by
  obtain ⟨h2, tl, htl, -, -, hcell⟩ := himg
  obtain ⟨r, k, t, hg, -, -, ht, htr, htk⟩ := cloneReady_cell g w h l.1 hl
  rw [htl] at ht
  cases ht
  have e1 : tl.row.toNat = r := by rw [htr]; simp
  have e2 : tl.col.toNat = k := by rw [htk]; simp
  rw [e1, e2] at hcell
  exact ⟨h2, r, k, hg, hcell⟩

/-- Links to the same copy are links to the same original. -/
theorem linkImage_inj (g c : QuantumGrid) (w : World) (h : CloneReady g w)
    (htab : CloneTable g c w) (cl cl' l l' : Ref × LinkType) (himg : LinkImage c w cl l)
    (himg' : LinkImage c w cl' l') (hl : g.Has l.1) (hl' : g.Has l'.1) (he : cl.1 = cl'.1) :
    l.1 = l'.1 := by
  obtain ⟨-, r, k, hg, hc⟩ := linkImage_cell g c w h cl l himg hl
  obtain ⟨-, r', k', hg', hc'⟩ := linkImage_cell g c w h cl' l' himg' hl'
  rw [he] at hc
  obtain ⟨rfl, rfl⟩ := htab.distinct r k r' k' cl'.1 hc hc'
  rw [hg] at hg'
  exact Option.some.inj hg'

theorem linkImage_nodup (g c : QuantumGrid) (w : World) (h : CloneReady g w)
    (htab : CloneTable g c w) :
    ∀ (cls ls : List (Ref × LinkType)), List.Forall₂ (LinkImage c w) cls ls →
      (∀ l ∈ ls, g.Has l.1) → (ls.map Prod.fst).Nodup → (cls.map Prod.fst).Nodup := by
  intro cls ls hf
  induction hf with
  | nil => intro _ _; exact List.nodup_nil
  | @cons cl l cls ls hcl hrest ih =>
    intro hin hnd
    rw [List.map_cons, List.nodup_cons] at hnd ⊢
    refine ⟨?_, ih (fun x hx => hin x (List.mem_cons_of_mem _ hx)) hnd.2⟩
    intro hmem
    obtain ⟨cl', hcl', he⟩ := List.mem_map.1 hmem
    obtain ⟨l', hl', himg'⟩ := forall₂_mem hrest cl' hcl'
    have := linkImage_inj g c w h htab cl cl' l l' hcl himg' (hin l (List.mem_cons_self _ _))
      (hin l' (List.mem_cons_of_mem _ hl')) he.symm
    exact hnd.1 (List.mem_map.2 ⟨l', hl', this.symm⟩)

/-- The tiles of the clone are tiles of the new store, at the cells of the
originals. -/
theorem isClone_cell (g c : QuantumGrid) (w w' : World) (h : CloneReady g w)
    (hc : IsClone g w c w') (r k : Nat) (cref : Ref) (hcell : c.cell r k = some cref) :
    ∃ (ref : Ref) (t ct : QuantumTile), g.cell r k = some ref ∧ w.tiles[ref]? = some t ∧
      w'.tiles[cref]? = some ct ∧ ct.row = t.row ∧ ct.col = t.col ∧ ct.state = t.state ∧
      t.row = (r : Int) ∧ t.col = (k : Int) ∧
      List.Forall₂ (LinkImage c w) ct.entangledWith t.entangledWith := by
  have hb := cell_inBounds c (hc.table.height.trans hc.table.rows.symm)
    (fun tr htr => (hc.table.width tr htr).trans hc.table.cols.symm) r k cref hcell
  rw [hc.table.rows, hc.table.cols] at hb
  obtain ⟨ref, href⟩ := cell_exists g h.wellFormed.height h.wellFormed.width r k hb.1 hb.2
  obtain ⟨t, ht, htr, htk⟩ := h.coords r k ref href
  obtain ⟨cref', ct, h1, h2, h3, h4, h5, h6⟩ := hc.copied r k ref t href ht
  rw [hcell] at h1
  cases h1
  exact ⟨ref, t, ct, href, ht, h2, h3, h4, h5, htr, htk, h6⟩

/-- The clone is ready to be cloned, in the store after the call. -/
theorem isClone_ready (g c : QuantumGrid) (w w' : World) (h : CloneReady g w)
    (hc : IsClone g w c w') : CloneReady c w' := by
  refine ⟨⟨hc.table.height.trans hc.table.rows.symm,
    fun tr htr => (hc.table.width tr htr).trans hc.table.cols.symm, hc.table.distinct⟩,
    ?_, ?_, ?_⟩
  · intro r k cref hcell
    obtain ⟨ref, t, ct, -, -, h3, h4, h5, -, h7, h8, -⟩ := isClone_cell g c w w' h hc r k cref hcell
    exact ⟨ct, h3, h4.trans h7, h5.trans h8⟩
  · intro cref ct' hhas hct' l hl
    obtain ⟨r, k, hcell⟩ := (has_iff_cell c cref).1 hhas
    obtain ⟨ref, t, ct, hg, ht, h3, -, -, -, -, -, himg⟩ := isClone_cell g c w w' h hc r k cref hcell
    rw [hct'] at h3
    cases h3
    obtain ⟨l0, hl0, himg0⟩ := forall₂_mem himg l hl
    obtain ⟨-, r', k', -, hc'⟩ := linkImage_cell g c w h l l0 himg0
      (h.inside ref t ((has_iff_cell g ref).2 ⟨r, k, hg⟩) ht l0 hl0)
    exact (has_iff_cell c l.1).2 ⟨r', k', hc'⟩
  · intro cref ct' hhas hct'
    obtain ⟨r, k, hcell⟩ := (has_iff_cell c cref).1 hhas
    obtain ⟨ref, t, ct, hg, ht, h3, -, -, -, -, -, himg⟩ := isClone_cell g c w w' h hc r k cref hcell
    rw [hct'] at h3
    cases h3
    have hhas' := (has_iff_cell g ref).2 ⟨r, k, hg⟩
    exact linkImage_nodup g c w h hc.table _ _ himg (h.inside ref t hhas' ht)
      (h.nodup ref t hhas' ht)

/-- The original is still ready to be cloned, in the store after the call. -/
theorem isClone_original (g c : QuantumGrid) (w w' : World) (h : CloneReady g w)
    (hc : IsClone g w c w') : CloneReady g w' := by
  have hsame : ∀ ref, g.Has ref → w'.tiles[ref]? = w.tiles[ref]? := by
    intro ref href
    obtain ⟨_, _, t, -, -, -, ht, -, -⟩ := cloneReady_cell g w h ref href
    exact hc.old ref (List.getElem?_eq_some_iff.1 ht).1
  refine ⟨h.wellFormed, ?_, ?_, ?_⟩
  · intro r k ref hcell
    rw [hsame ref ((has_iff_cell g ref).2 ⟨r, k, hcell⟩)]
    exact h.coords r k ref hcell
  · intro ref t href ht
    rw [hsame ref href] at ht
    exact h.inside ref t href ht
  · intro ref t href ht
    rw [hsame ref href] at ht
    exact h.nodup ref t href ht

/-- No tile of the clone is a tile of the original. -/
theorem isClone_disjoint (g c : QuantumGrid) (w w' : World) (h : CloneReady g w)
    (hc : IsClone g w c w') (x : Ref) (hx : c.Has x) : ¬ g.Has x := by
  intro hg
  obtain ⟨r, k, hcell⟩ := (has_iff_cell c x).1 hx
  have h1 := hc.table.fresh r k x hcell
  obtain ⟨_, _, t, -, -, -, ht, -, -⟩ := cloneReady_cell g w h x hg
  have h2 : x < w.tiles.length := (List.getElem?_eq_some_iff.1 ht).1
  exact absurd h2 (not_lt.2 h1)

/-! ## Grids ready to be cloned -/

theorem create_cloneReady (w0 : World) (rows cols N : Nat) :
    CloneReady (QuantumGrid.create w0 rows cols N).1 (QuantumGrid.create w0 rows cols N).2 := by
  have hfresh : ∀ ref, (QuantumGrid.create w0 rows cols N).1.Has ref →
      ∀ t, (QuantumGrid.create w0 rows cols N).2.tiles[ref]? = some t → t.entangledWith = [] := by
    intro ref href t ht
    obtain ⟨r, k, hcell⟩ := (has_iff_cell _ ref).1 href
    obtain ⟨-, -, hf⟩ := create_cell w0 rows cols N r k ref hcell
    unfold FreshAt at hf
    rw [ht] at hf
    cases hf
    rfl
  refine ⟨create_wellFormed w0 rows cols N, ?_, ?_, ?_⟩
  · intro r k ref hcell
    obtain ⟨-, -, hf⟩ := create_cell w0 rows cols N r k ref hcell
    exact ⟨_, hf, rfl, rfl⟩
  · intro ref t href ht l hl
    rw [hfresh ref href t ht] at hl
    cases hl
  · intro ref t href ht
    rw [hfresh ref href t ht]
    exact List.nodup_nil

/-- A change of the store that keeps the coordinates and the links of the tiles
of the grid keeps the grid ready. -/
theorem cloneReady_of_keeps (g : QuantumGrid) (w w' : World) (h : CloneReady g w)
    (hk : ∀ (x : Ref) (t : QuantumTile), g.Has x → w.tiles[x]? = some t →
      ∃ t', w'.tiles[x]? = some t' ∧ t'.row = t.row ∧ t'.col = t.col ∧
        t'.entangledWith = t.entangledWith) : CloneReady g w' := by
  have back : ∀ (x : Ref) (t' : QuantumTile), g.Has x → w'.tiles[x]? = some t' →
      ∃ t, w.tiles[x]? = some t ∧ t'.row = t.row ∧ t'.col = t.col ∧
        t'.entangledWith = t.entangledWith := by
    intro x t' hx ht'
    obtain ⟨_, _, t, -, -, -, ht, -, -⟩ := cloneReady_cell g w h x hx
    obtain ⟨t1, ht1, h1, h2, h3⟩ := hk x t hx ht
    rw [ht'] at ht1
    cases ht1
    exact ⟨t, ht, h1, h2, h3⟩
  refine ⟨h.wellFormed, ?_, ?_, ?_⟩
  · intro r k ref hcell
    obtain ⟨t, ht, htr, htk⟩ := h.coords r k ref hcell
    obtain ⟨t', ht', h1, h2, -⟩ := hk ref t ((has_iff_cell g ref).2 ⟨r, k, hcell⟩) ht
    exact ⟨t', ht', h1.trans htr, h2.trans htk⟩
  · intro ref t' href ht'
    obtain ⟨t, ht, -, -, h3⟩ := back ref t' href ht'
    rw [h3]
    exact h.inside ref t href ht
  · intro ref t' href ht'
    obtain ⟨t, ht, -, -, h3⟩ := back ref t' href ht'
    rw [h3]
    exact h.nodup ref t href ht

theorem pushLink_cloneReady (g : QuantumGrid) (w : World) (a b : Ref) (type : LinkType)
    (hb : g.Has b) (h : CloneReady g w) : CloneReady g (QuantumTile.pushLink w a b type) := by
  have back : ∀ (x : Ref) (t' : QuantumTile), g.Has x →
      (QuantumTile.pushLink w a b type).tiles[x]? = some t' →
      ∃ t, w.tiles[x]? = some t ∧
        (t'.entangledWith = t.entangledWith ∨
          ((∀ l ∈ t.entangledWith, l.1 ≠ b) ∧
            t'.entangledWith = t.entangledWith ++ [(b, type)])) := by
    intro x t' hx ht'
    obtain ⟨_, _, t, -, -, -, ht, -, -⟩ := cloneReady_cell g w h x hx
    obtain ⟨t1, ht1, -, -, -, hl⟩ := pushLink_mem w a b type x t ht
    rw [ht'] at ht1
    cases ht1
    exact ⟨t, ht, hl.imp id (fun hh => ⟨hh.2.1, hh.2.2⟩)⟩
  refine ⟨h.wellFormed, ?_, ?_, ?_⟩
  · intro r k ref hcell
    obtain ⟨t, ht, htr, htk⟩ := h.coords r k ref hcell
    obtain ⟨t', ht', -, h1, h2, -⟩ := pushLink_mem w a b type ref t ht
    exact ⟨t', ht', h1.trans htr, h2.trans htk⟩
  · intro ref t' href ht' l hl
    obtain ⟨t, ht, hcase⟩ := back ref t' href ht'
    rcases hcase with h1 | ⟨-, h1⟩
    · rw [h1] at hl
      exact h.inside ref t href ht l hl
    · rw [h1] at hl
      rcases List.mem_append.1 hl with h2 | h2
      · exact h.inside ref t href ht l h2
      · rw [List.mem_singleton.1 h2]
        exact hb
  · intro ref t' href ht'
    obtain ⟨t, ht, hcase⟩ := back ref t' href ht'
    rcases hcase with h1 | ⟨hno, h1⟩
    · rw [h1]
      exact h.nodup ref t href ht
    · rw [h1, List.map_append, List.nodup_append]
      refine ⟨h.nodup ref t href ht, by simp, ?_⟩
      intro y hy1 hy2
      simp only [List.map_cons, List.map_nil, List.mem_singleton] at hy2
      obtain ⟨l, hlm, hly⟩ := List.mem_map.1 hy1
      exact hno l hlm (hly.trans hy2)

theorem createEntanglement_cloneReady (g : QuantumGrid) (w : World) (r1 c1 r2 c2 : Int)
    (type : LinkType) (h : CloneReady g w) :
    CloneReady g (g.createEntanglement w r1 c1 r2 c2 type) := by
  unfold QuantumGrid.createEntanglement
  split
  · next a b ha hb =>
    unfold QuantumTile.entangleWith
    exact pushLink_cloneReady g _ b a type (getTile_has g r1 c1 a ha)
      (pushLink_cloneReady g w a b type (getTile_has g r2 c2 b hb) h)
  · exact h

/-- Every sequence of calls on a grid ready to be cloned returns and leaves it
ready. -/
theorem runOps_cloneReady (rand : Nat → ℚ) (g : QuantumGrid) :
    ∀ (ops : List GridOp) (w : World), CloneReady g w →
      ∃ w', runOps rand g ops w = some w' ∧ CloneReady g w' := by
  intro ops
  induction ops with
  | nil => intro w h; exact ⟨w, rfl, h⟩
  | cons op ops ih =>
    intro w h
    have hstep : ∃ w1, op.run rand g w = some w1 ∧ CloneReady g w1 := by
      cases op with
      | createEntanglement r1 c1 r2 c2 type =>
        exact ⟨_, rfl, createEntanglement_cloneReady g w r1 c1 r2 c2 type h⟩
      | measureTile row col =>
        obtain ⟨res, w1, hm, hf⟩ := measureTile_frame rand g w row col
        refine ⟨w1, by simp [GridOp.run, hm], cloneReady_of_keeps g w w1 h ?_⟩
        intro x t _ ht
        obtain ⟨t', ht', hr, hc, hl, -⟩ := hf.tile x t ht
        exact ⟨t', ht', hr, hc, hl⟩
      | applyInterference row col =>
        refine ⟨_, rfl, cloneReady_of_keeps g w _ h ?_⟩
        intro x t _ ht
        obtain ⟨t', ht', hr, hc, hl, -⟩ := applyInterference_tile g w row col x t ht
        exact ⟨t', ht', hr, hc, hl⟩
    obtain ⟨w1, hrun1, h1⟩ := hstep
    obtain ⟨w', hrun, h'⟩ := ih w1 h1
    exact ⟨w', by simp only [runOps, hrun1]; exact hrun, h'⟩

/-! ## Claim C21 -/

theorem cycleGrid_ready : CloneReady cycleGrid.1 cycleGrid.2 :=
  createEntanglement_cloneReady _ _ 0 2 0 0 LinkType.same
    (createEntanglement_cloneReady _ _ 0 1 0 2 LinkType.same
      (createEntanglement_cloneReady _ _ 0 0 0 1 LinkType.same
        (create_cloneReady emptyWorld 1 3 2)))

/-- C21: for a grid whose table is well formed, whose tiles hold the coordinates
of their cells, whose links all point to tiles of the grid and hold no two links
to the same tile: `clone()` returns a grid with the same `rows`, `cols` and
`numStates`; the clone's tile at each cell is a new tile with the coordinates,
the weights, the collapsed flag and the outcome of the original at that cell; its
link list has the length of the original's, its link at each index has the
relation of the original's link at that index and, as target, the clone's tile
at the cell of the original's target; and it holds no two links to the same
tile. -/
theorem C21_clone_structure (g : QuantumGrid) (w : World) (hg : CloneReady g w) :
    ∃ c w', g.clone w = some (c, w') ∧ c.rows = g.rows ∧ c.cols = g.cols ∧
      c.numStates = g.numStates ∧
      ∀ (r k : Nat) (ref : Ref) (t : QuantumTile), g.cell r k = some ref →
        w.tiles[ref]? = some t →
        ∃ (cref : Ref) (ct : QuantumTile), c.cell r k = some cref ∧
          w'.tiles[cref]? = some ct ∧ w.tiles.length ≤ cref ∧
          ct.row = t.row ∧ ct.col = t.col ∧
          ct.state.probabilities = t.state.probabilities ∧
          ct.state.isCollapsed = t.state.isCollapsed ∧
          ct.state.collapsedState = t.state.collapsedState ∧
          ct.state.numStates = t.state.numStates ∧
          ct.entangledWith.length = t.entangledWith.length ∧
          (∀ (i : Nat) (l : Ref × LinkType), t.entangledWith[i]? = some l →
            ∃ (r' k' : Nat) (cl : Ref), g.cell r' k' = some l.1 ∧ c.cell r' k' = some cl ∧
              ct.entangledWith[i]? = some (cl, l.2)) ∧
          (ct.entangledWith.map Prod.fst).Nodup := by
  obtain ⟨c, w', hrun, hc⟩ := clone_spec g w hg
  refine ⟨c, w', hrun, hc.table.rows, hc.table.cols, hc.table.numStates, ?_⟩
  intro r k ref t hcell ht
  obtain ⟨cref, ct, h1, h2, h3, h4, h5, h6⟩ := hc.copied r k ref t hcell ht
  have hhas : g.Has ref := (has_iff_cell g ref).2 ⟨r, k, hcell⟩
  refine ⟨cref, ct, h1, h2, hc.table.fresh r k cref h1, h3, h4, by rw [h5], by rw [h5],
    by rw [h5], by rw [h5], h6.length_eq, ?_, ?_⟩
  · intro i l hl
    obtain ⟨cl, hcl, himg⟩ := forall₂_getElem? h6.flip i l hl
    obtain ⟨htype, r', k', hg', hc'⟩ := linkImage_cell g c w hg cl l himg
      (hg.inside ref t hhas ht l (List.getElem?_mem hl))
    refine ⟨r', k', cl.1, hg', hc', ?_⟩
    rw [hcl, ← htype]
  · exact linkImage_nodup g c w hg hc.table _ _ h6 (hg.inside ref t hhas ht)
      (hg.nodup ref t hhas ht)

/-- C21 on the cycle of `cycleGrid`. -/
theorem C21_clone_structure_witness :
    ∃ c w', cycleGrid.1.clone cycleGrid.2 = some (c, w') ∧ c.rows = cycleGrid.1.rows ∧
      c.cols = cycleGrid.1.cols ∧ c.numStates = cycleGrid.1.numStates ∧
      ∀ (r k : Nat) (ref : Ref) (t : QuantumTile), cycleGrid.1.cell r k = some ref →
        cycleGrid.2.tiles[ref]? = some t →
        ∃ (cref : Ref) (ct : QuantumTile), c.cell r k = some cref ∧
          w'.tiles[cref]? = some ct ∧ cycleGrid.2.tiles.length ≤ cref ∧
          ct.row = t.row ∧ ct.col = t.col ∧
          ct.state.probabilities = t.state.probabilities ∧
          ct.state.isCollapsed = t.state.isCollapsed ∧
          ct.state.collapsedState = t.state.collapsedState ∧
          ct.state.numStates = t.state.numStates ∧
          ct.entangledWith.length = t.entangledWith.length ∧
          (∀ (i : Nat) (l : Ref × LinkType), t.entangledWith[i]? = some l →
            ∃ (r' k' : Nat) (cl : Ref), cycleGrid.1.cell r' k' = some l.1 ∧
              c.cell r' k' = some cl ∧ ct.entangledWith[i]? = some (cl, l.2)) ∧
          (ct.entangledWith.map Prod.fst).Nodup :=
  C21_clone_structure cycleGrid.1 cycleGrid.2 cycleGrid_ready

/-! ## Claim C22 -/

theorem pushLink_other (w : World) (a b : Ref) (type : LinkType) (x : Ref) (hx : x ≠ a) :
    (QuantumTile.pushLink w a b type).tiles[x]? = w.tiles[x]? := by
  unfold QuantumTile.pushLink
  split
  · rfl
  · split
    · show (w.tiles.set a _)[x]? = w.tiles[x]?
      rw [List.getElem?_set_ne (fun e => hx e.symm)]
    · rfl

theorem applyInterference_other (g : QuantumGrid) (w : World) (row col : Int) (x : Ref)
    (hx : g.getTile row col ≠ some x) :
    (g.applyInterference w row col).tiles[x]? = w.tiles[x]? := by
  unfold QuantumGrid.applyInterference
  split
  · rfl
  · next ref href =>
    split
    · rfl
    · split
      · rfl
      · simp only []
        split
        · rfl
        · show (w.tiles.set ref _)[x]? = w.tiles[x]?
          rw [List.getElem?_set_ne]
          intro e
          exact hx (e ▸ href)

theorem linkClosed_of_ready (g : QuantumGrid) (w : World) (h : CloneReady g w) :
    LinkClosed g.Has w := by
  intro p q type hp ⟨t, ht, hm⟩
  exact h.inside p t hp ht (q, type) hm

/-- A call on a grid ready to be cloned returns, leaves the grid ready and
changes no tile outside the grid. -/
theorem run_outside (rand : Nat → ℚ) (g : QuantumGrid) (w : World) (op : GridOp)
    (h : CloneReady g w) :
    ∃ w1, op.run rand g w = some w1 ∧ CloneReady g w1 ∧
      ∀ x, ¬ g.Has x → w1.tiles[x]? = w.tiles[x]? := by
  cases op with
  | createEntanglement r1 c1 r2 c2 type =>
    refine ⟨_, rfl, createEntanglement_cloneReady g w r1 c1 r2 c2 type h, ?_⟩
    intro x hx
    unfold QuantumGrid.createEntanglement
    split
    · next a b ha hb =>
      unfold QuantumTile.entangleWith
      rw [pushLink_other _ b a type x (fun e => hx (e ▸ getTile_has g r2 c2 b hb)),
        pushLink_other w a b type x (fun e => hx (e ▸ getTile_has g r1 c1 a ha))]
    · rfl
  | measureTile row col =>
    have keep : ∀ w1 : World, Frame w w1 → CloneReady g w1 := by
      intro w1 hf
      apply cloneReady_of_keeps g w w1 h
      intro x t _ ht
      obtain ⟨t', ht', hr, hc, hl, -⟩ := hf.tile x t ht
      exact ⟨t', ht', hr, hc, hl⟩
    cases hT : g.getTile row col with
    | none =>
      exact ⟨w, by simp [GridOp.run, QuantumGrid.measureTile, hT], h, fun _ _ => rfl⟩
    | some T =>
      cases ht : w.tiles[T]? with
      | none =>
        exact ⟨w, by simp [GridOp.run, QuantumGrid.measureTile, hT, ht], h, fun _ _ => rfl⟩
      | some t =>
        cases hc : t.state.isCollapsed with
        | true =>
          exact ⟨w, by simp [GridOp.run, QuantumGrid.measureTile, hT, ht, hc], h,
            fun _ _ => rfl⟩
        | false =>
          have hTg : g.Has T := getTile_has g row col T hT
          obtain ⟨w', hm, hst, -, -⟩ := measure_spec rand g.Has w T t ht
            (linkClosed_of_ready g w h) hTg
          refine ⟨w', ?_, keep w' ((Frame.collapseTile rand w T none).trans (Steps.toFrame hst)),
            ?_⟩
          · simp only [GridOp.run]
            rw [measureTile_uncollapsed rand g w row col T hT ⟨t, ht, hc⟩, hm]
            rfl
          · intro x hx
            rw [hst.unchangedOutside x hx,
              collapseTile_other rand w T x none (fun e => hx (e ▸ hTg))]
  | applyInterference row col =>
    refine ⟨_, rfl, ?_, ?_⟩
    · apply cloneReady_of_keeps g w _ h
      intro x t _ ht
      obtain ⟨t', ht', hr, hc, hl, -⟩ := applyInterference_tile g w row col x t ht
      exact ⟨t', ht', hr, hc, hl⟩
    · intro x hx
      exact applyInterference_other g w row col x (fun e => hx (getTile_has g row col x e))

/-- Every sequence of calls on a grid ready to be cloned returns, leaves the grid
ready and changes no tile outside the grid. -/
theorem runOps_outside (rand : Nat → ℚ) (g : QuantumGrid) :
    ∀ (ops : List GridOp) (w : World), CloneReady g w →
      ∃ w', runOps rand g ops w = some w' ∧ CloneReady g w' ∧
        ∀ x, ¬ g.Has x → w'.tiles[x]? = w.tiles[x]? := by
  intro ops
  induction ops with
  | nil => intro w h; exact ⟨w, rfl, h, fun _ _ => rfl⟩
  | cons op ops ih =>
    intro w h
    obtain ⟨w1, hrun1, h1, ho1⟩ := run_outside rand g w op h
    obtain ⟨w', hrun, h', ho'⟩ := ih w1 h1
    exact ⟨w', by simp only [runOps, hrun1]; exact hrun, h',
      fun x hx => (ho' x hx).trans (ho1 x hx)⟩

/-- C22: for a grid `g` as in C21 and `c = g.clone()`: no tile of `c` is a tile
of `g`; every link of a tile of `c` points to a tile of `c`, and not to a tile
of `g`; every sequence of `measureTile`, `applyInterference` and
`createEntanglement` calls on `g` returns and leaves every tile of `c` unchanged,
and every such sequence on `c` returns and leaves every tile of `g` unchanged. -/
theorem C22_clone_independent (rand : Nat → ℚ) (g : QuantumGrid) (w : World)
    (ops : List GridOp) (hg : CloneReady g w) :
    ∃ c w', g.clone w = some (c, w') ∧
      (∀ x, c.Has x → ¬ g.Has x) ∧
      (∀ (cref : Ref) (ct : QuantumTile), c.Has cref → w'.tiles[cref]? = some ct →
        ∀ l ∈ ct.entangledWith, c.Has l.1 ∧ ¬ g.Has l.1) ∧
      (∃ w'', runOps rand g ops w' = some w'' ∧
        ∀ x, c.Has x → w''.tiles[x]? = w'.tiles[x]?) ∧
      (∃ w'', runOps rand c ops w' = some w'' ∧
        ∀ x, g.Has x → w''.tiles[x]? = w'.tiles[x]?) := by
  obtain ⟨c, w', hrun, hc⟩ := clone_spec g w hg
  have hcr := isClone_ready g c w w' hg hc
  have hgr := isClone_original g c w w' hg hc
  have hdis := isClone_disjoint g c w w' hg hc
  refine ⟨c, w', hrun, hdis, ?_, ?_, ?_⟩
  · intro cref ct hhas hct l hl
    have := hcr.inside cref ct hhas hct l hl
    exact ⟨this, hdis l.1 this⟩
  · obtain ⟨w'', hr, -, ho⟩ := runOps_outside rand g ops w' hgr
    exact ⟨w'', hr, fun x hx => ho x (hdis x hx)⟩
  · obtain ⟨w'', hr, -, ho⟩ := runOps_outside rand c ops w' hcr
    exact ⟨w'', hr, fun x hx => ho x (fun hcx => hdis x hcx hx)⟩

/-- C22 on the cycle of `cycleGrid`, with a measurement and an interference. -/
theorem C22_clone_independent_witness :
    ∃ c w', cycleGrid.1.clone cycleGrid.2 = some (c, w') ∧
      (∀ x, c.Has x → ¬ cycleGrid.1.Has x) ∧
      (∀ (cref : Ref) (ct : QuantumTile), c.Has cref → w'.tiles[cref]? = some ct →
        ∀ l ∈ ct.entangledWith, c.Has l.1 ∧ ¬ cycleGrid.1.Has l.1) ∧
      (∃ w'', runOps (fun _ => 3 / 4) cycleGrid.1
          [GridOp.measureTile 0 1, GridOp.applyInterference 0 0] w' = some w'' ∧
        ∀ x, c.Has x → w''.tiles[x]? = w'.tiles[x]?) ∧
      (∃ w'', runOps (fun _ => 3 / 4) c
          [GridOp.measureTile 0 1, GridOp.applyInterference 0 0] w' = some w'' ∧
        ∀ x, cycleGrid.1.Has x → w''.tiles[x]? = w'.tiles[x]?) :=
  C22_clone_independent (fun _ => 3 / 4) cycleGrid.1 cycleGrid.2
    [GridOp.measureTile 0 1, GridOp.applyInterference 0 0] cycleGrid_ready

/-! ## Symmetry of the links -/

theorem linked_congr (w w' : World) (A B : Ref) (type : LinkType)
    (h : w'.tiles[A]? = w.tiles[A]?) : w'.Linked A B type ↔ w.Linked A B type := by
  unfold World.Linked
  rw [h]

/-- The links after `pushLink`, for a tile `a` of the store. -/
theorem pushLink_linked (w : World) (a b : Ref) (type : LinkType) (ta : QuantumTile)
    (ha : w.tiles[a]? = some ta) (p q : Ref) (t : LinkType) :
    (QuantumTile.pushLink w a b type).Linked p q t ↔
      w.Linked p q t ∨ (p = a ∧ q = b ∧ t = type ∧ ¬ ∃ t', w.Linked a b t') := by
  by_cases hno : ∀ l ∈ ta.entangledWith, l.1 ≠ b
  · have hnl : ¬ ∃ t', w.Linked a b t' := by
      rintro ⟨t', tx, htx, hm⟩
      rw [ha] at htx
      cases htx
      exact hno (b, t') hm rfl
    rw [pushLink_of_absent w a b type ta ha hno]
    have hlt : a < w.tiles.length := (List.getElem?_eq_some_iff.1 ha).1
    by_cases hpa : p = a
    · subst hpa
      constructor
      · rintro ⟨tp, htp, hm⟩
        have htp' : (w.tiles.set p _)[p]? = some tp := htp
        rw [List.getElem?_set_self hlt] at htp'
        cases htp'
        rcases List.mem_append.1 hm with h1 | h1
        · exact Or.inl ⟨ta, ha, h1⟩
        · rw [List.mem_singleton] at h1
          simp only [Prod.mk.injEq] at h1
          exact Or.inr ⟨rfl, h1.1, h1.2, hnl⟩
      · rintro (⟨tp, htp, hm⟩ | ⟨-, rfl, rfl, -⟩)
        · rw [ha] at htp
          cases htp
          exact ⟨_, List.getElem?_set_self hlt, List.mem_append_left _ hm⟩
        · exact ⟨_, List.getElem?_set_self hlt, List.mem_append_right _ (List.mem_singleton.2 rfl)⟩
    · have hsame : (w.tiles.set a (
          { ta with entangledWith := ta.entangledWith ++ [(b, type)] } : QuantumTile))[p]? =
          w.tiles[p]? := List.getElem?_set_ne (fun e => hpa e.symm)
      constructor
      · rintro ⟨tp, htp, hm⟩
        exact Or.inl ⟨tp, hsame ▸ htp, hm⟩
      · rintro (⟨tp, htp, hm⟩ | ⟨h1, -⟩)
        · exact ⟨tp, hsame.symm ▸ htp, hm⟩
        · exact absurd h1 hpa
  · have hyes : ∃ l ∈ ta.entangledWith, l.1 = b := by simpa using hno
    rw [pushLink_of_present w a b type ta ha hyes]
    constructor
    · exact fun h => Or.inl h
    · rintro (h | ⟨-, -, -, hnl⟩)
      · exact h
      · obtain ⟨l, hl, hlb⟩ := hyes
        exact absurd ⟨l.2, ta, ha, by rw [← hlb]; exact hl⟩ hnl

/-- `entangleWith` between two tiles of the grid keeps the links symmetric. -/
theorem entangleWith_sym (g : QuantumGrid) (w : World) (a b : Ref) (type : LinkType)
    (ta tb : QuantumTile) (ha : w.tiles[a]? = some ta) (hb : w.tiles[b]? = some tb)
    (hga : g.Has a) (hgb : g.Has b) (h : SymLinks g w) :
    SymLinks g (QuantumTile.entangleWith w a b type) := by
  unfold QuantumTile.entangleWith
  obtain ⟨tb1, hb1, -⟩ := pushLink_mem w a b type b tb hb
  intro A B t hA hB hl
  rw [pushLink_linked _ b a type tb1 hb1, pushLink_linked w a b type ta ha] at hl ⊢
  rcases hl with (hl | ⟨rfl, rfl, rfl, hn⟩) | ⟨rfl, rfl, rfl, hn⟩
  · exact Or.inl (Or.inl (h A B t hA hB hl))
  · by_cases hback : ∃ t', (QuantumTile.pushLink w A B t).Linked B A t'
    · obtain ⟨t', hl'⟩ := hback
      rw [pushLink_linked w A B t ta ha] at hl'
      rcases hl' with hl' | ⟨rfl, -, -, -⟩
      · exact absurd ⟨t', h B A t' hB hA hl'⟩ hn
      · exact Or.inl (Or.inr ⟨rfl, rfl, rfl, hn⟩)
    · exact Or.inr ⟨rfl, rfl, rfl, hback⟩
  · have hn1 : ¬ ∃ t', w.Linked B A t' := by
      rintro ⟨t', hl'⟩
      exact hn ⟨t', (pushLink_linked w B A t ta ha A B t').2 (Or.inl (h B A t' hB hA hl'))⟩
    exact Or.inl (Or.inr ⟨rfl, rfl, rfl, hn1⟩)

theorem createEntanglement_sym (g : QuantumGrid) (w : World) (r1 c1 r2 c2 : Int)
    (type : LinkType) (hr : CloneReady g w) (h : SymLinks g w) :
    SymLinks g (g.createEntanglement w r1 c1 r2 c2 type) := by
  unfold QuantumGrid.createEntanglement
  split
  · next a b ha hb =>
    have hga := getTile_has g r1 c1 a ha
    have hgb := getTile_has g r2 c2 b hb
    obtain ⟨_, _, ta, -, -, -, hta, -, -⟩ := cloneReady_cell g w hr a hga
    obtain ⟨_, _, tb, -, -, -, htb, -, -⟩ := cloneReady_cell g w hr b hgb
    exact entangleWith_sym g w a b type ta tb hta htb hga hgb h
  · exact h

theorem applyInterference_linked (g : QuantumGrid) (w : World) (row col : Int) (p q : Ref)
    (t : LinkType) : (g.applyInterference w row col).Linked p q t ↔ w.Linked p q t := by
  obtain ⟨hlen, hk⟩ := applyInterference_keeps g w row col
  constructor
  · rintro ⟨tp', htp', hm⟩
    have hp : p < w.tiles.length := by
      rw [← hlen]; exact (List.getElem?_eq_some_iff.1 htp').1
    obtain ⟨t1, ht1, hl1, -⟩ := hk p w.tiles[p] (List.getElem?_eq_getElem hp)
    rw [htp'] at ht1
    cases ht1
    exact ⟨w.tiles[p], List.getElem?_eq_getElem hp, hl1 ▸ hm⟩
  · rintro ⟨tp, htp, hm⟩
    obtain ⟨t1, ht1, hl1, -⟩ := hk p tp htp
    exact ⟨t1, ht1, hl1.symm ▸ hm⟩

/-- A call on a grid ready to be cloned keeps the links symmetric. -/
theorem run_sym (rand : Nat → ℚ) (g : QuantumGrid) (w w' : World) (op : GridOp)
    (hr : CloneReady g w) (h : SymLinks g w) (hrun : op.run rand g w = some w') :
    SymLinks g w' := by
  cases op with
  | createEntanglement r1 c1 r2 c2 type =>
    simp only [GridOp.run, Option.some.injEq] at hrun
    rw [← hrun]
    exact createEntanglement_sym g w r1 c1 r2 c2 type hr h
  | measureTile row col =>
    obtain ⟨res, w1, hm, hf⟩ := measureTile_frame rand g w row col
    simp only [GridOp.run, hm, Option.map_some', Option.some.injEq] at hrun
    subst hrun
    intro A B t hA hB hl
    exact hf.linked (h A B t hA hB (hf.linked_rev hl))
  | applyInterference row col =>
    simp only [GridOp.run, Option.some.injEq] at hrun
    rw [← hrun]
    intro A B t hA hB hl
    rw [applyInterference_linked] at hl ⊢
    exact h A B t hA hB hl

theorem forall₂_mem_right {α β : Type} {R : α → β → Prop} {l1 : List α} {l2 : List β}
    (h : List.Forall₂ R l1 l2) : ∀ b ∈ l2, ∃ a ∈ l1, R a b := by
  induction h with
  | nil => intro b hb; cases hb
  | cons h1 _ ih =>
    intro b hb
    rcases List.mem_cons.1 hb with rfl | hb
    · exact ⟨_, List.mem_cons_self _ _, h1⟩
    · obtain ⟨a, ha, hr⟩ := ih b hb
      exact ⟨a, List.mem_cons_of_mem _ ha, hr⟩

/-- The links of the clone of a grid with symmetric links are symmetric. -/
theorem isClone_sym (g c : QuantumGrid) (w w' : World) (hr : CloneReady g w)
    (hc : IsClone g w c w') (h : SymLinks g w) : SymLinks c w' := by
  intro cA cB type hA hB ⟨ctA, hctA, hm⟩
  obtain ⟨r, k, hcellA⟩ := (has_iff_cell c cA).1 hA
  obtain ⟨r', k', hcellB⟩ := (has_iff_cell c cB).1 hB
  obtain ⟨A, tA, ctA', hgA, htA, hctA', -, -, -, -, -, himgA⟩ :=
    isClone_cell g c w w' hr hc r k cA hcellA
  obtain ⟨B, tB, ctB, hgB, htB, hctB, -, -, -, -, -, himgB⟩ :=
    isClone_cell g c w w' hr hc r' k' cB hcellB
  rw [hctA] at hctA'
  cases hctA'
  have hhasA : g.Has A := (has_iff_cell g A).2 ⟨r, k, hgA⟩
  have hhasB : g.Has B := (has_iff_cell g B).2 ⟨r', k', hgB⟩
  -- the link of the original that the link of the copy stands for
  obtain ⟨l, hl, himg⟩ := forall₂_mem himgA (cB, type) hm
  have hlg : g.Has l.1 := hr.inside A tA hhasA htA l hl
  obtain ⟨htype, r2, k2, hg2, hc2⟩ := linkImage_cell g c w hr (cB, type) l himg hlg
  obtain ⟨e1, e2⟩ := hc.table.distinct r2 k2 r' k' cB hc2 hcellB
  subst e1
  subst e2
  rw [hgB] at hg2
  have hlB : l.1 = B := (Option.some.inj hg2).symm
  have hlinked : w.Linked A B type := ⟨tA, htA, by
    have : l = (B, type) := by
      cases l
      simp only [Prod.mk.injEq]
      exact ⟨hlB, htype.symm⟩
    rw [← this]
    exact hl⟩
  -- its back-reference, and the copy of it
  obtain ⟨tB', htB', hmB⟩ := h A B type hhasA hhasB hlinked
  rw [htB] at htB'
  cases htB'
  obtain ⟨e, he, himge⟩ := forall₂_mem_right himgB (A, type) hmB
  obtain ⟨hetype, r3, k3, hg3, hc3⟩ := linkImage_cell g c w hr e (A, type) himge hhasA
  obtain ⟨e1, e2⟩ := hr.wellFormed.distinct r3 k3 r k A hg3 hgA
  subst e1
  subst e2
  rw [hcellA] at hc3
  have heA : e.1 = cA := (Option.some.inj hc3).symm
  refine ⟨ctB, hctB, ?_⟩
  have : e = (cA, type) := by
    cases e
    simp only [Prod.mk.injEq]
    exact ⟨heA, hetype⟩
  rw [← this]
  exact he

/-- Every reachable grid is ready to be cloned and has symmetric links. -/
theorem reachable_inv (rand : Nat → ℚ) (g : QuantumGrid) (w : World)
    (h : Reachable rand g w) : CloneReady g w ∧ SymLinks g w := by
  induction h with
  | create w0 rows cols N =>
    refine ⟨create_cloneReady w0 rows cols N, ?_⟩
    intro A B type hA _ ⟨tA, htA, hm⟩
    obtain ⟨r, k, hcell⟩ := (has_iff_cell _ A).1 hA
    obtain ⟨-, -, hf⟩ := create_cell w0 rows cols N r k A hcell
    unfold FreshAt at hf
    rw [htA] at hf
    cases hf
    cases hm
  | call g w op w' _ hrun ih =>
    obtain ⟨w1, hrun1, hr1, -⟩ := run_outside rand g w op ih.1
    rw [hrun] at hrun1
    cases hrun1
    exact ⟨hr1, run_sym rand g w w' op ih.1 ih.2 hrun⟩
  | clone g w c w' _ hrun ih =>
    obtain ⟨c1, w1, hrun1, hc⟩ := clone_spec g w ih.1
    rw [hrun] at hrun1
    cases hrun1
    exact ⟨isClone_ready g c w w' ih.1 hc, isClone_sym g c w w' ih.1 hc ih.2⟩
  | other g w w' _ hsame ih =>
    refine ⟨cloneReady_of_keeps g w w' ih.1 ?_, ?_⟩
    · intro x t hx ht
      exact ⟨t, by rw [hsame x hx]; exact ht, rfl, rfl, rfl⟩
    · intro A B type hA hB hl
      rw [linked_congr w w' A B type (hsame A hA)] at hl
      rw [linked_congr w w' B A type (hsame B hB)]
      exact ih.2 A B type hA hB hl

/-! ## Claim C25 -/

/-- C25: in every grid reached from `new QuantumGrid` by `createEntanglement`,
`measureTile`, `applyInterference` and `clone` (each of which returns on such a
grid): a tile of the grid holds links to tiles of the grid only, and a tile `A`
of the grid holds a link to a tile `B` of the grid with relation `t` if and only
if `B` holds a link to `A` with relation `t`. -/
theorem C25_links_symmetric (rand : Nat → ℚ) (g : QuantumGrid) (w : World)
    (h : Reachable rand g w) :
    (∀ (A B : Ref) (type : LinkType), g.Has A → g.Has B →
      (w.Linked A B type ↔ w.Linked B A type)) ∧
    (∀ (A B : Ref) (type : LinkType), g.Has A → w.Linked A B type → g.Has B) ∧
    (∀ op : GridOp, ∃ w', op.run rand g w = some w') ∧
    (∃ c w', g.clone w = some (c, w')) := by
  obtain ⟨hr, hs⟩ := reachable_inv rand g w h
  refine ⟨?_, ?_, ?_, ?_⟩
  · intro A B type hA hB
    exact ⟨hs A B type hA hB, hs B A type hB hA⟩
  · intro A B type hA hl
    exact linkClosed_of_ready g w hr A B type hA hl
  · intro op
    obtain ⟨w', hrun, -⟩ := run_outside rand g w op hr
    exact ⟨w', hrun⟩
  · obtain ⟨c, w', hrun, -⟩ := clone_spec g w hr
    exact ⟨c, w', hrun⟩

/-- C25 on the clone of a 2×2 grid linked `same` along its first row and
`opposite` along its first column, the second link being asked again with
`same`, after a measurement. -/
theorem C25_links_symmetric_witness :
    ∃ w c w', runOps (fun _ => 3 / 4) (QuantumGrid.create emptyWorld 2 2 2).1
        [GridOp.createEntanglement 0 0 0 1 LinkType.same,
         GridOp.createEntanglement 0 0 1 0 LinkType.opposite,
         GridOp.createEntanglement 1 0 0 0 LinkType.same,
         GridOp.measureTile 1 1]
        (QuantumGrid.create emptyWorld 2 2 2).2 = some w ∧
      (QuantumGrid.create emptyWorld 2 2 2).1.clone w = some (c, w') ∧
      ∀ (A B : Ref) (type : LinkType), c.Has A → c.Has B →
        (w'.Linked A B type ↔ w'.Linked B A type) := by
  have h0 : Reachable (fun _ => 3 / 4) (QuantumGrid.create emptyWorld 2 2 2).1
      (QuantumGrid.create emptyWorld 2 2 2).2 := Reachable.create emptyWorld 2 2 2
  obtain ⟨w1, h1⟩ := (C25_links_symmetric _ _ _ h0).2.2.1
    (GridOp.createEntanglement 0 0 0 1 LinkType.same)
  have r1 := Reachable.call _ _ _ _ h0 h1
  obtain ⟨w2, h2⟩ := (C25_links_symmetric _ _ _ r1).2.2.1
    (GridOp.createEntanglement 0 0 1 0 LinkType.opposite)
  have r2 := Reachable.call _ _ _ _ r1 h2
  obtain ⟨w3, h3⟩ := (C25_links_symmetric _ _ _ r2).2.2.1
    (GridOp.createEntanglement 1 0 0 0 LinkType.same)
  have r3 := Reachable.call _ _ _ _ r2 h3
  obtain ⟨w4, h4⟩ := (C25_links_symmetric _ _ _ r3).2.2.1 (GridOp.measureTile 1 1)
  have r4 := Reachable.call _ _ _ _ r3 h4
  obtain ⟨c, w', h5⟩ := (C25_links_symmetric _ _ _ r4).2.2.2
  refine ⟨w4, c, w', ?_, h5, (C25_links_symmetric _ _ _ (Reachable.clone _ _ _ _ r4 h5)).1⟩
  simp only [runOps, h1, h2, h3, h4]

/-! ## Random draws of a cascade -/

/-- An invariant of the body is an invariant of the loop. -/
theorem forEachM_invariant {α : Type} (body : World → α → Option World) (P : World → Prop)
    (h : ∀ w x w', P w → body w x = some w' → P w') :
    ∀ (xs : List α) (w w' : World), P w → forEachM body xs w = some w' → P w' := by
  intro xs
  induction xs with
  | nil =>
    intro w w' hP hrun
    simp only [forEachM, Option.some.injEq] at hrun
    exact hrun ▸ hP
  | cons x xs ih =>
    intro w w' hP hrun
    simp only [forEachM] at hrun
    split at hrun
    · cases hrun
    · next w1 h1 => exact ih w1 w' (h w x w1 hP h1) hrun

/-- A forced collapse takes no random draw. -/
theorem collapseTile_forced_draws (rand : Nat → ℚ) (w : World) (b : Ref) (k : Int) :
    (w.collapseTile rand b (some k)).2.draws = w.draws := by
  unfold World.collapseTile
  split
  · rfl
  · next t _ =>
    cases hc : t.state.isCollapsed with
    | true => simp [collapse_of_collapsed rand w.draws t.state (some k) hc]
    | false => simp [collapse_forced rand w.draws t.state k hc]

theorem forcedValue_some (type : LinkType) (k : Int) : ∃ v, forcedValue type (some k) = some v := by
  cases type
  · exact ⟨k, rfl⟩
  · exact ⟨1 - k, rfl⟩

/-- One turn of the `forEach` of `measure` or `cascadeEntanglement` when the
outcome handed on is a number: provided the recursive call takes no draw from a
collapsed tile whose outcome is a number, the turn takes none. -/
theorem cascadeBody_draws (rand : Nat → ℚ) (fuel : Nat) (value : World → Option Int)
    (hrec : ∀ (w : World) (b : Ref) (w' : World), w.Collapsed b →
      (∃ k, w.collapsedStateOf b = some k) → cascadeEntanglement rand fuel w b = some w' →
      w'.draws = w.draws)
    (w1 w2 : World) (l : Ref × LinkType) (k : Int) (hv : value w1 = some k)
    (hrun : cascadeBody rand (fun w r => cascadeEntanglement rand fuel w r) value w1 l =
      some w2) :
    w2.draws = w1.draws ∧ Frame w1 w2 := by
  by_cases hu : w1.Uncollapsed l.1
  · rw [cascadeBody_uncollapsed rand _ value w1 l hu, hv] at hrun
    obtain ⟨v, hfv⟩ := forcedValue_some l.2 k
    rw [hfv] at hrun
    have hcb := collapseTile_collapsed rand w1 l.1 (some v) hu
    have hd := hrec _ l.1 w2 hcb ⟨v, collapseTile_forced_value rand w1 l.1 v hu⟩ hrun
    have hst := cascade_steps rand (fun _ => True) fuel _ l.1 w2 (linkClosed_true _) trivial
      hcb hrun
    exact ⟨hd.trans (collapseTile_forced_draws rand w1 l.1 v),
      (Frame.collapseTile rand w1 l.1 (some v)).trans
        ((Frame.enter _ l.1).trans (Steps.toFrame hst))⟩
  · rw [cascadeBody_skip rand _ value w1 l hu] at hrun
    cases hrun
    exact ⟨rfl, Frame.refl _⟩

/-- `cascadeEntanglement()` on a collapsed tile whose outcome is a number takes
no random draw: every collapse it makes is forced. -/
theorem cascade_draws (rand : Nat → ℚ) :
    ∀ (fuel : Nat) (w : World) (a : Ref) (w' : World), w.Collapsed a →
      (∃ k, w.collapsedStateOf a = some k) → cascadeEntanglement rand fuel w a = some w' →
      w'.draws = w.draws := by
  intro fuel
  induction fuel with
  | zero =>
    intro w a w' _ _ h
    simp [cascadeEntanglement] at h
  | succ fuel ih =>
    intro w a w' hca ⟨k, hk⟩ hrun
    obtain ⟨t, ht, hc⟩ := hca
    have ht0 : (w.enter a).tiles[a]? = some t := by rw [enter_tiles]; exact ht
    simp only [cascadeEntanglement, ht0] at hrun
    have hca0 : (w.enter a).Collapsed a := ⟨t, ht0, hc⟩
    have hk0 : (w.enter a).collapsedStateOf a = some k := by
      rw [← hk]
      simp only [World.collapsedStateOf, ht0, ht]
    have hinv := forEachM_invariant _
      (fun w1 => w1.draws = w.draws ∧ Frame (w.enter a) w1)
      (fun w1 l w2 hP hbody => by
        have hv : (fun w1 : World => w1.collapsedStateOf a) w1 = some k := by
          show w1.collapsedStateOf a = some k
          rw [hP.2.collapsedStateOf hca0, hk0]
        obtain ⟨hd, hf⟩ := cascadeBody_draws rand fuel _ ih w1 w2 l k hv hbody
        exact ⟨hd.trans hP.1, hP.2.trans hf⟩)
      t.entangledWith (w.enter a) w' ⟨rfl, Frame.refl _⟩ hrun
    exact hinv.1

/-- `measure()` on a collapsed tile whose outcome is a number takes no random
draw. -/
theorem measure_collapsed_draws (rand : Nat → ℚ) (w : World) (self : Ref) (t : QuantumTile)
    (ht : w.tiles[self]? = some t) (hc : t.state.isCollapsed = true) (k : Int)
    (hk : t.state.collapsedState = some k) (res : Option Int) (w' : World)
    (hm : QuantumTile.measure rand w self = some (res, w')) : w'.draws = w.draws := by
  obtain ⟨-, hloop⟩ := measureFuel_inv rand _ w self t ht res w' hm
  rw [collapseTile_of_collapsed rand w self none t ht hc] at hloop
  have hinv := forEachM_invariant _ (fun w1 => w1.draws = w.draws)
    (fun w1 l w2 hP hbody => by
      obtain ⟨hd, -⟩ := cascadeBody_draws rand (w.tiles.length + 1)
        (fun _ => t.state.collapsedState)
        (cascade_draws rand (w.tiles.length + 1)) w1 w2 l k hk hbody
      exact hd.trans hP)
    t.entangledWith w w' rfl hloop
  exact hinv

/-! ## Claim C6, amended -/

/-- C6, amended: `measure()` on a tile that is already collapsed returns the
tile's existing outcome; it leaves that tile and every other collapsed tile
unchanged; it takes no random draw when that outcome is a number, as every
`collapse()` stores one; and it leaves the whole store unchanged when every tile
linked from it is collapsed. -/
theorem C6_measure_collapsed_amended (rand : Nat → ℚ) (w : World) (self : Ref)
    (t : QuantumTile) (ht : w.tiles[self]? = some t) (hc : t.state.isCollapsed = true) :
    ∃ w', QuantumTile.measure rand w self = some (t.state.collapsedState, w') ∧
      w'.tiles[self]? = some t ∧
      (∀ (x : Ref) (tx : QuantumTile), w.tiles[x]? = some tx → tx.state.isCollapsed = true →
        w'.tiles[x]? = some tx) ∧
      ((∃ k, t.state.collapsedState = some k) → w'.draws = w.draws) ∧
      (Closed w self → w' = w) := by
  have hr : w.collapseTile rand self none = (t.state.collapsedState, w) :=
    collapseTile_of_collapsed rand w self none t ht hc
  obtain ⟨w', hm, hst, -, -⟩ := measure_spec rand (fun _ => True) w self t ht
    (linkClosed_true w) trivial
  rw [hr] at hm hst
  have hf : Frame w w' := Steps.toFrame hst
  have hkeep : ∀ (x : Ref) (tx : QuantumTile), w.tiles[x]? = some tx →
      tx.state.isCollapsed = true → w'.tiles[x]? = some tx := by
    intro x tx hx hcx
    obtain ⟨tx', htx', -, -, -, -, hk⟩ := hf.tile x tx hx
    rw [htx', hk hcx]
  refine ⟨w', hm, hkeep self t ht hc, hkeep, ?_, ?_⟩
  · rintro ⟨k, hk⟩
    exact measure_collapsed_draws rand w self t ht hc k hk _ w' hm
  · intro hcl
    have hskip := forEachM_skip rand
      (fun w1 r1 => cascadeEntanglement rand (w.tiles.length + 1) w1 r1)
      (fun _ => (w.collapseTile rand self none).1) (w.collapseTile rand self none).2
      t.entangledWith (by
        rw [hr]
        exact fun l hl => hcl l.1 l.2 ⟨t, ht, hl⟩)
    have hm2 := measureFuel_eq rand (w.tiles.length + 1) w self t ht _ hskip
    rw [hr] at hm2
    rw [QuantumTile.measure, hm2] at hm
    simp only [Option.some.injEq, Prod.mk.injEq, true_and] at hm
    exact hm.symm

/-- C6 amended, on `lateLink` measured at its first tile, which is collapsed to
the outcome 1 and linked to the uncollapsed second tile: the call takes no
draw. -/
theorem C6_measure_collapsed_amended_witness :
    ∃ w', QuantumTile.measure (fun _ => 3 / 4) lateLink.2 0 =
        some (collapsedOne.collapsedState, w') ∧
      w'.tiles[0]? = some ⟨0, 0, collapsedOne, [(1, LinkType.same)]⟩ ∧
      (∀ (x : Ref) (tx : QuantumTile), lateLink.2.tiles[x]? = some tx →
        tx.state.isCollapsed = true → w'.tiles[x]? = some tx) ∧
      w'.draws = lateLink.2.draws ∧
      (Closed lateLink.2 0 → w' = lateLink.2) := by
  obtain ⟨w', h1, h2, h3, h4, h5⟩ := C6_measure_collapsed_amended (fun _ => 3 / 4) lateLink.2 0
    ⟨0, 0, collapsedOne, [(1, LinkType.same)]⟩ (by decide!) (by decide)
  exact ⟨w', h1, h2, h3, h4 ⟨1, rfl⟩, h5⟩

/-! ## Claim C24, amended -/

/-- After `entangleWith` of a tile with itself the tile holds a link to itself. -/
theorem entangleWith_self (w : World) (a : Ref) (type : LinkType) (ta : QuantumTile)
    (ha : w.tiles[a]? = some ta) :
    ∃ type', (QuantumTile.entangleWith w a a type).Linked a a type' := by
  unfold QuantumTile.entangleWith
  obtain ⟨ta1, ha1, -⟩ := pushLink_mem w a a type a ta ha
  have h1 : ∃ type', (QuantumTile.pushLink w a a type).Linked a a type' := by
    by_cases hold : ∃ t', w.Linked a a t'
    · obtain ⟨t', ht'⟩ := hold
      exact ⟨t', (pushLink_linked w a a type ta ha a a t').2 (Or.inl ht')⟩
    · exact ⟨type, (pushLink_linked w a a type ta ha a a type).2
        (Or.inr ⟨rfl, rfl, rfl, hold⟩)⟩
  obtain ⟨type', h'⟩ := h1
  exact ⟨type', (pushLink_linked _ a a type ta1 ha1 a a type').2 (Or.inl h')⟩

/-- C24, amended: every sequence of `createEntanglement` calls (and also of
`measureTile` and `applyInterference` calls) on the grid built by
`new QuantumGrid(rows, cols, N)` returns. If no `createEntanglement` call of the
sequence names the same in-bounds cell for both endpoints, no tile of the grid
appears in its own link list afterwards. A further call
`createEntanglement(row, col, row, col, type)` with `(row, col)` in bounds,
whatever the sequence before it, leaves the tile at `(row, col)` with a link to
itself. -/
theorem C24_no_self_link_amended (rand : Nat → ℚ) (w0 : World) (rows cols N : Nat)
    (ops : List GridOp) :
    ∃ w, runOps rand (QuantumGrid.create w0 rows cols N).1 ops
        (QuantumGrid.create w0 rows cols N).2 = some w ∧
      ((∀ (r1 c1 r2 c2 : Int) (type : LinkType),
          GridOp.createEntanglement r1 c1 r2 c2 type ∈ ops → r1 = r2 ∧ c1 = c2 →
          ¬ (0 ≤ r1 ∧ r1 < (rows : Int) ∧ 0 ≤ c1 ∧ c1 < (cols : Int))) →
        ∀ ref, (QuantumGrid.create w0 rows cols N).1.Has ref →
          ∃ t, w.tiles[ref]? = some t ∧ ∀ l ∈ t.entangledWith, l.1 ≠ ref) ∧
      ∀ (row col : Int) (type : LinkType), 0 ≤ row → row < (rows : Int) → 0 ≤ col →
        col < (cols : Int) →
        ∃ (ref : Ref) (t : QuantumTile) (type' : LinkType),
          (QuantumGrid.create w0 rows cols N).1.getTile row col = some ref ∧
          ((QuantumGrid.create w0 rows cols N).1.createEntanglement w row col row col
            type).tiles[ref]? = some t ∧
          (ref, type') ∈ t.entangledWith := by
  obtain ⟨w, hrun, hready⟩ := runOps_cloneReady rand (QuantumGrid.create w0 rows cols N).1 ops
    (QuantumGrid.create w0 rows cols N).2 (create_cloneReady w0 rows cols N)
  refine ⟨w, hrun, ?_, ?_⟩
  · intro hops
    obtain ⟨w1, hrun1, h1⟩ := runOps_noSelfLink rand (QuantumGrid.create w0 rows cols N).1
      (create_wellFormed w0 rows cols N) ops (QuantumGrid.create w0 rows cols N).2
      (create_noSelfLink w0 rows cols N) hops
    rw [hrun] at hrun1
    cases hrun1
    exact h1
  · intro row col type h1 h2 h3 h4
    obtain ⟨ref, href⟩ := getTile_inBounds (QuantumGrid.create w0 rows cols N).1
      (create_wellFormed w0 rows cols N) row col h1 h2 h3 h4
    obtain ⟨_, _, t0, -, -, -, ht0, -, -⟩ := cloneReady_cell _ w hready ref
      (getTile_has _ row col ref href)
    obtain ⟨type', t, ht, hm⟩ := entangleWith_self w ref type t0 ht0
    refine ⟨ref, t, type', href, ?_, hm⟩
    simp only [QuantumGrid.createEntanglement, href]
    exact ht

/-- C24 amended on a 2×2 grid: links along the first row and the first column, a
call with both endpoints out of bounds at the same place, and a repeated call
leave no self-link; a further call with both endpoints at the cell (1, 1) leaves
the tile of that cell with a link to itself. -/
theorem C24_no_self_link_amended_witness :
    ∃ w, runOps (fun _ => 0) (QuantumGrid.create emptyWorld 2 2 2).1
        [GridOp.createEntanglement 0 0 0 1 LinkType.same,
         GridOp.createEntanglement 0 0 1 0 LinkType.opposite,
         GridOp.createEntanglement 5 5 5 5 LinkType.same,
         GridOp.createEntanglement 0 1 0 0 LinkType.opposite]
        (QuantumGrid.create emptyWorld 2 2 2).2 = some w ∧
      (∀ ref, (QuantumGrid.create emptyWorld 2 2 2).1.Has ref →
        ∃ t, w.tiles[ref]? = some t ∧ ∀ l ∈ t.entangledWith, l.1 ≠ ref) ∧
      ∃ (ref : Ref) (t : QuantumTile) (type' : LinkType),
        (QuantumGrid.create emptyWorld 2 2 2).1.getTile 1 1 = some ref ∧
        ((QuantumGrid.create emptyWorld 2 2 2).1.createEntanglement w 1 1 1 1
          LinkType.opposite).tiles[ref]? = some t ∧
        (ref, type') ∈ t.entangledWith := by
  obtain ⟨w, hrun, h1, h2⟩ := C24_no_self_link_amended (fun _ => 0) emptyWorld 2 2 2
    [GridOp.createEntanglement 0 0 0 1 LinkType.same,
     GridOp.createEntanglement 0 0 1 0 LinkType.opposite,
     GridOp.createEntanglement 5 5 5 5 LinkType.same,
     GridOp.createEntanglement 0 1 0 0 LinkType.opposite]
  refine ⟨w, hrun, h1 ?_, h2 1 1 LinkType.opposite (by decide) (by decide) (by decide)
    (by decide)⟩
  intro r1 c1 r2 c2 type hm he
  simp only [List.mem_cons, GridOp.createEntanglement.injEq, List.mem_singleton,
    List.not_mem_nil, or_false] at hm
  rcases hm with h | h | h | h <;> obtain ⟨rfl, rfl, rfl, rfl, -⟩ := h <;> omega

/-! ## `collapse` over open number operations -/

/-- Over the exact rationals the loop is the loop of the rational model. -/
theorem sampleFrom_exact (probs : List ℚ) (r : ℚ) :
    ∀ (steps i : Nat) (c : Option ℚ),
      Arith.exact.sampleFrom probs r steps i c = sampleFrom probs r steps i c := by
  intro steps
  induction steps with
  | zero => intro i c; rfl
  | succ steps ih =>
    intro i c
    unfold Arith.sampleFrom sampleFrom
    cases c with
    | none => simp only [ih]
    | some c =>
      cases hp : probs[i]? with
      | none => simp only [ih]
      | some p =>
        simp only [ih]
        show (if decide (r < c + p) = true then _ else _) = _
        simp only [decide_eq_true_eq]
        rfl

theorem oneHot_exact (n : Nat) (k : Int) : Arith.exact.oneHot n k = oneHot n k := rfl

/-- Over the exact rationals `collapse` is the `collapse` of the rational
model. -/
theorem collapse_exact (rand : Nat → ℚ) (draws : Nat) (s : QuantumState) (f : Option Int) :
    s.over.collapse Arith.exact rand draws f =
      ((s.collapse rand draws f).1, (s.collapse rand draws f).2.1.over,
        (s.collapse rand draws f).2.2) := by
  unfold QuantumStateOver.collapse QuantumState.collapse
  cases hc : s.isCollapsed with
  | true => simp [QuantumState.over, hc]
  | false =>
    cases f with
    | some k => simp [QuantumState.over, hc, oneHot_exact]
    | none =>
      have hz : (Arith.exact.zero : ℚ) = 0 := rfl
      simp only [QuantumState.over, hc, hz, sampleFrom_exact]
      cases sampleFrom s.probabilities (rand draws) s.numStates 0 (some 0) <;>
        simp [oneHot_exact]

/-- The index the loop returns is one of the indices it visits. -/
theorem sampleFrom_range {F : Type} (A : Arith F) (probs : List F) (r : F) :
    ∀ (steps i : Nat) (c : Option F) (j : Nat), A.sampleFrom probs r steps i c = some j →
      i ≤ j ∧ j < i + steps := by
  intro steps
  induction steps with
  | zero => intro i c j h; simp [Arith.sampleFrom] at h
  | succ steps ih =>
    intro i c j h
    unfold Arith.sampleFrom at h
    split at h
    · split at h
      · cases h; omega
      · have := ih _ _ _ h; omega
    · have := ih _ _ _ h; omega

theorem foldl_take_succ {F : Type} (A : Arith F) (probs : List F) (i : Nat) (p : F)
    (h : probs[i]? = some p) :
    (probs.take (i + 1)).foldl A.add A.zero = A.add ((probs.take i).foldl A.add A.zero) p := by
  rw [List.take_succ, h]
  simp [List.foldl_append]

/-- With the running sum equal to the sum of the first `i` weights, added in
index order from `0`, the loop returns the least index from `i` on at which the
draw is below the running sum, and ends without a choice when there is none. -/
theorem sampleFrom_first {F : Type} (A : Arith F) (probs : List F) (r : F) :
    ∀ (steps i : Nat), i + steps ≤ probs.length →
      (∀ j, A.sampleFrom probs r steps i (some ((probs.take i).foldl A.add A.zero)) = some j →
        A.lt r ((probs.take (j + 1)).foldl A.add A.zero) = true ∧
          ∀ m, i ≤ m → m < j → A.lt r ((probs.take (m + 1)).foldl A.add A.zero) = false) ∧
      (A.sampleFrom probs r steps i (some ((probs.take i).foldl A.add A.zero)) = none →
        ∀ m, i ≤ m → m < i + steps →
          A.lt r ((probs.take (m + 1)).foldl A.add A.zero) = false) := by
  intro steps
  induction steps with
  | zero =>
    intro i _
    exact ⟨fun j h => by simp [Arith.sampleFrom] at h, fun _ m h1 h2 => by omega⟩
  | succ steps ih =>
    intro i hi
    have hlt : i < probs.length := by omega
    have hp : probs[i]? = some probs[i] := List.getElem?_eq_getElem hlt
    have hsum := foldl_take_succ A probs i probs[i] hp
    obtain ⟨ih1, ih2⟩ := ih (i + 1) (by omega)
    cases hcmp : A.lt r ((probs.take (i + 1)).foldl A.add A.zero) with
    | true =>
      have hrun : A.sampleFrom probs r (steps + 1) i
          (some ((probs.take i).foldl A.add A.zero)) = some i := by
        simp only [Arith.sampleFrom, hp, ← hsum, hcmp, if_true]
      rw [hrun]
      refine ⟨?_, fun h => by cases h⟩
      intro j hj
      cases hj
      exact ⟨hcmp, fun m h1 h2 => by omega⟩
    | false =>
      have hrun : A.sampleFrom probs r (steps + 1) i
          (some ((probs.take i).foldl A.add A.zero)) =
          A.sampleFrom probs r steps (i + 1)
            (some ((probs.take (i + 1)).foldl A.add A.zero)) := by
        simp only [Arith.sampleFrom, hp, ← hsum, hcmp]
        rfl
      rw [hrun]
      constructor
      · intro j hj
        obtain ⟨h1, h2⟩ := ih1 j hj
        refine ⟨h1, ?_⟩
        intro m hm1 hm2
        by_cases hmi : m = i
        · subst hmi; exact hcmp
        · exact h2 m (by omega) hm2
      · intro hnone m hm1 hm2
        by_cases hmi : m = i
        · subst hmi; exact hcmp
        · exact ih2 hnone m (by omega) (by omega)

/-- The array of a collapse at an index in range: `1.0` there and `0` elsewhere. -/
theorem oneHot_entries {F : Type} (A : Arith F) (n i : Nat) (hi : i < n) :
    (A.oneHot n (i : Int)).length = n ∧
      ∀ j, j < n → (A.oneHot n (i : Int))[j]? = some (if j = i then A.one else A.zero) := by
  have h0 : ¬ ((i : Int) < 0) := by omega
  simp only [Arith.oneHot, h0, Int.toNat_ofNat, hi, if_true, if_false]
  refine ⟨by simp, ?_⟩
  intro j hj
  rw [List.getElem?_set]
  by_cases hij : i = j
  · subst hij; simp [hi]
  · have : ¬ j = i := fun e => hij e.symm
    simp [hij, this, hj]

/-! ## Claim C9 -/

/-- C9: on an uncollapsed state with `n ≥ 1` outcomes and `n` weights `w`,
unforced `collapse()` takes one draw `r` and selects the least index `i` with
`r < w[0] + ... + w[i]`, or the index `n - 1` when there is none, the sum being
the running sum of the loop: taken from `0` in index order with the addition of
the program's numbers, `((0 + w[0]) + w[1]) + ... + w[i]`. It returns that index
and leaves the state collapsed, with `collapsedState` that index and `n` weights
that are `1.0` at that index and `0` elsewhere. It holds for every draw and for
every addition and comparison, so for the rounding addition of the doubles as
for the exact one. -/
theorem C9_unforced_collapse_selects_first_exceeding {F : Type} (A : Arith F)
    (rand : Nat → F) (draws : Nat) (s : QuantumStateOver F) (hn : 1 ≤ s.numStates)
    (hlen : s.probabilities.length = s.numStates) (hu : s.isCollapsed = false) :
    ∃ i : Nat, i < s.numStates ∧
      ((A.lt (rand draws) ((s.probabilities.take (i + 1)).foldl A.add A.zero) = true ∧
          ∀ m, m < i →
            A.lt (rand draws) ((s.probabilities.take (m + 1)).foldl A.add A.zero) = false) ∨
        (i = s.numStates - 1 ∧
          ∀ m, m < s.numStates →
            A.lt (rand draws) ((s.probabilities.take (m + 1)).foldl A.add A.zero) = false)) ∧
      (s.collapse A rand draws none).1 = some (i : Int) ∧
      (s.collapse A rand draws none).2.2 = draws + 1 ∧
      (s.collapse A rand draws none).2.1.isCollapsed = true ∧
      (s.collapse A rand draws none).2.1.collapsedState = some (i : Int) ∧
      (s.collapse A rand draws none).2.1.numStates = s.numStates ∧
      (s.collapse A rand draws none).2.1.probabilities.length = s.numStates ∧
      ∀ j, j < s.numStates →
        (s.collapse A rand draws none).2.1.probabilities[j]? =
          some (if j = i then A.one else A.zero) := by
  obtain ⟨h1, h2⟩ := sampleFrom_first A s.probabilities (rand draws) s.numStates 0 (by omega)
  simp only [List.take_zero, List.foldl_nil] at h1 h2
  cases hs : A.sampleFrom s.probabilities (rand draws) s.numStates 0 (some A.zero) with
  | some i =>
    have hb := sampleFrom_range A s.probabilities (rand draws) s.numStates 0 (some A.zero) i hs
    have hi : i < s.numStates := by omega
    obtain ⟨hlt, hmin⟩ := h1 i hs
    refine ⟨i, hi, Or.inl ⟨hlt, fun m hm => hmin m (Nat.zero_le m) hm⟩, ?_⟩
    simp only [QuantumStateOver.collapse, hu, hs]
    exact ⟨rfl, rfl, rfl, rfl, rfl, oneHot_entries A s.numStates i hi⟩
  | none =>
    have hi : s.numStates - 1 < s.numStates := by omega
    have hcast : (s.numStates : Int) - 1 = ((s.numStates - 1 : Nat) : Int) := by omega
    refine ⟨s.numStates - 1, hi,
      Or.inr ⟨rfl, fun m hm => h2 hs m (Nat.zero_le m) (by omega)⟩, ?_⟩
    simp only [QuantumStateOver.collapse, hu, hs, hcast]
    exact ⟨rfl, rfl, rfl, rfl, rfl, oneHot_entries A s.numStates (s.numStates - 1) hi⟩

/-- C9 over the exact rationals, on three outcomes of weights 1/2, 1/3, 1/6 with
the draw 3/5. -/
theorem C9_unforced_collapse_selects_first_exceeding_witness :
    ∃ i : Nat, i < biased3Over.numStates ∧
      ((Arith.exact.lt ((fun _ : Nat => (3 / 5 : ℚ)) 0)
            ((biased3Over.probabilities.take (i + 1)).foldl Arith.exact.add Arith.exact.zero) =
            true ∧
          ∀ m, m < i →
            Arith.exact.lt ((fun _ : Nat => (3 / 5 : ℚ)) 0)
              ((biased3Over.probabilities.take (m + 1)).foldl Arith.exact.add
                Arith.exact.zero) = false) ∨
        (i = biased3Over.numStates - 1 ∧
          ∀ m, m < biased3Over.numStates →
            Arith.exact.lt ((fun _ : Nat => (3 / 5 : ℚ)) 0)
              ((biased3Over.probabilities.take (m + 1)).foldl Arith.exact.add
                Arith.exact.zero) = false)) ∧
      (biased3Over.collapse Arith.exact (fun _ => 3 / 5) 0 none).1 = some (i : Int) ∧
      (biased3Over.collapse Arith.exact (fun _ => 3 / 5) 0 none).2.2 = 0 + 1 ∧
      (biased3Over.collapse Arith.exact (fun _ => 3 / 5) 0 none).2.1.isCollapsed = true ∧
      (biased3Over.collapse Arith.exact (fun _ => 3 / 5) 0 none).2.1.collapsedState =
        some (i : Int) ∧
      (biased3Over.collapse Arith.exact (fun _ => 3 / 5) 0 none).2.1.numStates =
        biased3Over.numStates ∧
      (biased3Over.collapse Arith.exact (fun _ => 3 / 5) 0 none).2.1.probabilities.length =
        biased3Over.numStates ∧
      ∀ j, j < biased3Over.numStates →
        (biased3Over.collapse Arith.exact (fun _ => 3 / 5) 0 none).2.1.probabilities[j]? =
          some (if j = i then Arith.exact.one else Arith.exact.zero) :=
  C9_unforced_collapse_selects_first_exceeding Arith.exact (fun _ => 3 / 5) 0 biased3Over
    (by decide) (by decide) rfl

/-! ## Interference over exact arithmetic -/

/-- The weights after `applyInterference`, over exact arithmetic: for an in-bounds uncollapsed target with `N` non-negative
weights `w` that sum to 1, whose list of orthogonal neighbours in superposition
is not empty (each with `N` non-negative weights): before the renormalization,
the accumulated weight `u[i] = w[i] + 0.1 * s[i]`, where `s[i]` is the sum of
the weights at `i` of the neighbours in superposition, is strictly greater than
`w[i]` at every index `i < N` where one of these neighbours has its maximal
weight; after `applyInterference`, the target's weight at an index `i < N` is
strictly greater than `w[i]` exactly when `w[i] * (s[0] + ... + s[N-1]) < s[i]`. -/
theorem applyInterference_increase_exact (g : QuantumGrid) (w : World) (row col : Int)
    (ref : Ref) (tile : QuantumTile) (hT : g.getTile row col = some ref)
    (ht : w.tiles[ref]? = some tile) (hc : tile.state.isCollapsed = false)
    (hlen : tile.state.probabilities.length = g.numStates)
    (hw : ∀ x ∈ tile.state.probabilities, (0 : ℚ) ≤ x)
    (hsum : tile.state.probabilities.sum = 1)
    (hne : superposedNeighbors g w row col ≠ [])
    (hnlen : ∀ n ∈ superposedNeighbors g w row col,
      n.state.probabilities.length = g.numStates)
    (hnn : ∀ n ∈ superposedNeighbors g w row col, ∀ x ∈ n.state.probabilities, (0 : ℚ) ≤ x) :
    (∀ n ∈ superposedNeighbors g w row col, ∀ i, i < g.numStates →
      (∀ x ∈ n.state.probabilities, x ≤ n.state.probabilities.getD i 0) →
      tile.state.probabilities.getD i 0 <
        interfered tile.state.probabilities (superposedNeighbors g w row col) i) ∧
    ∃ tile' : QuantumTile, (g.applyInterference w row col).tiles[ref]? = some tile' ∧
      ∀ i, i < g.numStates →
        (tile.state.probabilities.getD i 0 < tile'.state.probabilities.getD i 0 ↔
          tile.state.probabilities.getD i 0 *
              ((List.range g.numStates).map
                (neighborSum (superposedNeighbors g w row col))).sum <
            neighborSum (superposedNeighbors g w row col) i) := by
  constructor
  · intro n hn i _ hmax
    obtain ⟨j, x, hjx, hx⟩ := superposed_weight n.state
      (superposedNeighbors_superposed g w row col n hn)
    have h1 : x ≤ n.state.probabilities.getD i 0 := hmax x (List.getElem?_mem hjx)
    have h2 := neighborSum_ge (superposedNeighbors g w row col) hnn n hn i
    unfold interfered
    linarith
  · obtain ⟨hpos, -⟩ := applyInterference_spec g w row col ref tile hT ht hc hlen hw hne hnlen hnn
    obtain ⟨tile', ht', -, hval, -⟩ :=
      applyInterference_weights g w row col ref tile hT ht hc hlen hw hne hnlen hnn
    refine ⟨tile', ht', ?_⟩
    intro i hi
    rw [getD_of_getElem? _ _ _ (hval i hi), lt_div_iff₀ hpos,
      sum_interfered g.numStates _ _ hlen, hsum]
    unfold interfered
    constructor
    · intro h
      linarith
    · intro h
      linarith


/-- The same on `skewedPair` at (0, 1): the target has the weights 3/5, 2/5 and
its only neighbour, in superposition, the weights 9/10, 1/10. -/
theorem applyInterference_increase_exact_skewedPair :
    (∀ n ∈ superposedNeighbors skewedPair.1 skewedPair.2 0 1, ∀ i, i < skewedPair.1.numStates →
      (∀ x ∈ n.state.probabilities, x ≤ n.state.probabilities.getD i 0) →
      ([3 / 5, 2 / 5] : List ℚ).getD i 0 <
        interfered [3 / 5, 2 / 5] (superposedNeighbors skewedPair.1 skewedPair.2 0 1) i) ∧
    ∃ tile' : QuantumTile,
      (skewedPair.1.applyInterference skewedPair.2 0 1).tiles[1]? = some tile' ∧
      ∀ i, i < skewedPair.1.numStates →
        (([3 / 5, 2 / 5] : List ℚ).getD i 0 < tile'.state.probabilities.getD i 0 ↔
          ([3 / 5, 2 / 5] : List ℚ).getD i 0 *
              ((List.range skewedPair.1.numStates).map
                (neighborSum (superposedNeighbors skewedPair.1 skewedPair.2 0 1))).sum <
            neighborSum (superposedNeighbors skewedPair.1 skewedPair.2 0 1) i) :=
  applyInterference_increase_exact skewedPair.1 skewedPair.2 0 1 1
    ⟨0, 1, ⟨2, [3 / 5, 2 / 5], false, none⟩, []⟩ (by decide) (by decide!) rfl rfl
    (by
      intro x hx
      simp only [List.mem_cons, List.mem_singleton, List.not_mem_nil, or_false] at hx
      rcases hx with rfl | rfl <;> norm_num)
    (by decide!)
    (by rw [skewedPair_neighbors_right]; simp)
    (by
      intro n hn
      rw [skewedPair_neighbors_right] at hn
      simp only [List.mem_singleton] at hn
      subst hn
      rfl)
    (by
      intro n hn
      rw [skewedPair_neighbors_right] at hn
      simp only [List.mem_singleton] at hn
      subst hn
      intro x hx
      simp only [List.mem_cons, List.mem_singleton, List.not_mem_nil, or_false] at hx
      rcases hx with rfl | rfl <;> norm_num)

end QuantumTiles
